import Mathlib

/-! filen-mirror: the in-memory file tree (`pkg/filedb`) and its tree diff.

A shallow embedding of `file_tree_node.go`, `file_tree.go`, `diff_item.go` and
`diff.go`.

The Go code works on heap objects (`*fileTreeNodeInternal`) that point at each
other through `Parent` and `Children` and that carry a memoised `path`.  The
embedding keeps that shape: a `Heap` maps addresses to node objects, a
`FileTree` is the map `nodes` from `Uuid` to address, and every operation takes
the heap and the tree and returns the new heap and the new tree.

Two recursions of the source follow pointers and have no bound of their own:
`getPathParts` (up the `Parent` chain) and `invalidatePathCache` (down the
`Children` lists).  They are embedded with a recursion-depth budget and return
`none` when the budget is used up.  The budget is the number of allocated
objects plus one, so `none` is returned only when the pointer structure that is
followed has a cycle, which is where the Go recursion does not return either.
-/

namespace filedb

/-! ## `file_tree_node.go` -/

/-- `type Uuid [8]uint64`: eight words. -/
abbrev Uuid := { l : List Nat // l.length = 8 }

/-- `var NilUuid Uuid`: the zero value. -/
def NilUuid : Uuid := ⟨[0, 0, 0, 0, 0, 0, 0, 0], rfl⟩

/-- The loop of `CompareUuids` over the word index. -/
def compareWords : List Nat → List Nat → Int
  | x :: xs, y :: ys =>
    if x < y then -1
    else if x > y then 1
    else compareWords xs ys
  | _, _ => 0

/-- `func CompareUuids(a, b *Uuid) int`. -/
def CompareUuids (a b : Uuid) : Int := compareWords a.1 b.1

/-- `type FileName string`. -/
abbrev FileName := String

/-- `func FileNameFromString(s string) FileName`. -/
def FileNameFromString (s : String) : FileName := s

/-- `type Hash [32]byte`. -/
abbrev Hash := { l : List Nat // l.length = 32 }

/-- The zero value of `Hash`. -/
def zeroHash : Hash := ⟨List.replicate 32 0, rfl⟩

/-- One entry of the table used by `hex.DecodeString`. -/
def fromHexChar (c : Char) : Option Nat :=
  if '0' ≤ c ∧ c ≤ '9' then some (c.toNat - '0'.toNat)
  else if 'a' ≤ c ∧ c ≤ 'f' then some (c.toNat - 'a'.toNat + 10)
  else if 'A' ≤ c ∧ c ≤ 'F' then some (c.toNat - 'A'.toNat + 10)
  else none

/-- The bytes `hex.DecodeString` returns: the pairs decoded before the first
invalid digit or the dangling last digit (the error is dropped by the caller). -/
def hexDecode : List Char → List Nat
  | p :: q :: rest =>
    match fromHexChar p, fromHexChar q with
    | some a, some b => (a * 16 + b) :: hexDecode rest
    | _, _ => []
  | _ => []

/-- `func HashFromString(s string) Hash`: decode, then `copy` into the array. -/
def HashFromString (s : String) : Hash :=
  ⟨(hexDecode s.data ++ List.replicate 32 0).take 32, by simp⟩

/-- The instant of a `time.Time`, in nanoseconds since the Unix epoch
(`Time.Equal` compares instants). -/
abbrev Time := Int

/-- The zero value `time.Time{}`: January 1, year 1, 00:00 UTC. -/
def zeroTime : Time := -62135596800000000000

/-- `type FileTreeNode struct`. -/
structure FileTreeNode where
  Uuid : filedb.Uuid
  Name : FileName
  Hash : filedb.Hash
  Modtime : Time
  IsDir : Bool
  Parent : filedb.Uuid
deriving DecidableEq

/-- The address of a `fileTreeNodeInternal` object. -/
abbrev Addr := Nat

/-- `type fileTreeNodeInternal struct`; `Parent` is `nil` or an address,
`Children` is the slice of child pointers. -/
structure fileTreeNodeInternal where
  Uuid : filedb.Uuid
  Name : FileName
  Hash : filedb.Hash
  Modtime : Time
  IsDir : Bool
  Parent : Option Addr
  Children : List Addr
  path : String

/-- The zero value of `fileTreeNodeInternal`. -/
def zeroNode : fileTreeNodeInternal :=
  { Uuid := NilUuid, Name := "", Hash := zeroHash, Modtime := zeroTime, IsDir := false,
    Parent := none, Children := [], path := "" }

/-- The node objects allocated so far: `cells a` is the object at address `a`,
`next` is the first address not yet handed out. -/
structure Heap where
  cells : Addr → fileTreeNodeInternal
  next : Addr

/-- The heap before anything is allocated. -/
def emptyHeap : Heap := { cells := fun _ => zeroNode, next := 0 }

/-- Overwrite the object at `a`. -/
def Heap.set (h : Heap) (a : Addr) (n : fileTreeNodeInternal) : Heap :=
  { h with cells := fun x => if x = a then n else h.cells x }

/-- `func (n *fileTreeNodeInternal) getParentUuid() Uuid`. -/
def getParentUuid (h : Heap) (n : Addr) : Uuid :=
  match (h.cells n).Parent with
  | none => NilUuid
  | some p => (h.cells p).Uuid

/-- `func (n *fileTreeNodeInternal) getPathParts() []string`, with a budget for
the depth of the recursion up the `Parent` chain. -/
def getPathPartsAux : Nat → Heap → Addr → Option (List String)
  | 0, _, _ => none
  | fuel + 1, h, n =>
    match (h.cells n).Parent with
    | some p => (getPathPartsAux fuel h p).map (fun parts => parts ++ [(h.cells n).Name])
    | none => some [(h.cells n).Name]

/-- `getPathParts` with the budget of the current heap. -/
def getPathParts (h : Heap) (n : Addr) : Option (List String) :=
  getPathPartsAux (h.next + 1) h n

/-- `func (n *fileTreeNodeInternal) GetPath() string`: the memoised path, filled
on first use.  The result is the heap with the cache filled and the path. -/
def nodeGetPath (h : Heap) (n : Addr) : Option (Heap × String) :=
  if (h.cells n).path = "" then
    match getPathParts h n with
    | none => none
    | some parts =>
      let p := "/".intercalate parts
      some (h.set n { h.cells n with path := p }, p)
  else some (h, (h.cells n).path)

/-- `func (n *fileTreeNodeInternal) invalidatePathCache()`, with a budget for the
depth of the recursion down the `Children` lists. -/
def invalidatePathCacheAux : Nat → Heap → Addr → Option Heap
  | 0, _, _ => none
  | fuel + 1, h, n =>
    (h.cells n).Children.foldlM (fun acc child => invalidatePathCacheAux fuel acc child)
      (h.set n { h.cells n with path := "" })

/-- `invalidatePathCache` with the budget of the current heap. -/
def invalidatePathCache (h : Heap) (n : Addr) : Option Heap :=
  invalidatePathCacheAux (h.next + 1) h n

/-! ## `file_tree.go` -/

/-- `type FileTree struct { nodes map[Uuid]*fileTreeNodeInternal }`. -/
structure FileTree where
  nodes : AList (fun _ : Uuid => Addr)

/-- `func NewFileTree() *FileTree`. -/
def NewFileTree : FileTree := { nodes := ∅ }

/-- `func (ft *FileTree) CopyFrom(other *FileTree)`: a copy of the map, the node
objects are shared. -/
def CopyFrom (_ft other : FileTree) : FileTree := { nodes := other.nodes }

/-- `node = &fileTreeNodeInternal{Uuid: item.Uuid}` (lines 28-30): a new object at
the next free address. -/
def newNode (h : Heap) (uuid : Uuid) : Heap :=
  { cells := fun x => if x = h.next then { zeroNode with Uuid := uuid } else h.cells x,
    next := h.next + 1 }

/-- Lines 35-44 of `EnsureItems`: set the fields of the node at `a` from `item`,
set its `Parent`, and append it to the children of the parent. -/
def fillNode (h : Heap) (a : Addr) (item : FileTreeNode) (parent : Option Addr) : Heap :=
  let h2 := h.set a { h.cells a with
    Name := item.Name, Hash := item.Hash, Modtime := item.Modtime, IsDir := item.IsDir,
    Parent := parent }
  match parent with
  | none => h2
  | some p => h2.set p { h2.cells p with Children := (h2.cells p).Children ++ [a] }

/-- The body of the loop of `EnsureItems` after `parent` has been determined
(lines 26-44): look the node up, allocate it or invalidate its path cache, set
its fields, store it in the map and append it to the parent's children. -/
def ensureItem (h : Heap) (ft : FileTree) (item : FileTreeNode) (parent : Option Addr) :
    Option (Heap × FileTree) :=
  match ft.nodes.lookup item.Uuid with
  | none =>
    some (fillNode (newNode h item.Uuid) h.next item parent,
          { nodes := ft.nodes.insert item.Uuid h.next })
  | some a =>
    match invalidatePathCache h a with
    | none => none
    | some h1 => some (fillNode h1 a item parent, { nodes := ft.nodes.insert item.Uuid a })

/-- The item `ensureParent` upserts for a missing or non-directory parent. -/
def placeholderItem (uuid : Uuid) : FileTreeNode :=
  { Uuid := uuid, Name := FileNameFromString "", Hash := zeroHash, Modtime := zeroTime,
    IsDir := true, Parent := NilUuid }

/-- `func (ft *FileTree) ensureParent(uuid Uuid) *fileTreeNodeInternal`.  The
nested `EnsureItems` call has one item whose `Parent` is `NilUuid`, so its own
`ensureParent` returns `nil` at once and what is left of it is `ensureItem`. -/
def ensureParent (h : Heap) (ft : FileTree) (uuid : Uuid) :
    Option (Heap × FileTree × Option Addr) :=
  if uuid = NilUuid then some (h, ft, none)
  else
    let upsert : Option (Heap × FileTree × Option Addr) :=
      match ensureItem h ft (placeholderItem uuid) none with
      | none => none
      | some (h1, ft1) => some (h1, ft1, ft1.nodes.lookup uuid)
    match ft.nodes.lookup uuid with
    | none => upsert
    | some p => if (h.cells p).IsDir then some (h, ft, some p) else upsert

/-- `func (ft *FileTree) EnsureItems(items []FileTreeNode)`. -/
def EnsureItems (h : Heap) (ft : FileTree) (items : List FileTreeNode) :
    Option (Heap × FileTree) :=
  items.foldlM (fun (s : Heap × FileTree) item =>
    match ensureParent s.1 s.2 item.Parent with
    | none => none
    | some (h1, ft1, parent) => ensureItem h1 ft1 item parent) (h, ft)

/-- `func (ft *FileTree) CreateFile(uuid, parentUuid Uuid, name string,
modtime time.Time, h string)`. -/
def CreateFile (h : Heap) (ft : FileTree) (uuid parentUuid : Uuid) (name : String)
    (modtime : Time) (hs : String) : Option (Heap × FileTree) :=
  EnsureItems h ft [{ Uuid := uuid, Name := FileNameFromString name, Hash := HashFromString hs,
                      Modtime := modtime, IsDir := false, Parent := parentUuid }]

/-- `func (ft *FileTree) CreateDir(uuid Uuid, parentUuid Uuid, name string)`. -/
def CreateDir (h : Heap) (ft : FileTree) (uuid parentUuid : Uuid) (name : String) :
    Option (Heap × FileTree) :=
  EnsureItems h ft [{ Uuid := uuid, Name := FileNameFromString name, Hash := zeroHash,
                      Modtime := zeroTime, IsDir := true, Parent := parentUuid }]

/-- `func (ft *FileTree) Remove(uuid Uuid)`, with a budget for the depth of the
recursion over the children.  Every call that goes on deletes a map entry
first, so a budget above the number of entries is never used up. -/
def RemoveAux : Nat → Heap → FileTree → Uuid → FileTree
  | 0, _, ft, _ => ft
  | fuel + 1, h, ft, uuid =>
    match ft.nodes.lookup uuid with
    | none => ft
    | some n =>
      (h.cells n).Children.foldl (fun acc child => RemoveAux fuel h acc (h.cells child).Uuid)
        { nodes := ft.nodes.erase uuid }

/-- `Remove` with a budget above the number of map entries. -/
def Remove (h : Heap) (ft : FileTree) (uuid : Uuid) : FileTree :=
  RemoveAux (ft.nodes.entries.length + 1) h ft uuid

/-- The loop of `Move` over the old parent's children (lines 108-114): the
child list without its first entry whose `Uuid` is `uuid`. -/
def removeChild (h : Heap) (uuid : Uuid) : List Addr → List Addr
  | [] => []
  | c :: cs => if (h.cells c).Uuid = uuid then cs else c :: removeChild h uuid cs

/-- Lines 107-115 of `Move`: take the node out of the child list of its parent. -/
def detachNode (h : Heap) (n : Addr) (uuid : Uuid) : Heap :=
  match (h.cells n).Parent with
  | none => h
  | some p => h.set p { h.cells p with Children := removeChild h uuid (h.cells p).Children }

/-- Lines 117-122 of `Move`: set the new `Parent`, append the node to the
children of the new parent, set the new name. -/
def attachNode (h : Heap) (n : Addr) (parent : Option Addr) (newName : FileName) : Heap :=
  let h4 := h.set n { h.cells n with Parent := parent }
  let h5 := match parent with
    | none => h4
    | some p => h4.set p { h4.cells p with Children := (h4.cells p).Children ++ [n] }
  h5.set n { h5.cells n with Name := newName }

/-- `func (ft *FileTree) Move(uuid Uuid, newParentUuid Uuid, newName FileName)`. -/
def Move (h : Heap) (ft : FileTree) (uuid newParentUuid : Uuid) (newName : FileName) :
    Option (Heap × FileTree) :=
  match ft.nodes.lookup uuid with
  | none => some (h, ft)
  | some n =>
    match invalidatePathCache h n with
    | none => none
    | some h1 =>
      match ensureParent (detachNode h1 n uuid) ft newParentUuid with
      | none => none
      | some (h3, ft3, parent) =>
        some (attachNode h3 n parent newName, { nodes := ft3.nodes.insert uuid n })

/-- `func (ft *FileTree) SetModtime(uuid Uuid, modtime time.Time)`. -/
def SetModtime (h : Heap) (ft : FileTree) (uuid : Uuid) (modtime : Time) : Heap × FileTree :=
  match ft.nodes.lookup uuid with
  | none => (h, ft)
  | some n => (h.set n { h.cells n with Modtime := modtime },
               { nodes := ft.nodes.insert uuid n })

/-- `func (ft FileTree) GetNode(uuid Uuid) (FileTreeNode, bool)`; `none` is the
result `(FileTreeNode{}, false)`. -/
def GetNode (h : Heap) (ft : FileTree) (uuid : Uuid) : Option FileTreeNode :=
  match ft.nodes.lookup uuid with
  | none => none
  | some n =>
    some { Uuid := uuid, Name := (h.cells n).Name, Hash := (h.cells n).Hash,
           Modtime := (h.cells n).Modtime, IsDir := (h.cells n).IsDir,
           Parent := getParentUuid h n }

/-- `func (ft *FileTree) GetPath(uuid Uuid) (string, bool)`; the inner `none` is
the result `("", false)`, the outer `none` is a `GetPath` that does not return. -/
def GetPath (h : Heap) (ft : FileTree) (uuid : Uuid) : Option (Heap × Option String) :=
  match ft.nodes.lookup uuid with
  | none => some (h, none)
  | some n =>
    match nodeGetPath h n with
    | none => none
    | some (h1, p) => some (h1, some p)

/-- `func (ft FileTree) GetPathToUuidMap() map[string]Uuid`; the map is walked in
the order of its entry list. -/
def GetPathToUuidMap (h : Heap) (ft : FileTree) :
    Option (Heap × AList (fun _ : String => Uuid)) :=
  ft.nodes.entries.foldlM (fun (acc : Heap × AList (fun _ : String => Uuid)) e =>
    match nodeGetPath acc.1 e.2 with
    | none => none
    | some (h1, p) => some (h1, acc.2.insert p e.1)) (h, ∅)

/-! ## `diff_item.go` and `diff.go` -/

/-- The three implementations of `DiffItem`. -/
inductive DiffItem where
  | DiffAdded (Uuid : filedb.Uuid) (Path : String)
  | DiffRemoved (Uuid : filedb.Uuid) (Path : String)
  | DiffModified (Uuid : filedb.Uuid) (OldPath NewPath : String)
deriving DecidableEq

/-- The uuid an item is about. -/
def DiffItem.uuid : DiffItem → filedb.Uuid
  | .DiffAdded u _ => u
  | .DiffRemoved u _ => u
  | .DiffModified u _ _ => u

/-- `func toDiffSlice(ft *FileTree) []*fileTreeNodeInternal`. -/
def toDiffSlice (ft : FileTree) : List Addr := ft.nodes.entries.map (fun e => e.2)

/-- `func (l nodeList) Less(i, j int) bool`. -/
def nodeLess (h : Heap) (a b : Addr) : Bool :=
  decide (CompareUuids (h.cells a).Uuid (h.cells b).Uuid < 0)

/-- Insert a node into a list that is sorted by `nodeLess`. -/
def sortInsert (h : Heap) (a : Addr) : List Addr → List Addr
  | [] => [a]
  | b :: bs => if nodeLess h b a then b :: sortInsert h a bs else a :: b :: bs

/-- `sort.Sort(nodeList(...))`: the list sorted by `nodeLess`. -/
def sortNodes (h : Heap) : List Addr → List Addr
  | [] => []
  | a :: as => sortInsert h a (sortNodes h as)

/-- The comparison of two nodes with equal uuid (lines 44-53). -/
def unequal (h : Heap) (isNode shouldNode : Addr) : Bool :=
  if ¬ (h.cells isNode).Modtime = (h.cells shouldNode).Modtime then true
  else if getParentUuid h isNode ≠ getParentUuid h shouldNode then true
  else if (h.cells isNode).IsDir ≠ (h.cells shouldNode).IsDir then true
  else if (h.cells isNode).Hash ≠ (h.cells shouldNode).Hash then true
  else false

/-- The merge loops of `diff` with `isNodes[i] = isNode` fixed: `rest` is the
walk from `i + 1` on, the list argument is `shouldNodes[j:]`. -/
def diffStep (isNode : Addr) (rest : List Addr → Heap → Option (Heap × List DiffItem)) :
    List Addr → Heap → Option (Heap × List DiffItem)
  | [], h =>
    match nodeGetPath h isNode with
    | none => none
    | some (h1, oldPath) =>
      match rest [] h1 with
      | none => none
      | some (h2, items) => some (h2, .DiffRemoved (h.cells isNode).Uuid oldPath :: items)
  | shouldNode :: js, h =>
    if (h.cells isNode).Uuid = (h.cells shouldNode).Uuid then
      if unequal h isNode shouldNode then
        match nodeGetPath h isNode with
        | none => none
        | some (h1, oldPath) =>
          match nodeGetPath h1 shouldNode with
          | none => none
          | some (h2, newPath) =>
            match rest js h2 with
            | none => none
            | some (h3, items) =>
              some (h3, .DiffModified (h.cells isNode).Uuid oldPath newPath :: items)
      else rest js h
    else if CompareUuids (h.cells isNode).Uuid (h.cells shouldNode).Uuid < 0 then
      match nodeGetPath h isNode with
      | none => none
      | some (h1, oldPath) =>
        match rest (shouldNode :: js) h1 with
        | none => none
        | some (h2, items) => some (h2, .DiffRemoved (h.cells isNode).Uuid oldPath :: items)
    else
      match nodeGetPath h shouldNode with
      | none => none
      | some (h1, newPath) =>
        match diffStep isNode rest js h1 with
        | none => none
        | some (h2, items) => some (h2, .DiffAdded (h.cells shouldNode).Uuid newPath :: items)

/-- The last loop of `diff`: the remaining nodes of `should` are added. -/
def diffAdded : List Addr → Heap → Option (Heap × List DiffItem)
  | [], h => some (h, [])
  | shouldNode :: js, h =>
    match nodeGetPath h shouldNode with
    | none => none
    | some (h1, newPath) =>
      match diffAdded js h1 with
      | none => none
      | some (h2, items) => some (h2, .DiffAdded (h.cells shouldNode).Uuid newPath :: items)

/-- The three loops of `diff` on `isNodes[i:]` and `shouldNodes[j:]`; the items
sent to the channel are returned in the order they are sent. -/
def diffWalk : List Addr → List Addr → Heap → Option (Heap × List DiffItem)
  | [], shouldNodes, h => diffAdded shouldNodes h
  | isNode :: is, shouldNodes, h => diffStep isNode (diffWalk is) shouldNodes h

/-- `func diff(is, should *FileTree, diffChannel chan DiffItem)`. -/
def diff (h : Heap) (is should : FileTree) : Option (Heap × List DiffItem) :=
  diffWalk (sortNodes h (toDiffSlice is)) (sortNodes h (toDiffSlice should)) h

/-- `func Diff(is, should *FileTree) chan DiffItem` (`StartDiff` for its callers):
the items received from the channel. -/
def Diff (h : Heap) (is should : FileTree) : Option (Heap × List DiffItem) :=
  diff h is should

/-! ## The test tree of `file_tree_test.go` -/

/-- `UuidFromString("dir1")`. -/
def uDir1 : Uuid := ⟨[0x31726964, 0, 0, 0, 0, 0, 0, 0], rfl⟩

/-- `UuidFromString("dir2")`. -/
def uDir2 : Uuid := ⟨[0x32726964, 0, 0, 0, 0, 0, 0, 0], rfl⟩

/-- `UuidFromString("file1")`. -/
def uFile1 : Uuid := ⟨[0x31656c6966, 0, 0, 0, 0, 0, 0, 0], rfl⟩

/-- Strict order of two uuids under `CompareUuids`. -/
def UuidLt (a b : Uuid) : Prop := CompareUuids a b < 0

/-- A node object without its memoised path. -/
def clearPath (n : fileTreeNodeInternal) : fileTreeNodeInternal := { n with path := "" }

/-- Two heaps that differ at most in the memoised paths. -/
def SameNodes (h h1 : Heap) : Prop :=
  h1.next = h.next ∧ ∀ a, clearPath (h1.cells a) = clearPath (h.cells a)

/-- The path `GetPath` returns for the node at `a`, when it returns. -/
def pathOf (h : Heap) (a : Addr) : Option String := (nodeGetPath h a).map Prod.snd

/-- A heap reached from `h` by `GetPath` calls: the same nodes, and `GetPath`
returns the same path for every node. -/
def PathEq (h h1 : Heap) : Prop := SameNodes h h1 ∧ ∀ b, pathOf h1 b = pathOf h b

/-- The path of the node at `a` in the heap `h` (`""` when `GetPath` does not
return). -/
def pathAt (h : Heap) (a : Addr) : String := (pathOf h a).getD ""

/-- The items `diffStep` sends, with every path read in the heap `h` the diff
starts in. -/
def itemsStep (h : Heap) (isNode : Addr) (rest : List Addr → List DiffItem) :
    List Addr → List DiffItem
  | [] => .DiffRemoved (h.cells isNode).Uuid (pathAt h isNode) :: rest []
  | shouldNode :: js =>
    if (h.cells isNode).Uuid = (h.cells shouldNode).Uuid then
      if unequal h isNode shouldNode then
        .DiffModified (h.cells isNode).Uuid (pathAt h isNode) (pathAt h shouldNode) :: rest js
      else rest js
    else if CompareUuids (h.cells isNode).Uuid (h.cells shouldNode).Uuid < 0 then
      .DiffRemoved (h.cells isNode).Uuid (pathAt h isNode) :: rest (shouldNode :: js)
    else
      .DiffAdded (h.cells shouldNode).Uuid (pathAt h shouldNode) :: itemsStep h isNode rest js

/-- The items `diffWalk` sends, with every path read in the heap `h` the diff
starts in. -/
def itemsWalk (h : Heap) : List Addr → List Addr → List DiffItem
  | [], shouldNodes =>
    shouldNodes.map (fun b => .DiffAdded (h.cells b).Uuid (pathAt h b))
  | isNode :: is, shouldNodes => itemsStep h isNode (itemsWalk h is) shouldNodes

/-- What the merge walk is to send for the node lists `xs` (of `is`) and `ys` (of
`should`): a removal for a node of `xs` whose uuid no node of `ys` has, an
addition for a node of `ys` whose uuid no node of `xs` has, a modification for
two nodes with the same uuid that `unequal` tells apart. -/
def Emits (h : Heap) (xs ys : List Addr) (item : DiffItem) : Prop :=
  (∃ x ∈ xs, (∀ y ∈ ys, (h.cells y).Uuid ≠ (h.cells x).Uuid) ∧
      item = .DiffRemoved (h.cells x).Uuid (pathAt h x)) ∨
  (∃ y ∈ ys, (∀ x ∈ xs, (h.cells x).Uuid ≠ (h.cells y).Uuid) ∧
      item = .DiffAdded (h.cells y).Uuid (pathAt h y)) ∨
  (∃ x ∈ xs, ∃ y ∈ ys, (h.cells x).Uuid = (h.cells y).Uuid ∧ unequal h x y = true ∧
      item = .DiffModified (h.cells x).Uuid (pathAt h x) (pathAt h y))

/-- A node list in strictly ascending uuid order. -/
def SortedNodes (h : Heap) (xs : List Addr) : Prop :=
  xs.Pairwise (fun a b => UuidLt (h.cells a).Uuid (h.cells b).Uuid)

/-- Every entry of the map `nodes` points at a node object that carries the
entry's key as its `Uuid` (`EnsureItems` stores a node under `item.Uuid` only). -/
def Keyed (h : Heap) (ft : FileTree) : Prop :=
  ∀ u a, ft.nodes.lookup u = some a → (h.cells a).Uuid = u

/-- `GetPath` returns on every node of the tree. -/
def PathsReturn (h : Heap) (ft : FileTree) : Prop :=
  ∀ u a, ft.nodes.lookup u = some a → (nodeGetPath h a).isSome = true

/-- The path `ft.GetPath(u)` reports for a uuid that is in the tree. -/
def pathIn (h : Heap) (ft : FileTree) (u : Uuid) : Option String :=
  match GetPath h ft u with
  | some (_, some p) => some p
  | _ => none
/-- The items `Diff` sends, told by uuid. -/
def Sends (h : Heap) (is should : FileTree) (item : DiffItem) : Prop :=
  (∃ u p, pathIn h is u = some p ∧ GetNode h should u = none ∧ item = .DiffRemoved u p) ∨
  (∃ u p, pathIn h should u = some p ∧ GetNode h is u = none ∧ item = .DiffAdded u p) ∨
  (∃ u p q n m, pathIn h is u = some p ∧ pathIn h should u = some q ∧
      GetNode h is u = some n ∧ GetNode h should u = some m ∧
      (n.Modtime ≠ m.Modtime ∨ n.Parent ≠ m.Parent ∨ n.IsDir ≠ m.IsDir ∨ n.Hash ≠ m.Hash) ∧
      item = .DiffModified u p q)

/-- `func generateTestTree() *FileTree` of `file_tree_test.go`, allocating in the
heap `h`. -/
def generateTestTree (h : Heap) : Option (Heap × FileTree) :=
  match CreateDir h NewFileTree uDir1 NilUuid "dir1" with
  | none => none
  | some (h1, t1) =>
    match CreateDir h1 t1 uDir2 uDir1 "dir2" with
    | none => none
    | some (h2, t2) =>
      CreateFile h2 t2 uFile1 uDir2 "file1.txt" 0
        "aaaaaaaaaaaaaaaaaaaaaaaaaaaaaaaaaaaaaaaaaaaaaaaaaaaaaaaaaaaaaaaa"

/-- The two trees of `TestDiffMoveDir`, in one heap: the test tree, and the test
tree after `Move(dir2, NilUuid, "moved-dir")`. -/
def moveDirWorld : Heap × FileTree × FileTree :=
  match generateTestTree emptyHeap with
  | none => (emptyHeap, NewFileTree, NewFileTree)
  | some (h1, tree1) =>
    match generateTestTree h1 with
    | none => (emptyHeap, NewFileTree, NewFileTree)
    | some (h2, tree2) =>
      match Move h2 tree2 uDir2 NilUuid "moved-dir" with
      | none => (emptyHeap, NewFileTree, NewFileTree)
      | some (h3, tree3) => (h3, tree1, tree3)

/-- The two trees of `TestDiffRemovedDir`, in one heap: the test tree, and the
test tree after `Remove(dir2)`. -/
def removedDirWorld : Heap × FileTree × FileTree :=
  match generateTestTree emptyHeap with
  | none => (emptyHeap, NewFileTree, NewFileTree)
  | some (h1, tree1) =>
    match generateTestTree h1 with
    | none => (emptyHeap, NewFileTree, NewFileTree)
    | some (h2, tree2) => (h2, tree1, Remove h2 tree2 uDir2)

/-! ## The invariant of a tree and what the operations are stated with -/

/-- The node object at `a` is stored in the map of `ft`. -/
def InMap (ft : FileTree) (a : Addr) : Prop := ∃ u, ft.nodes.lookup u = some a

/-- `b` is in the child list of `a`. -/
def ChildRel (h : Heap) (a b : Addr) : Prop := b ∈ (h.cells a).Children

/-- `b` is reached from `a` through child lists: the nodes `invalidatePathCache`
on `a` visits. -/
def Reach (h : Heap) (a b : Addr) : Prop := Relation.ReflTransGen (ChildRel h) a b

/-- `b` is the `Parent` pointer of `a`. -/
def ParentRel (h : Heap) (a b : Addr) : Prop := (h.cells a).Parent = some b

/-- `b` is `a` or is reached from `a` through `Parent` pointers: the nodes
`getPathParts` on `a` visits. -/
def OnChain (h : Heap) (a b : Addr) : Prop := Relation.ReflTransGen (ParentRel h) a b

/-- The heap `h1` is `h` with some memoised paths reset to `""`. -/
def Cleared (h h1 : Heap) : Prop :=
  SameNodes h h1 ∧ ∀ b, (h1.cells b).path = "" ∨ (h1.cells b).path = (h.cells b).path

/-- The invariant the operations of `FileTree` keep (whenever they return), with
one node `x` left out while `Move` has it detached: map entries are keyed by
the node's uuid; every pointer is to an allocated object; the `Parent` of a node
of the tree is a node of the tree, lists the node among its `Children` (unless
the node is `x`), and is not keyed by `NilUuid`; a memoised path is the join of
what `getPathParts` returns; and no node with `x` on its parent chain has a
memoised path. -/
structure InvX (h : Heap) (ft : FileTree) (x : Option Addr) : Prop where
  keyed : Keyed h ft
  bound : ∀ a, InMap ft a → a < h.next
  parentBound : ∀ a p, (h.cells a).Parent = some p → p < h.next
  childBound : ∀ a c, c ∈ (h.cells a).Children → c < h.next
  parentIn : ∀ a, InMap ft a → ∀ p, (h.cells a).Parent = some p → InMap ft p
  childListed : ∀ a, InMap ft a → x ≠ some a → ∀ p, (h.cells a).Parent = some p →
    a ∈ (h.cells p).Children
  nilFree : ∀ a, InMap ft a → ∀ p, (h.cells a).Parent = some p →
    (h.cells p).Uuid ≠ NilUuid
  cacheValid : ∀ a, InMap ft a → (h.cells a).path ≠ "" →
    ∃ fuel parts, getPathPartsAux fuel h a = some parts ∧
      (h.cells a).path = "/".intercalate parts
  detached : ∀ m, InMap ft m → ∀ n, x = some n → OnChain h m n → (h.cells m).path = ""

/-- The invariant of a tree between two operations. -/
abbrev Inv (h : Heap) (ft : FileTree) : Prop := InvX h ft none

/-- What `ensureParent` returns: `nil`, or a node of the tree that is not keyed
by `NilUuid`. -/
def ParentOK (h : Heap) (ft : FileTree) (parent : Option Addr) : Prop :=
  ∀ p, parent = some p → InMap ft p ∧ (h.cells p).Uuid ≠ NilUuid

/-- What a `Remove` that starts in `ft` and ends in `ft1` has done: it only
deleted map entries, and with an entry it deleted the entries of all the
children of that entry's node. -/
def Removed (h : Heap) (ft ft1 : FileTree) : Prop :=
  (∀ w a, ft1.nodes.lookup w = some a → ft.nodes.lookup w = some a) ∧
  (∀ w a, ft.nodes.lookup w = some a → ft1.nodes.lookup w = none →
    ∀ c ∈ (h.cells a).Children, ft1.nodes.lookup (h.cells c).Uuid = none) ∧
  ft1.nodes.keys.length ≤ ft.nodes.keys.length

/-- The trees reached from the empty tree by the operations of `FileTree`, read
operations included (they fill path caches). -/
inductive Reachable : Heap → FileTree → Prop where
  | empty : Reachable emptyHeap NewFileTree
  | ensureItems {h ft} (items : List FileTreeNode) {h1 ft1} :
      Reachable h ft → EnsureItems h ft items = some (h1, ft1) → Reachable h1 ft1
  | createFile {h ft} (uuid parentUuid : Uuid) (name : String) (modtime : Time)
      (hs : String) {h1 ft1} :
      Reachable h ft → CreateFile h ft uuid parentUuid name modtime hs = some (h1, ft1) →
      Reachable h1 ft1
  | createDir {h ft} (uuid parentUuid : Uuid) (name : String) {h1 ft1} :
      Reachable h ft → CreateDir h ft uuid parentUuid name = some (h1, ft1) →
      Reachable h1 ft1
  | move {h ft} (uuid newParentUuid : Uuid) (newName : FileName) {h1 ft1} :
      Reachable h ft → Move h ft uuid newParentUuid newName = some (h1, ft1) →
      Reachable h1 ft1
  | remove {h ft} (uuid : Uuid) : Reachable h ft → Reachable h (Remove h ft uuid)
  | setModtime {h ft} (uuid : Uuid) (modtime : Time) :
      Reachable h ft → Reachable (SetModtime h ft uuid modtime).1 (SetModtime h ft uuid modtime).2
  | getPath {h ft} (uuid : Uuid) {h1 r} :
      Reachable h ft → GetPath h ft uuid = some (h1, r) → Reachable h1 ft
  | getPathToUuidMap {h ft} {h1 m} :
      Reachable h ft → GetPathToUuidMap h ft = some (h1, m) → Reachable h1 ft

/-- The parent uuid `GetNode` reports for `v` is `p`, and `p` is not `NilUuid`
(which stands for "no parent"). -/
def ParentUuid (h : Heap) (ft : FileTree) (v p : Uuid) : Prop :=
  ∃ n, GetNode h ft v = some n ∧ n.Parent = p ∧ p ≠ NilUuid

/-- The node `v` has `u` among its ancestors. -/
def HasAncestor (h : Heap) (ft : FileTree) (v u : Uuid) : Prop :=
  Relation.TransGen (ParentUuid h ft) v u

/-- The test tree of `file_tree_test.go`, built in the empty heap. -/
def testTree : Heap × FileTree :=
  (generateTestTree emptyHeap).getD (emptyHeap, NewFileTree)

/-- The names on the parent chain from the root down to `u`, as the tree is:
the chain is followed through the parent uuid `GetNode` reports, up to a node
whose parent is `NilUuid`. -/
inductive NamesTo (h : Heap) (ft : FileTree) : Uuid → List String → Prop where
  | root {u n} : GetNode h ft u = some n → n.Parent = NilUuid → NamesTo h ft u [n.Name]
  | child {u n names} : GetNode h ft u = some n → n.Parent ≠ NilUuid →
      NamesTo h ft n.Parent names → NamesTo h ft u (names ++ [n.Name])

/-- The node `k` steps up the `Parent` chain of `a`. -/
def up (h : Heap) : Nat → Addr → Option Addr
  | 0, a => some a
  | k + 1, a =>
    match (h.cells a).Parent with
    | none => none
    | some p => up h k p
/-- The test tree after `GetPath(file1)` has filled the path cache of `file1`. -/
def cachedTree : Heap × FileTree :=
  (((GetPath testTree.1 testTree.2 uFile1).getD (emptyHeap, none)).1, testTree.2)

/-- The tree `cachedTree` after `Move(dir2, NilUuid, "moved-dir")`. -/
def movedTree : Heap × FileTree :=
  (Move cachedTree.1 cachedTree.2 uDir2 NilUuid "moved-dir").getD (emptyHeap, NewFileTree)

/-- A uuid with first word `1`. -/
def uA : Uuid := ⟨[1, 0, 0, 0, 0, 0, 0, 0], rfl⟩

/-- A uuid with first word `2`. -/
def uB : Uuid := ⟨[2, 0, 0, 0, 0, 0, 0, 0], rfl⟩

/-- A directory item. -/
def dirItem (uuid parent : Uuid) (name : String) : FileTreeNode :=
  { Uuid := uuid, Name := name, Hash := zeroHash, Modtime := zeroTime, IsDir := true,
    Parent := parent }

/-- Two trees in one heap that differ in the name of a file only: `is` holds the
file `uA` named `"a"` at the root, `should` holds it named `"b"`. -/
def renamedWorld : Heap × FileTree × FileTree :=
  match CreateFile emptyHeap NewFileTree uA NilUuid "a" 5 "ab" with
  | none => (emptyHeap, NewFileTree, NewFileTree)
  | some (h1, is) =>
    match CreateFile h1 NewFileTree uA NilUuid "b" 5 "ab" with
    | none => (emptyHeap, NewFileTree, NewFileTree)
    | some (h2, should) => (h2, is, should)

/-- The tree after `CreateDir(uB, NilUuid, "b")`. -/
def dirBTree : Heap × FileTree :=
  (CreateDir emptyHeap NewFileTree uB NilUuid "b").getD (emptyHeap, NewFileTree)

/-- The tree after `CreateDir(uB, NilUuid, "b")` and `CreateDir(uA, uB, "a")`:
the directory `a` inside the directory `b`. -/
def nestedTree : Heap × FileTree :=
  (CreateDir dirBTree.1 dirBTree.2 uA uB "a").getD (emptyHeap, NewFileTree)

/-- The items that turn the nesting of `nestedTree` around: `a` at the root and
`b` inside `a`. -/
def swapItems : List FileTreeNode := [dirItem uA NilUuid "a", dirItem uB uA "b"]

/-- The tree `nestedTree` after `EnsureItems(swapItems)`. -/
def swappedTree : Heap × FileTree :=
  (EnsureItems nestedTree.1 nestedTree.2 swapItems).getD (emptyHeap, NewFileTree)

/-- The tree `nestedTree` after `CreateDir(uA, NilUuid, "a")`: `a` is moved to the
root by an upsert, and stays in the child list of `b`. -/
def staleTree : Heap × FileTree :=
  (CreateDir nestedTree.1 nestedTree.2 uA NilUuid "a").getD (emptyHeap, NewFileTree)

/-- The tree `staleTree` after `EnsureItems` of the single item `b` inside `a`. -/
def staleTreeStep : Heap × FileTree :=
  (EnsureItems staleTree.1 staleTree.2 [dirItem uB uA "b"]).getD (emptyHeap, NewFileTree)

/-- The tree after `CreateDir(uA, NilUuid, "p")`. -/
def dirPTree : Heap × FileTree :=
  (CreateDir emptyHeap NewFileTree uA NilUuid "p").getD (emptyHeap, NewFileTree)

/-- The tree `dirPTree` after `CreateFile(uB, uA, "n", 0, "")`. -/
def dirPChildTree : Heap × FileTree :=
  (CreateFile dirPTree.1 dirPTree.2 uB uA "n" 0 "").getD (emptyHeap, NewFileTree)

/-- The tree `dirPChildTree` after `CreateFile(uA, NilUuid, "p", 0, "")`: the
parent of `uB` is upserted as a file. -/
def fileParentTree : Heap × FileTree :=
  (CreateFile dirPChildTree.1 dirPChildTree.2 uA NilUuid "p" 0 "").getD
    (emptyHeap, NewFileTree)

/-- The tree with the single file `uA` named `"f"` at the root. -/
def oneFileTree : Heap × FileTree :=
  (CreateFile emptyHeap NewFileTree uA NilUuid "f" 5 "ab").getD (emptyHeap, NewFileTree)

/-- Whether every chain of child-list entries that starts at `a` ends within
`fuel` steps: the recursion of `invalidatePathCache` on `a` stays within the
budget `fuel`. -/
def childDepth : Nat → Heap → Addr → Bool
  | 0, _, _ => false
  | fuel + 1, h, a => (h.cells a).Children.all (fun c => childDepth fuel h c)

/-- The child lists below `a` end: `invalidatePathCache` on `a` stays within the
budget of the heap. -/
def ChildrenEnd (h : Heap) (a : Addr) : Prop := childDepth (h.next + 1) h a = true

/-- The fields of a node object that `GetNode` and `getPathParts` read. -/
def coreOf (n : fileTreeNodeInternal) :
    Uuid × FileName × Hash × Time × Bool × Option Addr :=
  (n.Uuid, n.Name, n.Hash, n.Modtime, n.IsDir, n.Parent)

/-- Whether `invalidatePathCache` on the node of `u` returns (the child lists
below the node hold no cycle); `true` for a uuid that is not in the tree. -/
def invalidateReturns (h : Heap) (ft : FileTree) (u : Uuid) : Bool :=
  match ft.nodes.lookup u with
  | none => true
  | some a => (invalidatePathCache h a).isSome

/-- The calls `Move(u, p, n)` for the names `n` of a list, in a row. -/
def moveAll (h : Heap) (ft : FileTree) (u p : Uuid) (names : List FileName) :
    Option (Heap × FileTree) :=
  names.foldlM (fun (s : Heap × FileTree) nm => Move s.1 s.2 u p nm) (h, ft)

/-- The node `a` of `u` has the parent `p` in the tree, which is `NilUuid` or a
directory other than the node. -/
def RenameOK (h : Heap) (ft : FileTree) (u : Uuid) (a : Addr) (p : Uuid) : Prop :=
  ft.nodes.lookup u = some a ∧
  ((p = NilUuid ∧ (h.cells a).Parent = none) ∨
   (p ≠ NilUuid ∧ ∃ q, (h.cells a).Parent = some q ∧ ft.nodes.lookup p = some q ∧
      (h.cells q).IsDir = true ∧ q ≠ a))

/-- The heap and tree `(h, ft)` after renames of the node `a` of `(h0, ft0)`. -/
structure Renamed (h0 : Heap) (ft0 : FileTree) (a : Addr) (h : Heap) (ft : FileTree) :
    Prop where
  lookup : ∀ w, ft.nodes.lookup w = ft0.nodes.lookup w
  next : h.next = h0.next
  name : ∀ b, b ≠ a → (h.cells b).Name = (h0.cells b).Name
  parent : ∀ b, (h.cells b).Parent = (h0.cells b).Parent
  isDir : ∀ b, b ≠ a → (h.cells b).IsDir = (h0.cells b).IsDir
  children : ∀ b c, c ∈ (h.cells b).Children → c ∈ (h0.cells b).Children

/-- The item of the diff in the other direction: added and removed change
places, the two paths of a modification change places. -/
def DiffItem.swap : DiffItem → DiffItem
  | .DiffAdded u p => .DiffRemoved u p
  | .DiffRemoved u p => .DiffAdded u p
  | .DiffModified u p q => .DiffModified u q p

/-- The items `diffStep` sends when every `getPath` call of the walk returns, with
the paths read in the heap `h` the diff starts in; `none` when one of the calls
does not return. -/
def sentStep (h : Heap) (isNode : Addr) (rest : List Addr → Option (List DiffItem)) :
    List Addr → Option (List DiffItem)
  | [] =>
    match pathOf h isNode with
    | none => none
    | some oldPath =>
      match rest [] with
      | none => none
      | some items => some (.DiffRemoved (h.cells isNode).Uuid oldPath :: items)
  | shouldNode :: js =>
    if (h.cells isNode).Uuid = (h.cells shouldNode).Uuid then
      if unequal h isNode shouldNode then
        match pathOf h isNode with
        | none => none
        | some oldPath =>
          match pathOf h shouldNode with
          | none => none
          | some newPath =>
            match rest js with
            | none => none
            | some items =>
              some (.DiffModified (h.cells isNode).Uuid oldPath newPath :: items)
      else rest js
    else if CompareUuids (h.cells isNode).Uuid (h.cells shouldNode).Uuid < 0 then
      match pathOf h isNode with
      | none => none
      | some oldPath =>
        match rest (shouldNode :: js) with
        | none => none
        | some items => some (.DiffRemoved (h.cells isNode).Uuid oldPath :: items)
    else
      match pathOf h shouldNode with
      | none => none
      | some newPath =>
        match sentStep h isNode rest js with
        | none => none
        | some items => some (.DiffAdded (h.cells shouldNode).Uuid newPath :: items)

/-- The items `diffAdded` sends when every `getPath` call returns. -/
def sentAdded (h : Heap) : List Addr → Option (List DiffItem)
  | [] => some []
  | shouldNode :: js =>
    match pathOf h shouldNode with
    | none => none
    | some newPath =>
      match sentAdded h js with
      | none => none
      | some items => some (.DiffAdded (h.cells shouldNode).Uuid newPath :: items)

/-- The items `diffWalk` sends when every `getPath` call returns. -/
def sentWalk (h : Heap) : List Addr → List Addr → Option (List DiffItem)
  | [], shouldNodes => sentAdded h shouldNodes
  | isNode :: is, shouldNodes => sentStep h isNode (sentWalk h is) shouldNodes

/-- The run `r` of a part of the walk and the items `o` told from the heap `h0`
agree: both do not return, or `r` returns the items `o` in a heap that differs
from `h0` in memoised paths only. -/
def Tracks (h0 : Heap) (r : Option (Heap × List DiffItem)) (o : Option (List DiffItem)) :
    Prop :=
  match r with
  | none => o = none
  | some (h1, items) => o = some items ∧ PathEq h0 h1

/-- The map `GetPathToUuidMap` builds from the entries `l` on top of `acc`, with
every path read in the heap `h`. -/
def pathMap (h : Heap) (l : List (Sigma fun _ : Uuid => Addr))
    (acc : AList (fun _ : String => Uuid)) : AList (fun _ : String => Uuid) :=
  l.foldl (fun acc e => acc.insert (pathAt h e.2) e.1) acc

/-- Two files `"x"` at the root, with the uuids `uA` and `uB`. -/
def samePathTree : Heap × FileTree :=
  ((CreateFile emptyHeap NewFileTree uA NilUuid "x" 0 "").bind
    (fun s => CreateFile s.1 s.2 uB NilUuid "x" 0 "")).getD (emptyHeap, NewFileTree)

/-! ## `UuidFromString` and `String` of `file_tree_node.go` -/

/-- The bytes of one character of a Go string (UTF-8). -/
def utf8Bytes (c : Char) : List Nat :=
  let n := c.toNat
  if n < 0x80 then [n]
  else if n < 0x800 then [0xC0 + n / 64, 0x80 + n % 64]
  else if n < 0x10000 then [0xE0 + n / 4096, 0x80 + (n / 64) % 64, 0x80 + n % 64]
  else [0xF0 + n / 262144, 0x80 + (n / 4096) % 64, 0x80 + (n / 64) % 64, 0x80 + n % 64]

/-- The bytes of a Go string. -/
def stringBytes (s : String) : List Nat := (s.data.map utf8Bytes).flatten

/-- `binary.LittleEndian.Uint64` of a slice of eight bytes. -/
def leUint64 (bs : List Nat) : Nat := bs.foldr (fun b acc => b + 256 * acc) 0

/-- `UuidFromString` on the bytes of its argument (a Go string is a sequence of
bytes): `copy` takes the first 64 bytes into the zeroed buffer, the eight words
are read from it. -/
def UuidFromBytes (bs : List Nat) : Uuid :=
  ⟨(List.range 8).map (fun i =>
      leUint64 (((bs.take 64 ++ List.replicate 64 0).drop (i * 8)).take 8)),
   by simp⟩

/-- `func UuidFromString(s string) Uuid`. -/
def UuidFromString (s : String) : Uuid := UuidFromBytes (stringBytes s)

/-- `binary.LittleEndian.PutUint64`: the eight bytes of a word. -/
def putUint64 (w : Nat) : List Nat := (List.range 8).map (fun i => (w / 256 ^ i) % 256)

/-- The loop of `String()` from the index `i` on: the index of the first zero
byte; `end` keeps its initial value `0` when no byte is zero. -/
def firstZero : List Nat → Nat → Nat
  | [], _ => 0
  | b :: rest, i => if b = 0 then i else firstZero rest (i + 1)

/-- `func (u Uuid) String() string`: the bytes of the string returned,
`bytes[:end]`. -/
def Uuid.String (u : Uuid) : List Nat :=
  let bytes := (u.1.map putUint64).flatten
  bytes.take (firstZero bytes 0)

/-! ## `executer/linux.go`

The executer calls into the packages `os`, `path` and `crypto/sha256`.  These
calls are the fields of `Os`, on a type `W` of file system states; the functions
of `linux.go` are embedded over an arbitrary `Os W`. -/

/-- A Go `error` value of the executer: `notExist` is an error `os.IsNotExist`
accepts, `wrapped` is `fmt.Errorf("msg: %w", err)`. -/
inductive GoError where
  | notExist
  | other (msg : String)
  | wrapped (msg : String) (inner : GoError)
deriving DecidableEq

/-- What the executer reads from an `os.FileInfo`. -/
structure FileInfo where
  IsDir : Bool
  ModTime : Time
deriving DecidableEq

/-- An `io.ReadCloser` as `ReadFrom` sees it: the bytes it delivers, and the
error it ends with (`none` for `io.EOF`). -/
structure Reader where
  data : List Nat
  err : Option GoError
deriving DecidableEq

/-- The library calls of `linux.go` on a file system state `W`. -/
structure Os (W : Type) where
  /-- `os.Stat(path)`. -/
  Stat : W → String → Except GoError FileInfo
  /-- `os.RemoveAll(path)`. -/
  RemoveAll : W → String → W × Option GoError
  /-- `os.Chtimes(path, mtime, mtime)`. -/
  Chtimes : W → String → Time → W × Option GoError
  /-- `os.Rename(oldPath, newPath)`. -/
  Rename : W → String → String → W × Option GoError
  /-- `os.MkdirAll(path, os.ModePerm)`. -/
  MkdirAll : W → String → W × Option GoError
  /-- `os.OpenFile(path, os.O_RDONLY, os.ModePerm)` followed by `io.Copy` out of
  the file: the error of the open, or the bytes the copy gets. -/
  Open : W → String → Except GoError (List Nat)
  /-- `hex.EncodeToString` of the SHA-256 digest of the bytes. -/
  Sha256Hex : List Nat → String
  /-- `os.CreateTemp(dir, pattern)`: the state with the new file and its name. -/
  CreateTemp : W → String → String → Except GoError (W × String)
  /-- `f.ReadFrom(r)` on the open file named by the second argument. -/
  ReadFrom : W → String → Reader → W × Option GoError
  /-- `f.Close()`. -/
  Close : W → String → W × Option GoError
  /-- `path.Dir`. -/
  Dir : String → String
  /-- `path.Base`. -/
  Base : String → String

/-- `func (le LinuxExecuter) Stat(path string) (os.FileInfo, error)`. -/
def Stat {W : Type} (os : Os W) (w : W) (path : String) : Except GoError FileInfo :=
  os.Stat w path

/-- `func (le LinuxExecuter) Chtimes(path string, mtime time.Time) error`. -/
def Chtimes {W : Type} (os : Os W) (w : W) (path : String) (mtime : Time) :
    W × Option GoError :=
  os.Chtimes w path mtime

/-- `func (le LinuxExecuter) Rename(oldPath, newPath string) error`. -/
def Rename {W : Type} (os : Os W) (w : W) (oldPath newPath : String) : W × Option GoError :=
  os.Rename w oldPath newPath

/-- `func (le LinuxExecuter) MkdirAll(path string) error`. -/
def MkdirAll {W : Type} (os : Os W) (w : W) (path : String) : W × Option GoError :=
  os.MkdirAll w path

/-- `func (le LinuxExecuter) RemovePath(path string) error`. -/
def RemovePath {W : Type} (os : Os W) (w : W) (path : String) : W × Option GoError :=
  os.RemoveAll w path

/-- `func (le LinuxExecuter) CalculateHash(path string) (string, error)`: the
error of `io.Copy` is dropped, the digest is of the bytes that were copied. -/
def CalculateHash {W : Type} (os : Os W) (w : W) (path : String) : Except GoError String :=
  match os.Open w path with
  | .error e => .error e
  | .ok bytes => .ok (os.Sha256Hex bytes)

/-- `func (le LinuxExecuter) downloadToPath(ctx, downloadPath, modTime, r) error`,
called with `context.Background()`, whose cause is `nil`. -/
def downloadToPath {W : Type} (os : Os W) (w : W) (downloadPath : String) (modTime : Time)
    (r : Reader) : W × Option GoError :=
  let downloadFile := os.Base downloadPath
  let downloadDir := os.Dir downloadPath
  let w1 := (MkdirAll os w downloadDir).1
  match os.CreateTemp w1 downloadDir (downloadFile ++ "-download-*.tmp") with
  | .error e => (w1, some (.wrapped "create temp file" e))
  | .ok (w2, fName) =>
    let (w3, err) := os.ReadFrom w2 fName r
    let (w4, errClose) := os.Close w3 fName
    match err with
    | some e => ((RemovePath os w4 fName).1, some (.wrapped "download file" e))
    | none =>
      match errClose with
      | some e => ((RemovePath os w4 fName).1, some (.wrapped "close file" e))
      | none =>
        match Rename os w4 fName downloadPath with
        | (w5, some e) => ((RemovePath os w5 fName).1, some (.wrapped "rename file" e))
        | (w5, none) => Chtimes os w5 downloadPath modTime

/-- What a call of `EnsureFile` did: the file system state it leaves, the error
it returns, and how often it invoked `downloadFunc`. -/
structure Ran (W : Type) where
  world : W
  err : Option GoError
  downloads : Nat

/-- Lines 55-63 of `EnsureFile`: the download; `downloadFunc` is given by what
its invocation returns. -/
def ensureFileDownload {W : Type} (os : Os W) (w : W) (path : String) (modTime : Time)
    (downloadFunc : Except GoError Reader) : Ran W :=
  match downloadFunc with
  | .error e => { world := w, err := some (.wrapped "download func" e), downloads := 1 }
  | .ok r =>
    let res := downloadToPath os w path modTime r
    { world := res.1, err := res.2, downloads := 1 }

/-- `func (le LinuxExecuter) EnsureFile(path string, modTime time.Time, hash string,
downloadFunc func() (io.ReadCloser, error)) error`. -/
def EnsureFile {W : Type} (os : Os W) (w : W) (path : String) (modTime : Time)
    (hash : String) (downloadFunc : Except GoError Reader) : Ran W :=
  match Stat os w path with
  | .error e =>
    if e = .notExist then ensureFileDownload os w path modTime downloadFunc
    else { world := w, err := some e, downloads := 0 }
  | .ok info =>
    match (if info.IsDir then RemovePath os w path else (w, none)) with
    | (w1, some e) => { world := w1, err := some e, downloads := 0 }
    | (w1, none) =>
      let needDownload := info.IsDir
      if info.ModTime ≠ modTime then
        match CalculateHash os w1 path with
        | .error e => { world := w1, err := some e, downloads := 0 }
        | .ok isHash =>
          if isHash ≠ hash then ensureFileDownload os w1 path modTime downloadFunc
          else
            let res := Chtimes os w1 path modTime
            { world := res.1, err := res.2, downloads := 0 }
      else if needDownload then ensureFileDownload os w1 path modTime downloadFunc
      else { world := w1, err := none, downloads := 0 }

/-- `func (le LinuxExecuter) EnsureDir(path string) error`. -/
def EnsureDir {W : Type} (os : Os W) (w : W) (path : String) : W × Option GoError :=
  match Stat os w path with
  | .error e =>
    if e = .notExist then MkdirAll os w path else (w, some e)
  | .ok info =>
    if ¬ info.IsDir then
      match RemovePath os w path with
      | (w1, some e) => (w1, some e)
      | (w1, none) => MkdirAll os w1 path
    else (w, none)

/-! ### A file system in memory

An `Os` on a list of entries, for the examples: every call succeeds unless the
entry it needs is missing. -/

/-- An entry of the file system in memory. -/
inductive FsEntry where
  | file (content : List Nat) (modTime : Time)
  | dir (modTime : Time)
deriving DecidableEq

/-- The file system in memory: the entries by path. -/
abbrev MemFs := List (String × FsEntry)

/-- The characters up to the last `'/'` and the characters after it. -/
def splitLast : List Char → List Char × List Char
  | [] => ([], [])
  | c :: cs =>
    let r := splitLast cs
    if c = '/' ∧ ¬ '/' ∈ cs then ([], cs)
    else if '/' ∈ cs then (c :: r.1, r.2)
    else ([], c :: cs)

/-- `path.Dir` on a path that is clean. -/
def memDir (p : String) : String :=
  if '/' ∈ p.data then
    (if (splitLast p.data).1 = [] then "/" else String.mk (splitLast p.data).1)
  else "."

/-- `path.Base` on a path that is clean. -/
def memBase (p : String) : String := String.mk (splitLast p.data).2

/-- Whether the entry at `q` is `p` or is below `p`. -/
def memUnder (p q : String) : Bool := q = p || (p ++ "/").data.isPrefixOf q.data

/-- The digest of the file system in memory: the decimal byte values, joined by
`"."`.  It stands for SHA-256 in the examples. -/
def memDigest (bytes : List Nat) : String := ".".intercalate (bytes.map toString)

/-- The `Os` of the file system in memory. -/
def memOs : Os MemFs where
  Stat fs p :=
    match fs.lookup p with
    | none => .error .notExist
    | some (.file _ t) => .ok { IsDir := false, ModTime := t }
    | some (.dir t) => .ok { IsDir := true, ModTime := t }
  RemoveAll fs p := (fs.filter (fun e => ! memUnder p e.1), none)
  Chtimes fs p t :=
    match fs.lookup p with
    | none => (fs, some .notExist)
    | some _ =>
      (fs.map (fun e =>
        if e.1 = p then
          match e.2 with
          | .file c _ => (e.1, .file c t)
          | .dir _ => (e.1, .dir t)
        else e), none)
  Rename fs old new :=
    match fs.lookup old with
    | none => (fs, some .notExist)
    | some _ =>
      (((fs.filter (fun e => ! memUnder new e.1)).map (fun e =>
        if memUnder old e.1 then (new ++ String.mk (e.1.data.drop old.length), e.2) else e)),
       none)
  MkdirAll fs p :=
    match fs.lookup p with
    | none => ((p, .dir 0) :: fs, none)
    | some (.dir _) => (fs, none)
    | some (.file _ _) => (fs, some (.other "not a directory"))
  Open fs p :=
    match fs.lookup p with
    | none => .error .notExist
    | some (.file c _) => .ok c
    | some (.dir _) => .ok []
  Sha256Hex := memDigest
  CreateTemp fs dir pattern :=
    match fs.lookup dir with
    | some (.dir _) =>
      .ok ((dir ++ "/" ++ pattern, .file [] 0) :: fs, dir ++ "/" ++ pattern)
    | _ => .error .notExist
  ReadFrom fs name r :=
    (fs.map (fun e => if e.1 = name then (e.1, .file r.data 0) else e), r.err)
  Close fs _ := (fs, none)
  Dir := memDir
  Base := memBase

/-! ## `filen_extra/event_types.go` -/

/-- A value of type `any` as `encoding/json` decodes it into a
`map[string]any`.  A `float64` is given by the `int64` it converts to, which is
all the handler reads from it. -/
inductive Any where
  | string (s : String)
  | float64 (toInt64 : Int)
  | other
deriving DecidableEq

/-- The `map[string]any` of the field `Meta`; `lookup` is the index expression,
`none` is the `nil` interface value of a missing key. -/
abbrev MetaMap := List (String × Any)

/-- `type NameStruct struct`. -/
structure NameStruct where
  Name : String
deriving DecidableEq

/-- The fields the handler reads of `EventSocketFileNew`, `EventSocketFileRestore`,
`EventSocketFileArchiveRestored` and `EventSocketFileMove`. -/
structure FileEvent where
  Parent : String
  UUID : String
  Meta : MetaMap
deriving DecidableEq

/-- The fields of `EventSocketFileRename`. -/
structure EventSocketFileRename where
  UUID : String
  Meta : MetaMap
deriving DecidableEq

/-- The fields of `EventSocketFileTrash`, `EventSocketFileArchived`,
`EventSocketFileDeletedPermanent`, and the field read of `EventSocketFolderTrash`
and `EventSocketFolderColorChanged`. -/
structure UuidEvent where
  UUID : String
deriving DecidableEq

/-- The fields of `EventSocketFolderRename`. -/
structure EventSocketFolderRename where
  Name : NameStruct
  UUID : String
deriving DecidableEq

/-- The fields the handler reads of `EventSocketFolderMove`,
`EventSocketFolderSubCreated` and `EventSocketFolderRestore`. -/
structure FolderEvent where
  Name : NameStruct
  UUID : String
  Parent : String
deriving DecidableEq

/-- The dynamic type and value of `TypedEvent.Data`. -/
inductive EventData where
  | EventSocketFileNew (e : FileEvent)
  | EventSocketFileRename (e : filedb.EventSocketFileRename)
  | EventSocketFileArchiveRestored (e : FileEvent)
  | EventSocketFileRestore (e : FileEvent)
  | EventSocketFileMove (e : FileEvent)
  | EventSocketFileTrash (e : UuidEvent)
  | EventSocketFileArchived (e : UuidEvent)
  | EventSocketFolderRename (e : filedb.EventSocketFolderRename)
  | EventSocketFolderTrash (e : UuidEvent)
  | EventSocketFolderMove (e : FolderEvent)
  | EventSocketFolderSubCreated (e : FolderEvent)
  | EventSocketFolderRestore (e : FolderEvent)
  | EventSocketFolderColorChanged (e : UuidEvent)
  | EventSocketFileDeletedPermanent (e : UuidEvent)
deriving DecidableEq

/-- The payload of an event after JSON decoding, by the keys the event structs
are tagged with. -/
structure Payload where
  uuid : String
  parent : String
  metadata : MetaMap
  name : NameStruct
deriving DecidableEq

/-- `func InterpretEvent(eventName string, data map[string]any) (TypedEvent, error)`:
the struct chosen by the name, filled from the payload; `none` is the error of
an unknown name. -/
def InterpretEvent (eventName : String) (data : Payload) : Option EventData :=
  let fileEvent : FileEvent :=
    { Parent := data.parent, UUID := data.uuid, Meta := data.metadata }
  let folderEvent : FolderEvent :=
    { Name := data.name, UUID := data.uuid, Parent := data.parent }
  if eventName = "file-new" then some (.EventSocketFileNew fileEvent)
  else if eventName = "file-rename" then
    some (.EventSocketFileRename { UUID := data.uuid, Meta := data.metadata })
  else if eventName = "file-archive-restored" then
    some (.EventSocketFileArchiveRestored fileEvent)
  else if eventName = "file-restore" then some (.EventSocketFileRestore fileEvent)
  else if eventName = "file-move" then some (.EventSocketFileMove fileEvent)
  else if eventName = "file-trash" then some (.EventSocketFileTrash { UUID := data.uuid })
  else if eventName = "file-archived" then
    some (.EventSocketFileArchived { UUID := data.uuid })
  else if eventName = "folder-rename" then
    some (.EventSocketFolderRename { Name := data.name, UUID := data.uuid })
  else if eventName = "folder-trash" then some (.EventSocketFolderTrash { UUID := data.uuid })
  else if eventName = "folder-move" then some (.EventSocketFolderMove folderEvent)
  else if eventName = "folder-sub-created" then
    some (.EventSocketFolderSubCreated folderEvent)
  else if eventName = "folder-restore" then some (.EventSocketFolderRestore folderEvent)
  else if eventName = "folder-color-changed" then
    some (.EventSocketFolderColorChanged { UUID := data.uuid })
  else if eventName = "file-deleted-permanent" then
    some (.EventSocketFileDeletedPermanent { UUID := data.uuid })
  else none

/-! ## `mirror/utils.go` and `mirror/mirror.go` -/

/-- The value of a string of decimal digits, `none` when a character is not a
digit. -/
def digitsValue : List Char → Nat → Option Nat
  | [], acc => some acc
  | c :: cs, acc =>
    if '0' ≤ c ∧ c ≤ '9' then digitsValue cs (acc * 10 + (c.toNat - '0'.toNat)) else none

/-- `strconv.ParseInt(v, 10, 64)`: an optional sign and at least one decimal
digit, in the range of `int64`; `none` is the error. -/
def ParseInt (v : String) : Option Int :=
  let signed : Bool × List Char :=
    match v.data with
    | '-' :: cs => (true, cs)
    | '+' :: cs => (false, cs)
    | cs => (false, cs)
  if signed.2 = [] then none
  else
    match digitsValue signed.2 0 with
    | none => none
    | some n =>
      let i : Int := if signed.1 then - (n : Int) else (n : Int)
      if - (2 : Int) ^ 63 ≤ i ∧ i < (2 : Int) ^ 63 then some i else none

/-- `func maybeString(m map[string]any, key string) int64`. -/
def maybeString (m : MetaMap) (key : String) : Int :=
  match m.lookup key with
  | some (.string v) =>
    match ParseInt v with
    | none => 0
    | some i => i
  | some (.float64 v) => v
  | _ => 0

/-- `time.Unix(sec, 0)`. -/
def timeUnix (sec : Int) : Time := sec * 1000000000

/-- The type assertion `x.(string)` on a value read from a `map[string]any`;
`none` is the panic on a missing key or a value of another type. -/
def assertString : Option Any → Option String
  | some (.string s) => some s
  | _ => none

/-- The fields of `FilenMirror` that do not change: `baseDirUuid` and `syncDir`. -/
structure FilenMirror where
  baseDirUuid : Uuid
  syncDir : String

/-- The task `ensureLocalFile` hands to `taskRunner.Schedule`: a call
`EnsureFile(localPath, modTime, hash, download of uuid)`. -/
structure EnsureFileTask where
  localPath : String
  modTime : Time
  hash : String
  uuid : Uuid
deriving DecidableEq

/-- What the handler works on: the tree `osDb` with the heap of its node
objects, the file system, and the tasks handed to the task runner so far. -/
structure MirrorState (W : Type) where
  heap : Heap
  osDb : FileTree
  world : W
  tasks : List EnsureFileTask

/-- How the handling of an event ends: it returns, it panics, or a recursion of
`FileTree` does not return. -/
inductive Handled (α : Type) where
  | done (s : α)
  | panics
  | noReturn

/-- A call into `FileTree` or a helper of the handler, as a step of the handler. -/
def Handled.ofOption {α : Type} : Option α → Handled α
  | some s => .done s
  | none => .noReturn

/-- `func (m *FilenMirror) removeLocalFile(uuid filedb.Uuid)`. -/
def removeLocalFile {W : Type} (m : FilenMirror) (os : Os W) (s : MirrorState W)
    (uuid : Uuid) : Option (MirrorState W) :=
  match GetPath s.heap s.osDb uuid with
  | none => none
  | some (h1, none) => some { s with heap := h1 }
  | some (h1, some p) =>
    let localPath := m.syncDir ++ "/" ++ p
    let w1 := (RemovePath os s.world localPath).1
    some { heap := h1, osDb := Remove h1 s.osDb uuid, world := w1, tasks := s.tasks }

/-- `func (m *FilenMirror) ensureLocalFile(uuid, parent filedb.Uuid, name string,
modTime time.Time, hash string)`. -/
def ensureLocalFile {W : Type} (m : FilenMirror) (s : MirrorState W)
    (uuid parent : Uuid) (name : String) (modTime : Time) (hash : String) :
    Option (MirrorState W) :=
  let parent := if parent = m.baseDirUuid then NilUuid else parent
  match GetPath s.heap s.osDb parent with
  | none => none
  | some (h1, none) => some { s with heap := h1 }
  | some (h1, some parentPath) =>
    let localPath := m.syncDir ++ "/" ++ parentPath ++ "/" ++ name
    match CreateFile h1 s.osDb uuid parent name modTime hash with
    | none => none
    | some (h2, ft2) =>
      some { heap := h2, osDb := ft2, world := s.world,
             tasks := s.tasks ++
               [{ localPath := localPath, modTime := modTime, hash := hash, uuid := uuid }] }

/-- `func (m *FilenMirror) moveLocalFile(uuid, newParent filedb.Uuid, newName string)`. -/
def moveLocalFile {W : Type} (m : FilenMirror) (os : Os W) (s : MirrorState W)
    (uuid newParent : Uuid) (newName : String) : Option (MirrorState W) :=
  let newParent := if newParent = m.baseDirUuid then NilUuid else newParent
  match GetPath s.heap s.osDb uuid with
  | none => none
  | some (h1, none) => some { s with heap := h1 }
  | some (h1, some oldPath) =>
    match Move h1 s.osDb uuid newParent (FileNameFromString newName) with
    | none => none
    | some (h2, ft2) =>
      match GetPath h2 ft2 uuid with
      | none => none
      | some (h3, none) => some { s with heap := h3, osDb := ft2 }
      | some (h3, some newPath) =>
        let oldLocalPath := m.syncDir ++ "/" ++ oldPath
        let newLocalPath := m.syncDir ++ "/" ++ newPath
        match MkdirAll os s.world (os.Dir newLocalPath) with
        | (w1, some _) => some { heap := h3, osDb := ft2, world := w1, tasks := s.tasks }
        | (w1, none) =>
          some { heap := h3, osDb := ft2, world := (Rename os w1 oldLocalPath newLocalPath).1,
                 tasks := s.tasks }

/-- The body of the loop of `func (m *FilenMirror) runFilenEventHandler()`: the
`switch` on the type of `evt.Data`. -/
def handleEvent {W : Type} (m : FilenMirror) (os : Os W) (s : MirrorState W) :
    EventData → Handled (MirrorState W)
  | .EventSocketFileNew e =>
    match assertString (e.Meta.lookup "name") with
    | none => .panics
    | some name =>
      .ofOption (ensureLocalFile m s (UuidFromString e.UUID) (UuidFromString e.Parent) name
        (timeUnix (maybeString e.Meta "lastModified")) "")
  | .EventSocketFileDeletedPermanent e =>
    .ofOption (removeLocalFile m os s (UuidFromString e.UUID))
  | .EventSocketFileTrash e => .ofOption (removeLocalFile m os s (UuidFromString e.UUID))
  | .EventSocketFileRename e =>
    match GetNode s.heap s.osDb (UuidFromString e.UUID) with
    | none => .done s
    | some parent =>
      match assertString (e.Meta.lookup "name") with
      | none => .panics
      | some name => .ofOption (moveLocalFile m os s (UuidFromString e.UUID) parent.Parent name)
  | .EventSocketFileMove e =>
    match assertString (e.Meta.lookup "name") with
    | none => .panics
    | some name =>
      .ofOption (moveLocalFile m os s (UuidFromString e.UUID) (UuidFromString e.Parent) name)
  | .EventSocketFolderTrash e => .ofOption (removeLocalFile m os s (UuidFromString e.UUID))
  | .EventSocketFolderRename e =>
    match GetNode s.heap s.osDb (UuidFromString e.UUID) with
    | none => .done s
    | some parent =>
      .ofOption (moveLocalFile m os s (UuidFromString e.UUID) parent.Uuid e.Name.Name)
  | .EventSocketFolderMove e =>
    .ofOption (moveLocalFile m os s (UuidFromString e.UUID) (UuidFromString e.Parent)
      e.Name.Name)
  | .EventSocketFolderSubCreated e =>
    let parent := if UuidFromString e.Parent = m.baseDirUuid then "" else e.Parent
    let name := e.Name.Name
    match GetPath s.heap s.osDb (UuidFromString e.Parent) with
    | none => .noReturn
    | some (h1, none) => .done { s with heap := h1 }
    | some (h1, some parentPath) =>
      match CreateDir h1 s.osDb (UuidFromString e.UUID) (UuidFromString parent) name with
      | none => .noReturn
      | some (h2, ft2) =>
        let localPath := m.syncDir ++ "/" ++ parentPath ++ "/" ++ name
        .done { heap := h2, osDb := ft2, world := (EnsureDir os s.world localPath).1,
                tasks := s.tasks }
  | _ => .done s

/-- `func (m *FilenMirror) runFilenEventHandler()` on the events `NextEvent`
delivers before it reports the end. -/
def runFilenEventHandler {W : Type} (m : FilenMirror) (os : Os W) :
    MirrorState W → List EventData → Handled (MirrorState W)
  | s, [] => .done s
  | s, evt :: rest =>
    match handleEvent m os s evt with
    | .done s1 => runFilenEventHandler m os s1 rest
    | .panics => .panics
    | .noReturn => .noReturn

/-- The state a handling returns with. -/
def Handled.result {α : Type} : Handled α → Option α
  | .done s => some s
  | _ => none

/-- Whether a handling ends in a recursion that does not return. -/
def Handled.overflows {α : Type} : Handled α → Bool
  | .noReturn => true
  | _ => false

/-- A mirror with base folder `"base"` and sync directory `"sync"`. -/
def testMirror : FilenMirror := { baseDirUuid := UuidFromString "base", syncDir := "sync" }

/-- The test tree as `osDb`, with its file on disk and no task scheduled. -/
def testState : MirrorState MemFs :=
  { heap := testTree.1, osDb := testTree.2,
    world := [("sync/dir1", .dir 0), ("sync/dir1/dir2", .dir 0),
              ("sync/dir1/dir2/file1.txt", .file [1, 2, 3] 0)],
    tasks := [] }

/-- The payload of a file event for the new file `"new"` named `"a.txt"` in the
folder `parent`. -/
def newFilePayload (parent : String) : Payload :=
  { uuid := "new", parent := parent,
    metadata := [("name", .string "a.txt"), ("lastModified", .string "5")],
    name := { Name := "" } }

/-- What is read off a state in the examples: the node of `u` in `osDb`, its
path, and the scheduled tasks. -/
def observe {W : Type} (u : Uuid) (s : MirrorState W) :
    Option FileTreeNode × Option String × List EnsureFileTask :=
  (GetNode s.heap s.osDb u, pathIn s.heap s.osDb u, s.tasks)
/-- The file system in memory with an `os.Chtimes` that fails (the files belong
to another user). -/
def lockedOs : Os MemFs :=
  { memOs with Chtimes := fun fs _ _ => (fs, some (.other "operation not permitted")) }

/-- An `osDb` in which the file `"X"` (`"b.txt"`) has the parent `"P"`, and `"P"`
(`"p"`) is stored as a file: `"P"` was created as a folder, then upserted as a
file. -/
def fileParentState : MirrorState MemFs :=
  let built :=
    (CreateDir emptyHeap NewFileTree (UuidFromString "P") NilUuid "p").bind (fun s1 =>
      (CreateFile s1.1 s1.2 (UuidFromString "X") (UuidFromString "P") "b.txt" 0 "").bind
        (fun s2 => CreateFile s2.1 s2.2 (UuidFromString "P") NilUuid "p" 0 ""))
  { heap := (built.getD (emptyHeap, NewFileTree)).1,
    osDb := (built.getD (emptyHeap, NewFileTree)).2, world := [], tasks := [] }

/-- An `osDb` in which the file `"X"` (`"b.txt"`) has the parent `"base"`, a
folder `"b"` stored under the uuid of the base folder. -/
def baseParentState : MirrorState MemFs :=
  let built :=
    (CreateDir emptyHeap NewFileTree (UuidFromString "base") NilUuid "b").bind (fun s1 =>
      CreateFile s1.1 s1.2 (UuidFromString "X") (UuidFromString "base") "b.txt" 0 "")
  { heap := (built.getD (emptyHeap, NewFileTree)).1,
    osDb := (built.getD (emptyHeap, NewFileTree)).2, world := [], tasks := [] }

/-- The file-rename event of `"X"` to `"c.txt"`. -/
def renameX : EventData :=
  .EventSocketFileRename { UUID := "X", Meta := [("name", .string "c.txt")] }

/-! ## Trees built by `CreateDir` and `CreateFile` calls -/

/-- A call of `CreateDir` or of `CreateFile`, by its arguments. -/
inductive BuildCall where
  | CreateDir (uuid parentUuid : Uuid) (name : String)
  | CreateFile (uuid parentUuid : Uuid) (name : String) (modtime : Time) (h : String)
deriving DecidableEq

/-- The uuid a call creates. -/
def BuildCall.uuid : BuildCall → Uuid
  | .CreateDir u _ _ => u
  | .CreateFile u _ _ _ _ => u

/-- The parent a call names. -/
def BuildCall.parentUuid : BuildCall → Uuid
  | .CreateDir _ p _ => p
  | .CreateFile _ p _ _ _ => p

/-- Whether the call is a `CreateDir`. -/
def BuildCall.isDir : BuildCall → Bool
  | .CreateDir _ _ _ => true
  | .CreateFile _ _ _ _ _ => false

/-- The item the call hands to `EnsureItems`. -/
def BuildCall.item : BuildCall → FileTreeNode
  | .CreateDir u p name =>
    { Uuid := u, Name := FileNameFromString name, Hash := zeroHash, Modtime := zeroTime,
      IsDir := true, Parent := p }
  | .CreateFile u p name modtime hs =>
    { Uuid := u, Name := FileNameFromString name, Hash := HashFromString hs,
      Modtime := modtime, IsDir := false, Parent := p }

/-- The call on the tree `ft`. -/
def BuildCall.run (h : Heap) (ft : FileTree) : BuildCall → Option (Heap × FileTree)
  | .CreateDir u p name => filedb.CreateDir h ft u p name
  | .CreateFile u p name modtime hs => filedb.CreateFile h ft u p name modtime hs

/-- A tree built by the calls in a row on `NewFileTree()`, allocating in the
heap `h`. -/
def buildTree (h : Heap) (calls : List BuildCall) : Option (Heap × FileTree) :=
  calls.foldlM (fun (s : Heap × FileTree) c => c.run s.1 s.2) (h, NewFileTree)

/-- The calls `cs` that follow the calls `pre` have distinct uuids that no call
of `pre` has, and each of them names as parent `NilUuid` or the uuid of a call
that comes before it. -/
def parentsFirstFrom (pre : List BuildCall) : List BuildCall → Bool
  | [] => true
  | c :: cs =>
    decide (∀ d ∈ pre, d.uuid ≠ c.uuid) &&
    decide (c.parentUuid = NilUuid ∨ ∃ d ∈ pre, d.uuid = c.parentUuid) &&
    parentsFirstFrom (pre ++ [c]) cs

/-- Two trees built by the same calls, one after the other, in one heap. -/
def buildTwice (calls : List BuildCall) : Option (Heap × FileTree × FileTree) :=
  (buildTree emptyHeap calls).bind (fun s1 =>
    (buildTree s1.1 calls).map (fun s2 => (s2.1, s1.2, s2.2)))

/-- A uuid with first word `3`. -/
def uC : Uuid := ⟨[3, 0, 0, 0, 0, 0, 0, 0], rfl⟩

/-- The directory `uA`, the file `uB` in it, and the file `uC` with the file `uB`
as parent. -/
def fileParentCalls : List BuildCall :=
  [.CreateDir uA NilUuid "d", .CreateFile uB uA "f" 0 "", .CreateFile uC uB "g" 0 ""]

/-- The directory `uA` in `uB` and the directory `uB` in `uA`. -/
def cycleCalls : List BuildCall :=
  [.CreateDir uA uB "q", .CreateDir uB uA "p"]

/-- The calls of `generateTestTree`. -/
def testCalls : List BuildCall :=
  [.CreateDir uDir1 NilUuid "dir1", .CreateDir uDir2 uDir1 "dir2",
   .CreateFile uFile1 uDir2 "file1.txt" 0
     "aaaaaaaaaaaaaaaaaaaaaaaaaaaaaaaaaaaaaaaaaaaaaaaaaaaaaaaaaaaaaaaa"]

/-- What `GetNode` reports after the call `c`, from what it reported before: the
item of the call for its uuid, and the placeholder directory for a parent that
was a file. -/
def reportStep (spec : Uuid → Option FileTreeNode) (c : BuildCall) :
    Uuid → Option FileTreeNode :=
  fun w =>
    if w = c.uuid then some c.item
    else if w = c.parentUuid ∧ w ≠ NilUuid ∧ (spec w).map (fun n => n.IsDir) = some false then
      some (placeholderItem w)
    else spec w

/-- What `GetNode` reports after the calls `calls` on `NewFileTree()`. -/
def reportOf (calls : List BuildCall) : Uuid → Option FileTreeNode :=
  calls.foldl reportStep (fun _ => none)

/-- The state of a build in the heap `hb`: the tree is made of node objects
allocated after `hb`, the objects of `hb` are as they were but for memoised
paths that were reset, `GetNode` reports `spec`, a parent has a smaller address
than its child, and the child lists hold nodes of the tree only, each with a
greater address than the node that lists it. -/
structure Built (hb : Heap) (spec : Uuid → Option FileTreeNode) (h : Heap) (ft : FileTree) :
    Prop where
  inv : Inv h ft
  fresh : ∀ a, InMap ft a → hb.next ≤ a
  frame : ∀ b, b < hb.next → clearPath (h.cells b) = clearPath (hb.cells b) ∧
    ((h.cells b).path = "" ∨ (h.cells b).path = (hb.cells b).path)
  nextLe : hb.next ≤ h.next
  nodes : ∀ w, GetNode h ft w = spec w
  parentLt : ∀ a, InMap ft a → ∀ p, (h.cells a).Parent = some p → p < a
  childGt : ∀ a, InMap ft a → ∀ c ∈ (h.cells a).Children, a < c ∧ InMap ft c

/-- Two trees `t` and `t2` in one heap that were built by the same calls: the
nodes of `t` lie below the address `n` and those of `t2` from `n` on, parents
have smaller addresses than their children, the child lists of `t2` hold nodes
of `t2`, and `GetNode` reports the same for both trees. -/
structure Twins (n : Nat) (h : Heap) (t t2 : FileTree) : Prop where
  inv1 : Inv h t
  inv2 : Inv h t2
  below : ∀ b, InMap t b → b < n
  above : ∀ a, InMap t2 a → n ≤ a
  parentLt1 : ∀ a, InMap t a → ∀ p, (h.cells a).Parent = some p → p < a
  parentLt2 : ∀ a, InMap t2 a → ∀ p, (h.cells a).Parent = some p → p < a
  childGt2 : ∀ a, InMap t2 a → ∀ c ∈ (h.cells a).Children, a < c ∧ InMap t2 c
  same : ∀ w, GetNode h t w = GetNode h t2 w

/-- The directory `uA`, the file `uB` created in it, and the file `uB` created
once more, now at the root. -/
def reparentCalls : List BuildCall :=
  [.CreateDir uA NilUuid "d", .CreateFile uB uA "f" 0 "", .CreateFile uB NilUuid "f" 0 ""]

/-- The tree built by `reparentCalls`. -/
def reparentTree : Heap × FileTree :=
  (buildTree emptyHeap reparentCalls).getD (emptyHeap, NewFileTree)

/-- The tree after `CreateDir(uA, NilUuid, "d")`, `CreateFile(uB, uA, "f")`,
`Remove(uB)` and `CreateFile(uB, NilUuid, "f")`. -/
def recreatedTree : Heap × FileTree :=
  ((buildTree emptyHeap [.CreateDir uA NilUuid "d", .CreateFile uB uA "f" 0 ""]).bind
    (fun w => CreateFile w.1 (Remove w.1 w.2 uB) uB NilUuid "f" 0 "")).getD
    (emptyHeap, NewFileTree)

/-- No node object is reached from itself through child lists. -/
def ChildAcyclic (h : Heap) : Prop := ∀ a, ¬ Relation.TransGen (ChildRel h) a a

/-- The node `u` may get the parent `p`: `p` is `NilUuid`, or `p` is not `u` and
the node of `p` is not reached from the node of `u` through child lists (`p` is
not below `u`). -/
def ParentAllowed (h : Heap) (ft : FileTree) (u p : Uuid) : Prop :=
  p = NilUuid ∨
    (p ≠ u ∧ ∀ a q, ft.nodes.lookup u = some a → ft.nodes.lookup p = some q → ¬ Reach h a q)

/-- Every item of the list may get its parent at the time `EnsureItems` comes to
it. -/
def ItemsAllowed : Heap → FileTree → List FileTreeNode → Prop
  | _, _, [] => True
  | h, ft, item :: rest =>
    ParentAllowed h ft item.Uuid item.Parent ∧
      ∀ h1 ft1, EnsureItems h ft [item] = some (h1, ft1) → ItemsAllowed h1 ft1 rest

/-- The trees reached from the empty tree by `EnsureItems`, `CreateFile`,
`CreateDir`, `Move` and `Remove` calls that give no node a parent below it. -/
inductive ReachableAllowed : Heap → FileTree → Prop where
  | empty : ReachableAllowed emptyHeap NewFileTree
  | ensureItems {h ft} (items : List FileTreeNode) {h1 ft1} :
      ReachableAllowed h ft → ItemsAllowed h ft items →
      EnsureItems h ft items = some (h1, ft1) → ReachableAllowed h1 ft1
  | createFile {h ft} (uuid parentUuid : Uuid) (name : String) (modtime : Time)
      (hs : String) {h1 ft1} :
      ReachableAllowed h ft → ParentAllowed h ft uuid parentUuid →
      CreateFile h ft uuid parentUuid name modtime hs = some (h1, ft1) →
      ReachableAllowed h1 ft1
  | createDir {h ft} (uuid parentUuid : Uuid) (name : String) {h1 ft1} :
      ReachableAllowed h ft → ParentAllowed h ft uuid parentUuid →
      CreateDir h ft uuid parentUuid name = some (h1, ft1) → ReachableAllowed h1 ft1
  | move {h ft} (uuid newParentUuid : Uuid) (newName : FileName) {h1 ft1} :
      ReachableAllowed h ft → ParentAllowed h ft uuid newParentUuid →
      Move h ft uuid newParentUuid newName = some (h1, ft1) → ReachableAllowed h1 ft1
  | remove {h ft} (uuid : Uuid) :
      ReachableAllowed h ft → ReachableAllowed h (Remove h ft uuid)

/-- The tree built by the calls of `generateTestTree`. -/
def builtTestTree : Heap × FileTree :=
  (buildTree emptyHeap testCalls).getD (emptyHeap, NewFileTree)

/-- The tree `builtTestTree` after `Move(file1, dir1, "x")`. -/
def movedFileTree : Heap × FileTree :=
  (Move builtTestTree.1 builtTestTree.2 uFile1 uDir1 "x").getD (emptyHeap, NewFileTree)

/-- The test tree after `Move(dir2, dir2, "n")`. -/
def selfMovedTree : Heap × FileTree :=
  (Move testTree.1 testTree.2 uDir2 uDir2 "n").getD (emptyHeap, NewFileTree)

/-- The test tree after `Move(dir1, dir2, "n")`: `dir1` is moved into its child
`dir2`. -/
def movedBelowTree : Heap × FileTree :=
  (Move testTree.1 testTree.2 uDir1 uDir2 "n").getD (emptyHeap, NewFileTree)

/-- The tree `staleTree` after `Move(uB, uA, "n")`: `b` is moved into `a`, which
is at the root and still in the child list of `b`. -/
def staleMovedTree : Heap × FileTree :=
  (Move staleTree.1 staleTree.2 uB uA "n").getD (emptyHeap, NewFileTree)

/-- What the merge walk of `diff` does at one step: it asks for the path of
`isNode` and sends a removal, asks for the path of `shouldNode` and sends an
addition, or asks for both paths and sends a modification. -/
inductive Ask where
  | removed (isNode : Addr)
  | added (shouldNode : Addr)
  | modified (isNode shouldNode : Addr)

/-- The steps of `diffStep`, in the order it takes them. -/
def askStep (h : Heap) (isNode : Addr) (rest : List Addr → List Ask) :
    List Addr → List Ask
  | [] => .removed isNode :: rest []
  | shouldNode :: js =>
    if (h.cells isNode).Uuid = (h.cells shouldNode).Uuid then
      if unequal h isNode shouldNode then .modified isNode shouldNode :: rest js
      else rest js
    else if CompareUuids (h.cells isNode).Uuid (h.cells shouldNode).Uuid < 0 then
      .removed isNode :: rest (shouldNode :: js)
    else .added shouldNode :: askStep h isNode rest js

/-- The steps of `diffWalk`, in the order it takes them. -/
def askWalk (h : Heap) : List Addr → List Addr → List Ask
  | [], shouldNodes => shouldNodes.map .added
  | isNode :: is, shouldNodes => askStep h isNode (askWalk h is) shouldNodes

/-- The item a step sends, with the paths read in the heap `h`. -/
def Ask.item (h : Heap) : Ask → DiffItem
  | .removed x => .DiffRemoved (h.cells x).Uuid (pathAt h x)
  | .added y => .DiffAdded (h.cells y).Uuid (pathAt h y)
  | .modified x y => .DiffModified (h.cells x).Uuid (pathAt h x) (pathAt h y)

/-- Whether the `getPath` calls of a step return. -/
def Ask.returns (h : Heap) : Ask → Bool
  | .removed x => (pathOf h x).isSome
  | .added y => (pathOf h y).isSome
  | .modified x y => (pathOf h x).isSome && (pathOf h y).isSome

/-- The uuid `u` is due an item of `Diff(is, should)`: it is in one of the two
trees only, or it is in both and the modtime, parent uuid, isDir or hash that
`GetNode` reports differ. -/
def Differs (h : Heap) (is should : FileTree) (u : Uuid) : Prop :=
  (GetNode h is u ≠ none ∨ GetNode h should u ≠ none) ∧
  ∀ n m, GetNode h is u = some n → GetNode h should u = some m →
    (n.Modtime ≠ m.Modtime ∨ n.Parent ≠ m.Parent ∨ n.IsDir ≠ m.IsDir ∨ n.Hash ≠ m.Hash)

/-- Every node that is the `Parent` of a node of the tree is a directory. -/
def DirParents (h : Heap) (ft : FileTree) : Prop :=
  ∀ a, InMap ft a → ∀ p, (h.cells a).Parent = some p → (h.cells p).IsDir = true

/-- The upsert of `item` makes no parent a file: the item is a directory, or no
node of the tree has `item.Uuid` as its parent and the item does not name itself
as parent. -/
def KeepsDirs (h : Heap) (ft : FileTree) (item : FileTreeNode) : Prop :=
  item.IsDir = true ∨
    ((item.Parent = item.Uuid → item.Uuid = NilUuid) ∧ ∀ v, ¬ ParentUuid h ft v item.Uuid)

/-- Every item of the list makes no parent a file at the time `EnsureItems`
comes to it. -/
def ItemsKeepDirs : Heap → FileTree → List FileTreeNode → Prop
  | _, _, [] => True
  | h, ft, item :: rest =>
    KeepsDirs h ft item ∧
      ∀ h1 ft1, EnsureItems h ft [item] = some (h1, ft1) → ItemsKeepDirs h1 ft1 rest

/-- The trees reached from the empty tree by the operations of `FileTree`, read
operations included, in which no `EnsureItems` item and no `CreateFile` upserts
as a file a uuid that is the parent of a node at that time, or its own
parent. -/
inductive ReachableDirs : Heap → FileTree → Prop where
  | empty : ReachableDirs emptyHeap NewFileTree
  | ensureItems {h ft} (items : List FileTreeNode) {h1 ft1} :
      ReachableDirs h ft → ItemsKeepDirs h ft items →
      EnsureItems h ft items = some (h1, ft1) → ReachableDirs h1 ft1
  | createFile {h ft} (uuid parentUuid : Uuid) (name : String) (modtime : Time)
      (hs : String) {h1 ft1} :
      ReachableDirs h ft →
      ((parentUuid = uuid → uuid = NilUuid) ∧ ∀ v, ¬ ParentUuid h ft v uuid) →
      CreateFile h ft uuid parentUuid name modtime hs = some (h1, ft1) →
      ReachableDirs h1 ft1
  | createDir {h ft} (uuid parentUuid : Uuid) (name : String) {h1 ft1} :
      ReachableDirs h ft → CreateDir h ft uuid parentUuid name = some (h1, ft1) →
      ReachableDirs h1 ft1
  | move {h ft} (uuid newParentUuid : Uuid) (newName : FileName) {h1 ft1} :
      ReachableDirs h ft → Move h ft uuid newParentUuid newName = some (h1, ft1) →
      ReachableDirs h1 ft1
  | remove {h ft} (uuid : Uuid) : ReachableDirs h ft → ReachableDirs h (Remove h ft uuid)
  | setModtime {h ft} (uuid : Uuid) (modtime : Time) :
      ReachableDirs h ft →
      ReachableDirs (SetModtime h ft uuid modtime).1 (SetModtime h ft uuid modtime).2
  | getPath {h ft} (uuid : Uuid) {h1 r} :
      ReachableDirs h ft → GetPath h ft uuid = some (h1, r) → ReachableDirs h1 ft
  | getPathToUuidMap {h ft} {h1 m} :
      ReachableDirs h ft → GetPathToUuidMap h ft = some (h1, m) → ReachableDirs h1 ft

/-- The tree after `CreateFile(uA, uA, "f", 0, "")` on the empty tree: the file
names itself as parent. -/
def selfParentTree : Heap × FileTree :=
  (CreateFile emptyHeap NewFileTree uA uA "f" 0 "").getD (emptyHeap, NewFileTree)

/-! ## The order of `CompareUuids` -/

theorem compareWords_neg (a b : List Nat) : compareWords b a = - compareWords a b := by
  induction a generalizing b with
  | nil => cases b <;> simp [compareWords]
  | cons x xs ih =>
    cases b with
    | nil => simp [compareWords]
    | cons y ys =>
      simp only [compareWords]
      rcases Nat.lt_trichotomy x y with hlt | heq | hgt
      · have h1 : ¬ y < x := by omega
        simp [hlt, h1]
      · subst heq
        simp [ih]
      · have h1 : ¬ x < y := by omega
        simp [hgt, h1]

theorem compareWords_self (a : List Nat) : compareWords a a = 0 := by
  induction a with
  | nil => simp [compareWords]
  | cons x xs ih => simp [compareWords, ih]

theorem compareWords_eq_zero (a b : List Nat) (hlen : a.length = b.length)
    (h : compareWords a b = 0) : a = b := by
  induction a generalizing b with
  | nil => cases b with
    | nil => rfl
    | cons y ys => simp at hlen
  | cons x xs ih =>
    cases b with
    | nil => simp at hlen
    | cons y ys =>
      simp only [compareWords] at h
      rcases Nat.lt_trichotomy x y with hlt | heq | hgt
      · simp [hlt] at h
      · subst heq
        simp at h
        rw [ih ys (by simpa using hlen) h]
      · have h1 : ¬ x < y := by omega
        simp [hgt, h1] at h

theorem compareWords_lt_trans (a b c : List Nat) (hab : a.length = b.length)
    (hbc : b.length = c.length)
    (h1 : compareWords a b < 0) (h2 : compareWords b c < 0) : compareWords a c < 0 := by
  induction a generalizing b c with
  | nil => simp [compareWords] at h1
  | cons x xs ih =>
    cases b with
    | nil => simp [compareWords] at h1
    | cons y ys =>
      cases c with
      | nil => simp [compareWords] at h2
      | cons z zs =>
        simp only [compareWords] at h1 h2 ⊢
        rcases Nat.lt_trichotomy x y with hxy | hxy | hxy
        · rcases Nat.lt_trichotomy y z with hyz | hyz | hyz
          · have : x < z := by omega
            simp [this]
          · have : x < z := by omega
            simp [this]
          · have n1 : ¬ y < z := by omega
            simp [hyz, n1] at h2
        · subst hxy
          rcases Nat.lt_trichotomy x z with hyz | hyz | hyz
          · simp [hyz]
          · subst hyz
            simp at h1 h2 ⊢
            exact ih ys zs (by simpa using hab) (by simpa using hbc) h1 h2
          · have n1 : ¬ x < z := by omega
            simp [hyz, n1] at h2
        · have n1 : ¬ x < y := by omega
          simp [hxy, n1] at h1

theorem UuidLt_irrefl (a : Uuid) : ¬ UuidLt a a := by
  simp [UuidLt, CompareUuids, compareWords_self]

theorem UuidLt_trans {a b c : Uuid} (h1 : UuidLt a b) (h2 : UuidLt b c) : UuidLt a c :=
  compareWords_lt_trans a.1 b.1 c.1 (by rw [a.2, b.2]) (by rw [b.2, c.2]) h1 h2

theorem UuidLt_asymm {a b : Uuid} (h1 : UuidLt a b) : ¬ UuidLt b a := by
  unfold UuidLt CompareUuids at *
  rw [compareWords_neg a.1 b.1]
  omega

theorem UuidLt_of_not {a b : Uuid} (hne : a ≠ b) (h : ¬ UuidLt a b) : UuidLt b a := by
  unfold UuidLt CompareUuids at *
  rw [compareWords_neg a.1 b.1]
  have h0 : compareWords a.1 b.1 ≠ 0 := fun h0 =>
    hne (Subtype.ext (compareWords_eq_zero a.1 b.1 (by rw [a.2, b.2]) h0))
  omega

/-! ## `GetPath` and the path cache -/

theorem SameNodes_refl (h : Heap) : SameNodes h h := ⟨rfl, fun _ => rfl⟩

theorem SameNodes_trans {h h1 h2 : Heap} (a : SameNodes h h1) (b : SameNodes h1 h2) :
    SameNodes h h2 := ⟨b.1.trans a.1, fun x => (b.2 x).trans (a.2 x)⟩

theorem SameNodes_name {h h1 : Heap} (s : SameNodes h h1) (a : Addr) :
    (h1.cells a).Name = (h.cells a).Name := by
  have e := congrArg fileTreeNodeInternal.Name (s.2 a)
  simpa [clearPath] using e

theorem SameNodes_uuid {h h1 : Heap} (s : SameNodes h h1) (a : Addr) :
    (h1.cells a).Uuid = (h.cells a).Uuid := by
  have e := congrArg fileTreeNodeInternal.Uuid (s.2 a)
  simpa [clearPath] using e

theorem SameNodes_parent {h h1 : Heap} (s : SameNodes h h1) (a : Addr) :
    (h1.cells a).Parent = (h.cells a).Parent := by
  have e := congrArg fileTreeNodeInternal.Parent (s.2 a)
  simpa [clearPath] using e

theorem SameNodes_hash {h h1 : Heap} (s : SameNodes h h1) (a : Addr) :
    (h1.cells a).Hash = (h.cells a).Hash := by
  have e := congrArg fileTreeNodeInternal.Hash (s.2 a)
  simpa [clearPath] using e

theorem SameNodes_modtime {h h1 : Heap} (s : SameNodes h h1) (a : Addr) :
    (h1.cells a).Modtime = (h.cells a).Modtime := by
  have e := congrArg fileTreeNodeInternal.Modtime (s.2 a)
  simpa [clearPath] using e

theorem SameNodes_isDir {h h1 : Heap} (s : SameNodes h h1) (a : Addr) :
    (h1.cells a).IsDir = (h.cells a).IsDir := by
  have e := congrArg fileTreeNodeInternal.IsDir (s.2 a)
  simpa [clearPath] using e

theorem SameNodes_children {h h1 : Heap} (s : SameNodes h h1) (a : Addr) :
    (h1.cells a).Children = (h.cells a).Children := by
  have e := congrArg fileTreeNodeInternal.Children (s.2 a)
  simpa [clearPath] using e

theorem SameNodes_getParentUuid {h h1 : Heap} (s : SameNodes h h1) (a : Addr) :
    getParentUuid h1 a = getParentUuid h a := by
  unfold filedb.getParentUuid
  rw [SameNodes_parent s a]
  cases (h.cells a).Parent with
  | none => rfl
  | some p => exact SameNodes_uuid s p

theorem getPathPartsAux_congr {h h1 : Heap}
    (hn : ∀ a, (h1.cells a).Name = (h.cells a).Name)
    (hp : ∀ a, (h1.cells a).Parent = (h.cells a).Parent) (fuel : Nat) (a : Addr) :
    getPathPartsAux fuel h1 a = getPathPartsAux fuel h a := by
  induction fuel generalizing a with
  | zero => rfl
  | succ n ih =>
    simp only [getPathPartsAux, hp a, hn a]
    cases (h.cells a).Parent with
    | none => rfl
    | some p => simp [ih p]

theorem SameNodes_getPathParts {h h1 : Heap} (s : SameNodes h h1) (a : Addr) :
    getPathParts h1 a = getPathParts h a := by
  unfold filedb.getPathParts
  rw [s.1]
  exact getPathPartsAux_congr (SameNodes_name s) (SameNodes_parent s) _ a

@[simp] theorem Heap_set_cells_same (h : Heap) (a : Addr) (n : fileTreeNodeInternal) :
    (h.set a n).cells a = n := by simp [Heap.set]

theorem Heap_set_cells_ne (h : Heap) {a b : Addr} (n : fileTreeNodeInternal) (hne : b ≠ a) :
    (h.set a n).cells b = h.cells b := by simp [Heap.set, hne]

@[simp] theorem Heap_set_next (h : Heap) (a : Addr) (n : fileTreeNodeInternal) :
    (h.set a n).next = h.next := rfl

theorem SameNodes_setPath (h : Heap) (a : Addr) (p : String) :
    SameNodes h (h.set a { h.cells a with path := p }) := by
  refine ⟨rfl, fun b => ?_⟩
  by_cases hb : b = a
  · subst hb; simp [clearPath]
  · rw [Heap_set_cells_ne _ _ hb]

/-- What `GetPath` on one node leaves behind: the same nodes, and the same path
for every node. -/
theorem nodeGetPath_frame {h h1 : Heap} {a : Addr} {p : String}
    (hg : nodeGetPath h a = some (h1, p)) :
    SameNodes h h1 ∧ ∀ b, pathOf h1 b = pathOf h b := by
  unfold nodeGetPath at hg
  split_ifs at hg with hc
  · cases hparts : getPathParts h a with
    | none => simp [hparts] at hg
    | some parts =>
      simp only [hparts, Option.some.injEq, Prod.mk.injEq] at hg
      obtain ⟨rfl, rfl⟩ := hg
      have hs := SameNodes_setPath h a ("/".intercalate parts)
      refine ⟨hs, fun b => ?_⟩
      unfold pathOf nodeGetPath
      rw [SameNodes_getPathParts hs b]
      by_cases hb : b = a
      · subst hb
        simp only [Heap_set_cells_same, hc, hparts]
        by_cases he : "/".intercalate parts = ""
        · simp [he]
        · simp [he]
      · rw [Heap_set_cells_ne _ _ hb]
        by_cases hpb : (h.cells b).path = ""
        · simp only [hpb, if_true]
          cases getPathParts h b <;> simp
        · simp [hpb]
  · simp only [Option.some.injEq, Prod.mk.injEq] at hg
    obtain ⟨rfl, rfl⟩ := hg
    exact ⟨SameNodes_refl _, fun _ => rfl⟩

theorem nodeGetPath_of_pathOf {h : Heap} {a : Addr} {p : String} (hp : pathOf h a = some p) :
    ∃ h1, nodeGetPath h a = some (h1, p) := by
  unfold pathOf at hp
  cases hg : nodeGetPath h a with
  | none => simp [hg] at hp
  | some r =>
    obtain ⟨h1, q⟩ := r
    simp [hg] at hp
    exact ⟨h1, by rw [hp]⟩

/-! ## The merge walk of `diff` -/

theorem PathEq_refl (h : Heap) : PathEq h h := ⟨SameNodes_refl h, fun _ => rfl⟩

theorem PathEq_step {h0 h : Heap} (e : PathEq h0 h) {a : Addr} (hp : (pathOf h0 a).isSome) :
    ∃ h1, nodeGetPath h a = some (h1, pathAt h0 a) ∧ PathEq h0 h1 := by
  obtain ⟨p, hp⟩ := Option.isSome_iff_exists.mp hp
  have hp1 : pathOf h a = some p := by rw [e.2 a, hp]
  obtain ⟨h1, hg⟩ := nodeGetPath_of_pathOf hp1
  have hf := nodeGetPath_frame hg
  refine ⟨h1, ?_, SameNodes_trans e.1 hf.1, fun b => (hf.2 b).trans (e.2 b)⟩
  simp [pathAt, hp, hg]

theorem SameNodes_unequal {h h1 : Heap} (s : SameNodes h h1) (a b : Addr) :
    unequal h1 a b = unequal h a b := by
  unfold filedb.unequal
  simp only [SameNodes_modtime s, SameNodes_getParentUuid s, SameNodes_isDir s, SameNodes_hash s]

theorem diffAdded_eq (h0 : Heap) (ys : List Addr) (h : Heap) (e : PathEq h0 h)
    (hy : ∀ b ∈ ys, (pathOf h0 b).isSome) :
    ∃ h1, diffAdded ys h = some (h1, itemsWalk h0 [] ys) ∧ PathEq h0 h1 := by
  induction ys generalizing h with
  | nil => exact ⟨h, rfl, e⟩
  | cons y ys ih =>
    obtain ⟨h1, hg, e1⟩ := PathEq_step e (hy y (List.mem_cons_self _ _))
    obtain ⟨h2, hd, e2⟩ := ih h1 e1 (fun b hb => hy b (List.mem_cons_of_mem _ hb))
    refine ⟨h2, ?_, e2⟩
    simp only [diffAdded, hg, hd, itemsWalk, List.map_cons, SameNodes_uuid e.1] at *

theorem diffStep_eq (h0 : Heap) (x : Addr)
    (rest : List Addr → Heap → Option (Heap × List DiffItem))
    (restItems : List Addr → List DiffItem)
    (hx : (pathOf h0 x).isSome)
    (hrest : ∀ ys h, PathEq h0 h → (∀ b ∈ ys, (pathOf h0 b).isSome) →
      ∃ h1, rest ys h = some (h1, restItems ys) ∧ PathEq h0 h1)
    (ys : List Addr) (h : Heap) (e : PathEq h0 h)
    (hy : ∀ b ∈ ys, (pathOf h0 b).isSome) :
    ∃ h1, diffStep x rest ys h = some (h1, itemsStep h0 x restItems ys) ∧ PathEq h0 h1 := by
  induction ys generalizing h with
  | nil =>
    obtain ⟨h1, hg, e1⟩ := PathEq_step e hx
    obtain ⟨h2, hr, e2⟩ := hrest [] h1 e1 (by simp)
    exact ⟨h2, by simp only [diffStep, hg, hr, itemsStep, SameNodes_uuid e.1], e2⟩
  | cons y ys ih =>
    have hyy := hy y (List.mem_cons_self _ _)
    have hys : ∀ b ∈ ys, (pathOf h0 b).isSome := fun b hb => hy b (List.mem_cons_of_mem _ hb)
    simp only [diffStep, itemsStep, SameNodes_uuid e.1, SameNodes_unequal e.1]
    by_cases hu : (h0.cells x).Uuid = (h0.cells y).Uuid
    · simp only [hu, if_true]
      by_cases hne : unequal h0 x y = true
      · simp only [hne, if_true]
        obtain ⟨h1, hg, e1⟩ := PathEq_step e hx
        obtain ⟨h2, hg2, e2⟩ := PathEq_step e1 hyy
        obtain ⟨h3, hr, e3⟩ := hrest ys h2 e2 hys
        exact ⟨h3, by simp only [hg, hg2, hr], e3⟩
      · simp only [hne]
        exact hrest ys h e hys
    · simp only [hu, if_false]
      by_cases hlt : CompareUuids (h0.cells x).Uuid (h0.cells y).Uuid < 0
      · simp only [hlt, if_true]
        obtain ⟨h1, hg, e1⟩ := PathEq_step e hx
        obtain ⟨h2, hr, e2⟩ := hrest (y :: ys) h1 e1 hy
        exact ⟨h2, by simp only [hg, hr], e2⟩
      · simp only [hlt, if_false]
        obtain ⟨h1, hg, e1⟩ := PathEq_step e hyy
        obtain ⟨h2, hr, e2⟩ := ih h1 e1 hys
        exact ⟨h2, by simp only [hg, hr], e2⟩

theorem diffWalk_eq (h0 : Heap) (xs ys : List Addr) (h : Heap) (e : PathEq h0 h)
    (hx : ∀ a ∈ xs, (pathOf h0 a).isSome) (hy : ∀ b ∈ ys, (pathOf h0 b).isSome) :
    ∃ h1, diffWalk xs ys h = some (h1, itemsWalk h0 xs ys) ∧ PathEq h0 h1 := by
  induction xs generalizing ys h with
  | nil => exact diffAdded_eq h0 ys h e hy
  | cons x xs ih =>
    simp only [diffWalk, itemsWalk]
    exact diffStep_eq h0 x (diffWalk xs) (itemsWalk h0 xs) (hx x (List.mem_cons_self _ _))
      (fun ys h e hy => ih ys h e (fun a ha => hx a (List.mem_cons_of_mem _ ha)) hy) ys h e hy

theorem Emits_cons_left (h : Heap) (x : Addr) (xs ys : List Addr) (item : DiffItem)
    (hx : ∀ y ∈ ys, (h.cells y).Uuid ≠ (h.cells x).Uuid) :
    Emits h (x :: xs) ys item ↔
      item = .DiffRemoved (h.cells x).Uuid (pathAt h x) ∨ Emits h xs ys item := by
  unfold Emits
  constructor
  · rintro (⟨a, ha, h1, h2⟩ | ⟨b, hb, h1, h2⟩ | ⟨a, ha, b, hb, h1, h2, h3⟩)
    · rcases List.mem_cons.mp ha with rfl | ha
      · exact Or.inl h2
      · exact Or.inr (Or.inl ⟨a, ha, h1, h2⟩)
    · exact Or.inr (Or.inr (Or.inl ⟨b, hb, fun a ha => h1 a (List.mem_cons_of_mem _ ha), h2⟩))
    · rcases List.mem_cons.mp ha with rfl | ha
      · exact absurd h1.symm (hx b hb)
      · exact Or.inr (Or.inr (Or.inr ⟨a, ha, b, hb, h1, h2, h3⟩))
  · rintro (h2 | ⟨a, ha, h1, h2⟩ | ⟨b, hb, h1, h2⟩ | ⟨a, ha, b, hb, h1, h2, h3⟩)
    · exact Or.inl ⟨x, List.mem_cons_self _ _, hx, h2⟩
    · exact Or.inl ⟨a, List.mem_cons_of_mem _ ha, h1, h2⟩
    · refine Or.inr (Or.inl ⟨b, hb, fun a ha => ?_, h2⟩)
      rcases List.mem_cons.mp ha with rfl | ha
      · exact (hx b hb).symm
      · exact h1 a ha
    · exact Or.inr (Or.inr ⟨a, List.mem_cons_of_mem _ ha, b, hb, h1, h2, h3⟩)

theorem Emits_cons_right (h : Heap) (y : Addr) (xs ys : List Addr) (item : DiffItem)
    (hy : ∀ x ∈ xs, (h.cells x).Uuid ≠ (h.cells y).Uuid) :
    Emits h xs (y :: ys) item ↔
      item = .DiffAdded (h.cells y).Uuid (pathAt h y) ∨ Emits h xs ys item := by
  unfold Emits
  constructor
  · rintro (⟨a, ha, h1, h2⟩ | ⟨b, hb, h1, h2⟩ | ⟨a, ha, b, hb, h1, h2, h3⟩)
    · exact Or.inr (Or.inl ⟨a, ha, fun b hb => h1 b (List.mem_cons_of_mem _ hb), h2⟩)
    · rcases List.mem_cons.mp hb with rfl | hb
      · exact Or.inl h2
      · exact Or.inr (Or.inr (Or.inl ⟨b, hb, h1, h2⟩))
    · rcases List.mem_cons.mp hb with rfl | hb
      · exact absurd h1 (hy a ha)
      · exact Or.inr (Or.inr (Or.inr ⟨a, ha, b, hb, h1, h2, h3⟩))
  · rintro (h2 | ⟨a, ha, h1, h2⟩ | ⟨b, hb, h1, h2⟩ | ⟨a, ha, b, hb, h1, h2, h3⟩)
    · exact Or.inr (Or.inl ⟨y, List.mem_cons_self _ _, hy, h2⟩)
    · refine Or.inl ⟨a, ha, fun b hb => ?_, h2⟩
      rcases List.mem_cons.mp hb with rfl | hb
      · exact (hy a ha).symm
      · exact h1 b hb
    · exact Or.inr (Or.inl ⟨b, List.mem_cons_of_mem _ hb, h1, h2⟩)
    · exact Or.inr (Or.inr ⟨a, ha, b, List.mem_cons_of_mem _ hb, h1, h2, h3⟩)

theorem Emits_cons_both (h : Heap) (x y : Addr) (xs ys : List Addr) (item : DiffItem)
    (hxy : (h.cells x).Uuid = (h.cells y).Uuid)
    (hx : ∀ a ∈ xs, (h.cells a).Uuid ≠ (h.cells x).Uuid)
    (hy : ∀ b ∈ ys, (h.cells b).Uuid ≠ (h.cells y).Uuid) :
    Emits h (x :: xs) (y :: ys) item ↔
      (unequal h x y = true ∧
        item = .DiffModified (h.cells x).Uuid (pathAt h x) (pathAt h y)) ∨
      Emits h xs ys item := by
  unfold Emits
  constructor
  · rintro (⟨a, ha, h1, h2⟩ | ⟨b, hb, h1, h2⟩ | ⟨a, ha, b, hb, h1, h2, h3⟩)
    · rcases List.mem_cons.mp ha with rfl | ha
      · exact absurd hxy.symm (h1 y (List.mem_cons_self _ _))
      · exact Or.inr (Or.inl ⟨a, ha, fun b hb => h1 b (List.mem_cons_of_mem _ hb), h2⟩)
    · rcases List.mem_cons.mp hb with rfl | hb
      · exact absurd hxy (h1 x (List.mem_cons_self _ _))
      · exact Or.inr (Or.inr (Or.inl ⟨b, hb, fun a ha => h1 a (List.mem_cons_of_mem _ ha), h2⟩))
    · rcases List.mem_cons.mp ha with rfl | ha
      · rcases List.mem_cons.mp hb with rfl | hb
        · exact Or.inl ⟨h2, h3⟩
        · exact absurd (hxy.symm.trans h1).symm (hy b hb)
      · rcases List.mem_cons.mp hb with rfl | hb
        · exact absurd (h1.trans hxy.symm) (hx a ha)
        · exact Or.inr (Or.inr (Or.inr ⟨a, ha, b, hb, h1, h2, h3⟩))
  · rintro (⟨h2, h3⟩ | ⟨a, ha, h1, h2⟩ | ⟨b, hb, h1, h2⟩ | ⟨a, ha, b, hb, h1, h2, h3⟩)
    · exact Or.inr (Or.inr ⟨x, List.mem_cons_self _ _, y, List.mem_cons_self _ _, hxy, h2, h3⟩)
    · refine Or.inl ⟨a, List.mem_cons_of_mem _ ha, fun b hb => ?_, h2⟩
      rcases List.mem_cons.mp hb with rfl | hb
      · exact fun e => hx a ha (e.symm.trans hxy.symm)
      · exact h1 b hb
    · refine Or.inr (Or.inl ⟨b, List.mem_cons_of_mem _ hb, fun a ha => ?_, h2⟩)
      rcases List.mem_cons.mp ha with rfl | ha
      · exact fun e => hy b hb (e.symm.trans hxy).symm.symm
      · exact h1 a ha
    · exact Or.inr (Or.inr ⟨a, List.mem_cons_of_mem _ ha, b, List.mem_cons_of_mem _ hb,
        h1, h2, h3⟩)

theorem UuidLt_ne {a b : Uuid} (h : UuidLt a b) : a ≠ b := fun e => UuidLt_irrefl a (e ▸ h)

theorem itemsStep_mem (h : Heap) (x : Addr) (xs : List Addr) (rest : List Addr → List DiffItem)
    (hx : ∀ a ∈ xs, UuidLt (h.cells x).Uuid (h.cells a).Uuid)
    (hrest : ∀ ys, SortedNodes h ys → ∀ item, item ∈ rest ys ↔ Emits h xs ys item)
    (ys : List Addr) (hy : SortedNodes h ys) (item : DiffItem) :
    item ∈ itemsStep h x rest ys ↔ Emits h (x :: xs) ys item := by
  induction ys with
  | nil =>
    rw [Emits_cons_left h x xs [] item (by simp)]
    simp only [itemsStep, List.mem_cons, hrest [] hy]
  | cons y ys ih =>
    have hy' : SortedNodes h ys := (List.pairwise_cons.mp hy).2
    have hyl : ∀ b ∈ ys, UuidLt (h.cells y).Uuid (h.cells b).Uuid := (List.pairwise_cons.mp hy).1
    simp only [itemsStep]
    by_cases hu : (h.cells x).Uuid = (h.cells y).Uuid
    · rw [Emits_cons_both h x y xs ys item hu (fun a ha => (UuidLt_ne (hx a ha)).symm)
        (fun b hb => (UuidLt_ne (hyl b hb)).symm)]
      simp only [hu, if_true]
      by_cases hne : unequal h x y = true
      · simp only [hne, if_true, List.mem_cons, hrest ys hy', true_and, hu]
      · have hf : unequal h x y = false := by simpa using hne
        simp only [hf, Bool.false_eq_true, if_false, false_and, false_or]
        exact hrest ys hy' item
    · simp only [hu, if_false]
      by_cases hlt : CompareUuids (h.cells x).Uuid (h.cells y).Uuid < 0
      · simp only [hlt, if_true, List.mem_cons, hrest (y :: ys) hy]
        rw [Emits_cons_left h x xs (y :: ys) item]
        intro b hb
        rcases List.mem_cons.mp hb with rfl | hb
        · exact fun e => hu e.symm
        · exact (UuidLt_ne (UuidLt_trans hlt (hyl b hb))).symm
      · have hgt : UuidLt (h.cells y).Uuid (h.cells x).Uuid := UuidLt_of_not hu hlt
        simp only [hlt, if_false, List.mem_cons, ih hy']
        rw [Emits_cons_right h y (x :: xs) ys item]
        intro a ha
        rcases List.mem_cons.mp ha with rfl | ha
        · exact hu
        · exact (UuidLt_ne (UuidLt_trans hgt (hx a ha))).symm

theorem itemsWalk_mem (h : Heap) (xs ys : List Addr) (hx : SortedNodes h xs)
    (hy : SortedNodes h ys) (item : DiffItem) :
    item ∈ itemsWalk h xs ys ↔ Emits h xs ys item := by
  induction xs generalizing ys item with
  | nil =>
    simp only [itemsWalk, Emits, List.mem_map, List.not_mem_nil, false_and, exists_false,
      false_or, or_false, IsEmpty.forall_iff, implies_true, true_and]
    constructor
    · rintro ⟨b, hb, rfl⟩; exact ⟨b, hb, rfl⟩
    · rintro ⟨b, hb, rfl⟩; exact ⟨b, hb, rfl⟩
  | cons x xs ih =>
    simp only [itemsWalk]
    exact itemsStep_mem h x xs (itemsWalk h xs) (List.pairwise_cons.mp hx).1
      (fun ys hy item => ih ys (List.pairwise_cons.mp hx).2 hy item) ys hy item

theorem Emits_uuid {h : Heap} {xs ys : List Addr} {item : DiffItem} (e : Emits h xs ys item) :
    (∃ a ∈ xs, item.uuid = (h.cells a).Uuid) ∨ (∃ b ∈ ys, item.uuid = (h.cells b).Uuid) := by
  rcases e with ⟨a, ha, _, rfl⟩ | ⟨b, hb, _, rfl⟩ | ⟨a, ha, b, _, _, _, rfl⟩
  · exact Or.inl ⟨a, ha, rfl⟩
  · exact Or.inr ⟨b, hb, rfl⟩
  · exact Or.inl ⟨a, ha, rfl⟩

theorem itemsStep_sorted (h : Heap) (x : Addr) (xs : List Addr)
    (rest : List Addr → List DiffItem)
    (hx : ∀ a ∈ xs, UuidLt (h.cells x).Uuid (h.cells a).Uuid)
    (hrest : ∀ ys, SortedNodes h ys → ∀ item, item ∈ rest ys ↔ Emits h xs ys item)
    (hsorted : ∀ ys, SortedNodes h ys →
      (rest ys).Pairwise (fun i j => UuidLt i.uuid j.uuid))
    (ys : List Addr) (hy : SortedNodes h ys) :
    (itemsStep h x rest ys).Pairwise (fun i j => UuidLt i.uuid j.uuid) := by
  induction ys with
  | nil =>
    simp only [itemsStep]
    refine List.pairwise_cons.mpr ⟨fun item hi => ?_, hsorted [] hy⟩
    rcases Emits_uuid ((hrest [] hy item).mp hi) with ⟨a, ha, e⟩ | ⟨b, hb, _⟩
    · rw [e]; exact hx a ha
    · simp at hb
  | cons y ys ih =>
    have hy' : SortedNodes h ys := (List.pairwise_cons.mp hy).2
    have hyl : ∀ b ∈ ys, UuidLt (h.cells y).Uuid (h.cells b).Uuid := (List.pairwise_cons.mp hy).1
    simp only [itemsStep]
    by_cases hu : (h.cells x).Uuid = (h.cells y).Uuid
    · simp only [hu, if_true]
      by_cases hne : unequal h x y = true
      · simp only [hne, if_true]
        refine List.pairwise_cons.mpr ⟨fun item hi => ?_, hsorted ys hy'⟩
        rcases Emits_uuid ((hrest ys hy' item).mp hi) with ⟨a, ha, e⟩ | ⟨b, hb, e⟩
        · rw [e, ← hu]; exact hx a ha
        · rw [e]; exact hyl b hb
      · have hf : unequal h x y = false := by simpa using hne
        simp only [hf, Bool.false_eq_true, if_false]
        exact hsorted ys hy'
    · simp only [hu, if_false]
      by_cases hlt : CompareUuids (h.cells x).Uuid (h.cells y).Uuid < 0
      · simp only [hlt, if_true]
        refine List.pairwise_cons.mpr ⟨fun item hi => ?_, hsorted (y :: ys) hy⟩
        rcases Emits_uuid ((hrest (y :: ys) hy item).mp hi) with ⟨a, ha, e⟩ | ⟨b, hb, e⟩
        · rw [e]; exact hx a ha
        · rw [e]
          rcases List.mem_cons.mp hb with rfl | hb
          · exact hlt
          · exact UuidLt_trans hlt (hyl b hb)
      · have hgt : UuidLt (h.cells y).Uuid (h.cells x).Uuid := UuidLt_of_not hu hlt
        simp only [hlt, if_false]
        refine List.pairwise_cons.mpr ⟨fun item hi => ?_, ih hy'⟩
        rcases Emits_uuid ((itemsStep_mem h x xs rest hx hrest ys hy' item).mp hi) with
          ⟨a, ha, e⟩ | ⟨b, hb, e⟩
        · rw [e]
          rcases List.mem_cons.mp ha with rfl | ha
          · exact hgt
          · exact UuidLt_trans hgt (hx a ha)
        · rw [e]; exact hyl b hb

theorem itemsWalk_sorted (h : Heap) (xs ys : List Addr) (hx : SortedNodes h xs)
    (hy : SortedNodes h ys) :
    (itemsWalk h xs ys).Pairwise (fun i j => UuidLt i.uuid j.uuid) := by
  induction xs generalizing ys with
  | nil =>
    simp only [itemsWalk]
    rw [List.pairwise_map]
    exact hy
  | cons x xs ih =>
    simp only [itemsWalk]
    exact itemsStep_sorted h x xs (itemsWalk h xs) (List.pairwise_cons.mp hx).1
      (fun ys hy item => itemsWalk_mem h xs ys (List.pairwise_cons.mp hx).2 hy item)
      (fun ys hy => ih ys (List.pairwise_cons.mp hx).2 hy) ys hy

/-! ## Sorting the node lists -/

theorem sortInsert_mem (h : Heap) (a b : Addr) (l : List Addr) :
    b ∈ sortInsert h a l ↔ b = a ∨ b ∈ l := by
  induction l with
  | nil => simp [sortInsert]
  | cons c cs ih =>
    simp only [sortInsert]
    split_ifs
    · simp only [List.mem_cons, ih]; tauto
    · simp only [List.mem_cons]

theorem sortNodes_mem (h : Heap) (b : Addr) (l : List Addr) : b ∈ sortNodes h l ↔ b ∈ l := by
  induction l with
  | nil => simp [sortNodes]
  | cons c cs ih => simp only [sortNodes, sortInsert_mem, ih, List.mem_cons]

theorem sortInsert_sorted (h : Heap) (a : Addr) (l : List Addr) (hl : SortedNodes h l)
    (ha : ∀ b ∈ l, (h.cells b).Uuid ≠ (h.cells a).Uuid) : SortedNodes h (sortInsert h a l) := by
  induction l with
  | nil => simp [sortInsert, SortedNodes]
  | cons c cs ih =>
    have hc := List.pairwise_cons.mp hl
    simp only [sortInsert, nodeLess]
    by_cases hlt : CompareUuids (h.cells c).Uuid (h.cells a).Uuid < 0
    · simp only [hlt, decide_True, if_true]
      refine List.pairwise_cons.mpr ⟨fun b hb => ?_, ih hc.2 (fun b hb => ha b (List.mem_cons_of_mem _ hb))⟩
      rcases (sortInsert_mem h a b cs).mp hb with rfl | hb
      · exact hlt
      · exact hc.1 b hb
    · simp only [hlt, decide_False, Bool.false_eq_true, if_false]
      have hgt : UuidLt (h.cells a).Uuid (h.cells c).Uuid :=
        UuidLt_of_not (ha c (List.mem_cons_self _ _)) hlt
      refine List.pairwise_cons.mpr ⟨fun b hb => ?_, hl⟩
      rcases List.mem_cons.mp hb with rfl | hb
      · exact hgt
      · exact UuidLt_trans hgt (hc.1 b hb)

theorem sortNodes_sorted (h : Heap) (l : List Addr)
    (hl : (l.map (fun a => (h.cells a).Uuid)).Nodup) : SortedNodes h (sortNodes h l) := by
  induction l with
  | nil => simp [sortNodes, SortedNodes]
  | cons c cs ih =>
    simp only [List.map_cons, List.nodup_cons, List.mem_map, not_exists, not_and] at hl
    simp only [sortNodes]
    refine sortInsert_sorted h c _ (ih hl.2) (fun b hb => ?_)
    exact hl.1 b ((sortNodes_mem h b cs).mp hb)

/-! ## The items `Diff` sends -/

theorem mem_toDiffSlice (ft : FileTree) (a : Addr) :
    a ∈ toDiffSlice ft ↔ ∃ u, ft.nodes.lookup u = some a := by
  unfold toDiffSlice
  simp only [List.mem_map]
  constructor
  · rintro ⟨⟨u, b⟩, he, rfl⟩
    exact ⟨u, Option.mem_def.mp (AList.mem_lookup_iff.mpr he)⟩
  · rintro ⟨u, hu⟩
    exact ⟨⟨u, a⟩, AList.mem_lookup_iff.mp (Option.mem_def.mpr hu), rfl⟩

theorem toDiffSlice_uuids {h : Heap} {ft : FileTree} (hk : Keyed h ft) :
    (toDiffSlice ft).map (fun a => (h.cells a).Uuid) = ft.nodes.keys := by
  unfold toDiffSlice AList.keys List.keys
  rw [List.map_map]
  apply List.map_congr_left
  rintro ⟨u, a⟩ he
  exact hk u a (Option.mem_def.mp (AList.mem_lookup_iff.mpr he))

theorem sortedSlice {h : Heap} {ft : FileTree} (hk : Keyed h ft) :
    SortedNodes h (sortNodes h (toDiffSlice ft)) :=
  sortNodes_sorted h _ (by rw [toDiffSlice_uuids hk]; exact ft.nodes.keys_nodup)

theorem mem_sortedSlice {h : Heap} {ft : FileTree} (hk : Keyed h ft) (a : Addr) :
    a ∈ sortNodes h (toDiffSlice ft) ↔ ft.nodes.lookup (h.cells a).Uuid = some a := by
  rw [sortNodes_mem, mem_toDiffSlice]
  constructor
  · rintro ⟨u, hu⟩
    rw [hk u a hu]; exact hu
  · exact fun hu => ⟨_, hu⟩

theorem absent_iff {h : Heap} {ft : FileTree} (hk : Keyed h ft) (u : Uuid) :
    (∀ y ∈ sortNodes h (toDiffSlice ft), (h.cells y).Uuid ≠ u) ↔ GetNode h ft u = none := by
  unfold GetNode
  constructor
  · intro hall
    cases hl : ft.nodes.lookup u with
    | none => rfl
    | some a =>
      exact absurd (hk u a hl) (hall a ((mem_sortedSlice hk a).mpr (by rw [hk u a hl]; exact hl)))
  · intro hn y hy e
    have := (mem_sortedSlice hk y).mp hy
    rw [e] at this
    simp [this] at hn

theorem pathIn_eq (h : Heap) (ft : FileTree) (u : Uuid) (p : String) :
    pathIn h ft u = some p ↔ ∃ a, ft.nodes.lookup u = some a ∧ pathOf h a = some p := by
  unfold pathIn GetPath pathOf
  cases hl : ft.nodes.lookup u with
  | none => simp
  | some a =>
    cases hg : nodeGetPath h a with
    | none => simp [hg]
    | some r => obtain ⟨h1, q⟩ := r; simp [hg]

theorem pathAt_of_pathOf {h : Heap} {a : Addr} {p : String} (hp : pathOf h a = some p) :
    pathAt h a = p := by simp [pathAt, hp]

theorem pathOf_of_returns {h : Heap} {ft : FileTree} (hp : PathsReturn h ft) {u : Uuid}
    {a : Addr} (hl : ft.nodes.lookup u = some a) : pathOf h a = some (pathAt h a) := by
  have := hp u a hl
  unfold pathAt pathOf
  cases hg : nodeGetPath h a with
  | none => simp [hg] at this
  | some r => simp

theorem unequal_iff (h : Heap) (x y : Addr) :
    unequal h x y = true ↔
      ((h.cells x).Modtime ≠ (h.cells y).Modtime ∨ getParentUuid h x ≠ getParentUuid h y ∨
        (h.cells x).IsDir ≠ (h.cells y).IsDir ∨ (h.cells x).Hash ≠ (h.cells y).Hash) := by
  unfold unequal
  by_cases h1 : (h.cells x).Modtime = (h.cells y).Modtime <;>
  by_cases h2 : getParentUuid h x = getParentUuid h y <;>
  by_cases h3 : (h.cells x).IsDir = (h.cells y).IsDir <;>
  by_cases h4 : (h.cells x).Hash = (h.cells y).Hash <;>
  simp [h1, h2, h3, h4]

theorem Emits_iff_Sends {h : Heap} {is should : FileTree} (hk1 : Keyed h is)
    (hk2 : Keyed h should) (hp1 : PathsReturn h is) (hp2 : PathsReturn h should)
    (item : DiffItem) :
    Emits h (sortNodes h (toDiffSlice is)) (sortNodes h (toDiffSlice should)) item ↔
      Sends h is should item := by
  unfold Emits Sends
  constructor
  · rintro (⟨x, hx, hn, rfl⟩ | ⟨y, hy, hn, rfl⟩ | ⟨x, hx, y, hy, hu, hne, rfl⟩)
    · have hl := (mem_sortedSlice hk1 x).mp hx
      exact Or.inl ⟨_, _, (pathIn_eq _ _ _ _).mpr ⟨x, hl, pathOf_of_returns hp1 hl⟩,
        (absent_iff hk2 _).mp hn, rfl⟩
    · have hl := (mem_sortedSlice hk2 y).mp hy
      exact Or.inr (Or.inl ⟨_, _, (pathIn_eq _ _ _ _).mpr ⟨y, hl, pathOf_of_returns hp2 hl⟩,
        (absent_iff hk1 _).mp hn, rfl⟩)
    · have hl1 := (mem_sortedSlice hk1 x).mp hx
      have hl2 := (mem_sortedSlice hk2 y).mp hy
      rw [← hu] at hl2
      refine Or.inr (Or.inr ⟨_, _, _, _, _,
        (pathIn_eq _ _ _ _).mpr ⟨x, hl1, pathOf_of_returns hp1 hl1⟩,
        (pathIn_eq _ _ _ _).mpr ⟨y, hl2, pathOf_of_returns hp2 hl2⟩,
        by unfold GetNode; rw [hl1], by unfold GetNode; rw [hl2], ?_, rfl⟩)
      exact (unequal_iff h x y).mp hne
  · rintro (⟨u, p, hp, hn, rfl⟩ | ⟨u, p, hp, hn, rfl⟩ | ⟨u, p, q, n, m, hp, hq, hn, hm, hne, rfl⟩)
    · obtain ⟨x, hl, hpx⟩ := (pathIn_eq _ _ _ _).mp hp
      have hux := hk1 u x hl
      refine Or.inl ⟨x, (mem_sortedSlice hk1 x).mpr (by rw [hux]; exact hl), ?_, ?_⟩
      · rw [hux]; exact (absent_iff hk2 u).mpr hn
      · rw [hux, pathAt_of_pathOf hpx]
    · obtain ⟨y, hl, hpy⟩ := (pathIn_eq _ _ _ _).mp hp
      have huy := hk2 u y hl
      refine Or.inr (Or.inl ⟨y, (mem_sortedSlice hk2 y).mpr (by rw [huy]; exact hl), ?_, ?_⟩)
      · rw [huy]; exact (absent_iff hk1 u).mpr hn
      · rw [huy, pathAt_of_pathOf hpy]
    · obtain ⟨x, hl1, hpx⟩ := (pathIn_eq _ _ _ _).mp hp
      obtain ⟨y, hl2, hpy⟩ := (pathIn_eq _ _ _ _).mp hq
      have hux := hk1 u x hl1
      have huy := hk2 u y hl2
      refine Or.inr (Or.inr ⟨x, (mem_sortedSlice hk1 x).mpr (by rw [hux]; exact hl1),
        y, (mem_sortedSlice hk2 y).mpr (by rw [huy]; exact hl2), by rw [hux, huy], ?_, ?_⟩)
      · simp only [GetNode, hl1, hl2, Option.some.injEq] at hn hm
        subst hn; subst hm
        exact (unequal_iff h x y).mpr hne
      · rw [hux, pathAt_of_pathOf hpx, pathAt_of_pathOf hpy]

theorem Diff_eq_itemsWalk {h : Heap} {is should : FileTree}
    (hp1 : PathsReturn h is) (hp2 : PathsReturn h should) :
    ∃ h1, Diff h is should =
      some (h1, itemsWalk h (sortNodes h (toDiffSlice is)) (sortNodes h (toDiffSlice should))) ∧
      PathEq h h1 := by
  unfold Diff diff
  refine diffWalk_eq h _ _ h (PathEq_refl h) (fun a ha => ?_) (fun b hb => ?_)
  · obtain ⟨u, hu⟩ := (mem_toDiffSlice is a).mp ((sortNodes_mem h a _).mp ha)
    simpa [pathOf] using hp1 u a hu
  · obtain ⟨u, hu⟩ := (mem_toDiffSlice should b).mp ((sortNodes_mem h b _).mp hb)
    simpa [pathOf] using hp2 u b hu

theorem Keyed_of_entries {h : Heap} {ft : FileTree}
    (hall : ∀ e ∈ ft.nodes.entries, (h.cells e.2).Uuid = e.1) : Keyed h ft :=
  fun u a hl => hall ⟨u, a⟩ (AList.mem_lookup_iff.mp (Option.mem_def.mpr hl))

theorem PathsReturn_of_entries {h : Heap} {ft : FileTree}
    (hall : ∀ e ∈ ft.nodes.entries, (nodeGetPath h e.2).isSome = true) : PathsReturn h ft :=
  fun u a hl => hall ⟨u, a⟩ (AList.mem_lookup_iff.mp (Option.mem_def.mpr hl))
/-! ## `invalidatePathCache` -/

theorem Cleared_refl (h : Heap) : Cleared h h := ⟨SameNodes_refl h, fun _ => Or.inr rfl⟩

theorem Cleared_trans {h h1 h2 : Heap} (a : Cleared h h1) (b : Cleared h1 h2) :
    Cleared h h2 := by
  refine ⟨SameNodes_trans a.1 b.1, fun x => ?_⟩
  rcases b.2 x with e | e
  · exact Or.inl e
  · rw [e]; exact a.2 x

theorem Cleared_setPath (h : Heap) (a : Addr) :
    Cleared h (h.set a { h.cells a with path := "" }) := by
  refine ⟨SameNodes_setPath h a "", fun b => ?_⟩
  by_cases hb : b = a
  · subst hb; left; simp
  · right; rw [Heap_set_cells_ne _ _ hb]

theorem Reach_of_children {h h1 : Heap}
    (hc : ∀ a, (h1.cells a).Children = (h.cells a).Children) {a b : Addr}
    (r : Reach h a b) : Reach h1 a b := by
  refine Relation.ReflTransGen.mono (fun x y hxy => ?_) r
  unfold ChildRel at *
  rw [hc x]; exact hxy

theorem invalidate_fold_spec (fuel : Nat)
    (ih : ∀ h a h1, invalidatePathCacheAux fuel h a = some h1 →
      Cleared h h1 ∧ ∀ b, Reach h a b → (h1.cells b).path = "")
    (cs : List Addr) (h h1 : Heap)
    (hf : cs.foldlM (fun acc child => invalidatePathCacheAux fuel acc child) h = some h1) :
    Cleared h h1 ∧ ∀ c ∈ cs, ∀ b, Reach h c b → (h1.cells b).path = "" := by
  induction cs generalizing h with
  | nil =>
    simp only [List.foldlM_nil, Option.pure_def, Option.some.injEq] at hf
    subst hf
    exact ⟨Cleared_refl h, by simp⟩
  | cons c cs ihl =>
    simp only [List.foldlM_cons, Option.bind_eq_bind, Option.bind_eq_some] at hf
    obtain ⟨h2, hc, hrest⟩ := hf
    obtain ⟨c1, r1⟩ := ih h c h2 hc
    obtain ⟨c2, r2⟩ := ihl h2 hrest
    refine ⟨Cleared_trans c1 c2, fun c' hc' b hb => ?_⟩
    rcases List.mem_cons.mp hc' with rfl | hc'
    · rcases c2.2 b with e | e
      · exact e
      · rw [e]; exact r1 b hb
    · exact r2 c' hc' b (Reach_of_children (fun a => SameNodes_children c1.1 a) hb)

/-- What `invalidatePathCache` does when it returns: it only resets memoised
paths, and it resets the path of every node reached through child lists. -/
theorem invalidateAux_spec (fuel : Nat) (h : Heap) (a : Addr) (h1 : Heap)
    (hi : invalidatePathCacheAux fuel h a = some h1) :
    Cleared h h1 ∧ ∀ b, Reach h a b → (h1.cells b).path = "" := by
  induction fuel generalizing h a h1 with
  | zero => simp [invalidatePathCacheAux] at hi
  | succ n ih =>
    simp only [invalidatePathCacheAux] at hi
    have c0 := Cleared_setPath h a
    obtain ⟨c1, r1⟩ := invalidate_fold_spec n ih _ _ _ hi
    refine ⟨Cleared_trans c0 c1, fun b hb => ?_⟩
    rcases Relation.ReflTransGen.cases_head hb with rfl | ⟨c, hac, hcb⟩
    · rcases c1.2 a with e | e
      · exact e
      · rw [e]; simp
    · exact r1 c hac b (Reach_of_children (fun x => SameNodes_children c0.1 x) hcb)

theorem invalidate_spec {h : Heap} {a : Addr} {h1 : Heap}
    (hi : invalidatePathCache h a = some h1) :
    Cleared h h1 ∧ ∀ b, Reach h a b → (h1.cells b).path = "" :=
  invalidateAux_spec _ h a h1 hi

/-! ## Parent chains and child lists -/

theorem InMap_unique {h : Heap} {ft : FileTree} (hk : Keyed h ft) {a b : Addr}
    (ha : InMap ft a) (hb : InMap ft b) (e : (h.cells a).Uuid = (h.cells b).Uuid) : a = b := by
  obtain ⟨u, hu⟩ := ha
  obtain ⟨v, hv⟩ := hb
  have h1 := hk u a hu
  have h2 := hk v b hv
  rw [h1, h2] at e
  subst e
  rw [hu] at hv
  exact Option.some.inj hv

theorem InMap_lookup {h : Heap} {ft : FileTree} (hk : Keyed h ft) {a : Addr}
    (ha : InMap ft a) : ft.nodes.lookup (h.cells a).Uuid = some a := by
  obtain ⟨u, hu⟩ := ha
  rw [hk u a hu]; exact hu

/-- `getPathParts` reads the name and the parent of the nodes on the chain only. -/
theorem getPathPartsAux_chain {h h1 : Heap} (fuel : Nat) (a : Addr)
    (hsame : ∀ x, OnChain h a x → (h1.cells x).Name = (h.cells x).Name ∧
      (h1.cells x).Parent = (h.cells x).Parent) :
    getPathPartsAux fuel h1 a = getPathPartsAux fuel h a := by
  induction fuel generalizing a with
  | zero => rfl
  | succ n ih =>
    obtain ⟨hn, hp⟩ := hsame a Relation.ReflTransGen.refl
    simp only [getPathPartsAux, hp, hn]
    cases hpar : (h.cells a).Parent with
    | none => rfl
    | some p =>
      simp only []
      rw [ih p (fun x hx => hsame x (Relation.ReflTransGen.head hpar hx))]

theorem getPathPartsAux_mono {h : Heap} {fuel : Nat} {a : Addr} {parts : List String}
    (hp : getPathPartsAux fuel h a = some parts) (k : Nat) :
    getPathPartsAux (fuel + k) h a = some parts := by
  induction fuel generalizing a parts with
  | zero => simp [getPathPartsAux] at hp
  | succ n ih =>
    rw [Nat.add_right_comm]
    simp only [getPathPartsAux] at hp ⊢
    cases hpar : (h.cells a).Parent with
    | none => simpa [hpar] using hp
    | some p =>
      simp only [hpar, Option.map_eq_some'] at hp ⊢
      obtain ⟨l, hl, rfl⟩ := hp
      exact ⟨l, ih hl, rfl⟩

/-- A node of the tree is reached through child lists from every node on its
parent chain, in any heap `h2` that still lists the chain's nodes as children. -/
theorem Reach_of_OnChain {h h2 : Heap} {ft : FileTree} (Q : Addr → Prop)
    (hstep : ∀ m p, InMap ft m → Q m → (h.cells m).Parent = some p →
      InMap ft p ∧ Q p ∧ m ∈ (h2.cells p).Children)
    {m q : Addr} (hm : InMap ft m) (hq : Q m) (hc : OnChain h m q) : Reach h2 q m := by
  induction hc using Relation.ReflTransGen.head_induction_on with
  | refl => exact Relation.ReflTransGen.refl
  | head hpar _ ih =>
    obtain ⟨hp, hqp, hmem⟩ := hstep _ _ hm hq hpar
    exact Relation.ReflTransGen.tail (ih hp hqp) hmem

theorem Reach_of_OnChain_inv {h : Heap} {ft : FileTree} {x : Option Addr}
    (hi : InvX h ft x) {m q : Addr} (hm : InMap ft m)
    (hx : ∀ n, x = some n → ¬ OnChain h m n) (hc : OnChain h m q) : Reach h q m :=
  Reach_of_OnChain (fun m => ∀ n, x = some n → ¬ OnChain h m n)
    (fun m p hm hq hpar => ⟨hi.parentIn m hm p hpar,
      fun n hn hpn => hq n hn (Relation.ReflTransGen.head hpar hpn),
      hi.childListed m hm (fun e => hq m e Relation.ReflTransGen.refl) p hpar⟩)
    hm hx hc

theorem OnChain_of_frame {h h1 : Heap} {m y : Addr}
    (hsame : ∀ x, OnChain h m x → (h1.cells x).Parent = (h.cells x).Parent)
    (hc : OnChain h1 m y) : OnChain h m y := by
  induction hc with
  | refl => exact Relation.ReflTransGen.refl
  | tail _ hpar ih =>
    refine Relation.ReflTransGen.tail ih ?_
    unfold ParentRel at *
    rw [← hsame _ ih]; exact hpar

/-- The memoised paths stay valid when the name and the parent change only at
nodes that are on the parent chain of no node with a memoised path. -/
theorem cacheValid_of_frame {h h1 : Heap} {ft ft1 : FileTree} {x : Option Addr}
    (hi : InvX h ft x)
    (hframe : ∀ m, InMap ft1 m → (h1.cells m).path ≠ "" →
      InMap ft m ∧ (h1.cells m).path = (h.cells m).path ∧
      ∀ x, OnChain h m x → (h1.cells x).Name = (h.cells x).Name ∧
        (h1.cells x).Parent = (h.cells x).Parent)
    (m : Addr) (hm : InMap ft1 m) (hp : (h1.cells m).path ≠ "") :
    ∃ fuel parts, getPathPartsAux fuel h1 m = some parts ∧
      (h1.cells m).path = "/".intercalate parts := by
  obtain ⟨hm0, hpath, hch⟩ := hframe m hm hp
  obtain ⟨fuel, parts, hparts, hj⟩ := hi.cacheValid m hm0 (by rw [← hpath]; exact hp)
  exact ⟨fuel, parts, by rw [getPathPartsAux_chain fuel m hch]; exact hparts,
    by rw [hpath]; exact hj⟩

theorem detached_of_frame {h h1 : Heap} {ft ft1 : FileTree} {x : Option Addr}
    (hi : InvX h ft x)
    (hframe : ∀ m, InMap ft1 m → (h1.cells m).path ≠ "" →
      InMap ft m ∧ (h1.cells m).path = (h.cells m).path ∧
      ∀ x, OnChain h m x → (h1.cells x).Name = (h.cells x).Name ∧
        (h1.cells x).Parent = (h.cells x).Parent)
    (m : Addr) (hm : InMap ft1 m) (n : Addr) (hx : x = some n) (hc : OnChain h1 m n) :
    (h1.cells m).path = "" := by
  by_contra hp
  obtain ⟨hm0, hpath, hch⟩ := hframe m hm hp
  have hc0 : OnChain h m n := OnChain_of_frame (fun y hy => (hch y hy).2) hc
  exact hp (by rw [hpath]; exact hi.detached m hm0 n hx hc0)

/-! ## The fields after `newNode` and `fillNode` -/

theorem newNode_cells_ne (h : Heap) (uuid : Uuid) {b : Addr} (hb : b ≠ h.next) :
    (newNode h uuid).cells b = h.cells b := by simp [newNode, hb]

theorem newNode_cells_next (h : Heap) (uuid : Uuid) :
    (newNode h uuid).cells h.next = { zeroNode with Uuid := uuid } := by simp [newNode]

theorem fillNode_next (h : Heap) (a : Addr) (item : FileTreeNode) (parent : Option Addr) :
    (fillNode h a item parent).next = h.next := by
  unfold fillNode; cases parent <;> rfl

theorem fillNode_uuid (h : Heap) (a : Addr) (item : FileTreeNode) (parent : Option Addr)
    (b : Addr) : ((fillNode h a item parent).cells b).Uuid = (h.cells b).Uuid := by
  unfold fillNode
  cases parent with
  | none => simp only [Heap.set]; split_ifs <;> simp_all
  | some p => simp only [Heap.set]; split_ifs <;> simp_all

theorem fillNode_path (h : Heap) (a : Addr) (item : FileTreeNode) (parent : Option Addr)
    (b : Addr) : ((fillNode h a item parent).cells b).path = (h.cells b).path := by
  unfold fillNode
  cases parent with
  | none => simp only [Heap.set]; split_ifs <;> simp_all
  | some p => simp only [Heap.set]; split_ifs <;> simp_all

theorem fillNode_parent (h : Heap) (a : Addr) (item : FileTreeNode) (parent : Option Addr)
    (b : Addr) :
    ((fillNode h a item parent).cells b).Parent = if b = a then parent else (h.cells b).Parent := by
  unfold fillNode
  cases parent with
  | none => simp only [Heap.set]; split_ifs <;> simp_all
  | some p => simp only [Heap.set]; split_ifs <;> simp_all

theorem fillNode_name (h : Heap) (a : Addr) (item : FileTreeNode) (parent : Option Addr)
    (b : Addr) :
    ((fillNode h a item parent).cells b).Name = if b = a then item.Name else (h.cells b).Name := by
  unfold fillNode
  cases parent with
  | none => simp only [Heap.set]; split_ifs <;> simp_all
  | some p => simp only [Heap.set]; split_ifs <;> simp_all

theorem fillNode_isDir (h : Heap) (a : Addr) (item : FileTreeNode) (parent : Option Addr)
    (b : Addr) :
    ((fillNode h a item parent).cells b).IsDir =
      if b = a then item.IsDir else (h.cells b).IsDir := by
  unfold fillNode
  cases parent with
  | none => simp only [Heap.set]; split_ifs <;> simp_all
  | some p => simp only [Heap.set]; split_ifs <;> simp_all

theorem fillNode_hash (h : Heap) (a : Addr) (item : FileTreeNode) (parent : Option Addr)
    (b : Addr) :
    ((fillNode h a item parent).cells b).Hash = if b = a then item.Hash else (h.cells b).Hash := by
  unfold fillNode
  cases parent with
  | none => simp only [Heap.set]; split_ifs <;> simp_all
  | some p => simp only [Heap.set]; split_ifs <;> simp_all

theorem fillNode_modtime (h : Heap) (a : Addr) (item : FileTreeNode) (parent : Option Addr)
    (b : Addr) :
    ((fillNode h a item parent).cells b).Modtime =
      if b = a then item.Modtime else (h.cells b).Modtime := by
  unfold fillNode
  cases parent with
  | none => simp only [Heap.set]; split_ifs <;> simp_all
  | some p => simp only [Heap.set]; split_ifs <;> simp_all

theorem fillNode_children (h : Heap) (a : Addr) (item : FileTreeNode) (parent : Option Addr)
    (b : Addr) :
    ((fillNode h a item parent).cells b).Children =
      if parent = some b then (h.cells b).Children ++ [a] else (h.cells b).Children := by
  unfold fillNode
  cases parent with
  | none => simp only [Heap.set]; split_ifs <;> simp_all
  | some p => simp only [Heap.set]; split_ifs <;> simp_all

/-! ## `EnsureItems` keeps the invariant -/

theorem lookup_insert_eq (m : AList (fun _ : Uuid => Addr)) (k u : Uuid) (a : Addr) :
    (m.insert k a).lookup u = if u = k then some a else m.lookup u := by
  by_cases hu : u = k
  · subst hu; simp [AList.lookup_insert]
  · simp [hu, AList.lookup_insert_ne hu]

theorem OnChain_bound {h : Heap} {ft : FileTree} {d : Option Addr} (hi : InvX h ft d)
    {m x : Addr}
    (hm : m < h.next) (hc : OnChain h m x) : x < h.next := by
  induction hc with
  | refl => exact hm
  | tail _ hpar _ => exact hi.parentBound _ _ hpar

theorem ensureItem_new_inv {h : Heap} {ft : FileTree} {d : Option Addr} (hi : InvX h ft d)
    (item : FileTreeNode) (parent : Option Addr) (hpo : ParentOK h ft parent)
    (hl : ft.nodes.lookup item.Uuid = none) :
    InvX (fillNode (newNode h item.Uuid) h.next item parent)
      { nodes := ft.nodes.insert item.Uuid h.next } d := by
  have hlk : ∀ u, (ft.nodes.insert item.Uuid h.next).lookup u =
      if u = item.Uuid then some h.next else ft.nodes.lookup u :=
    fun u => lookup_insert_eq _ _ u _
  have hin : ∀ b, InMap { nodes := ft.nodes.insert item.Uuid h.next } b →
      b = h.next ∨ InMap ft b := by
    rintro b ⟨u, hu⟩
    rw [hlk] at hu
    by_cases e : u = item.Uuid
    · simp [e] at hu; exact Or.inl hu.symm
    · simp [e] at hu; exact Or.inr ⟨u, hu⟩
  have hin' : ∀ b, InMap ft b → InMap { nodes := ft.nodes.insert item.Uuid h.next } b := by
    rintro b ⟨u, hu⟩
    refine ⟨u, ?_⟩
    rw [hlk]
    have : u ≠ item.Uuid := fun e => by rw [e, hl] at hu; cases hu
    simp [this, hu]
  have hne : ∀ b, InMap ft b → b ≠ h.next := fun b hb => Nat.ne_of_lt (hi.bound b hb)
  have hpne : ∀ p, parent = some p → p ≠ h.next := fun p hp => hne p (hpo p hp).1
  have hcell : ∀ b, b ≠ h.next → (newNode h item.Uuid).cells b = h.cells b :=
    fun b hb => newNode_cells_ne h item.Uuid hb
  have hnew := newNode_cells_next h item.Uuid
  have hframe : ∀ m, InMap { nodes := ft.nodes.insert item.Uuid h.next } m →
      ((fillNode (newNode h item.Uuid) h.next item parent).cells m).path ≠ "" →
      InMap ft m ∧
      ((fillNode (newNode h item.Uuid) h.next item parent).cells m).path = (h.cells m).path ∧
      ∀ x, OnChain h m x →
        ((fillNode (newNode h item.Uuid) h.next item parent).cells x).Name = (h.cells x).Name ∧
        ((fillNode (newNode h item.Uuid) h.next item parent).cells x).Parent =
          (h.cells x).Parent := by
    intro m hm hp
    rw [fillNode_path] at hp
    have hmne : m ≠ h.next := by
      intro e
      rw [e, hnew] at hp
      simp [zeroNode] at hp
    have hmin : InMap ft m := by
      rcases hin m hm with rfl | hm
      · exact absurd rfl hmne
      · exact hm
    refine ⟨hmin, by rw [fillNode_path, hcell m hmne], fun x hx => ?_⟩
    have hxne : x ≠ h.next := Nat.ne_of_lt (OnChain_bound hi (hi.bound m hmin) hx)
    rw [fillNode_name, fillNode_parent]
    simp [hxne, hcell x hxne]
  refine ⟨?_, ?_, ?_, ?_, ?_, ?_, ?_, cacheValid_of_frame hi hframe,
    detached_of_frame hi hframe⟩
  · intro u b hu
    rw [fillNode_uuid]
    rw [hlk] at hu
    by_cases e : u = item.Uuid
    · simp [e] at hu; subst hu; rw [hnew, e]
    · simp [e] at hu
      rw [hcell b (hne b ⟨u, hu⟩)]
      exact hi.keyed u b hu
  · intro b hb
    rw [fillNode_next]
    show b < h.next + 1
    rcases hin b hb with rfl | hb
    · exact Nat.lt_succ_self _
    · exact Nat.lt_succ_of_lt (hi.bound b hb)
  · intro b p hp
    rw [fillNode_next]
    show p < h.next + 1
    rw [fillNode_parent] at hp
    by_cases e : b = h.next
    · simp [e] at hp
      exact Nat.lt_succ_of_lt (hi.bound p (hpo p hp).1)
    · simp [e, hcell b e] at hp
      exact Nat.lt_succ_of_lt (hi.parentBound b p hp)
  · intro b c hc
    rw [fillNode_next]
    show c < h.next + 1
    rw [fillNode_children] at hc
    have hold : c ∈ ((newNode h item.Uuid).cells b).Children → c < h.next + 1 := by
      intro hc
      by_cases e : b = h.next
      · rw [e, hnew] at hc; simp [zeroNode] at hc
      · rw [hcell b e] at hc
        exact Nat.lt_succ_of_lt (hi.childBound b c hc)
    split_ifs at hc
    · rcases List.mem_append.mp hc with hc | hc
      · exact hold hc
      · simp at hc; rw [hc]; exact Nat.lt_succ_self _
    · exact hold hc
  · intro b hb p hp
    rw [fillNode_parent] at hp
    by_cases e : b = h.next
    · simp [e] at hp
      exact hin' p (hpo p hp).1
    · simp [e, hcell b e] at hp
      rcases hin b hb with rfl | hb
      · exact absurd rfl e
      · exact hin' p (hi.parentIn b hb p hp)
  · intro b hb hdb p hp
    rw [fillNode_parent] at hp
    rw [fillNode_children]
    by_cases e : b = h.next
    · simp [e] at hp
      simp [hp, e]
    · simp [e, hcell b e] at hp
      rcases hin b hb with rfl | hb
      · exact absurd rfl e
      · have hpin := hi.parentIn b hb p hp
        have := hi.childListed b hb hdb p hp
        rw [hcell p (hne p hpin)]
        split_ifs
        · exact List.mem_append_left _ this
        · exact this
  · intro b hb p hp
    rw [fillNode_parent] at hp
    rw [fillNode_uuid]
    by_cases e : b = h.next
    · simp [e] at hp
      rw [hcell p (hpne p hp)]
      exact (hpo p hp).2
    · simp [e, hcell b e] at hp
      rcases hin b hb with rfl | hb
      · exact absurd rfl e
      · rw [hcell p (hne p (hi.parentIn b hb p hp))]
        exact hi.nilFree b hb p hp

theorem ensureItem_old_inv {h : Heap} {ft : FileTree} {d : Option Addr} (hi : InvX h ft d)
    (item : FileTreeNode) (parent : Option Addr) (hpo : ParentOK h ft parent) {a : Addr}
    (hl : ft.nodes.lookup item.Uuid = some a) {h1 : Heap}
    (hinv : invalidatePathCache h a = some h1) :
    InvX (fillNode h1 a item parent) { nodes := ft.nodes.insert item.Uuid a } d := by
  obtain ⟨hcl, hreach⟩ := invalidate_spec hinv
  have hs := hcl.1
  have hlk : ∀ u, (ft.nodes.insert item.Uuid a).lookup u =
      if u = item.Uuid then some a else ft.nodes.lookup u :=
    fun u => lookup_insert_eq _ _ u _
  have ha : InMap ft a := ⟨_, hl⟩
  have hin : ∀ b, InMap { nodes := ft.nodes.insert item.Uuid a } b → InMap ft b := by
    rintro b ⟨u, hu⟩
    rw [hlk] at hu
    by_cases e : u = item.Uuid
    · simp [e] at hu; subst hu; exact ha
    · simp [e] at hu; exact ⟨u, hu⟩
  have hin' : ∀ b, InMap ft b → InMap { nodes := ft.nodes.insert item.Uuid a } b := by
    rintro b ⟨u, hu⟩
    refine ⟨u, ?_⟩
    rw [hlk]
    by_cases e : u = item.Uuid
    · rw [e, hl] at hu; simp [e, hu]
    · simp [e, hu]
  have hframe : ∀ m, InMap { nodes := ft.nodes.insert item.Uuid a } m →
      ((fillNode h1 a item parent).cells m).path ≠ "" →
      InMap ft m ∧ ((fillNode h1 a item parent).cells m).path = (h.cells m).path ∧
      ∀ x, OnChain h m x →
        ((fillNode h1 a item parent).cells x).Name = (h.cells x).Name ∧
        ((fillNode h1 a item parent).cells x).Parent = (h.cells x).Parent := by
    intro m hm hp
    rw [fillNode_path] at hp
    have hmin := hin m hm
    have hpath : (h1.cells m).path = (h.cells m).path := by
      rcases hcl.2 m with e | e
      · exact absurd e hp
      · exact e
    refine ⟨hmin, by rw [fillNode_path, hpath], fun x hx => ?_⟩
    have hxne : x ≠ a := by
      rintro rfl
      refine hp (hreach m (Reach_of_OnChain_inv hi hmin (fun n hn hc => ?_) hx))
      exact hp (by rw [hpath]; exact hi.detached m hmin n hn hc)
    rw [fillNode_name, fillNode_parent, SameNodes_name hs, SameNodes_parent hs]
    simp [hxne]
  refine ⟨?_, ?_, ?_, ?_, ?_, ?_, ?_, cacheValid_of_frame hi hframe,
    detached_of_frame hi hframe⟩
  · intro u b hu
    rw [fillNode_uuid, SameNodes_uuid hs]
    exact hi.keyed u b (by
      rw [hlk] at hu
      by_cases e : u = item.Uuid
      · simp [e] at hu; subst hu; rw [e]; exact hl
      · simpa [e] using hu)
  · intro b hb
    rw [fillNode_next, hs.1]
    exact hi.bound b (hin b hb)
  · intro b p hp
    rw [fillNode_next, hs.1]
    rw [fillNode_parent, SameNodes_parent hs] at hp
    by_cases e : b = a
    · simp [e] at hp; exact hi.bound p (hpo p hp).1
    · simp [e] at hp; exact hi.parentBound b p hp
  · intro b c hc
    rw [fillNode_next, hs.1]
    rw [fillNode_children, SameNodes_children hs] at hc
    split_ifs at hc
    · rcases List.mem_append.mp hc with hc | hc
      · exact hi.childBound b c hc
      · simp at hc; rw [hc]; exact hi.bound a ha
    · exact hi.childBound b c hc
  · intro b hb p hp
    rw [fillNode_parent, SameNodes_parent hs] at hp
    by_cases e : b = a
    · simp [e] at hp; exact hin' p (hpo p hp).1
    · simp [e] at hp; exact hin' p (hi.parentIn b (hin b hb) p hp)
  · intro b hb hdb p hp
    rw [fillNode_parent, SameNodes_parent hs] at hp
    rw [fillNode_children, SameNodes_children hs]
    by_cases e : b = a
    · simp [e] at hp; simp [hp, e]
    · simp [e] at hp
      have := hi.childListed b (hin b hb) hdb p hp
      split_ifs
      · exact List.mem_append_left _ this
      · exact this
  · intro b hb p hp
    rw [fillNode_parent, SameNodes_parent hs] at hp
    rw [fillNode_uuid, SameNodes_uuid hs]
    by_cases e : b = a
    · simp [e] at hp; exact (hpo p hp).2
    · simp [e] at hp; exact hi.nilFree b (hin b hb) p hp

theorem ensureItem_inv {h : Heap} {ft : FileTree} {d : Option Addr} (hi : InvX h ft d)
    (item : FileTreeNode) (parent : Option Addr) (hpo : ParentOK h ft parent)
    {h1 : Heap} {ft1 : FileTree}
    (he : ensureItem h ft item parent = some (h1, ft1)) : InvX h1 ft1 d := by
  unfold ensureItem at he
  cases hl : ft.nodes.lookup item.Uuid with
  | none =>
    simp only [hl, Option.some.injEq, Prod.mk.injEq] at he
    obtain ⟨rfl, rfl⟩ := he
    exact ensureItem_new_inv hi item parent hpo hl
  | some a =>
    simp only [hl] at he
    cases hinv : invalidatePathCache h a with
    | none => simp [hinv] at he
    | some h2 =>
      simp only [hinv, Option.some.injEq, Prod.mk.injEq] at he
      obtain ⟨rfl, rfl⟩ := he
      exact ensureItem_old_inv hi item parent hpo hl hinv

theorem ensureItem_nodes {h : Heap} {ft : FileTree} {item : FileTreeNode}
    {parent : Option Addr} {h1 : Heap} {ft1 : FileTree}
    (he : ensureItem h ft item parent = some (h1, ft1)) :
    ∃ a, ft1.nodes = ft.nodes.insert item.Uuid a := by
  unfold ensureItem at he
  cases hl : ft.nodes.lookup item.Uuid with
  | none =>
    simp only [hl, Option.some.injEq, Prod.mk.injEq] at he
    obtain ⟨_, rfl⟩ := he
    exact ⟨_, rfl⟩
  | some a =>
    simp only [hl] at he
    cases hinv : invalidatePathCache h a with
    | none => simp [hinv] at he
    | some h2 =>
      simp only [hinv, Option.some.injEq, Prod.mk.injEq] at he
      obtain ⟨_, rfl⟩ := he
      exact ⟨_, rfl⟩

theorem ParentOK_none (h : Heap) (ft : FileTree) : ParentOK h ft none := by
  intro p hp; cases hp

theorem ensureParent_inv {h : Heap} {ft : FileTree} {d : Option Addr} (hi : InvX h ft d)
    {uuid : Uuid} {h1 : Heap} {ft1 : FileTree} {parent : Option Addr}
    (he : ensureParent h ft uuid = some (h1, ft1, parent)) :
    InvX h1 ft1 d ∧ ParentOK h1 ft1 parent := by
  unfold ensureParent at he
  by_cases hn : uuid = NilUuid
  · simp only [hn, if_true, Option.some.injEq, Prod.mk.injEq] at he
    obtain ⟨rfl, rfl, rfl⟩ := he
    exact ⟨hi, ParentOK_none _ _⟩
  · simp only [hn, if_false] at he
    have hup : ∀ {r}, (match ensureItem h ft (placeholderItem uuid) none with
        | none => none
        | some (h1, ft1) => some (h1, ft1, ft1.nodes.lookup uuid)) = some r →
        InvX r.1 r.2.1 d ∧ ParentOK r.1 r.2.1 r.2.2 := by
      intro r hr
      cases hei : ensureItem h ft (placeholderItem uuid) none with
      | none => simp [hei] at hr
      | some s =>
        obtain ⟨h2, ft2⟩ := s
        simp only [hei, Option.some.injEq] at hr
        subst hr
        have hi2 := ensureItem_inv hi _ _ (ParentOK_none _ _) hei
        refine ⟨hi2, fun p hp => ?_⟩
        exact ⟨⟨uuid, hp⟩, by rw [hi2.keyed uuid p hp]; exact hn⟩
    cases hl : ft.nodes.lookup uuid with
    | none =>
      simp only [hl] at he
      exact hup he
    | some p =>
      simp only [hl] at he
      by_cases hd : (h.cells p).IsDir = true
      · simp only [hd, if_true, Option.some.injEq, Prod.mk.injEq] at he
        obtain ⟨rfl, rfl, rfl⟩ := he
        refine ⟨hi, fun q hq => ?_⟩
        cases hq
        exact ⟨⟨uuid, hl⟩, by rw [hi.keyed uuid p hl]; exact hn⟩
      · simp only [hd] at he
        exact hup he

theorem EnsureItems_inv {h : Heap} {ft : FileTree} (hi : Inv h ft) (items : List FileTreeNode)
    {h1 : Heap} {ft1 : FileTree} (he : EnsureItems h ft items = some (h1, ft1)) :
    Inv h1 ft1 := by
  unfold EnsureItems at he
  induction items generalizing h ft with
  | nil =>
    simp only [List.foldlM_nil, Option.pure_def, Option.some.injEq, Prod.mk.injEq] at he
    obtain ⟨rfl, rfl⟩ := he
    exact hi
  | cons item items ih =>
    simp only [List.foldlM_cons, Option.bind_eq_bind, Option.bind_eq_some] at he
    obtain ⟨⟨h2, ft2⟩, hstep, hrest⟩ := he
    cases hep : ensureParent h ft item.Parent with
    | none => simp [hep] at hstep
    | some r =>
      obtain ⟨h3, ft3, parent⟩ := r
      simp only [hep] at hstep
      obtain ⟨hi3, hpo⟩ := ensureParent_inv hi hep
      exact ih (ensureItem_inv hi3 item parent hpo hstep) hrest

theorem CreateFile_inv {h : Heap} {ft : FileTree} (hi : Inv h ft) (uuid parentUuid : Uuid)
    (name : String) (modtime : Time) (hs : String) {h1 : Heap} {ft1 : FileTree}
    (he : CreateFile h ft uuid parentUuid name modtime hs = some (h1, ft1)) : Inv h1 ft1 :=
  EnsureItems_inv hi _ he

theorem CreateDir_inv {h : Heap} {ft : FileTree} (hi : Inv h ft) (uuid parentUuid : Uuid)
    (name : String) {h1 : Heap} {ft1 : FileTree}
    (he : CreateDir h ft uuid parentUuid name = some (h1, ft1)) : Inv h1 ft1 :=
  EnsureItems_inv hi _ he

theorem Inv_empty : Inv emptyHeap NewFileTree := by
  refine ⟨?_, ?_, ?_, ?_, ?_, ?_, ?_, ?_, ?_⟩
  · intro u a hu; simp [NewFileTree, AList.lookup_empty] at hu
  · rintro a ⟨u, hu⟩; simp [NewFileTree, AList.lookup_empty] at hu
  · intro a p hp; simp [emptyHeap, zeroNode] at hp
  · intro a c hc; simp [emptyHeap, zeroNode] at hc
  · rintro a ⟨u, hu⟩; simp [NewFileTree, AList.lookup_empty] at hu
  · rintro a ⟨u, hu⟩; simp [NewFileTree, AList.lookup_empty] at hu
  · rintro a ⟨u, hu⟩; simp [NewFileTree, AList.lookup_empty] at hu
  · rintro a ⟨u, hu⟩; simp [NewFileTree, AList.lookup_empty] at hu
  · rintro a ⟨u, hu⟩; simp [NewFileTree, AList.lookup_empty] at hu

/-! ## `Move` keeps the invariant -/

theorem removeChild_subset (h : Heap) (uuid : Uuid) (l : List Addr) (c : Addr)
    (hc : c ∈ removeChild h uuid l) : c ∈ l := by
  induction l with
  | nil => simp [removeChild] at hc
  | cons d ds ih =>
    simp only [removeChild] at hc
    split_ifs at hc
    · exact List.mem_cons_of_mem _ hc
    · rcases List.mem_cons.mp hc with rfl | hc
      · exact List.mem_cons_self _ _
      · exact List.mem_cons_of_mem _ (ih hc)

theorem removeChild_keeps (h : Heap) (uuid : Uuid) (l : List Addr) (c : Addr)
    (hc : c ∈ l) (hu : (h.cells c).Uuid ≠ uuid) : c ∈ removeChild h uuid l := by
  induction l with
  | nil => simp at hc
  | cons d ds ih =>
    simp only [removeChild]
    rcases List.mem_cons.mp hc with rfl | hc
    · simp [hu]
    · split_ifs
      · exact hc
      · exact List.mem_cons_of_mem _ (ih hc)

theorem detachNode_next (h : Heap) (n : Addr) (uuid : Uuid) :
    (detachNode h n uuid).next = h.next := by
  unfold detachNode; cases (h.cells n).Parent <;> rfl

theorem detachNode_clear (h : Heap) (n : Addr) (uuid : Uuid) (b : Addr) :
    { (detachNode h n uuid).cells b with Children := [] } =
      { h.cells b with Children := [] } := by
  unfold detachNode
  cases (h.cells n).Parent with
  | none => rfl
  | some p => simp only [Heap.set]; split_ifs <;> simp_all

theorem detachNode_uuid (h : Heap) (n : Addr) (uuid : Uuid) (b : Addr) :
    ((detachNode h n uuid).cells b).Uuid = (h.cells b).Uuid := by
  have e := congrArg fileTreeNodeInternal.Uuid (detachNode_clear h n uuid b)
  simpa using e

theorem detachNode_name (h : Heap) (n : Addr) (uuid : Uuid) (b : Addr) :
    ((detachNode h n uuid).cells b).Name = (h.cells b).Name := by
  have e := congrArg fileTreeNodeInternal.Name (detachNode_clear h n uuid b)
  simpa using e

theorem detachNode_parent (h : Heap) (n : Addr) (uuid : Uuid) (b : Addr) :
    ((detachNode h n uuid).cells b).Parent = (h.cells b).Parent := by
  have e := congrArg fileTreeNodeInternal.Parent (detachNode_clear h n uuid b)
  simpa using e

theorem detachNode_path (h : Heap) (n : Addr) (uuid : Uuid) (b : Addr) :
    ((detachNode h n uuid).cells b).path = (h.cells b).path := by
  have e := congrArg fileTreeNodeInternal.path (detachNode_clear h n uuid b)
  simpa using e

theorem detachNode_children (h : Heap) (n : Addr) (uuid : Uuid) (b : Addr) :
    ((detachNode h n uuid).cells b).Children =
      if (h.cells n).Parent = some b then removeChild h uuid (h.cells b).Children
      else (h.cells b).Children := by
  unfold detachNode
  cases hp : (h.cells n).Parent with
  | none => simp
  | some p =>
    simp only [Heap.set]
    by_cases e : b = p
    · subst e; simp
    · have : ¬ p = b := fun e' => e e'.symm
      simp [e, this]

theorem attachNode_next (h : Heap) (n : Addr) (parent : Option Addr) (newName : FileName) :
    (attachNode h n parent newName).next = h.next := by
  unfold attachNode; cases parent <;> rfl

theorem attachNode_uuid (h : Heap) (n : Addr) (parent : Option Addr) (newName : FileName)
    (b : Addr) : ((attachNode h n parent newName).cells b).Uuid = (h.cells b).Uuid := by
  unfold attachNode
  cases parent with
  | none => by_cases hb : b = n <;> simp [Heap.set, hb]
  | some p =>
    by_cases hb : b = n
    · subst hb
      by_cases hp : p = b
      · subst hp; simp [Heap.set]
      · have hp' : ¬ b = p := fun e => hp e.symm
        simp [Heap.set, hp, hp']
    · have hb' : ¬ n = b := fun e => hb e.symm
      by_cases hp : b = p
      · subst hp; simp [Heap.set, hb, hb']
      · have hp' : ¬ p = b := fun e => hp e.symm
        simp [Heap.set, hb, hb', hp, hp']

theorem attachNode_path (h : Heap) (n : Addr) (parent : Option Addr) (newName : FileName)
    (b : Addr) : ((attachNode h n parent newName).cells b).path = (h.cells b).path := by
  unfold attachNode
  cases parent with
  | none => by_cases hb : b = n <;> simp [Heap.set, hb]
  | some p =>
    by_cases hb : b = n
    · subst hb
      by_cases hp : p = b
      · subst hp; simp [Heap.set]
      · have hp' : ¬ b = p := fun e => hp e.symm
        simp [Heap.set, hp, hp']
    · have hb' : ¬ n = b := fun e => hb e.symm
      by_cases hp : b = p
      · subst hp; simp [Heap.set, hb, hb']
      · have hp' : ¬ p = b := fun e => hp e.symm
        simp [Heap.set, hb, hb', hp, hp']

theorem attachNode_hash (h : Heap) (n : Addr) (parent : Option Addr) (newName : FileName)
    (b : Addr) : ((attachNode h n parent newName).cells b).Hash = (h.cells b).Hash := by
  unfold attachNode
  cases parent with
  | none => by_cases hb : b = n <;> simp [Heap.set, hb]
  | some p =>
    by_cases hb : b = n
    · subst hb
      by_cases hp : p = b
      · subst hp; simp [Heap.set]
      · have hp' : ¬ b = p := fun e => hp e.symm
        simp [Heap.set, hp, hp']
    · have hb' : ¬ n = b := fun e => hb e.symm
      by_cases hp : b = p
      · subst hp; simp [Heap.set, hb, hb']
      · have hp' : ¬ p = b := fun e => hp e.symm
        simp [Heap.set, hb, hb', hp, hp']

theorem attachNode_modtime (h : Heap) (n : Addr) (parent : Option Addr) (newName : FileName)
    (b : Addr) : ((attachNode h n parent newName).cells b).Modtime = (h.cells b).Modtime := by
  unfold attachNode
  cases parent with
  | none => by_cases hb : b = n <;> simp [Heap.set, hb]
  | some p =>
    by_cases hb : b = n
    · subst hb
      by_cases hp : p = b
      · subst hp; simp [Heap.set]
      · have hp' : ¬ b = p := fun e => hp e.symm
        simp [Heap.set, hp, hp']
    · have hb' : ¬ n = b := fun e => hb e.symm
      by_cases hp : b = p
      · subst hp; simp [Heap.set, hb, hb']
      · have hp' : ¬ p = b := fun e => hp e.symm
        simp [Heap.set, hb, hb', hp, hp']

theorem attachNode_isDir (h : Heap) (n : Addr) (parent : Option Addr) (newName : FileName)
    (b : Addr) : ((attachNode h n parent newName).cells b).IsDir = (h.cells b).IsDir := by
  unfold attachNode
  cases parent with
  | none => by_cases hb : b = n <;> simp [Heap.set, hb]
  | some p =>
    by_cases hb : b = n
    · subst hb
      by_cases hp : p = b
      · subst hp; simp [Heap.set]
      · have hp' : ¬ b = p := fun e => hp e.symm
        simp [Heap.set, hp, hp']
    · have hb' : ¬ n = b := fun e => hb e.symm
      by_cases hp : b = p
      · subst hp; simp [Heap.set, hb, hb']
      · have hp' : ¬ p = b := fun e => hp e.symm
        simp [Heap.set, hb, hb', hp, hp']

theorem attachNode_parent (h : Heap) (n : Addr) (parent : Option Addr) (newName : FileName)
    (b : Addr) :
    ((attachNode h n parent newName).cells b).Parent =
      if b = n then parent else (h.cells b).Parent := by
  unfold attachNode
  cases parent with
  | none => by_cases hb : b = n <;> simp [Heap.set, hb]
  | some p =>
    by_cases hb : b = n
    · subst hb
      by_cases hp : p = b
      · subst hp; simp [Heap.set]
      · have hp' : ¬ b = p := fun e => hp e.symm
        simp [Heap.set, hp, hp']
    · have hb' : ¬ n = b := fun e => hb e.symm
      by_cases hp : b = p
      · subst hp; simp [Heap.set, hb, hb']
      · have hp' : ¬ p = b := fun e => hp e.symm
        simp [Heap.set, hb, hb', hp, hp']

theorem attachNode_name (h : Heap) (n : Addr) (parent : Option Addr) (newName : FileName)
    (b : Addr) :
    ((attachNode h n parent newName).cells b).Name =
      if b = n then newName else (h.cells b).Name := by
  unfold attachNode
  cases parent with
  | none => by_cases hb : b = n <;> simp [Heap.set, hb]
  | some p =>
    by_cases hb : b = n
    · subst hb
      by_cases hp : p = b
      · subst hp; simp [Heap.set]
      · have hp' : ¬ b = p := fun e => hp e.symm
        simp [Heap.set, hp, hp']
    · have hb' : ¬ n = b := fun e => hb e.symm
      by_cases hp : b = p
      · subst hp; simp [Heap.set, hb, hb']
      · have hp' : ¬ p = b := fun e => hp e.symm
        simp [Heap.set, hb, hb', hp, hp']

theorem attachNode_children (h : Heap) (n : Addr) (parent : Option Addr) (newName : FileName)
    (b : Addr) :
    ((attachNode h n parent newName).cells b).Children =
      if parent = some b then (h.cells b).Children ++ [n] else (h.cells b).Children := by
  unfold attachNode
  cases parent with
  | none => by_cases hb : b = n <;> simp [Heap.set, hb]
  | some p =>
    by_cases hb : b = n
    · subst hb
      by_cases hp : p = b
      · subst hp; simp [Heap.set]
      · have hp' : ¬ b = p := fun e => hp e.symm
        simp [Heap.set, hp, hp']
    · have hb' : ¬ n = b := fun e => hb e.symm
      by_cases hp : b = p
      · subst hp; simp [Heap.set, hb, hb']
      · have hp' : ¬ p = b := fun e => hp e.symm
        simp [Heap.set, hb, hb', hp, hp']

/-- After the path cache of `n` is invalidated and `n` is detached, the
invariant holds with `n` left out. -/
theorem detach_inv {h : Heap} {ft : FileTree} (hi : Inv h ft) {uuid : Uuid} {n : Addr}
    (hl : ft.nodes.lookup uuid = some n) {h1 : Heap}
    (hinv : invalidatePathCache h n = some h1) :
    InvX (detachNode h1 n uuid) ft (some n) := by
  obtain ⟨hcl, hreach⟩ := invalidate_spec hinv
  have hs := hcl.1
  have hn : InMap ft n := ⟨uuid, hl⟩
  have hframe : ∀ m, InMap ft m → ((detachNode h1 n uuid).cells m).path ≠ "" →
      InMap ft m ∧ ((detachNode h1 n uuid).cells m).path = (h.cells m).path ∧
      ∀ x, OnChain h m x →
        ((detachNode h1 n uuid).cells x).Name = (h.cells x).Name ∧
        ((detachNode h1 n uuid).cells x).Parent = (h.cells x).Parent := by
    intro m hm hp
    rw [detachNode_path] at hp
    refine ⟨hm, ?_, fun x _ => ?_⟩
    · rw [detachNode_path]
      rcases hcl.2 m with e | e
      · exact absurd e hp
      · exact e
    · rw [detachNode_name, detachNode_parent, SameNodes_name hs, SameNodes_parent hs]
      exact ⟨rfl, rfl⟩
  refine ⟨?_, ?_, ?_, ?_, ?_, ?_, ?_, cacheValid_of_frame hi hframe, ?_⟩
  · intro u b hu
    rw [detachNode_uuid, SameNodes_uuid hs]; exact hi.keyed u b hu
  · intro b hb
    rw [detachNode_next, hs.1]; exact hi.bound b hb
  · intro b p hp
    rw [detachNode_next, hs.1]
    rw [detachNode_parent, SameNodes_parent hs] at hp
    exact hi.parentBound b p hp
  · intro b c hc
    rw [detachNode_next, hs.1]
    rw [detachNode_children] at hc
    split_ifs at hc
    · have := removeChild_subset _ _ _ _ hc
      rw [SameNodes_children hs] at this
      exact hi.childBound b c this
    · rw [SameNodes_children hs] at hc
      exact hi.childBound b c hc
  · intro b hb p hp
    rw [detachNode_parent, SameNodes_parent hs] at hp
    exact hi.parentIn b hb p hp
  · intro b hb hbn p hp
    rw [detachNode_parent, SameNodes_parent hs] at hp
    have hmem := hi.childListed b hb (by simp) p hp
    rw [detachNode_children]
    split_ifs
    · refine removeChild_keeps _ _ _ _ (by rw [SameNodes_children hs]; exact hmem) ?_
      rw [SameNodes_uuid hs]
      intro e
      have hbn' : b ≠ n := fun e' => hbn (by rw [e'])
      exact hbn' (InMap_unique hi.keyed hb hn (by rw [e, hi.keyed uuid n hl]))
    · rw [SameNodes_children hs]; exact hmem
  · intro b hb p hp
    rw [detachNode_parent, SameNodes_parent hs] at hp
    rw [detachNode_uuid, SameNodes_uuid hs]
    exact hi.nilFree b hb p hp
  · intro m hm n' hn' hc
    cases hn'
    rw [detachNode_path]
    have hc0 : OnChain h m n := by
      refine OnChain_of_frame (fun y _ => ?_) hc
      rw [detachNode_parent, SameNodes_parent hs]
    exact hreach m (Reach_of_OnChain_inv hi hm (by simp) hc0)

theorem ensureItem_lookup {h : Heap} {ft : FileTree} {item : FileTreeNode}
    {parent : Option Addr} {h1 : Heap} {ft1 : FileTree}
    (he : ensureItem h ft item parent = some (h1, ft1)) {u : Uuid} {a : Addr}
    (hu : ft.nodes.lookup u = some a) : ft1.nodes.lookup u = some a := by
  unfold ensureItem at he
  cases hl : ft.nodes.lookup item.Uuid with
  | none =>
    simp only [hl, Option.some.injEq, Prod.mk.injEq] at he
    obtain ⟨_, rfl⟩ := he
    rw [lookup_insert_eq]
    have : u ≠ item.Uuid := fun e => by rw [e, hl] at hu; cases hu
    simp [this, hu]
  | some b =>
    simp only [hl] at he
    cases hinv : invalidatePathCache h b with
    | none => simp [hinv] at he
    | some h2 =>
      simp only [hinv, Option.some.injEq, Prod.mk.injEq] at he
      obtain ⟨_, rfl⟩ := he
      rw [lookup_insert_eq]
      by_cases e : u = item.Uuid
      · rw [e, hl] at hu; simp [e, hu]
      · simp [e, hu]

theorem ensureParent_lookup {h : Heap} {ft : FileTree} {uuid : Uuid}
    {h1 : Heap} {ft1 : FileTree} {parent : Option Addr}
    (he : ensureParent h ft uuid = some (h1, ft1, parent)) {u : Uuid} {a : Addr}
    (hu : ft.nodes.lookup u = some a) : ft1.nodes.lookup u = some a := by
  unfold ensureParent at he
  by_cases hn : uuid = NilUuid
  · simp only [hn, if_true, Option.some.injEq, Prod.mk.injEq] at he
    obtain ⟨_, rfl, _⟩ := he
    exact hu
  · simp only [hn, if_false] at he
    have hup : ∀ {r}, (match ensureItem h ft (placeholderItem uuid) none with
        | none => none
        | some (h1, ft1) => some (h1, ft1, ft1.nodes.lookup uuid)) = some r →
        r.2.1.nodes.lookup u = some a := by
      intro r hr
      cases hei : ensureItem h ft (placeholderItem uuid) none with
      | none => simp [hei] at hr
      | some s =>
        obtain ⟨h2, ft2⟩ := s
        simp only [hei, Option.some.injEq] at hr
        subst hr
        exact ensureItem_lookup hei hu
    cases hl : ft.nodes.lookup uuid with
    | none =>
      simp only [hl] at he
      exact hup he
    | some p =>
      simp only [hl] at he
      by_cases hd : (h.cells p).IsDir = true
      · simp only [hd, if_true, Option.some.injEq, Prod.mk.injEq] at he
        obtain ⟨_, rfl, _⟩ := he
        exact hu
      · simp only [hd] at he
        exact hup he

/-- Attaching the detached node again gives the invariant back. -/
theorem attach_inv {h : Heap} {ft : FileTree} {n : Addr} (hi : InvX h ft (some n))
    {uuid : Uuid} (hl : ft.nodes.lookup uuid = some n) {parent : Option Addr}
    (hpo : ParentOK h ft parent) (newName : FileName) :
    Inv (attachNode h n parent newName) { nodes := ft.nodes.insert uuid n } := by
  have hn : InMap ft n := ⟨uuid, hl⟩
  have hlk : ∀ u, (ft.nodes.insert uuid n).lookup u = ft.nodes.lookup u := by
    intro u
    rw [lookup_insert_eq]
    by_cases e : u = uuid
    · subst e; simp [hl]
    · simp [e]
  have hin : ∀ b, InMap { nodes := ft.nodes.insert uuid n } b ↔ InMap ft b := by
    intro b
    unfold InMap
    simp only [hlk]
  have hframe : ∀ m, InMap { nodes := ft.nodes.insert uuid n } m →
      ((attachNode h n parent newName).cells m).path ≠ "" →
      InMap ft m ∧ ((attachNode h n parent newName).cells m).path = (h.cells m).path ∧
      ∀ x, OnChain h m x →
        ((attachNode h n parent newName).cells x).Name = (h.cells x).Name ∧
        ((attachNode h n parent newName).cells x).Parent = (h.cells x).Parent := by
    intro m hm hp
    rw [attachNode_path] at hp
    have hmin := (hin m).mp hm
    refine ⟨hmin, attachNode_path _ _ _ _ _, fun x hx => ?_⟩
    have hxne : x ≠ n := by
      rintro rfl
      exact hp (hi.detached m hmin x rfl hx)
    rw [attachNode_name, attachNode_parent]
    simp [hxne]
  refine ⟨?_, ?_, ?_, ?_, ?_, ?_, ?_, cacheValid_of_frame hi hframe, ?_⟩
  · intro u b hu
    rw [attachNode_uuid]; exact hi.keyed u b (by rw [← hlk]; exact hu)
  · intro b hb
    rw [attachNode_next]; exact hi.bound b ((hin b).mp hb)
  · intro b p hp
    rw [attachNode_next]
    rw [attachNode_parent] at hp
    by_cases e : b = n
    · simp [e] at hp; exact hi.bound p (hpo p hp).1
    · simp [e] at hp; exact hi.parentBound b p hp
  · intro b c hc
    rw [attachNode_next]
    rw [attachNode_children] at hc
    split_ifs at hc
    · rcases List.mem_append.mp hc with hc | hc
      · exact hi.childBound b c hc
      · simp at hc; rw [hc]; exact hi.bound n hn
    · exact hi.childBound b c hc
  · intro b hb p hp
    rw [attachNode_parent] at hp
    by_cases e : b = n
    · simp [e] at hp; exact (hin p).mpr (hpo p hp).1
    · simp [e] at hp; exact (hin p).mpr (hi.parentIn b ((hin b).mp hb) p hp)
  · intro b hb _ p hp
    rw [attachNode_parent] at hp
    rw [attachNode_children]
    by_cases e : b = n
    · simp [e] at hp; simp [hp, e]
    · simp [e] at hp
      have := hi.childListed b ((hin b).mp hb) (by simpa using fun e' => e e'.symm) p hp
      split_ifs
      · exact List.mem_append_left _ this
      · exact this
  · intro b hb p hp
    rw [attachNode_parent] at hp
    rw [attachNode_uuid]
    by_cases e : b = n
    · simp [e] at hp; exact (hpo p hp).2
    · simp [e] at hp; exact hi.nilFree b ((hin b).mp hb) p hp
  · intro m _ n' hn'; cases hn'

theorem Move_inv {h : Heap} {ft : FileTree} (hi : Inv h ft) (uuid newParentUuid : Uuid)
    (newName : FileName) {h1 : Heap} {ft1 : FileTree}
    (he : Move h ft uuid newParentUuid newName = some (h1, ft1)) : Inv h1 ft1 := by
  unfold Move at he
  cases hl : ft.nodes.lookup uuid with
  | none =>
    simp only [hl, Option.some.injEq, Prod.mk.injEq] at he
    obtain ⟨rfl, rfl⟩ := he
    exact hi
  | some n =>
    simp only [hl] at he
    cases hinv : invalidatePathCache h n with
    | none => simp [hinv] at he
    | some h2 =>
      simp only [hinv] at he
      cases hep : ensureParent (detachNode h2 n uuid) ft newParentUuid with
      | none => simp [hep] at he
      | some r =>
        obtain ⟨h3, ft3, parent⟩ := r
        simp only [hep, Option.some.injEq, Prod.mk.injEq] at he
        obtain ⟨rfl, rfl⟩ := he
        obtain ⟨hi3, hpo⟩ := ensureParent_inv (detach_inv hi hl hinv) hep
        exact attach_inv hi3 (ensureParent_lookup hep hl) hpo newName

/-! ## `Remove` -/

theorem Removed_refl (h : Heap) (ft : FileTree) : Removed h ft ft := by
  refine ⟨fun _ _ hw => hw, fun w a h1 h2 => ?_, le_refl _⟩
  rw [h1] at h2; cases h2

theorem lookup_none_of_sub {ft ft1 : FileTree}
    (hsub : ∀ w a, ft1.nodes.lookup w = some a → ft.nodes.lookup w = some a) {w : Uuid}
    (hn : ft.nodes.lookup w = none) : ft1.nodes.lookup w = none := by
  cases h1 : ft1.nodes.lookup w with
  | none => rfl
  | some a => rw [hsub w a h1] at hn; cases hn

theorem keys_length_erase {m : AList (fun _ : Uuid => Addr)} {u : Uuid} {n : Addr}
    (hl : m.lookup u = some n) : (m.erase u).keys.length + 1 = m.keys.length := by
  have hmem : u ∈ m.keys := by
    rw [← AList.mem_keys, ← AList.lookup_isSome, hl]; rfl
  rw [AList.keys_erase, List.length_erase_of_mem hmem]
  have : 0 < m.keys.length := List.length_pos_of_mem hmem
  omega

theorem Remove_fold_spec (fuel : Nat) (h : Heap)
    (ih : ∀ ft u, ft.nodes.keys.length < fuel →
      Removed h ft (RemoveAux fuel h ft u) ∧ (RemoveAux fuel h ft u).nodes.lookup u = none)
    (cs : List Addr) (ft : FileTree) (hlen : ft.nodes.keys.length < fuel) :
    Removed h ft (cs.foldl (fun acc child => RemoveAux fuel h acc (h.cells child).Uuid) ft) ∧
    ∀ c ∈ cs, (cs.foldl (fun acc child => RemoveAux fuel h acc (h.cells child).Uuid)
      ft).nodes.lookup (h.cells c).Uuid = none := by
  induction cs generalizing ft with
  | nil => exact ⟨Removed_refl h ft, by simp⟩
  | cons c cs ihl =>
    simp only [List.foldl_cons]
    obtain ⟨⟨s1, c1, l1⟩, b1⟩ := ih ft (h.cells c).Uuid hlen
    obtain ⟨⟨s2, c2, l2⟩, e2⟩ := ihl (RemoveAux fuel h ft (h.cells c).Uuid)
      (lt_of_le_of_lt l1 hlen)
    refine ⟨⟨fun w a hw => s1 w a (s2 w a hw), fun w a hw hn d hd => ?_, le_trans l2 l1⟩,
      fun d hd => ?_⟩
    · cases hmid : (RemoveAux fuel h ft (h.cells c).Uuid).nodes.lookup w with
      | none => exact lookup_none_of_sub s2 (c1 w a hw hmid d hd)
      | some a' =>
        have : a' = a := by
          have := s1 w a' hmid
          rw [hw] at this
          exact (Option.some.inj this).symm
        subst this
        exact c2 w a' hmid hn d hd
    · rcases List.mem_cons.mp hd with rfl | hd
      · exact lookup_none_of_sub s2 b1
      · exact e2 d hd

theorem RemoveAux_spec (fuel : Nat) (h : Heap) (ft : FileTree) (u : Uuid)
    (hlen : ft.nodes.keys.length < fuel) :
    Removed h ft (RemoveAux fuel h ft u) ∧ (RemoveAux fuel h ft u).nodes.lookup u = none := by
  induction fuel generalizing ft u with
  | zero => omega
  | succ n ih =>
    cases hl : ft.nodes.lookup u with
    | none =>
      have e : RemoveAux (n + 1) h ft u = ft := by simp only [RemoveAux, hl]
      rw [e]
      exact ⟨Removed_refl h ft, hl⟩
    | some a =>
      have e : RemoveAux (n + 1) h ft u =
          (h.cells a).Children.foldl (fun acc child => RemoveAux n h acc (h.cells child).Uuid)
            { nodes := ft.nodes.erase u } := by simp only [RemoveAux, hl]
      rw [e]
      have hlen0 : (ft.nodes.erase u).keys.length < n := by
        have := keys_length_erase hl
        omega
      obtain ⟨⟨s1, c1, l1⟩, e1⟩ := Remove_fold_spec n h ih (h.cells a).Children
        { nodes := ft.nodes.erase u } hlen0
      have hsub0 : ∀ w b, (ft.nodes.erase u).lookup w = some b → ft.nodes.lookup w = some b := by
        intro w b hw
        by_cases e : w = u
        · rw [e, AList.lookup_erase] at hw; cases hw
        · rw [AList.lookup_erase_ne e] at hw; exact hw
      refine ⟨⟨fun w b hw => hsub0 w b (s1 w b hw), fun w b hw hn d hd => ?_, ?_⟩, ?_⟩
      · by_cases e : w = u
        · subst e
          rw [hl] at hw
          cases hw
          exact e1 d hd
        · exact c1 w b (by show (ft.nodes.erase u).lookup w = some b
                           rw [AList.lookup_erase_ne e]; exact hw) hn d hd
      · have := keys_length_erase hl
        have l1' : (List.foldl (fun acc child => RemoveAux n h acc (h.cells child).Uuid)
          { nodes := ft.nodes.erase u } (h.cells a).Children).nodes.keys.length ≤
            (ft.nodes.erase u).keys.length := l1
        omega
      · exact lookup_none_of_sub s1 (AList.lookup_erase u ft.nodes)

theorem Remove_spec (h : Heap) (ft : FileTree) (u : Uuid) :
    Removed h ft (Remove h ft u) ∧ (Remove h ft u).nodes.lookup u = none := by
  unfold Remove
  refine RemoveAux_spec _ h ft u ?_
  have : ft.nodes.keys.length = ft.nodes.entries.length := by
    unfold AList.keys List.keys; simp
  omega

/-- The budget of `Remove` is never used up: any larger one gives the same tree. -/
theorem RemoveAux_fuel (h : Heap) (fuel : Nat) (ft : FileTree) (u : Uuid) (k : Nat)
    (hlen : ft.nodes.keys.length < fuel) :
    RemoveAux (fuel + k) h ft u = RemoveAux fuel h ft u := by
  induction fuel generalizing ft u with
  | zero => omega
  | succ n ih =>
    rw [Nat.add_right_comm]
    cases hl : ft.nodes.lookup u with
    | none => simp only [RemoveAux, hl]
    | some a =>
      simp only [RemoveAux, hl]
      have hlen0 : (ft.nodes.erase u).keys.length < n := by
        have := keys_length_erase hl
        omega
      generalize (h.cells a).Children = cs
      have : ∀ ft0 : FileTree, ft0.nodes.keys.length < n →
          cs.foldl (fun acc child => RemoveAux (n + k) h acc (h.cells child).Uuid) ft0 =
          cs.foldl (fun acc child => RemoveAux n h acc (h.cells child).Uuid) ft0 := by
        induction cs with
        | nil => intro ft0 _; rfl
        | cons c cs ihl =>
          intro ft0 h0
          simp only [List.foldl_cons]
          rw [ih ft0 _ h0]
          exact ihl _ (lt_of_le_of_lt (RemoveAux_spec n h ft0 _ h0).1.2.2 h0)
      exact this _ hlen0

theorem Remove_inv {h : Heap} {ft : FileTree} (hi : Inv h ft) (u : Uuid) :
    Inv h (Remove h ft u) := by
  obtain ⟨⟨hsub, hclo, _⟩, _⟩ := Remove_spec h ft u
  have hin : ∀ b, InMap (Remove h ft u) b → InMap ft b := by
    rintro b ⟨w, hw⟩; exact ⟨w, hsub w b hw⟩
  refine ⟨?_, ?_, hi.parentBound, hi.childBound, ?_, ?_, ?_, ?_, ?_⟩
  · intro w b hw; exact hi.keyed w b (hsub w b hw)
  · intro b hb; exact hi.bound b (hin b hb)
  · intro b hb p hp
    have hpin := hi.parentIn b (hin b hb) p hp
    have hplk := InMap_lookup hi.keyed hpin
    cases hrem : (Remove h ft u).nodes.lookup (h.cells p).Uuid with
    | some p' =>
      have := hsub _ _ hrem
      rw [hplk] at this
      cases this
      exact ⟨_, hrem⟩
    | none =>
      exfalso
      have hb0 := hclo _ p hplk hrem b (hi.childListed b (hin b hb) (by simp) p hp)
      obtain ⟨w, hw⟩ := hb
      have := hi.keyed w b (hsub w b hw)
      rw [this, hw] at hb0
      cases hb0
  · intro b hb hx p hp; exact hi.childListed b (hin b hb) hx p hp
  · intro b hb p hp; exact hi.nilFree b (hin b hb) p hp
  · intro b hb hp; exact hi.cacheValid b (hin b hb) hp
  · intro m _ n hn; cases hn

/-! ## The read operations and `SetModtime` keep the invariant -/

theorem Inv_of_SameNodes {h h1 : Heap} {ft : FileTree} (hi : Inv h ft) (hs : SameNodes h h1)
    (hv : ∀ a, InMap ft a → (h1.cells a).path ≠ "" →
      ∃ fuel parts, getPathPartsAux fuel h1 a = some parts ∧
        (h1.cells a).path = "/".intercalate parts) : Inv h1 ft := by
  refine ⟨?_, ?_, ?_, ?_, ?_, ?_, ?_, hv, ?_⟩
  · intro u a hu; rw [SameNodes_uuid hs]; exact hi.keyed u a hu
  · intro a ha; rw [hs.1]; exact hi.bound a ha
  · intro a p hp; rw [hs.1]; rw [SameNodes_parent hs] at hp; exact hi.parentBound a p hp
  · intro a c hc; rw [hs.1]; rw [SameNodes_children hs] at hc; exact hi.childBound a c hc
  · intro a ha p hp; rw [SameNodes_parent hs] at hp; exact hi.parentIn a ha p hp
  · intro a ha hx p hp
    rw [SameNodes_parent hs] at hp
    rw [SameNodes_children hs]
    exact hi.childListed a ha hx p hp
  · intro a ha p hp
    rw [SameNodes_parent hs] at hp
    rw [SameNodes_uuid hs]
    exact hi.nilFree a ha p hp
  · intro m _ n hn; cases hn

theorem nodeGetPath_inv {h : Heap} {ft : FileTree} (hi : Inv h ft) {a : Addr} {h1 : Heap}
    {p : String} (hg : nodeGetPath h a = some (h1, p)) : Inv h1 ft := by
  have hs := (nodeGetPath_frame hg).1
  refine Inv_of_SameNodes hi hs (fun b hb hp => ?_)
  have hcongr : ∀ fuel, getPathPartsAux fuel h1 b = getPathPartsAux fuel h b :=
    fun fuel => getPathPartsAux_congr (SameNodes_name hs) (SameNodes_parent hs) fuel b
  unfold nodeGetPath at hg
  split_ifs at hg with hc
  · cases hparts : getPathParts h a with
    | none => simp [hparts] at hg
    | some parts =>
      simp only [hparts, Option.some.injEq, Prod.mk.injEq] at hg
      obtain ⟨rfl, rfl⟩ := hg
      by_cases hba : b = a
      · subst hba
        refine ⟨h.next + 1, parts, ?_, by simp⟩
        rw [hcongr]; exact hparts
      · rw [Heap_set_cells_ne _ _ hba] at hp ⊢
        obtain ⟨fuel, ps, h1, h2⟩ := hi.cacheValid b hb hp
        exact ⟨fuel, ps, by rw [hcongr]; exact h1, h2⟩
  · simp only [Option.some.injEq, Prod.mk.injEq] at hg
    obtain ⟨rfl, rfl⟩ := hg
    exact hi.cacheValid b hb hp

theorem GetPath_inv {h : Heap} {ft : FileTree} (hi : Inv h ft) {u : Uuid} {h1 : Heap}
    {r : Option String} (hg : GetPath h ft u = some (h1, r)) : Inv h1 ft := by
  unfold GetPath at hg
  cases hl : ft.nodes.lookup u with
  | none =>
    simp only [hl, Option.some.injEq, Prod.mk.injEq] at hg
    obtain ⟨rfl, _⟩ := hg
    exact hi
  | some a =>
    simp only [hl] at hg
    cases hn : nodeGetPath h a with
    | none => simp [hn] at hg
    | some s =>
      obtain ⟨h2, p⟩ := s
      simp only [hn, Option.some.injEq, Prod.mk.injEq] at hg
      obtain ⟨rfl, _⟩ := hg
      exact nodeGetPath_inv hi hn

theorem GetPathToUuidMap_inv {h : Heap} {ft : FileTree} (hi : Inv h ft) {h1 : Heap}
    {m : AList (fun _ : String => Uuid)} (hg : GetPathToUuidMap h ft = some (h1, m)) :
    Inv h1 ft := by
  unfold GetPathToUuidMap at hg
  generalize ft.nodes.entries = es at hg
  generalize (∅ : AList (fun _ : String => Uuid)) = acc at hg
  induction es generalizing h acc with
  | nil =>
    simp only [List.foldlM_nil, Option.pure_def, Option.some.injEq, Prod.mk.injEq] at hg
    obtain ⟨rfl, _⟩ := hg
    exact hi
  | cons e es ih =>
    simp only [List.foldlM_cons, Option.bind_eq_bind, Option.bind_eq_some] at hg
    obtain ⟨⟨h2, acc2⟩, hstep, hrest⟩ := hg
    cases hn : nodeGetPath h e.2 with
    | none => simp [hn] at hstep
    | some s =>
      obtain ⟨h3, p⟩ := s
      simp only [hn, Option.some.injEq, Prod.mk.injEq] at hstep
      obtain ⟨rfl, rfl⟩ := hstep
      exact ih (nodeGetPath_inv hi hn) _ hrest

theorem SetModtime_inv {h : Heap} {ft : FileTree} (hi : Inv h ft) (u : Uuid) (t : Time) :
    Inv (SetModtime h ft u t).1 (SetModtime h ft u t).2 := by
  unfold SetModtime
  cases hl : ft.nodes.lookup u with
  | none => exact hi
  | some n =>
    simp only []
    have hcell : ∀ b, { (h.set n { h.cells n with Modtime := t }).cells b with Modtime := 0 } =
        { h.cells b with Modtime := 0 } := by
      intro b
      by_cases e : b = n
      · subst e; simp
      · rw [Heap_set_cells_ne _ _ e]
    have hlk : ∀ w, (ft.nodes.insert u n).lookup w = ft.nodes.lookup w := by
      intro w
      rw [lookup_insert_eq]
      by_cases e : w = u
      · subst e; simp [hl]
      · simp [e]
    have hin : ∀ b, InMap { nodes := ft.nodes.insert u n } b ↔ InMap ft b := by
      intro b; unfold InMap; simp only [hlk]
    have hu : ∀ b, ((h.set n { h.cells n with Modtime := t }).cells b).Uuid = (h.cells b).Uuid :=
      fun b => by have e := congrArg fileTreeNodeInternal.Uuid (hcell b); simpa using e
    have hp : ∀ b, ((h.set n { h.cells n with Modtime := t }).cells b).Parent =
        (h.cells b).Parent :=
      fun b => by have e := congrArg fileTreeNodeInternal.Parent (hcell b); simpa using e
    have hc : ∀ b, ((h.set n { h.cells n with Modtime := t }).cells b).Children =
        (h.cells b).Children :=
      fun b => by have e := congrArg fileTreeNodeInternal.Children (hcell b); simpa using e
    have hnm : ∀ b, ((h.set n { h.cells n with Modtime := t }).cells b).Name =
        (h.cells b).Name :=
      fun b => by have e := congrArg fileTreeNodeInternal.Name (hcell b); simpa using e
    have hpa : ∀ b, ((h.set n { h.cells n with Modtime := t }).cells b).path =
        (h.cells b).path :=
      fun b => by have e := congrArg fileTreeNodeInternal.path (hcell b); simpa using e
    refine ⟨?_, ?_, ?_, ?_, ?_, ?_, ?_, ?_, ?_⟩
    · intro w a hw; rw [hu]; exact hi.keyed w a (by rw [← hlk]; exact hw)
    · intro a ha; exact hi.bound a ((hin a).mp ha)
    · intro a p hpar; rw [hp] at hpar; exact hi.parentBound a p hpar
    · intro a c hch; rw [hc] at hch; exact hi.childBound a c hch
    · intro a ha p hpar
      rw [hp] at hpar
      exact (hin p).mpr (hi.parentIn a ((hin a).mp ha) p hpar)
    · intro a ha hx p hpar
      rw [hp] at hpar
      rw [hc]
      exact hi.childListed a ((hin a).mp ha) hx p hpar
    · intro a ha p hpar
      rw [hp] at hpar
      rw [hu]
      exact hi.nilFree a ((hin a).mp ha) p hpar
    · intro a ha hpath
      rw [hpa] at hpath ⊢
      obtain ⟨fuel, ps, h1, h2⟩ := hi.cacheValid a ((hin a).mp ha) hpath
      exact ⟨fuel, ps, by rw [getPathPartsAux_congr hnm hp]; exact h1, h2⟩
    · intro m _ k hk; cases hk

/-- Every reachable tree satisfies the invariant. -/
theorem Reachable_inv {h : Heap} {ft : FileTree} (hr : Reachable h ft) : Inv h ft := by
  induction hr with
  | empty => exact Inv_empty
  | ensureItems items _ he ih => exact EnsureItems_inv ih items he
  | createFile uuid parentUuid name modtime hs _ he ih =>
    exact CreateFile_inv ih uuid parentUuid name modtime hs he
  | createDir uuid parentUuid name _ he ih => exact CreateDir_inv ih uuid parentUuid name he
  | move uuid newParentUuid newName _ he ih => exact Move_inv ih uuid newParentUuid newName he
  | remove uuid _ ih => exact Remove_inv ih uuid
  | setModtime uuid modtime _ ih => exact SetModtime_inv ih uuid modtime
  | getPath uuid _ hg ih => exact GetPath_inv ih hg
  | getPathToUuidMap _ hg ih => exact GetPathToUuidMap_inv ih hg

/-! ## `Remove` deletes the whole subtree -/

theorem eq_some_getD {α : Type} {o : Option α} (d : α) (h : o.isSome = true) :
    o = some (o.getD d) := by
  cases o with
  | none => cases h
  | some x => rfl

theorem generateTestTree_reachable {h1 : Heap} {t1 : FileTree}
    (he : generateTestTree emptyHeap = some (h1, t1)) : Reachable h1 t1 := by
  unfold generateTestTree at he
  cases h1e : CreateDir emptyHeap NewFileTree uDir1 NilUuid "dir1" with
  | none => simp [h1e] at he
  | some s1 =>
    obtain ⟨ha, ta⟩ := s1
    simp only [h1e] at he
    cases h2e : CreateDir ha ta uDir2 uDir1 "dir2" with
    | none => simp [h2e] at he
    | some s2 =>
      obtain ⟨hb, tb⟩ := s2
      simp only [h2e] at he
      exact Reachable.createFile _ _ _ _ _
        (Reachable.createDir _ _ _ (Reachable.createDir _ _ _ Reachable.empty h1e) h2e) he

theorem testTree_reachable : Reachable testTree.1 testTree.2 :=
  generateTestTree_reachable (eq_some_getD (emptyHeap, NewFileTree) (by decide))

theorem parent_of_ParentUuid {h : Heap} {ft : FileTree} (hi : Inv h ft) {v w : Uuid}
    (hp : ParentUuid h ft v w) :
    ∃ b p, ft.nodes.lookup v = some b ∧ (h.cells b).Parent = some p ∧
      ft.nodes.lookup w = some p := by
  obtain ⟨n, hn, hpar, hne⟩ := hp
  unfold GetNode at hn
  cases hl : ft.nodes.lookup v with
  | none => simp [hl] at hn
  | some b =>
    simp only [hl, Option.some.injEq] at hn
    subst hn
    simp only [getParentUuid] at hpar
    cases hpb : (h.cells b).Parent with
    | none => simp [hpb] at hpar; exact absurd hpar.symm hne
    | some p =>
      simp only [hpb] at hpar
      refine ⟨b, p, rfl, hpb, ?_⟩
      rw [← hpar]
      exact InMap_lookup hi.keyed (hi.parentIn b ⟨v, hl⟩ p hpb)

theorem removed_child {h : Heap} {ft ft1 : FileTree} (hi : Inv h ft) (hrem : Removed h ft ft1)
    {v w : Uuid} (hp : ParentUuid h ft v w) (hw : ft1.nodes.lookup w = none) :
    ft1.nodes.lookup v = none := by
  obtain ⟨b, p, hv, hpar, hwl⟩ := parent_of_ParentUuid hi hp
  have := hrem.2.1 w p hwl hw b (hi.childListed b ⟨v, hv⟩ (by simp) p hpar)
  rw [hi.keyed v b hv] at this
  exact this

theorem removed_descendant {h : Heap} {ft ft1 : FileTree} (hi : Inv h ft)
    (hrem : Removed h ft ft1) {v u : Uuid} (ha : HasAncestor h ft v u)
    (hu : ft1.nodes.lookup u = none) : ft1.nodes.lookup v = none := by
  induction ha using Relation.TransGen.head_induction_on with
  | base hp => exact removed_child hi hrem hp hu
  | ih hp _ ih => exact removed_child hi hrem hp ih

theorem GetNode_none_iff (h : Heap) (ft : FileTree) (u : Uuid) :
    GetNode h ft u = none ↔ ft.nodes.lookup u = none := by
  unfold GetNode
  cases ft.nodes.lookup u <;> simp

/-- **C7.** In every tree reached by `EnsureItems`, `CreateFile`, `CreateDir`,
`Move` and `Remove` (and the other operations of `Reachable`): `Remove(u)` of a
uuid that is not in the tree leaves the tree as it is, so that every `GetNode`
and `GetPath` result is unchanged; `Remove(u)` of a uuid that is in the tree
leaves `u` not found, and leaves not found every node that had `u` among its
ancestors. -/
theorem Remove_removes_subtree (h : Heap) (ft : FileTree) (hr : Reachable h ft) (u : Uuid) :
    (GetNode h ft u = none →
      Remove h ft u = ft ∧
      ∀ w, GetNode h (Remove h ft u) w = GetNode h ft w ∧
        GetPath h (Remove h ft u) w = GetPath h ft w) ∧
    (∀ n, GetNode h ft u = some n →
      GetNode h (Remove h ft u) u = none ∧
      ∀ v, HasAncestor h ft v u → GetNode h (Remove h ft u) v = none) := by
  have hi := Reachable_inv hr
  constructor
  · intro hn
    have hl := (GetNode_none_iff h ft u).mp hn
    have e : Remove h ft u = ft := by
      unfold Remove
      simp only [RemoveAux, hl]
    rw [e]
    exact ⟨rfl, fun w => ⟨rfl, rfl⟩⟩
  · intro n _
    obtain ⟨hrem, hu⟩ := Remove_spec h ft u
    exact ⟨(GetNode_none_iff _ _ _).mpr hu,
      fun v hv => (GetNode_none_iff _ _ _).mpr (removed_descendant hi hrem hv hu)⟩

/-- Witness of **C7**: `Remove(dir2)` on the test tree. -/
theorem Remove_removes_subtree_witness :
    Reachable testTree.1 testTree.2 ∧
    ((GetNode testTree.1 testTree.2 uDir2 = none →
      Remove testTree.1 testTree.2 uDir2 = testTree.2 ∧
      ∀ w, GetNode testTree.1 (Remove testTree.1 testTree.2 uDir2) w =
          GetNode testTree.1 testTree.2 w ∧
        GetPath testTree.1 (Remove testTree.1 testTree.2 uDir2) w =
          GetPath testTree.1 testTree.2 w) ∧
    (∀ n, GetNode testTree.1 testTree.2 uDir2 = some n →
      GetNode testTree.1 (Remove testTree.1 testTree.2 uDir2) uDir2 = none ∧
      ∀ v, HasAncestor testTree.1 testTree.2 v uDir2 →
        GetNode testTree.1 (Remove testTree.1 testTree.2 uDir2) v = none)) :=
  ⟨testTree_reachable, Remove_removes_subtree _ _ testTree_reachable uDir2⟩

/-! ## The path cache is transparent -/

theorem NamesTo_of_parts {h : Heap} {ft : FileTree} (hi : Inv h ft) (fuel : Nat) (a : Addr)
    (ha : InMap ft a) (parts : List String) (hp : getPathPartsAux fuel h a = some parts) :
    NamesTo h ft (h.cells a).Uuid parts := by
  induction fuel generalizing a parts with
  | zero => simp [getPathPartsAux] at hp
  | succ n ih =>
    have hl := InMap_lookup hi.keyed ha
    simp only [getPathPartsAux] at hp
    cases hpar : (h.cells a).Parent with
    | none =>
      simp only [hpar, Option.some.injEq] at hp
      subst hp
      have hg : GetNode h ft (h.cells a).Uuid = some
          { Uuid := (h.cells a).Uuid, Name := (h.cells a).Name, Hash := (h.cells a).Hash,
            Modtime := (h.cells a).Modtime, IsDir := (h.cells a).IsDir,
            Parent := NilUuid } := by
        simp only [GetNode, hl, getParentUuid, hpar]
      exact NamesTo.root hg rfl
    | some p =>
      simp only [hpar, Option.map_eq_some'] at hp
      obtain ⟨l, hl', rfl⟩ := hp
      have hg : GetNode h ft (h.cells a).Uuid = some
          { Uuid := (h.cells a).Uuid, Name := (h.cells a).Name, Hash := (h.cells a).Hash,
            Modtime := (h.cells a).Modtime, IsDir := (h.cells a).IsDir,
            Parent := (h.cells p).Uuid } := by
        simp only [GetNode, hl, getParentUuid, hpar]
      exact NamesTo.child hg (hi.nilFree a ha p hpar) (ih p (hi.parentIn a ha p hpar) l hl')

theorem up_of_none {h : Heap} (fuel : Nat) (a : Addr) (hn : getPathPartsAux fuel h a = none)
    (k : Nat) (hk : k ≤ fuel) : ∃ b, up h k a = some b := by
  induction fuel generalizing a k with
  | zero =>
    have : k = 0 := by omega
    subst this
    exact ⟨a, rfl⟩
  | succ n ih =>
    cases k with
    | zero => exact ⟨a, rfl⟩
    | succ k =>
      simp only [getPathPartsAux] at hn
      cases hpar : (h.cells a).Parent with
      | none => simp [hpar] at hn
      | some p =>
        simp only [hpar, Option.map_eq_none'] at hn
        simp only [up, hpar]
        exact ih p hn k (by omega)

theorem up_add {h : Heap} (i d : Nat) (a b : Addr) (hi : up h i a = some b) :
    up h (i + d) a = up h d b := by
  induction i generalizing a with
  | zero =>
    simp only [up, Option.some.injEq] at hi
    subst hi
    simp
  | succ i ih =>
    rw [Nat.add_right_comm]
    simp only [up] at hi ⊢
    cases hpar : (h.cells a).Parent with
    | none => simp [hpar] at hi
    | some p =>
      simp only [hpar] at hi ⊢
      exact ih p hi

theorem OnChain_of_up {h : Heap} (k : Nat) (a b : Addr) (hu : up h k a = some b) :
    OnChain h a b := by
  induction k generalizing a with
  | zero =>
    simp only [up, Option.some.injEq] at hu
    subst hu
    exact Relation.ReflTransGen.refl
  | succ k ih =>
    simp only [up] at hu
    cases hpar : (h.cells a).Parent with
    | none => simp [hpar] at hu
    | some p =>
      simp only [hpar] at hu
      exact Relation.ReflTransGen.head hpar (ih p hu)

theorem TransGen_of_up {h : Heap} (k : Nat) (a b : Addr) (hu : up h (k + 1) a = some b) :
    Relation.TransGen (ParentRel h) a b := by
  simp only [up] at hu
  cases hpar : (h.cells a).Parent with
  | none => simp [hpar] at hu
  | some p =>
    simp only [hpar] at hu
    exact Relation.TransGen.head' hpar (OnChain_of_up k p b hu)

theorem InMap_of_OnChain {h : Heap} {ft : FileTree} (hi : Inv h ft) {a b : Addr}
    (ha : InMap ft a) (hc : OnChain h a b) : InMap ft b := by
  induction hc with
  | refl => exact ha
  | tail _ hpar ih => exact hi.parentIn _ ih _ hpar

theorem ParentUuid_of_ParentRel {h : Heap} {ft : FileTree} (hi : Inv h ft) {a p : Addr}
    (ha : InMap ft a) (hpar : ParentRel h a p) :
    ParentUuid h ft (h.cells a).Uuid (h.cells p).Uuid := by
  have hl := InMap_lookup hi.keyed ha
  refine ⟨{ Uuid := (h.cells a).Uuid, Name := (h.cells a).Name, Hash := (h.cells a).Hash,
            Modtime := (h.cells a).Modtime, IsDir := (h.cells a).IsDir,
            Parent := (h.cells p).Uuid }, ?_, rfl, hi.nilFree a ha p hpar⟩
  unfold ParentRel at hpar
  simp only [GetNode, hl, getParentUuid, hpar]

theorem HasAncestor_of_TransGen {h : Heap} {ft : FileTree} (hi : Inv h ft) {a b : Addr}
    (ha : InMap ft a) (ht : Relation.TransGen (ParentRel h) a b) :
    HasAncestor h ft (h.cells a).Uuid (h.cells b).Uuid := by
  induction ht with
  | single hpar => exact Relation.TransGen.single (ParentUuid_of_ParentRel hi ha hpar)
  | tail hab hpar ih =>
    exact Relation.TransGen.tail ih
      (ParentUuid_of_ParentRel hi (InMap_of_OnChain hi ha hab.to_reflTransGen) hpar)

/-- When `getPathParts` uses up the budget of the heap, the parent chain runs
into a cycle. -/
theorem getPathParts_cycle {h : Heap} {ft : FileTree} (hi : Inv h ft) {a : Addr}
    (ha : InMap ft a) (hn : getPathPartsAux (h.next + 1) h a = none) :
    ∃ x b d, up h x a = some b ∧ up h (d + 1) b = some b := by
  have hup := up_of_none (h.next + 1) a hn
  have hmaps : ∀ k ∈ Finset.range (h.next + 1),
      (fun k => (up h k a).getD 0) k ∈ Finset.range h.next := by
    intro k hk
    have hk' : k ≤ h.next + 1 := by
      have := Finset.mem_range.mp hk; omega
    obtain ⟨b, hb⟩ := hup k hk'
    simp only [hb, Option.getD_some, Finset.mem_range]
    exact OnChain_bound hi (hi.bound a ha) (OnChain_of_up k a b hb)
  obtain ⟨i, hir, j, hjr, hne, hij⟩ :=
    Finset.exists_ne_map_eq_of_card_lt_of_maps_to (by simp) hmaps
  have key : ∀ x y : Nat, x < y → y ≤ h.next + 1 →
      (up h x a).getD 0 = (up h y a).getD 0 →
      ∃ x b d, up h x a = some b ∧ up h (d + 1) b = some b := by
    intro x y hlt hy he
    obtain ⟨b, hb⟩ := hup x (le_trans (le_of_lt hlt) hy)
    obtain ⟨c, hc⟩ := hup y hy
    simp only [hb, hc, Option.getD_some] at he
    subst he
    obtain ⟨d, hd⟩ : ∃ d, y = x + (d + 1) := ⟨y - x - 1, by omega⟩
    rw [hd, up_add x (d + 1) a b hb] at hc
    exact ⟨x, b, d, hb, hc⟩
  have hi' : i ≤ h.next + 1 := le_of_lt (Finset.mem_range.mp hir)
  have hj' : j ≤ h.next + 1 := le_of_lt (Finset.mem_range.mp hjr)
  rcases Nat.lt_or_gt_of_ne hne with hlt | hgt
  · exact key i j hlt hj' hij
  · exact key j i hgt hi' hij.symm

/-- In a tree in which no node is its own ancestor, `getPathParts` returns
within the budget. -/
theorem getPathParts_returns {h : Heap} {ft : FileTree} (hi : Inv h ft)
    (hac : ∀ u, ¬ HasAncestor h ft u u) {a : Addr} (ha : InMap ft a) :
    ∃ parts, getPathParts h a = some parts := by
  unfold getPathParts
  cases hn : getPathPartsAux (h.next + 1) h a with
  | some parts => exact ⟨parts, rfl⟩
  | none =>
    exfalso
    obtain ⟨x, b, d, hb, hc⟩ := getPathParts_cycle hi ha hn
    exact hac _ (HasAncestor_of_TransGen hi
      (InMap_of_OnChain hi ha (OnChain_of_up x a b hb)) (TransGen_of_up d b b hc))

/-- **C6.** In every tree reached from the empty tree by `EnsureItems`,
`CreateFile`, `CreateDir`, `Move`, `Remove` and `SetModtime` calls interleaved
with `GetPath` and `GetPathToUuidMap` reads, in which no node is its own
ancestor, `GetPath(u)` of every node `u` returns the `"/"`-join of the names on
the parent chain from the root down to `u` as the tree is now. -/
theorem GetPath_is_chain_join (h : Heap) (ft : FileTree) (hr : Reachable h ft)
    (hac : ∀ u, ¬ HasAncestor h ft u u) (u : Uuid) (n : FileTreeNode)
    (hn : GetNode h ft u = some n) :
    ∃ names h1, NamesTo h ft u names ∧
      GetPath h ft u = some (h1, some ("/".intercalate names)) := by
  have hi := Reachable_inv hr
  unfold GetNode at hn
  cases hl : ft.nodes.lookup u with
  | none => simp [hl] at hn
  | some a =>
    have ha : InMap ft a := ⟨u, hl⟩
    have hua := hi.keyed u a hl
    by_cases hc : (h.cells a).path = ""
    · obtain ⟨parts, hparts⟩ := getPathParts_returns hi hac ha
      have e : nodeGetPath h a =
          some (h.set a { h.cells a with path := "/".intercalate parts },
            "/".intercalate parts) := by
        simp only [nodeGetPath, hc, if_true, hparts]
      refine ⟨parts, h.set a { h.cells a with path := "/".intercalate parts }, ?_,
        by simp only [GetPath, hl, e]⟩
      rw [← hua]
      exact NamesTo_of_parts hi _ a ha parts hparts
    · obtain ⟨fuel, parts, hparts, hj⟩ := hi.cacheValid a ha hc
      have e : nodeGetPath h a = some (h, (h.cells a).path) := by
        simp only [nodeGetPath, hc, if_false]
      refine ⟨parts, h, ?_, by simp only [GetPath, hl, e, hj]⟩
      rw [← hua]
      exact NamesTo_of_parts hi fuel a ha parts hparts

theorem acyclic_of_rank {h : Heap} {ft : FileTree} (r : Uuid → Nat)
    (hr : ∀ e ∈ ft.nodes.entries, getParentUuid h e.2 ≠ NilUuid →
      r (getParentUuid h e.2) < r e.1) (u : Uuid) : ¬ HasAncestor h ft u u := by
  have hstep : ∀ v p, ParentUuid h ft v p → r p < r v := by
    rintro v p ⟨n, hn, hp, hne⟩
    unfold GetNode at hn
    cases hl : ft.nodes.lookup v with
    | none => simp [hl] at hn
    | some b =>
      simp only [hl, Option.some.injEq] at hn
      subst hn
      simp only at hp
      subst hp
      exact hr ⟨v, b⟩ (AList.mem_lookup_iff.mp (Option.mem_def.mpr hl)) hne
  have hlt : ∀ v w, HasAncestor h ft v w → r w < r v := by
    intro v w hvw
    induction hvw with
    | single hp => exact hstep _ _ hp
    | tail _ hp ih => exact lt_trans (hstep _ _ hp) ih
  intro hu
  exact lt_irrefl _ (hlt u u hu)

theorem cachedTree_reachable : Reachable cachedTree.1 cachedTree.2 :=
  Reachable.getPath uFile1 testTree_reachable
    (eq_some_getD (emptyHeap, none) (by decide))

theorem movedTree_reachable : Reachable movedTree.1 movedTree.2 :=
  Reachable.move uDir2 NilUuid "moved-dir" cachedTree_reachable
    (eq_some_getD (emptyHeap, NewFileTree) (by decide))

/-- Witness of **C6**: the test tree after `GetPath(file1)` has memoised
`"dir1/dir2/file1.txt"` and `dir2` has been moved to the root as `"moved-dir"`;
`GetPath(file1)` is then `"moved-dir/file1.txt"`. -/
theorem GetPath_is_chain_join_witness :
    Reachable movedTree.1 movedTree.2 ∧ (∀ u, ¬ HasAncestor movedTree.1 movedTree.2 u u) ∧
    GetNode movedTree.1 movedTree.2 uFile1 =
      some { Uuid := uFile1, Name := "file1.txt",
             Hash := HashFromString
               "aaaaaaaaaaaaaaaaaaaaaaaaaaaaaaaaaaaaaaaaaaaaaaaaaaaaaaaaaaaaaaaa",
             Modtime := 0, IsDir := false, Parent := uDir2 } ∧
    pathIn cachedTree.1 cachedTree.2 uFile1 = some "dir1/dir2/file1.txt" ∧
    pathIn movedTree.1 movedTree.2 uFile1 = some "moved-dir/file1.txt" ∧
    ∃ names h1, NamesTo movedTree.1 movedTree.2 uFile1 names ∧
      GetPath movedTree.1 movedTree.2 uFile1 = some (h1, some ("/".intercalate names)) :=
  ⟨movedTree_reachable,
   acyclic_of_rank (fun u => if u = uFile1 then 2 else if u = uDir2 then 1 else 0) (by decide),
   by decide, by decide, by decide,
   GetPath_is_chain_join _ _ movedTree_reachable
     (acyclic_of_rank (fun u => if u = uFile1 then 2 else if u = uDir2 then 1 else 0)
       (by decide)) uFile1
     { Uuid := uFile1, Name := "file1.txt",
       Hash := HashFromString
         "aaaaaaaaaaaaaaaaaaaaaaaaaaaaaaaaaaaaaaaaaaaaaaaaaaaaaaaaaaaaaaaa",
       Modtime := 0, IsDir := false, Parent := uDir2 } (by decide)⟩

/-! ## Inputs on which the code leaves the specification -/

theorem nestedTree_reachable : Reachable nestedTree.1 nestedTree.2 :=
  Reachable.createDir uA uB "a"
    (Reachable.createDir uB NilUuid "b" Reachable.empty
      (eq_some_getD (emptyHeap, NewFileTree) (by decide)))
    (eq_some_getD (emptyHeap, NewFileTree) (by decide))

theorem staleTree_reachable : Reachable staleTree.1 staleTree.2 :=
  Reachable.createDir uA NilUuid "a" nestedTree_reachable
    (eq_some_getD (emptyHeap, NewFileTree) (by decide))

theorem fileParentTree_reachable : Reachable fileParentTree.1 fileParentTree.2 :=
  Reachable.createFile uA NilUuid "p" 0 ""
    (Reachable.createFile uB uA "n" 0 ""
      (Reachable.createDir uA NilUuid "p" Reachable.empty
        (eq_some_getD (emptyHeap, NewFileTree) (by decide)))
      (eq_some_getD (emptyHeap, NewFileTree) (by decide)))
    (eq_some_getD (emptyHeap, NewFileTree) (by decide))

theorem oneFileTree_reachable : Reachable oneFileTree.1 oneFileTree.2 :=
  Reachable.createFile uA NilUuid "f" 5 "ab" Reachable.empty
    (eq_some_getD (emptyHeap, NewFileTree) (by decide))

/-- A recursion of `invalidatePathCache` that enters two nodes listing each other
as their only child does not return, whatever the budget. -/
theorem invalidate_two_cycle (a b : Addr) (fuel : Nat) (h : Heap)
    (ha : (h.cells a).Children = [b]) (hb : (h.cells b).Children = [a]) :
    invalidatePathCacheAux fuel h a = none ∧ invalidatePathCacheAux fuel h b = none := by
  induction fuel generalizing h with
  | zero => exact ⟨rfl, rfl⟩
  | succ n ih =>
    have step : ∀ x : Addr,
        ((h.set x { h.cells x with path := "" }).cells a).Children = [b] ∧
        ((h.set x { h.cells x with path := "" }).cells b).Children = [a] := by
      intro x
      have hs := SameNodes_setPath h x ""
      exact ⟨by rw [SameNodes_children hs, ha], by rw [SameNodes_children hs, hb]⟩
    constructor
    · show ((h.cells a).Children.foldlM (fun acc child => invalidatePathCacheAux n acc child)
        (h.set a { h.cells a with path := "" })) = none
      have s := step a
      generalize h.set a { h.cells a with path := "" } = h2 at s
      rw [ha]
      simp only [List.foldlM_cons, List.foldlM_nil]
      rw [(ih h2 s.1 s.2).2]
      rfl
    · show ((h.cells b).Children.foldlM (fun acc child => invalidatePathCacheAux n acc child)
        (h.set b { h.cells b with path := "" })) = none
      have s := step b
      generalize h.set b { h.cells b with path := "" } = h2 at s
      rw [hb]
      simp only [List.foldlM_cons, List.foldlM_nil]
      rw [(ih h2 s.1 s.2).1]
      rfl

/-- **C2**, failing input: `is` and `should` hold the same file under the names
`"a"` and `"b"`; `Diff` sends no item, so applying its items leaves `is` with
the path `"a"` where `should` has `"b"`. -/
theorem Diff_misses_rename :
    (Diff renamedWorld.1 renamedWorld.2.1 renamedWorld.2.2).map Prod.snd = some [] ∧
    pathIn renamedWorld.1 renamedWorld.2.1 uA = some "a" ∧
    pathIn renamedWorld.1 renamedWorld.2.2 uA = some "b" ∧
    (GetPathToUuidMap renamedWorld.1 renamedWorld.2.1).map (fun r => r.2.lookup "b") =
      some none ∧
    (GetPathToUuidMap renamedWorld.1 renamedWorld.2.2).map (fun r => r.2.lookup "b") =
      some (some uA) := by
  decide

/-- **C4**, failing input: on the tree with `a` inside `b`, `EnsureItems` of the
two items "`a` at the root, `b` inside `a`" returns; the same call once more
does not return, because `a` and `b` now list each other as children and
`invalidatePathCache` recurses between them for every budget. -/
theorem EnsureItems_twice_diverges :
    (EnsureItems nestedTree.1 nestedTree.2 swapItems).isSome = true ∧
    (EnsureItems swappedTree.1 swappedTree.2 swapItems).isSome = false ∧
    swappedTree.2.nodes.lookup uA = some 1 ∧
    ∀ fuel, invalidatePathCacheAux fuel swappedTree.1 1 = none :=
  ⟨by decide, by decide, by decide,
   fun fuel => (invalidate_two_cycle 1 0 fuel swappedTree.1 (by decide) (by decide)).1⟩

/-- **C5**, failing input: on the reachable tree `staleTree` (`a` at the root,
still listed as a child of `b`), `EnsureItems` of the two directory items "`b`
inside `a`" and "`a` at the root" does not return: after the first item `a`
and `b` list each other as children, and the upsert of `a` invalidates its
path cache. -/
theorem EnsureItems_diverges_on_stale_child :
    (EnsureItems staleTree.1 staleTree.2
      [dirItem uB uA "b", dirItem uA NilUuid "a"]).isSome = false ∧
    staleTreeStep.2.nodes.lookup uA = some 1 ∧
    ∀ fuel, invalidatePathCacheAux fuel staleTreeStep.1 1 = none :=
  ⟨by decide, by decide,
   fun fuel => (invalidate_two_cycle 1 0 fuel staleTreeStep.1 (by decide) (by decide)).1⟩

/-- **C9**, counterexample: in the reachable tree `fileParentTree` the node `uB`
has parent `uA`, name `"n"` and path `"p/n"`; after `Move(uB, uA, "n")` (no
rename in between) its path is `"/n"`. -/
theorem Move_back_changes_path :
    (GetNode fileParentTree.1 fileParentTree.2 uB).map (fun n => (n.Parent, n.Name)) =
      some (uA, "n") ∧
    pathIn fileParentTree.1 fileParentTree.2 uB = some "p/n" ∧
    (Move fileParentTree.1 fileParentTree.2 uB uA "n").map (fun r => pathIn r.1 r.2 uB) =
      some (some "/n") := by
  decide

/-! ## When `invalidatePathCache` returns -/

theorem childDepth_congr {h h1 : Heap}
    (hc : ∀ b, (h1.cells b).Children = (h.cells b).Children) (fuel : Nat) (a : Addr) :
    childDepth fuel h1 a = childDepth fuel h a := by
  induction fuel generalizing a with
  | zero => rfl
  | succ n ih =>
    simp only [childDepth, hc a]
    congr 1
    funext c
    exact ih c

theorem childDepth_sub {h h1 : Heap}
    (hc : ∀ b c, c ∈ (h1.cells b).Children → c ∈ (h.cells b).Children) (fuel : Nat) (a : Addr)
    (hd : childDepth fuel h a = true) : childDepth fuel h1 a = true := by
  induction fuel generalizing a with
  | zero => simp [childDepth] at hd
  | succ n ih =>
    simp only [childDepth, List.all_eq_true] at hd ⊢
    exact fun c hcm => ih c (hd c (hc a c hcm))

theorem childDepth_frame {h h1 : Heap} (fuel : Nat) (a : Addr)
    (hc : ∀ b, Reach h a b → (h1.cells b).Children = (h.cells b).Children) :
    childDepth fuel h1 a = childDepth fuel h a := by
  induction fuel generalizing a with
  | zero => rfl
  | succ n ih =>
    simp only [childDepth, hc a Relation.ReflTransGen.refl]
    rw [Bool.eq_iff_iff]
    simp only [List.all_eq_true]
    constructor
    · intro hall c hcm
      rw [← ih c (fun b hb => hc b (Relation.ReflTransGen.head hcm hb))]
      exact hall c hcm
    · intro hall c hcm
      rw [ih c (fun b hb => hc b (Relation.ReflTransGen.head hcm hb))]
      exact hall c hcm

theorem childDepth_reach {h : Heap} {a q : Addr} (hr : Reach h a q) (fuel : Nat)
    (hd : childDepth fuel h a = true) : ∃ f, f ≤ fuel ∧ childDepth f h q = true := by
  induction hr using Relation.ReflTransGen.head_induction_on generalizing fuel with
  | refl => exact ⟨fuel, le_refl _, hd⟩
  | head hac _ ih =>
    cases fuel with
    | zero => simp [childDepth] at hd
    | succ n =>
      simp only [childDepth, List.all_eq_true] at hd
      obtain ⟨f, hf, hq⟩ := ih n (hd _ hac)
      exact ⟨f, Nat.le_succ_of_le hf, hq⟩

/-- A node that is reached from itself through child lists has no bounded
depth. -/
theorem childDepth_cycle {h : Heap} {a q : Addr} (hr : Reach h a q)
    (hqa : a ∈ (h.cells q).Children) (fuel : Nat) : childDepth fuel h a = false := by
  induction fuel using Nat.strong_induction_on with
  | _ n ih =>
    cases hd : childDepth n h a with
    | false => rfl
    | true =>
      obtain ⟨f, hf, hq⟩ := childDepth_reach hr n hd
      cases f with
      | zero => simp [childDepth] at hq
      | succ f =>
        simp only [childDepth, List.all_eq_true] at hq
        have := ih f (by omega)
        rw [hq a hqa] at this
        cases this

theorem invalidate_fold_isSome (fuel : Nat) (h : Heap)
    (ih : ∀ hx a, SameNodes h hx →
      (invalidatePathCacheAux fuel hx a).isSome = childDepth fuel h a)
    (cs : List Addr) (hx : Heap) (hs : SameNodes h hx) :
    (cs.foldlM (fun acc child => invalidatePathCacheAux fuel acc child) hx).isSome =
      cs.all (fun c => childDepth fuel h c) := by
  induction cs generalizing hx with
  | nil => rfl
  | cons c cs ihl =>
    simp only [List.foldlM_cons, List.all_cons]
    have hc := ih hx c hs
    cases hi : invalidatePathCacheAux fuel hx c with
    | none =>
      rw [hi] at hc
      simp only [Option.isSome_none] at hc
      rw [← hc]
      rfl
    | some hy =>
      rw [hi] at hc
      simp only [Option.isSome_some] at hc
      rw [← hc]
      simp only [Option.bind_eq_bind, Option.some_bind, Bool.true_and]
      exact ihl hy (SameNodes_trans hs (invalidateAux_spec fuel hx c hy hi).1.1)

/-- `invalidatePathCache` returns exactly when the child lists below the node
end within the budget. -/
theorem invalidateAux_isSome (fuel : Nat) (h hx : Heap) (a : Addr) (hs : SameNodes h hx) :
    (invalidatePathCacheAux fuel hx a).isSome = childDepth fuel h a := by
  induction fuel generalizing hx a with
  | zero => rfl
  | succ n ih =>
    show ((hx.cells a).Children.foldlM
        (fun acc child => invalidatePathCacheAux n acc child)
        (hx.set a { hx.cells a with path := "" })).isSome =
      (h.cells a).Children.all (fun c => childDepth n h c)
    have hs2 := SameNodes_trans hs (SameNodes_setPath hx a "")
    generalize hx.set a { hx.cells a with path := "" } = hy at hs2
    rw [SameNodes_children hs]
    exact invalidate_fold_isSome n h (fun hz b hsz => ih hz b hsz) _ hy hs2

theorem invalidate_isSome (h : Heap) (a : Addr) :
    (invalidatePathCache h a).isSome = true ↔ ChildrenEnd h a := by
  unfold invalidatePathCache ChildrenEnd
  rw [invalidateAux_isSome (h.next + 1) h h a (SameNodes_refl h)]

/-! ## What `ensureParent` and `Move` change -/

theorem ensureItem_cases {h : Heap} {ft : FileTree} {item : FileTreeNode}
    {parent : Option Addr} {h1 : Heap} {ft1 : FileTree}
    (he : ensureItem h ft item parent = some (h1, ft1)) :
    (ft.nodes.lookup item.Uuid = none ∧
      h1 = fillNode (newNode h item.Uuid) h.next item parent ∧
      ft1 = { nodes := ft.nodes.insert item.Uuid h.next }) ∨
    (∃ a hx, ft.nodes.lookup item.Uuid = some a ∧ invalidatePathCache h a = some hx ∧
      h1 = fillNode hx a item parent ∧ ft1 = { nodes := ft.nodes.insert item.Uuid a }) := by
  unfold ensureItem at he
  cases hl : ft.nodes.lookup item.Uuid with
  | none =>
    simp only [hl, Option.some.injEq, Prod.mk.injEq] at he
    exact Or.inl ⟨rfl, he.1.symm, he.2.symm⟩
  | some a =>
    simp only [hl] at he
    cases hinv : invalidatePathCache h a with
    | none => simp [hinv] at he
    | some hx =>
      simp only [hinv, Option.some.injEq, Prod.mk.injEq] at he
      exact Or.inr ⟨a, hx, rfl, hinv, he.1.symm, he.2.symm⟩

theorem ensureParent_cases {h : Heap} {ft : FileTree} {np : Uuid} {h3 : Heap}
    {ft3 : FileTree} {parent : Option Addr}
    (he : ensureParent h ft np = some (h3, ft3, parent)) :
    (np = NilUuid ∧ h3 = h ∧ ft3 = ft ∧ parent = none) ∨
    (np ≠ NilUuid ∧ ∃ q, ft.nodes.lookup np = some q ∧ (h.cells q).IsDir = true ∧
      h3 = h ∧ ft3 = ft ∧ parent = some q) ∨
    (np ≠ NilUuid ∧ ensureItem h ft (placeholderItem np) none = some (h3, ft3) ∧
      parent = ft3.nodes.lookup np ∧
      (ft.nodes.lookup np = none ∨
        ∃ q, ft.nodes.lookup np = some q ∧ (h.cells q).IsDir = false)) := by
  unfold ensureParent at he
  by_cases hn : np = NilUuid
  · simp only [hn, if_true, Option.some.injEq, Prod.mk.injEq] at he
    exact Or.inl ⟨hn, he.1.symm, he.2.1.symm, he.2.2.symm⟩
  · simp only [hn, if_false] at he
    have hup : (match ensureItem h ft (placeholderItem np) none with
        | none => none
        | some (h1, ft1) => some (h1, ft1, ft1.nodes.lookup np)) = some (h3, ft3, parent) →
        ensureItem h ft (placeholderItem np) none = some (h3, ft3) ∧
        parent = ft3.nodes.lookup np := by
      intro hr
      cases hei : ensureItem h ft (placeholderItem np) none with
      | none => simp [hei] at hr
      | some s =>
        obtain ⟨h2, ft2⟩ := s
        simp only [hei, Option.some.injEq, Prod.mk.injEq] at hr
        obtain ⟨rfl, rfl, rfl⟩ := hr
        exact ⟨rfl, rfl⟩
    cases hl : ft.nodes.lookup np with
    | none =>
      simp only [hl] at he
      exact Or.inr (Or.inr ⟨hn, (hup he).1, (hup he).2, Or.inl rfl⟩)
    | some p =>
      simp only [hl] at he
      by_cases hd : (h.cells p).IsDir = true
      · simp only [hd, if_true, Option.some.injEq, Prod.mk.injEq] at he
        exact Or.inr (Or.inl ⟨hn, p, rfl, hd, he.1.symm, he.2.1.symm, he.2.2.symm⟩)
      · simp only [hd] at he
        exact Or.inr (Or.inr ⟨hn, (hup he).1, (hup he).2,
          Or.inr ⟨p, rfl, by simpa using hd⟩⟩)

theorem SameNodes_core {h h1 : Heap} (hs : SameNodes h h1) (b : Addr) :
    coreOf (h1.cells b) = coreOf (h.cells b) := by
  simp only [coreOf, SameNodes_uuid hs, SameNodes_name hs, SameNodes_hash hs,
    SameNodes_modtime hs, SameNodes_isDir hs, SameNodes_parent hs]

theorem detachNode_core (h : Heap) (n : Addr) (uuid : Uuid) (b : Addr) :
    coreOf ((detachNode h n uuid).cells b) = coreOf (h.cells b) := by
  have e := congrArg coreOf (detachNode_clear h n uuid b)
  simpa [coreOf] using e

theorem attachNode_core (h : Heap) (n : Addr) (parent : Option Addr) (newName : FileName)
    {b : Addr} (hb : b ≠ n) :
    coreOf ((attachNode h n parent newName).cells b) = coreOf (h.cells b) := by
  simp only [coreOf, attachNode_uuid, attachNode_name, attachNode_hash, attachNode_modtime,
    attachNode_isDir, attachNode_parent, hb, if_false]

theorem fillNode_none_core (h : Heap) (a : Addr) (item : FileTreeNode) {b : Addr}
    (hb : b ≠ a) : coreOf ((fillNode h a item none).cells b) = coreOf (h.cells b) := by
  simp only [coreOf, fillNode_uuid, fillNode_name, fillNode_hash, fillNode_modtime,
    fillNode_isDir, fillNode_parent, hb, if_false]

/-- What the upsert of a placeholder changes among the objects allocated
before: the fields of the node keyed by the placeholder's uuid, and memoised
paths, which are reset at most. -/
theorem ensureItem_none_effect {h : Heap} {ft : FileTree} {item : FileTreeNode} {h1 : Heap}
    {ft1 : FileTree} (he : ensureItem h ft item none = some (h1, ft1)) :
    (∀ b, b < h.next → ft.nodes.lookup item.Uuid ≠ some b →
      coreOf (h1.cells b) = coreOf (h.cells b)) ∧
    (∀ b, b < h.next → (h1.cells b).Children = (h.cells b).Children) ∧
    (∀ b, b < h.next → (h1.cells b).Uuid = (h.cells b).Uuid) ∧
    (∀ b, b < h.next → (h1.cells b).path = "" ∨ (h1.cells b).path = (h.cells b).path) ∧
    (∀ w, w ≠ item.Uuid → ft1.nodes.lookup w = ft.nodes.lookup w) := by
  rcases ensureItem_cases he with ⟨hl, rfl, rfl⟩ | ⟨a, hx, hl, hinv, rfl, rfl⟩
  · have hcell : ∀ b, b < h.next → (newNode h item.Uuid).cells b = h.cells b :=
      fun b hb => newNode_cells_ne h item.Uuid (Nat.ne_of_lt hb)
    refine ⟨fun b hb _ => ?_, fun b hb => ?_, fun b hb => ?_, fun b hb => ?_, fun w hw => ?_⟩
    · rw [fillNode_none_core _ _ _ (Nat.ne_of_lt hb), hcell b hb]
    · rw [fillNode_children, hcell b hb]; simp
    · rw [fillNode_uuid, hcell b hb]
    · rw [fillNode_path, hcell b hb]; exact Or.inr rfl
    · rw [lookup_insert_eq]; simp [hw]
  · obtain ⟨hcl, _⟩ := invalidate_spec hinv
    refine ⟨fun b _ hne => ?_, fun b _ => ?_, fun b _ => ?_, fun b _ => ?_, fun w hw => ?_⟩
    · have hba : b ≠ a := fun e => hne (by rw [e]; exact hl)
      rw [fillNode_none_core _ _ _ hba, SameNodes_core hcl.1]
    · rw [fillNode_children, SameNodes_children hcl.1]; simp
    · rw [fillNode_uuid, SameNodes_uuid hcl.1]
    · rw [fillNode_path]; exact hcl.2 b
    · rw [lookup_insert_eq]; simp [hw]

theorem Move_cases {h : Heap} {ft : FileTree} {u np : Uuid} {name : FileName} {a : Addr}
    (hl : ft.nodes.lookup u = some a) {h1 : Heap} {ft1 : FileTree}
    (he : Move h ft u np name = some (h1, ft1)) :
    ∃ hx h3 ft3 parent, invalidatePathCache h a = some hx ∧
      ensureParent (detachNode hx a u) ft np = some (h3, ft3, parent) ∧
      h1 = attachNode h3 a parent name ∧ ft1 = { nodes := ft3.nodes.insert u a } := by
  unfold Move at he
  simp only [hl] at he
  cases hinv : invalidatePathCache h a with
  | none => simp [hinv] at he
  | some hx =>
    simp only [hinv] at he
    cases hep : ensureParent (detachNode hx a u) ft np with
    | none => simp [hep] at he
    | some r =>
      obtain ⟨h3, ft3, parent⟩ := r
      simp only [hep, Option.some.injEq, Prod.mk.injEq] at he
      exact ⟨hx, h3, ft3, parent, rfl, hep, he.1.symm, he.2.symm⟩

theorem ensureParent_parent {h : Heap} {ft : FileTree} {np : Uuid} {h3 : Heap}
    {ft3 : FileTree} {parent : Option Addr}
    (he : ensureParent h ft np = some (h3, ft3, parent)) :
    (np = NilUuid → parent = none) ∧
    (np ≠ NilUuid → ∃ q, parent = some q ∧ ft3.nodes.lookup np = some q) := by
  rcases ensureParent_cases he with ⟨hn, _, _, hp⟩ | ⟨hn, q, hl, _, _, rfl, hp⟩ |
    ⟨hn, hei, hp, _⟩
  · exact ⟨fun _ => hp, fun hne => absurd hn hne⟩
  · exact ⟨fun e => absurd e hn, fun _ => ⟨q, hp, hl⟩⟩
  · refine ⟨fun e => absurd e hn, fun _ => ?_⟩
    obtain ⟨a', ha'⟩ := ensureItem_nodes hei
    have : ft3.nodes.lookup np = some a' := by
      rw [ha']; exact AList.lookup_insert _
    exact ⟨a', by rw [hp, this], this⟩

/-- What `ensureParent` changes among the objects allocated before. -/
theorem ensureParent_effect {h : Heap} {ft : FileTree} {np : Uuid} {h3 : Heap}
    {ft3 : FileTree} {parent : Option Addr}
    (he : ensureParent h ft np = some (h3, ft3, parent)) :
    (∀ b, b < h.next → ft.nodes.lookup np ≠ some b →
      coreOf (h3.cells b) = coreOf (h.cells b)) ∧
    (∀ b, b < h.next → (h3.cells b).Uuid = (h.cells b).Uuid) ∧
    (∀ w, w ≠ np → ft3.nodes.lookup w = ft.nodes.lookup w) := by
  rcases ensureParent_cases he with ⟨_, rfl, rfl, _⟩ | ⟨_, q, _, _, rfl, rfl, _⟩ |
    ⟨_, hei, _, _⟩
  · exact ⟨fun _ _ _ => rfl, fun _ _ => rfl, fun _ _ => rfl⟩
  · exact ⟨fun _ _ _ => rfl, fun _ _ => rfl, fun _ _ => rfl⟩
  · obtain ⟨e1, _, e3, _, e5⟩ := ensureItem_none_effect hei
    exact ⟨e1, e3, e5⟩

/-- The node `Move` moves: it stays in the map, gets the new name and the new
parent, loses its memoised path, and keeps its other fields unless it is its
own new parent. -/
theorem Move_node {h : Heap} {ft : FileTree} (hi : Inv h ft) {u np : Uuid} {name : FileName}
    {a : Addr} (hl : ft.nodes.lookup u = some a) {h1 : Heap} {ft1 : FileTree}
    (he : Move h ft u np name = some (h1, ft1)) :
    ft1.nodes.lookup u = some a ∧ (h1.cells a).Name = name ∧ (h1.cells a).path = "" ∧
    getParentUuid h1 a = np ∧
    (np ≠ u → (h1.cells a).Hash = (h.cells a).Hash ∧
      (h1.cells a).Modtime = (h.cells a).Modtime ∧ (h1.cells a).IsDir = (h.cells a).IsDir) := by
  obtain ⟨hx, h3, ft3, parent, hinv, hep, rfl, rfl⟩ := Move_cases hl he
  have hi2 := detach_inv hi hl hinv
  obtain ⟨hi3, hpo⟩ := ensureParent_inv hi2 hep
  have hl3 := ensureParent_lookup hep hl
  obtain ⟨hcl, _⟩ := invalidate_spec hinv
  refine ⟨AList.lookup_insert _, ?_, ?_, ?_, fun hne => ?_⟩
  · rw [attachNode_name]; simp
  · rw [attachNode_path]
    exact hi3.detached a ⟨u, hl3⟩ a rfl Relation.ReflTransGen.refl
  · unfold getParentUuid
    rw [attachNode_parent]
    simp only [if_true]
    obtain ⟨pn, ps⟩ := ensureParent_parent hep
    by_cases hn : np = NilUuid
    · rw [pn hn, hn]
    · obtain ⟨q, hq, hlq⟩ := ps hn
      rw [hq]
      simp only [attachNode_uuid]
      exact hi3.keyed np q hlq
  · have ha2 : a < (detachNode hx a u).next := hi2.bound a ⟨u, hl⟩
    have hnp : ft.nodes.lookup np ≠ some a := by
      intro e
      have h1 := hi.keyed np a e
      have h2 := hi.keyed u a hl
      exact hne (h1.symm.trans h2)
    have hc := (ensureParent_effect hep).1 a ha2 hnp
    rw [detachNode_core, SameNodes_core hcl.1] at hc
    simp only [coreOf, Prod.mk.injEq] at hc
    simp only [attachNode_hash, attachNode_modtime, attachNode_isDir]
    exact ⟨hc.2.2.1, hc.2.2.2.1, hc.2.2.2.2.1⟩

/-- The other nodes under `Move`: a node that is neither the moved one nor the
new parent keeps its map entry and its fields. -/
theorem Move_others {h : Heap} {ft : FileTree} {u np : Uuid}
    {name : FileName} {a : Addr} (hl : ft.nodes.lookup u = some a) {h1 : Heap}
    {ft1 : FileTree} (he : Move h ft u np name = some (h1, ft1)) :
    (∀ w, w ≠ np → ft1.nodes.lookup w = ft.nodes.lookup w) ∧
    (∀ b, b < h.next → (h1.cells b).Uuid = (h.cells b).Uuid) ∧
    (∀ b, b < h.next → b ≠ a → ft.nodes.lookup np ≠ some b →
      coreOf (h1.cells b) = coreOf (h.cells b)) := by
  obtain ⟨hx, h3, ft3, parent, hinv, hep, rfl, rfl⟩ := Move_cases hl he
  obtain ⟨hcl, _⟩ := invalidate_spec hinv
  obtain ⟨e1, e2, e3⟩ := ensureParent_effect hep
  have hnext : (detachNode hx a u).next = h.next := by rw [detachNode_next, hcl.1.1]
  refine ⟨fun w hw => ?_, fun b hb => ?_, fun b hb hba hnp => ?_⟩
  · show (ft3.nodes.insert u a).lookup w = ft.nodes.lookup w
    rw [lookup_insert_eq]
    by_cases e : w = u
    · subst e; simp [hl]
    · simp [e, e3 w hw]
  · rw [attachNode_uuid, e2 b (by rw [hnext]; exact hb), detachNode_uuid,
      SameNodes_uuid hcl.1]
  · rw [attachNode_core _ _ _ _ hba, e1 b (by rw [hnext]; exact hb) hnp, detachNode_core,
      SameNodes_core hcl.1]

/-! ## The path after `Move` -/

theorem parts_unique {h : Heap} {a : Addr} {f1 f2 : Nat} {p1 p2 : List String}
    (h1 : getPathPartsAux f1 h a = some p1) (h2 : getPathPartsAux f2 h a = some p2) :
    p1 = p2 := by
  have e1 := getPathPartsAux_mono h1 f2
  have e2 := getPathPartsAux_mono h2 f1
  rw [Nat.add_comm] at e2
  rw [e1] at e2
  exact Option.some.inj e2

theorem parts_ne_nil {h : Heap} {a : Addr} {f : Nat} {parts : List String}
    (hp : getPathPartsAux f h a = some parts) : parts ≠ [] := by
  cases f with
  | zero => simp [getPathPartsAux] at hp
  | succ n =>
    simp only [getPathPartsAux] at hp
    cases hpar : (h.cells a).Parent with
    | none => simp only [hpar, Option.some.injEq] at hp; subst hp; simp
    | some p =>
      simp only [hpar, Option.map_eq_some'] at hp
      obtain ⟨l, _, rfl⟩ := hp
      simp

theorem up_none_mono {h : Heap} (k r : Nat) (a : Addr) (hn : up h k a = none) :
    up h (k + r) a = none := by
  induction k generalizing a with
  | zero => simp [up] at hn
  | succ k ih =>
    rw [Nat.add_right_comm]
    simp only [up] at hn ⊢
    cases hpar : (h.cells a).Parent with
    | none => rfl
    | some p =>
      simp only [hpar] at hn ⊢
      exact ih p hn

theorem up_none_of_parts {h : Heap} (f : Nat) (a : Addr) {parts : List String}
    (hp : getPathPartsAux f h a = some parts) : up h f a = none := by
  induction f generalizing a parts with
  | zero => simp [getPathPartsAux] at hp
  | succ n ih =>
    simp only [getPathPartsAux] at hp
    simp only [up]
    cases hpar : (h.cells a).Parent with
    | none => rfl
    | some p =>
      simp only [hpar, Option.map_eq_some'] at hp ⊢
      obtain ⟨l, hl, _⟩ := hp
      exact ih p hl

theorem up_cycle_all {h : Heap} {b : Addr} {d : Nat} (hc : up h (d + 1) b = some b)
    (k : Nat) : ∃ c, up h k b = some c := by
  have hmul : ∀ m : Nat, up h (m * (d + 1)) b = some b := by
    intro m
    induction m with
    | zero => simp [up]
    | succ m ih =>
      rw [Nat.succ_mul, up_add _ _ b b ih]
      exact hc
  cases hk : up h k b with
  | some c => exact ⟨c, rfl⟩
  | none =>
    exfalso
    have h1 := up_none_mono k (k * d) b hk
    have h2 := hmul k
    have e : k + k * d = k * (d + 1) := by ring
    rw [e, h2] at h1
    cases h1

/-- When `getPathParts` returns for some budget, it returns within the budget
of the heap. -/
theorem getPathParts_of_some {h : Heap} {ft : FileTree} (hi : Inv h ft) {a : Addr}
    (ha : InMap ft a) {f : Nat} {parts : List String}
    (hp : getPathPartsAux f h a = some parts) : getPathParts h a = some parts := by
  unfold getPathParts
  cases hn : getPathPartsAux (h.next + 1) h a with
  | some p2 => rw [parts_unique hn hp]
  | none =>
    exfalso
    obtain ⟨x, b, d, hb, hc⟩ := getPathParts_cycle hi ha hn
    obtain ⟨c, hc2⟩ := up_cycle_all hc f
    have h1 := up_none_mono f x a (up_none_of_parts f a hp)
    rw [Nat.add_comm, up_add x f a b hb, hc2] at h1
    cases h1

theorem pathIn_of_parts {h : Heap} {ft : FileTree} (hi : Inv h ft) {u : Uuid} {a : Addr}
    (hl : ft.nodes.lookup u = some a) {f : Nat} {parts : List String}
    (hp : getPathPartsAux f h a = some parts) :
    pathIn h ft u = some ("/".intercalate parts) := by
  have ha : InMap ft a := ⟨u, hl⟩
  rw [pathIn_eq]
  refine ⟨a, hl, ?_⟩
  unfold pathOf nodeGetPath
  by_cases hc : (h.cells a).path = ""
  · simp only [hc, if_true, getPathParts_of_some hi ha hp, Option.map_some']
  · obtain ⟨f2, p2, hp2, hj⟩ := hi.cacheValid a ha hc
    rw [if_neg hc, Option.map_some', hj, parts_unique hp2 hp]

theorem parts_of_pathIn {h : Heap} {ft : FileTree} (hi : Inv h ft) {u : Uuid} {a : Addr}
    (hl : ft.nodes.lookup u = some a) {p : String} (hp : pathIn h ft u = some p) :
    ∃ f parts, getPathPartsAux f h a = some parts ∧ p = "/".intercalate parts := by
  rw [pathIn_eq] at hp
  obtain ⟨a', hl', hpo⟩ := hp
  rw [hl] at hl'
  cases hl'
  unfold pathOf nodeGetPath at hpo
  by_cases hc : (h.cells a).path = ""
  · simp only [hc, if_true] at hpo
    cases hg : getPathParts h a with
    | none => simp [hg] at hpo
    | some parts =>
      simp only [hg, Option.map_some', Option.some.injEq] at hpo
      exact ⟨_, parts, hg, hpo.symm⟩
  · simp only [hc, if_false, Option.map_some', Option.some.injEq] at hpo
    obtain ⟨f2, p2, hp2, hj⟩ := hi.cacheValid a ⟨u, hl⟩ hc
    exact ⟨f2, p2, hp2, by rw [← hpo, hj]⟩

theorem intercalate_go_append (acc s x : String) (l : List String) :
    String.intercalate.go acc s (l ++ [x]) = String.intercalate.go acc s l ++ s ++ x := by
  induction l generalizing acc with
  | nil => simp [String.intercalate.go]
  | cons y ys ih =>
    show String.intercalate.go (acc ++ s ++ y) s (ys ++ [x]) = _
    rw [ih]
    rfl

theorem intercalate_append (s x : String) (l : List String) (hl : l ≠ []) :
    s.intercalate (l ++ [x]) = s.intercalate l ++ s ++ x := by
  cases l with
  | nil => exact absurd rfl hl
  | cons y ys =>
    show String.intercalate.go y s (ys ++ [x]) = _
    rw [intercalate_go_append]
    rfl

theorem GetNode_eq {h : Heap} {ft : FileTree} {u : Uuid} {a : Addr}
    (hl : ft.nodes.lookup u = some a) :
    GetNode h ft u =
      some { Uuid := u, Name := (h.cells a).Name, Hash := (h.cells a).Hash,
             Modtime := (h.cells a).Modtime, IsDir := (h.cells a).IsDir,
             Parent := getParentUuid h a } := by
  simp only [GetNode, hl]

theorem GetNode_lookup {h : Heap} {ft : FileTree} {u : Uuid} {n : FileTreeNode}
    (hn : GetNode h ft u = some n) : ∃ a, ft.nodes.lookup u = some a := by
  cases hl : ft.nodes.lookup u with
  | none => simp [GetNode, hl] at hn
  | some a => exact ⟨a, rfl⟩

theorem ensureItem_returns {h : Heap} {ft : FileTree} (item : FileTreeNode)
    (parent : Option Addr)
    (hp : ∀ q, ft.nodes.lookup item.Uuid = some q → (invalidatePathCache h q).isSome = true) :
    ∃ r, ensureItem h ft item parent = some r := by
  unfold ensureItem
  cases hl : ft.nodes.lookup item.Uuid with
  | none => exact ⟨_, rfl⟩
  | some q =>
    obtain ⟨hy, hinv⟩ := Option.isSome_iff_exists.mp (hp q hl)
    simp only [hinv]
    exact ⟨_, rfl⟩

theorem ensureParent_returns {h : Heap} {ft : FileTree} (np : Uuid)
    (hp : np ≠ NilUuid → ∀ q, ft.nodes.lookup np = some q → (h.cells q).IsDir = false →
      (invalidatePathCache h q).isSome = true) :
    ∃ r, ensureParent h ft np = some r := by
  unfold ensureParent
  by_cases hn : np = NilUuid
  · simp only [hn, if_true]
    exact ⟨_, rfl⟩
  · simp only [hn, if_false]
    cases hl : ft.nodes.lookup np with
    | none =>
      have e : ensureItem h ft (placeholderItem np) none =
          some (fillNode (newNode h np) h.next (placeholderItem np) none,
            { nodes := ft.nodes.insert np h.next }) := by
        simp only [ensureItem, placeholderItem, hl]
      simp only [e]
      exact ⟨_, rfl⟩
    | some q =>
      by_cases hd : (h.cells q).IsDir = true
      · simp only [hd, if_true]
        exact ⟨_, rfl⟩
      · have hd0 : (h.cells q).IsDir = false := by simpa using hd
        obtain ⟨⟨h1, ft1⟩, e⟩ := ensureItem_returns (placeholderItem np) none
          (fun q2 hq2 => by
            have e2 : q2 = q := by
              have := hq2
              simp only [placeholderItem] at this
              rw [hl] at this
              exact (Option.some.inj this).symm
            rw [e2]
            exact hp hn q hl hd0)
        simp only [hd0, Bool.false_eq_true, if_false, e]
        exact ⟨_, rfl⟩

/-- `Move` returns when the two cache invalidations it may run return: the one
of the moved node, and the one of a new parent other than `NilUuid` that is in
the tree as a file. -/
theorem Move_returns {h : Heap} {ft : FileTree} {u np : Uuid}
    (name : FileName) {a : Addr} (hl : ft.nodes.lookup u = some a)
    (hu : invalidateReturns h ft u = true)
    (hp : np ≠ NilUuid → ∀ q, ft.nodes.lookup np = some q → (h.cells q).IsDir = false →
      (invalidatePathCache h q).isSome = true) :
    ∃ h1 ft1, Move h ft u np name = some (h1, ft1) := by
  have hu2 : (invalidatePathCache h a).isSome = true := by
    simpa only [invalidateReturns, hl] using hu
  obtain ⟨hx, hinv⟩ := Option.isSome_iff_exists.mp hu2
  obtain ⟨hcl, _⟩ := invalidate_spec hinv
  have hs := hcl.1
  obtain ⟨⟨h3, ft3, parent⟩, hr⟩ := @ensureParent_returns (detachNode hx a u) ft np
    (fun hnn q hlq hd => by
      have hd0 : (h.cells q).IsDir = false := by
        have e := congrArg (fun c => c.2.2.2.2.1) (detachNode_core hx a u q)
        have e2 := SameNodes_isDir hs q
        simp only [coreOf] at e
        rw [e, e2] at hd
        exact hd
      have hq := (invalidate_isSome h q).mp (hp hnn q hlq hd0)
      refine (invalidate_isSome (detachNode hx a u) q).mpr ?_
      unfold ChildrenEnd at hq ⊢
      rw [detachNode_next, hs.1]
      refine childDepth_sub (fun b c hc => ?_) _ q hq
      rw [detachNode_children] at hc
      rw [← SameNodes_children hs]
      split_ifs at hc
      · exact removeChild_subset _ _ _ _ hc
      · exact hc)
  exact ⟨attachNode h3 a parent name, { nodes := ft3.nodes.insert u a },
    by simp only [Move, hl, hinv, hr]⟩

/-! ## `Move` sets the parent and the name -/

theorem Move_parent {h : Heap} {ft : FileTree} {u np : Uuid} {name : FileName} {a : Addr}
    (hl : ft.nodes.lookup u = some a) {h1 : Heap} {ft1 : FileTree}
    (he : Move h ft u np name = some (h1, ft1)) :
    (np = NilUuid → (h1.cells a).Parent = none) ∧
    (np ≠ NilUuid → np ≠ u →
      ∃ q, (h1.cells a).Parent = some q ∧ ft1.nodes.lookup np = some q) := by
  obtain ⟨hx, h3, ft3, parent, hinv, hep, rfl, rfl⟩ := Move_cases hl he
  obtain ⟨p1, p2⟩ := ensureParent_parent hep
  have hpar : ((attachNode h3 a parent name).cells a).Parent = parent := by
    rw [attachNode_parent, if_pos rfl]
  refine ⟨fun hn => by rw [hpar]; exact p1 hn, fun hn hne => ?_⟩
  obtain ⟨q, hq, hlq⟩ := p2 hn
  refine ⟨q, by rw [hpar]; exact hq, ?_⟩
  show (ft3.nodes.insert u a).lookup np = some q
  rw [lookup_insert_eq, if_neg hne]
  exact hlq

theorem pathIn_root {h : Heap} {ft : FileTree} (hi : Inv h ft) {u : Uuid} {a : Addr}
    (hl : ft.nodes.lookup u = some a) (hp : (h.cells a).Parent = none) :
    pathIn h ft u = some (h.cells a).Name := by
  have e : getPathPartsAux 1 h a = some [(h.cells a).Name] := by
    simp only [getPathPartsAux, hp]
  exact pathIn_of_parts hi hl e

theorem pathIn_child {h : Heap} {ft : FileTree} (hi : Inv h ft) {u v : Uuid} {a q : Addr}
    (hl : ft.nodes.lookup u = some a) (hp : (h.cells a).Parent = some q)
    (hv : ft.nodes.lookup v = some q) :
    pathIn h ft u = (pathIn h ft v).map (fun p => p ++ "/" ++ (h.cells a).Name) := by
  cases hpv : pathIn h ft v with
  | some p =>
    obtain ⟨f, parts, hparts, rfl⟩ := parts_of_pathIn hi hv hpv
    have e : getPathPartsAux (f + 1) h a = some (parts ++ [(h.cells a).Name]) := by
      simp only [getPathPartsAux, hp, hparts, Option.map_some']
    rw [pathIn_of_parts hi hl e, intercalate_append _ _ _ (parts_ne_nil hparts)]
    rfl
  | none =>
    cases hpu : pathIn h ft u with
    | none => rfl
    | some p =>
      exfalso
      obtain ⟨f, parts, hparts, _⟩ := parts_of_pathIn hi hl hpu
      cases f with
      | zero => simp [getPathPartsAux] at hparts
      | succ f =>
        simp only [getPathPartsAux, hp, Option.map_eq_some'] at hparts
        obtain ⟨l, hl2, _⟩ := hparts
        rw [pathIn_of_parts hi hv hl2] at hpv
        cases hpv

theorem Move_GetNode_others {h : Heap} {ft : FileTree} (hi : Inv h ft) {u np : Uuid}
    {name : FileName} {a : Addr} (hl : ft.nodes.lookup u = some a) {h1 : Heap}
    {ft1 : FileTree} (he : Move h ft u np name = some (h1, ft1)) (w : Uuid) (hwu : w ≠ u)
    (hwn : w ≠ np) : GetNode h1 ft1 w = GetNode h ft w := by
  obtain ⟨e1, e2, e3⟩ := Move_others hl he
  have hlw := e1 w hwn
  cases hb : ft.nodes.lookup w with
  | none => simp only [GetNode, hlw, hb]
  | some b =>
    rw [hb] at hlw
    rw [GetNode_eq hlw, GetNode_eq hb]
    have hbn : b < h.next := hi.bound b ⟨w, hb⟩
    have hba : b ≠ a := by
      intro e
      rw [e] at hb
      have k1 := hi.keyed w a hb
      have k2 := hi.keyed u a hl
      exact hwu (k1.symm.trans k2)
    have hbq : ft.nodes.lookup np ≠ some b := by
      intro e
      have k1 := hi.keyed w b hb
      have k2 := hi.keyed np b e
      exact hwn (k1.symm.trans k2)
    have hc := e3 b hbn hba hbq
    simp only [coreOf, Prod.mk.injEq] at hc
    obtain ⟨_, c2, c3, c4, c5, c6⟩ := hc
    have hpu : getParentUuid h1 b = getParentUuid h b := by
      unfold getParentUuid
      rw [c6]
      cases hp : (h.cells b).Parent with
      | none => rfl
      | some p => exact e2 p (hi.parentBound b p hp)
    rw [c2, c3, c4, c5, hpu]

/-! ## Renames and the move back -/

theorem Move_rename {h : Heap} {ft : FileTree} (hi : Inv h ft) {u p : Uuid} {a : Addr}
    (hok : RenameOK h ft u a p) {nm : FileName} {h1 : Heap} {ft1 : FileTree}
    (he : Move h ft u p nm = some (h1, ft1)) :
    Renamed h ft a h1 ft1 ∧ (h1.cells a).Name = nm := by
  obtain ⟨hl, hpar⟩ := hok
  obtain ⟨hx, h3, ft3, parent, hinv, hep, rfl, rfl⟩ := Move_cases hl he
  obtain ⟨hcl, _⟩ := invalidate_spec hinv
  have hs := hcl.1
  have hd : ∀ b, coreOf ((detachNode hx a u).cells b) = coreOf (h.cells b) := fun b => by
    rw [detachNode_core, SameNodes_core hs]
  have key : h3 = detachNode hx a u ∧ ft3 = ft ∧ parent = (h.cells a).Parent := by
    rcases ensureParent_cases hep with ⟨hn, e1, e2, e3⟩ | ⟨hn, q, hq, _, e1, e2, e3⟩ |
      ⟨hn, _, _, hc⟩
    · rcases hpar with ⟨_, hp0⟩ | ⟨hn2, _⟩
      · exact ⟨e1, e2, by rw [e3, hp0]⟩
      · exact absurd hn hn2
    · rcases hpar with ⟨hn2, _⟩ | ⟨_, q2, hp2, hl2, _, _⟩
      · exact absurd hn2 hn
      · rw [hl2] at hq
        cases hq
        exact ⟨e1, e2, by rw [e3, hp2]⟩
    · exfalso
      rcases hpar with ⟨hn2, _⟩ | ⟨_, q2, hp2, hl2, hd2, _⟩
      · exact hn hn2
      · rcases hc with hc | ⟨q, hq, hdq⟩
        · rw [hl2] at hc
          cases hc
        · rw [hl2] at hq
          cases hq
          have e := congrArg (fun c => c.2.2.2.2.1) (hd q2)
          simp only [coreOf] at e
          rw [e, hd2] at hdq
          cases hdq
  obtain ⟨k1, k2, k3⟩ := key
  rw [k1, k2, k3]
  have hcore : ∀ b, b ≠ a →
      coreOf ((attachNode (detachNode hx a u) a (h.cells a).Parent nm).cells b) =
        coreOf (h.cells b) := fun b hb => by
    rw [attachNode_core _ _ _ _ hb, hd]
  refine ⟨⟨fun w => ?_, ?_, fun b hb => ?_, fun b => ?_, fun b hb => ?_, fun b c hc => ?_⟩, ?_⟩
  · show (ft.nodes.insert u a).lookup w = ft.nodes.lookup w
    rw [lookup_insert_eq]
    split_ifs with e
    · rw [e, hl]
    · rfl
  · rw [attachNode_next, detachNode_next, hs.1]
  · have e := congrArg (fun c => c.2.1) (hcore b hb)
    simpa only [coreOf] using e
  · rw [attachNode_parent]
    split_ifs with e
    · rw [e]
    · rw [detachNode_parent, SameNodes_parent hs]
  · have e := congrArg (fun c => c.2.2.2.2.1) (hcore b hb)
    simpa only [coreOf] using e
  · rw [attachNode_children, detachNode_children, SameNodes_parent hs,
      SameNodes_children hs] at hc
    by_cases hpb : (h.cells a).Parent = some b
    · simp only [hpb, if_true, List.mem_append, List.mem_singleton] at hc
      rcases hc with hc | rfl
      · exact removeChild_subset _ _ _ _ hc
      · exact hi.childListed c ⟨u, hl⟩ (by simp) b hpb
    · simpa only [hpb, if_false] using hc
  · rw [attachNode_name, if_pos rfl]

theorem Renamed_refl (h : Heap) (ft : FileTree) (a : Addr) : Renamed h ft a h ft :=
  ⟨fun _ => rfl, rfl, fun _ _ => rfl, fun _ => rfl, fun _ _ => rfl, fun _ _ hc => hc⟩

theorem Renamed_trans {h0 h1 h2 : Heap} {ft0 ft1 ft2 : FileTree} {a : Addr}
    (r1 : Renamed h0 ft0 a h1 ft1) (r2 : Renamed h1 ft1 a h2 ft2) :
    Renamed h0 ft0 a h2 ft2 :=
  ⟨fun w => (r2.lookup w).trans (r1.lookup w), r2.next.trans r1.next,
   fun b hb => (r2.name b hb).trans (r1.name b hb),
   fun b => (r2.parent b).trans (r1.parent b),
   fun b hb => (r2.isDir b hb).trans (r1.isDir b hb),
   fun b c hc => r1.children b c (r2.children b c hc)⟩

theorem RenameOK_of_Renamed {h0 h : Heap} {ft0 ft : FileTree} {u p : Uuid} {a : Addr}
    (hok : RenameOK h0 ft0 u a p) (r : Renamed h0 ft0 a h ft) : RenameOK h ft u a p := by
  obtain ⟨hl, hpar⟩ := hok
  refine ⟨by rw [r.lookup, hl], ?_⟩
  rcases hpar with ⟨hn, hp0⟩ | ⟨hn, q, hp, hlq, hd, hqa⟩
  · exact Or.inl ⟨hn, by rw [r.parent, hp0]⟩
  · exact Or.inr ⟨hn, q, by rw [r.parent, hp], by rw [r.lookup, hlq],
      by rw [r.isDir q hqa, hd], hqa⟩

theorem returns_of_Renamed {h0 h : Heap} {ft0 ft : FileTree} {u : Uuid} {a : Addr}
    (hl : ft0.nodes.lookup u = some a) (hu : invalidateReturns h0 ft0 u = true)
    (r : Renamed h0 ft0 a h ft) : invalidateReturns h ft u = true := by
  have hu2 : (invalidatePathCache h0 a).isSome = true := by
    simpa only [invalidateReturns, hl] using hu
  have hc := (invalidate_isSome h0 a).mp hu2
  have hl2 : ft.nodes.lookup u = some a := by rw [r.lookup, hl]
  simp only [invalidateReturns, hl2]
  refine (invalidate_isSome h a).mpr ?_
  unfold ChildrenEnd at hc ⊢
  rw [r.next]
  exact childDepth_sub r.children _ a hc

theorem Move_rename_returns {h0 h : Heap} {ft0 ft : FileTree} {u p : Uuid} {a : Addr}
    (hok : RenameOK h0 ft0 u a p) (hu : invalidateReturns h0 ft0 u = true)
    (hi : Inv h ft) (r : Renamed h0 ft0 a h ft) (nm : FileName) :
    ∃ h1 ft1, Move h ft u p nm = some (h1, ft1) ∧ Inv h1 ft1 ∧ Renamed h0 ft0 a h1 ft1 ∧
      (h1.cells a).Name = nm := by
  have hok2 := RenameOK_of_Renamed hok r
  have hu2 := returns_of_Renamed hok.1 hu r
  obtain ⟨h1, ft1, he⟩ := Move_returns nm hok2.1 hu2 (fun hn q hq hd => by
    exfalso
    rcases hok2.2 with ⟨hn2, _⟩ | ⟨_, q2, _, hl2, hd2, _⟩
    · exact hn hn2
    · rw [hl2] at hq
      cases hq
      rw [hd2] at hd
      cases hd)
  obtain ⟨r2, hnm⟩ := Move_rename hi hok2 he
  exact ⟨h1, ft1, he, Move_inv hi u p nm he, Renamed_trans r r2, hnm⟩

theorem moveAll_renames {h0 : Heap} {ft0 : FileTree} {u p : Uuid} {a : Addr}
    (hok : RenameOK h0 ft0 u a p) (hu : invalidateReturns h0 ft0 u = true)
    (names : List FileName) (h : Heap) (ft : FileTree) (hi : Inv h ft)
    (r : Renamed h0 ft0 a h ft) :
    ∃ h1 ft1, moveAll h ft u p names = some (h1, ft1) ∧ Inv h1 ft1 ∧
      Renamed h0 ft0 a h1 ft1 := by
  induction names generalizing h ft with
  | nil => exact ⟨h, ft, rfl, hi, r⟩
  | cons nm rest ih =>
    obtain ⟨h1, ft1, he, hi1, r1, _⟩ := Move_rename_returns hok hu hi r nm
    obtain ⟨h2, ft2, he2, hi2, r2⟩ := ih h1 ft1 hi1 r1
    refine ⟨h2, ft2, ?_, hi2, r2⟩
    unfold moveAll at he2 ⊢
    rw [List.foldlM_cons]
    show (Move h ft u p nm).bind _ = _
    rw [he]
    exact he2

theorem pathIn_congr {h h1 : Heap} {ft ft1 : FileTree} (hi : Inv h ft) (hi1 : Inv h1 ft1)
    {u : Uuid} {a : Addr} (hl : ft.nodes.lookup u = some a)
    (hl1 : ft1.nodes.lookup u = some a)
    (hg : ∀ f, getPathPartsAux f h1 a = getPathPartsAux f h a) :
    pathIn h1 ft1 u = pathIn h ft u := by
  cases hp : pathIn h ft u with
  | some p =>
    obtain ⟨f, parts, hparts, rfl⟩ := parts_of_pathIn hi hl hp
    rw [← hg] at hparts
    exact pathIn_of_parts hi1 hl1 hparts
  | none =>
    cases hp1 : pathIn h1 ft1 u with
    | none => rfl
    | some p =>
      exfalso
      obtain ⟨f, parts, hparts, _⟩ := parts_of_pathIn hi1 hl1 hp1
      rw [hg] at hparts
      rw [pathIn_of_parts hi hl hparts] at hp
      cases hp

theorem RenameOK_of_GetNode {h : Heap} {ft : FileTree} (hi : Inv h ft) {u : Uuid}
    {n : FileTreeNode} (hn : GetNode h ft u = some n)
    (hp : n.Parent = NilUuid ∨ (GetNode h ft n.Parent).map (fun m => m.IsDir) = some true)
    (hu : invalidateReturns h ft u = true) :
    ∃ a, RenameOK h ft u a n.Parent ∧ (h.cells a).Name = n.Name := by
  obtain ⟨a, hl⟩ := GetNode_lookup hn
  rw [GetNode_eq hl] at hn
  have hn' := (Option.some.inj hn).symm
  have ha : InMap ft a := ⟨u, hl⟩
  refine ⟨a, ⟨hl, ?_⟩, by rw [hn']⟩
  have hpu : n.Parent = getParentUuid h a := by rw [hn']
  cases hpar : (h.cells a).Parent with
  | none =>
    refine Or.inl ⟨?_, rfl⟩
    rw [hpu]
    simp only [getParentUuid, hpar]
  | some q =>
    have hq : n.Parent = (h.cells q).Uuid := by
      rw [hpu]
      simp only [getParentUuid, hpar]
    have hnn : n.Parent ≠ NilUuid := by
      rw [hq]
      exact hi.nilFree a ha q hpar
    have hlq : ft.nodes.lookup n.Parent = some q := by
      rw [hq]
      exact InMap_lookup hi.keyed (hi.parentIn a ha q hpar)
    refine Or.inr ⟨hnn, q, rfl, hlq, ?_, ?_⟩
    · rcases hp with hp | hp
      · exact absurd hp hnn
      · rw [GetNode_eq hlq] at hp
        simpa using hp
    · intro e
      rw [e] at hpar
      have hc := hi.childListed a ha (by simp) a hpar
      have hu2 : (invalidatePathCache h a).isSome = true := by
        simpa only [invalidateReturns, hl] using hu
      have hce := (invalidate_isSome h a).mp hu2
      unfold ChildrenEnd at hce
      rw [childDepth_cycle Relation.ReflTransGen.refl hc] at hce
      cases hce

/-- **C9**, amended.  In a tree reached from the empty tree by the operations of
`FileTree`, let `u` be a node with parent `p` and name `n` such that `p` is
`NilUuid` or a directory of the tree, and the cache invalidation of `u`
returns.  Then the calls `Move(u, p, n_1)`, ..., `Move(u, p, n_k)`,
`Move(u, p, n)` all return, for arbitrary names `n_i`, and `GetPath(u)`
afterwards is what it was before the calls. -/
theorem Move_back_restores_path (h : Heap) (ft : FileTree) (hr : Reachable h ft)
    (u : Uuid) (n : FileTreeNode) (hn : GetNode h ft u = some n)
    (hp : n.Parent = NilUuid ∨ (GetNode h ft n.Parent).map (fun m => m.IsDir) = some true)
    (hu : invalidateReturns h ft u = true) (names : List FileName) :
    ∃ h1 ft1, moveAll h ft u n.Parent (names ++ [n.Name]) = some (h1, ft1) ∧
      pathIn h1 ft1 u = pathIn h ft u := by
  have hi := Reachable_inv hr
  obtain ⟨a, hok, hname⟩ := RenameOK_of_GetNode hi hn hp hu
  obtain ⟨h1, ft1, he1, hi1, r1⟩ :=
    moveAll_renames hok hu names h ft hi (Renamed_refl h ft a)
  obtain ⟨h2, ft2, he2, hi2, r2, hnm⟩ := Move_rename_returns hok hu hi1 r1 n.Name
  refine ⟨h2, ft2, ?_, ?_⟩
  · unfold moveAll at he1 ⊢
    rw [List.foldlM_append, he1]
    show (Move h1 ft1 u n.Parent n.Name).bind _ = _
    rw [he2]
    rfl
  · refine pathIn_congr hi hi2 hok.1 (by rw [r2.lookup, hok.1])
      (fun f => getPathPartsAux_congr (fun b => ?_) r2.parent f a)
    by_cases hb : b = a
    · rw [hb, hnm, hname]
    · exact r2.name b hb

/-- Witness of **C9**: `file1` of the test tree is renamed to `"a"`, to `"b"`
and back to `"file1.txt"`. -/
theorem Move_back_restores_path_witness :
    Reachable testTree.1 testTree.2 ∧
    pathIn testTree.1 testTree.2 uFile1 = some "dir1/dir2/file1.txt" ∧
    (moveAll testTree.1 testTree.2 uFile1 uDir2 ["a", "b"]).map
      (fun r => pathIn r.1 r.2 uFile1) = some (some "dir1/dir2/b") ∧
    ∃ h1 ft1, moveAll testTree.1 testTree.2 uFile1 uDir2 (["a", "b"] ++ ["file1.txt"]) =
        some (h1, ft1) ∧
      pathIn h1 ft1 uFile1 = pathIn testTree.1 testTree.2 uFile1 :=
  ⟨testTree_reachable, by decide, by decide,
   Move_back_restores_path testTree.1 testTree.2 testTree_reachable uFile1
     { Uuid := uFile1, Name := "file1.txt",
       Hash := HashFromString
         "aaaaaaaaaaaaaaaaaaaaaaaaaaaaaaaaaaaaaaaaaaaaaaaaaaaaaaaaaaaaaaaa",
       Modtime := 0, IsDir := false, Parent := uDir2 }
     (by decide) (Or.inr (by decide)) (by decide) ["a", "b"]⟩

/-! ## `Diff` of a tree with itself, and `Diff` in the other direction -/

theorem unequal_self (h : Heap) (x : Addr) : unequal h x x = false := by
  simp [unequal]

theorem unequal_comm (h : Heap) (x y : Addr) : unequal h y x = unequal h x y := by
  rw [Bool.eq_iff_iff, unequal_iff, unequal_iff]
  constructor
  · rintro (e | e | e | e)
    · exact Or.inl (Ne.symm e)
    · exact Or.inr (Or.inl (Ne.symm e))
    · exact Or.inr (Or.inr (Or.inl (Ne.symm e)))
    · exact Or.inr (Or.inr (Or.inr (Ne.symm e)))
  · rintro (e | e | e | e)
    · exact Or.inl (Ne.symm e)
    · exact Or.inr (Or.inl (Ne.symm e))
    · exact Or.inr (Or.inr (Or.inl (Ne.symm e)))
    · exact Or.inr (Or.inr (Or.inr (Ne.symm e)))

theorem diffWalk_same (xs : List Addr) (h : Heap) : diffWalk xs xs h = some (h, []) := by
  induction xs with
  | nil => rfl
  | cons x xs ih =>
    simp only [diffWalk, diffStep, unequal_self, if_true, Bool.false_eq_true, if_false]
    exact ih

/-- **C12.** For every tree `t`, `Diff(t, t)` returns and sends no item; and for
the tree `t2` after `t2.CopyFrom(t)`, `Diff(t2, t)` and `Diff(t, t2)` return and
send no item. -/
theorem Diff_of_equal_trees (h : Heap) (t t2 : FileTree) :
    Diff h t t = some (h, []) ∧
    Diff h (CopyFrom t2 t) t = some (h, []) ∧
    Diff h t (CopyFrom t2 t) = some (h, []) :=
  ⟨diffWalk_same _ h, diffWalk_same _ h, diffWalk_same _ h⟩

theorem itemsWalk_nil_right (h : Heap) (xs : List Addr) :
    itemsWalk h xs [] = xs.map (fun a => .DiffRemoved (h.cells a).Uuid (pathAt h a)) := by
  induction xs with
  | nil => rfl
  | cons x xs ih => simp only [itemsWalk, itemsStep, ih, List.map_cons]

theorem itemsWalk_swap (h : Heap) (xs ys : List Addr) :
    itemsWalk h ys xs = (itemsWalk h xs ys).map DiffItem.swap := by
  induction xs generalizing ys with
  | nil =>
    rw [itemsWalk_nil_right]
    simp only [itemsWalk, List.map_map]
    rfl
  | cons x xs ihx =>
    induction ys with
    | nil =>
      rw [itemsWalk_nil_right]
      simp only [itemsWalk, List.map_map]
      rfl
    | cons y ys ihy =>
      have e1 : itemsWalk h (y :: ys) (x :: xs) =
          itemsStep h y (itemsWalk h ys) (x :: xs) := rfl
      have e2 : itemsWalk h (x :: xs) (y :: ys) =
          itemsStep h x (itemsWalk h xs) (y :: ys) := rfl
      have e3 : itemsStep h y (itemsWalk h ys) xs = itemsWalk h (y :: ys) xs := rfl
      have e4 : itemsStep h x (itemsWalk h xs) ys = itemsWalk h (x :: xs) ys := rfl
      rw [e1, e2]
      by_cases he : (h.cells x).Uuid = (h.cells y).Uuid
      · have he2 : (h.cells y).Uuid = (h.cells x).Uuid := he.symm
        simp only [itemsStep]
        rw [if_pos he, if_pos he2, unequal_comm h x y]
        by_cases hu : unequal h x y = true
        · rw [if_pos hu, if_pos hu, List.map_cons, ihx ys, he2]
          rfl
        · rw [if_neg hu, if_neg hu, ihx ys]
      · have he2 : ¬ (h.cells y).Uuid = (h.cells x).Uuid := fun e => he e.symm
        by_cases hlt : CompareUuids (h.cells x).Uuid (h.cells y).Uuid < 0
        · have hgt : ¬ CompareUuids (h.cells y).Uuid (h.cells x).Uuid < 0 :=
            UuidLt_asymm hlt
          simp only [itemsStep]
          rw [if_neg he, if_neg he2, if_pos hlt, if_neg hgt, e3, List.map_cons, ihx (y :: ys)]
          rfl
        · have hgt : CompareUuids (h.cells y).Uuid (h.cells x).Uuid < 0 :=
            UuidLt_of_not he hlt
          simp only [itemsStep]
          rw [if_neg he, if_neg he2, if_neg hlt, if_pos hgt, e4, List.map_cons, ihy]
          rfl

theorem Tracks_items {h0 : Heap} {r : Option (Heap × List DiffItem)}
    {o : Option (List DiffItem)} (t : Tracks h0 r o) : r.map Prod.snd = o := by
  cases r with
  | none => exact t.symm
  | some x => exact t.1.symm

theorem PathEq_ask {h0 h : Heap} (e : PathEq h0 h) (a : Addr) :
    match nodeGetPath h a with
    | none => pathOf h0 a = none
    | some (h1, p) => pathOf h0 a = some p ∧ PathEq h0 h1 := by
  have hp : pathOf h a = pathOf h0 a := e.2 a
  cases hg : nodeGetPath h a with
  | none =>
    rw [← hp]
    simp [pathOf, hg]
  | some x =>
    obtain ⟨h1, p⟩ := x
    have hf := nodeGetPath_frame hg
    refine ⟨?_, SameNodes_trans e.1 hf.1, fun b => (hf.2 b).trans (e.2 b)⟩
    rw [← hp]
    simp [pathOf, hg]

theorem Tracks_ask {h0 h : Heap} (e : PathEq h0 h) (a : Addr)
    (k : String → Heap → Option (Heap × List DiffItem)) (o : String → Option (List DiffItem))
    (hk : ∀ p h1, PathEq h0 h1 → Tracks h0 (k p h1) (o p)) :
    Tracks h0
      (match nodeGetPath h a with
       | none => none
       | some (h1, p) => k p h1)
      (match pathOf h0 a with
       | none => none
       | some p => o p) := by
  have ha := PathEq_ask e a
  cases hg : nodeGetPath h a with
  | none =>
    rw [hg] at ha
    simp only [ha]
    exact rfl
  | some x =>
    obtain ⟨h1, p⟩ := x
    rw [hg] at ha
    obtain ⟨hp, e1⟩ := ha
    simp only [hp]
    exact hk p h1 e1

theorem Tracks_push {h0 : Heap} (item : DiffItem) (r : Option (Heap × List DiffItem))
    (o : Option (List DiffItem)) : Tracks h0 r o →
    Tracks h0
      (match r with
       | none => none
       | some (h2, items) => some (h2, item :: items))
      (match o with
       | none => none
       | some items => some (item :: items)) := by
  intro t
  cases r with
  | none =>
    have t2 : o = none := t
    subst t2
    exact rfl
  | some y =>
    obtain ⟨h2, items⟩ := y
    obtain ⟨t1, t2⟩ : o = some items ∧ PathEq h0 h2 := t
    subst t1
    exact ⟨rfl, t2⟩

theorem diffAdded_tracks (h0 : Heap) (ys : List Addr) (h : Heap) (e : PathEq h0 h) :
    Tracks h0 (diffAdded ys h) (sentAdded h0 ys) := by
  induction ys generalizing h with
  | nil => exact ⟨rfl, e⟩
  | cons y ys ih =>
    rw [diffAdded, sentAdded, SameNodes_uuid e.1]
    exact Tracks_ask e y (fun p h1 =>
        match diffAdded ys h1 with
        | none => none
        | some (h2, items) => some (h2, .DiffAdded (h0.cells y).Uuid p :: items))
      (fun p =>
        match sentAdded h0 ys with
        | none => none
        | some items => some (.DiffAdded (h0.cells y).Uuid p :: items))
      (fun p h1 e1 => Tracks_push _ _ _ (ih h1 e1))

theorem diffStep_tracks (h0 : Heap) (x : Addr)
    (rest : List Addr → Heap → Option (Heap × List DiffItem))
    (restItems : List Addr → Option (List DiffItem))
    (hrest : ∀ ys h, PathEq h0 h → Tracks h0 (rest ys h) (restItems ys))
    (ys : List Addr) (h : Heap) (e : PathEq h0 h) :
    Tracks h0 (diffStep x rest ys h) (sentStep h0 x restItems ys) := by
  induction ys generalizing h with
  | nil =>
    rw [diffStep, sentStep, SameNodes_uuid e.1]
    exact Tracks_ask e x (fun p h1 =>
        match rest [] h1 with
        | none => none
        | some (h2, items) => some (h2, .DiffRemoved (h0.cells x).Uuid p :: items))
      (fun p =>
        match restItems [] with
        | none => none
        | some items => some (.DiffRemoved (h0.cells x).Uuid p :: items))
      (fun p h1 e1 => Tracks_push _ _ _ (hrest [] h1 e1))
  | cons y ys ih =>
    rw [diffStep, sentStep]
    simp only [SameNodes_uuid e.1, SameNodes_unequal e.1]
    by_cases hu : (h0.cells x).Uuid = (h0.cells y).Uuid
    · rw [if_pos hu, if_pos hu]
      by_cases hne : unequal h0 x y = true
      · rw [if_pos hne, if_pos hne]
        exact Tracks_ask e x (fun p h1 =>
            match nodeGetPath h1 y with
            | none => none
            | some (h2, q) =>
              match rest ys h2 with
              | none => none
              | some (h3, items) =>
                some (h3, .DiffModified (h0.cells x).Uuid p q :: items))
          (fun p =>
            match pathOf h0 y with
            | none => none
            | some q =>
              match restItems ys with
              | none => none
              | some items => some (.DiffModified (h0.cells x).Uuid p q :: items))
          (fun p h1 e1 => Tracks_ask e1 y (fun q h2 =>
              match rest ys h2 with
              | none => none
              | some (h3, items) =>
                some (h3, .DiffModified (h0.cells x).Uuid p q :: items))
            (fun q =>
              match restItems ys with
              | none => none
              | some items => some (.DiffModified (h0.cells x).Uuid p q :: items))
            (fun q h2 e2 => Tracks_push _ _ _ (hrest ys h2 e2)))
      · rw [if_neg hne, if_neg hne]
        exact hrest ys h e
    · rw [if_neg hu, if_neg hu]
      by_cases hlt : CompareUuids (h0.cells x).Uuid (h0.cells y).Uuid < 0
      · rw [if_pos hlt, if_pos hlt]
        exact Tracks_ask e x (fun p h1 =>
            match rest (y :: ys) h1 with
            | none => none
            | some (h2, items) => some (h2, .DiffRemoved (h0.cells x).Uuid p :: items))
          (fun p =>
            match restItems (y :: ys) with
            | none => none
            | some items => some (.DiffRemoved (h0.cells x).Uuid p :: items))
          (fun p h1 e1 => Tracks_push _ _ _ (hrest (y :: ys) h1 e1))
      · rw [if_neg hlt, if_neg hlt]
        exact Tracks_ask e y (fun p h1 =>
            match diffStep x rest ys h1 with
            | none => none
            | some (h2, items) => some (h2, .DiffAdded (h0.cells y).Uuid p :: items))
          (fun p =>
            match sentStep h0 x restItems ys with
            | none => none
            | some items => some (.DiffAdded (h0.cells y).Uuid p :: items))
          (fun p h1 e1 => Tracks_push _ _ _ (ih h1 e1))

theorem diffWalk_tracks (h0 : Heap) (xs ys : List Addr) (h : Heap) (e : PathEq h0 h) :
    Tracks h0 (diffWalk xs ys h) (sentWalk h0 xs ys) := by
  induction xs generalizing ys h with
  | nil => exact diffAdded_tracks h0 ys h e
  | cons x xs ih =>
    rw [diffWalk, sentWalk]
    exact diffStep_tracks h0 x (diffWalk xs) (sentWalk h0 xs) (fun ys h e => ih ys h e) ys h e

theorem DiffItem_swap_swap (item : DiffItem) : item.swap.swap = item := by
  cases item <;> rfl

theorem sentWalk_nil_right (h : Heap) (xs : List Addr) :
    sentWalk h xs [] = (sentAdded h xs).map (List.map DiffItem.swap) := by
  induction xs with
  | nil => rfl
  | cons x xs ih =>
    rw [sentWalk, sentStep, sentAdded, ih]
    cases pathOf h x with
    | none => rfl
    | some p =>
      cases sentAdded h xs with
      | none => rfl
      | some items => rfl

theorem sentWalk_nil_left (h : Heap) (xs : List Addr) :
    sentWalk h [] xs = (sentWalk h xs []).map (List.map DiffItem.swap) := by
  rw [sentWalk_nil_right, sentWalk, Option.map_map]
  have e : (List.map DiffItem.swap ∘ List.map DiffItem.swap) = id := by
    funext l
    simp [List.map_map, Function.comp_def, DiffItem_swap_swap]
  rw [e, Option.map_id]
  rfl

theorem sentWalk_swap (h : Heap) (xs ys : List Addr) :
    sentWalk h ys xs = (sentWalk h xs ys).map (List.map DiffItem.swap) := by
  induction xs generalizing ys with
  | nil => exact sentWalk_nil_right h ys
  | cons x xs ihx =>
    induction ys with
    | nil => exact sentWalk_nil_left h (x :: xs)
    | cons y ys ihy =>
      have e1 : sentWalk h (y :: ys) (x :: xs) =
          sentStep h y (sentWalk h ys) (x :: xs) := rfl
      have e2 : sentWalk h (x :: xs) (y :: ys) =
          sentStep h x (sentWalk h xs) (y :: ys) := rfl
      have e3 : sentStep h y (sentWalk h ys) xs = sentWalk h (y :: ys) xs := rfl
      have e4 : sentStep h x (sentWalk h xs) ys = sentWalk h (x :: xs) ys := rfl
      rw [e1, e2]
      by_cases he : (h.cells x).Uuid = (h.cells y).Uuid
      · have he2 : (h.cells y).Uuid = (h.cells x).Uuid := he.symm
        rw [sentStep, sentStep, if_pos he, if_pos he2, unequal_comm h x y]
        by_cases hu : unequal h x y = true
        · rw [if_pos hu, if_pos hu, ihx ys, he2]
          cases pathOf h x with
          | none => cases pathOf h y <;> rfl
          | some p =>
            cases pathOf h y with
            | none => rfl
            | some q => cases sentWalk h xs ys <;> rfl
        · rw [if_neg hu, if_neg hu, ihx ys]
      · have he2 : ¬ (h.cells y).Uuid = (h.cells x).Uuid := fun e => he e.symm
        by_cases hlt : CompareUuids (h.cells x).Uuid (h.cells y).Uuid < 0
        · have hgt : ¬ CompareUuids (h.cells y).Uuid (h.cells x).Uuid < 0 :=
            UuidLt_asymm hlt
          rw [sentStep, sentStep, if_neg he, if_neg he2, if_pos hlt, if_neg hgt, e3,
            ihx (y :: ys)]
          cases pathOf h x with
          | none => rfl
          | some p => cases sentWalk h xs (y :: ys) <;> rfl
        · have hgt : CompareUuids (h.cells y).Uuid (h.cells x).Uuid < 0 :=
            UuidLt_of_not he hlt
          rw [sentStep, sentStep, if_neg he, if_neg he2, if_neg hlt, if_pos hgt, e4, ihy]
          cases pathOf h y with
          | none => rfl
          | some p => cases sentWalk h (x :: xs) ys <;> rfl

theorem diffItems_swap (h : Heap) (a b : FileTree) :
    (Diff h b a).map Prod.snd =
      (Diff h a b).map (fun r => r.2.map DiffItem.swap) := by
  have t1 := Tracks_items (diffWalk_tracks h (sortNodes h (toDiffSlice b))
    (sortNodes h (toDiffSlice a)) h (PathEq_refl h))
  have t2 := Tracks_items (diffWalk_tracks h (sortNodes h (toDiffSlice a))
    (sortNodes h (toDiffSlice b)) h (PathEq_refl h))
  unfold Diff diff
  rw [t1, sentWalk_swap, ← t2, Option.map_map]
  rfl

/-- **C13.** For every two trees `a` and `b`, `Diff(b, a)` returns exactly when
`Diff(a, b)` returns, and its items are those of `Diff(a, b)` in the same order
with every `DiffAdded{u, p}` replaced by `DiffRemoved{u, p}`, every
`DiffRemoved{u, p}` by `DiffAdded{u, p}` and every `DiffModified{u, old, new}` by
`DiffModified{u, new, old}`; both return when `GetPath` returns on the nodes of
the two trees. -/
theorem Diff_swap (h : Heap) (a b : FileTree) :
    (Diff h b a).map Prod.snd = (Diff h a b).map (fun r => r.2.map DiffItem.swap) ∧
    (PathsReturn h a → PathsReturn h b →
      ∃ h1 h2 items, Diff h a b = some (h1, items) ∧
        Diff h b a = some (h2, items.map DiffItem.swap)) := by
  refine ⟨diffItems_swap h a b, fun hp1 hp2 => ?_⟩
  obtain ⟨h1, hd1, _⟩ := Diff_eq_itemsWalk hp1 hp2
  obtain ⟨h2, hd2, _⟩ := Diff_eq_itemsWalk hp2 hp1
  refine ⟨h1, h2, _, hd1, ?_⟩
  rw [hd2, itemsWalk_swap]

/-- Witness of **C13**: the two trees of `TestDiffMoveDir` and of
`TestDiffRemovedDir`. -/
theorem Diff_swap_witness :
    PathsReturn moveDirWorld.1 moveDirWorld.2.1 ∧
    PathsReturn moveDirWorld.1 moveDirWorld.2.2 ∧
    (Diff removedDirWorld.1 removedDirWorld.2.1 removedDirWorld.2.2).map Prod.snd =
      some [.DiffRemoved uDir2 "dir1/dir2", .DiffRemoved uFile1 "dir1/dir2/file1.txt"] ∧
    (Diff removedDirWorld.1 removedDirWorld.2.2 removedDirWorld.2.1).map Prod.snd =
      some [.DiffAdded uDir2 "dir1/dir2", .DiffAdded uFile1 "dir1/dir2/file1.txt"] ∧
    ∃ h1 h2 items, Diff moveDirWorld.1 moveDirWorld.2.1 moveDirWorld.2.2 = some (h1, items) ∧
      Diff moveDirWorld.1 moveDirWorld.2.2 moveDirWorld.2.1 =
        some (h2, items.map DiffItem.swap) :=
  ⟨PathsReturn_of_entries (by decide), PathsReturn_of_entries (by decide),
   by decide, by decide,
   (Diff_swap _ _ _).2 (PathsReturn_of_entries (by decide))
     (PathsReturn_of_entries (by decide))⟩

/-! ## `GetPathToUuidMap` -/

theorem GetPathToUuidMap_fold (h0 : Heap) (l : List (Sigma fun _ : Uuid => Addr))
    (h : Heap) (acc : AList (fun _ : String => Uuid)) (e : PathEq h0 h)
    (hl : ∀ x ∈ l, (pathOf h0 x.2).isSome) :
    ∃ h1, l.foldlM (fun (acc : Heap × AList (fun _ : String => Uuid)) x =>
        match nodeGetPath acc.1 x.2 with
        | none => none
        | some (h1, p) => some (h1, acc.2.insert p x.1)) (h, acc) =
      some (h1, pathMap h0 l acc) ∧ PathEq h0 h1 := by
  induction l generalizing h acc with
  | nil => exact ⟨h, rfl, e⟩
  | cons x xs ih =>
    obtain ⟨h1, hg, e1⟩ := PathEq_step e (hl x (List.mem_cons_self _ _))
    obtain ⟨h2, hd, e2⟩ := ih h1 (acc.insert (pathAt h0 x.2) x.1) e1
      (fun y hy => hl y (List.mem_cons_of_mem _ hy))
    refine ⟨h2, ?_, e2⟩
    rw [List.foldlM_cons]
    simp only [hg]
    exact hd

theorem pathMap_lookup (h : Heap) (l : List (Sigma fun _ : Uuid => Addr))
    (acc : AList (fun _ : String => Uuid)) (p : String) (u : Uuid)
    (hm : (pathMap h l acc).lookup p = some u) :
    (∃ x ∈ l, pathAt h x.2 = p ∧ x.1 = u) ∨ acc.lookup p = some u := by
  induction l generalizing acc with
  | nil => exact Or.inr hm
  | cons x xs ih =>
    rcases ih (acc.insert (pathAt h x.2) x.1) hm with ⟨y, hy, e⟩ | hacc
    · exact Or.inl ⟨y, List.mem_cons_of_mem _ hy, e⟩
    · by_cases hp : p = pathAt h x.2
      · rw [hp, AList.lookup_insert] at hacc
        exact Or.inl ⟨x, List.mem_cons_self _ _, hp.symm, Option.some.inj hacc⟩
      · rw [AList.lookup_insert_ne hp] at hacc
        exact Or.inr hacc

theorem pathMap_keeps (h : Heap) (l : List (Sigma fun _ : Uuid => Addr))
    (acc : AList (fun _ : String => Uuid)) (p : String) (hp : p ∈ acc) :
    p ∈ pathMap h l acc := by
  induction l generalizing acc with
  | nil => exact hp
  | cons x xs ih => exact ih _ ((AList.mem_insert acc).mpr (Or.inr hp))

theorem pathMap_key (h : Heap) (l : List (Sigma fun _ : Uuid => Addr))
    (acc : AList (fun _ : String => Uuid)) (x : Sigma fun _ : Uuid => Addr) (hx : x ∈ l) :
    pathAt h x.2 ∈ pathMap h l acc := by
  induction l generalizing acc with
  | nil => simp at hx
  | cons y ys ih =>
    rcases List.mem_cons.mp hx with rfl | hx
    · exact pathMap_keeps h ys _ _ ((AList.mem_insert acc).mpr (Or.inl rfl))
    · exact ih _ hx

theorem pathMap_other (h : Heap) (l : List (Sigma fun _ : Uuid => Addr))
    (acc : AList (fun _ : String => Uuid)) (p : String)
    (hp : ∀ x ∈ l, pathAt h x.2 ≠ p) : (pathMap h l acc).lookup p = acc.lookup p := by
  induction l generalizing acc with
  | nil => rfl
  | cons x xs ih =>
    have e := ih (acc.insert (pathAt h x.2) x.1) (fun y hy => hp y (List.mem_cons_of_mem _ hy))
    have hne : p ≠ pathAt h x.2 := fun e => hp x (List.mem_cons_self _ _) e.symm
    rw [AList.lookup_insert_ne hne] at e
    exact e

theorem pathMap_distinct (h : Heap) (l : List (Sigma fun _ : Uuid => Addr))
    (acc : AList (fun _ : String => Uuid))
    (hnd : (l.map (fun x => pathAt h x.2)).Nodup)
    (hacc : ∀ x ∈ l, pathAt h x.2 ∉ acc) :
    (∀ x ∈ l, (pathMap h l acc).lookup (pathAt h x.2) = some x.1) ∧
    (pathMap h l acc).entries.length = acc.entries.length + l.length := by
  induction l generalizing acc with
  | nil => exact ⟨fun x hx => by simp at hx, rfl⟩
  | cons x xs ih =>
    rw [List.map_cons, List.nodup_cons] at hnd
    have hx : pathAt h x.2 ∉ acc := hacc x (List.mem_cons_self _ _)
    have hacc2 : ∀ y ∈ xs, pathAt h y.2 ∉ acc.insert (pathAt h x.2) x.1 := by
      intro y hy hmem
      rcases (AList.mem_insert acc).mp hmem with e | hm
      · exact hnd.1 (List.mem_map.mpr ⟨y, hy, e⟩)
      · exact hacc y (List.mem_cons_of_mem _ hy) hm
    obtain ⟨i1, i2⟩ := ih (acc.insert (pathAt h x.2) x.1) hnd.2 hacc2
    refine ⟨fun y hy => ?_, ?_⟩
    · rcases List.mem_cons.mp hy with rfl | hy
      · have e := pathMap_other h xs (acc.insert (pathAt h y.2) y.1) (pathAt h y.2)
          (fun z hz e => hnd.1 (List.mem_map.mpr ⟨z, hz, e⟩))
        rw [AList.lookup_insert] at e
        exact e
      · exact i1 y hy
    · show (pathMap h xs (acc.insert (pathAt h x.2) x.1)).entries.length = _
      rw [i2, AList.insert_entries_of_neg hx, List.length_cons, List.length_cons]
      omega

theorem pathIn_of_entry {h : Heap} {ft : FileTree} (hp : PathsReturn h ft)
    {x : Sigma fun _ : Uuid => Addr} (hx : x ∈ ft.nodes.entries) :
    pathIn h ft x.1 = some (pathAt h x.2) := by
  have hl : ft.nodes.lookup x.1 = some x.2 :=
    Option.mem_def.mp (AList.mem_lookup_iff.mpr hx)
  exact (pathIn_eq _ _ _ _).mpr ⟨x.2, hl, pathOf_of_returns hp hl⟩

theorem entry_of_pathIn {h : Heap} {ft : FileTree} {u : Uuid} {p : String}
    (hp : pathIn h ft u = some p) :
    ∃ x ∈ ft.nodes.entries, x.1 = u ∧ pathAt h x.2 = p := by
  obtain ⟨a, hl, hpo⟩ := (pathIn_eq _ _ _ _).mp hp
  exact ⟨⟨u, a⟩, AList.mem_lookup_iff.mp (Option.mem_def.mpr hl), rfl, pathAt_of_pathOf hpo⟩

/-- **C11**, counterexample: the tree with the two root files `uA` and `uB`, both
named `"x"`, has two nodes that both have the path `"x"`; the map of
`GetPathToUuidMap` has one entry, so one of the two uuids is not what the map
holds for its path (here `"x"` is mapped to `uA`, not to `uB`). -/
theorem GetPathToUuidMap_same_path :
    pathIn samePathTree.1 samePathTree.2 uA = some "x" ∧
    pathIn samePathTree.1 samePathTree.2 uB = some "x" ∧
    samePathTree.2.nodes.entries.length = 2 ∧
    (GetPathToUuidMap samePathTree.1 samePathTree.2).map (fun r => r.2.entries.length) =
      some 1 ∧
    (GetPathToUuidMap samePathTree.1 samePathTree.2).map (fun r => r.2.lookup "x") =
      some (some uA) := by
  decide

/-- **C11**, amended.  For a tree on whose nodes `GetPath` returns,
`GetPathToUuidMap` returns a map in which every path of a node is a key and
every key is mapped to the uuid of a node with that path; and when no two nodes
of the tree have the same path, `GetPathToUuidMap()[GetPath(u)] = u` for every
node `u` and the map has exactly as many entries as the tree has nodes. -/
theorem GetPathToUuidMap_maps_paths (h : Heap) (ft : FileTree) (hp : PathsReturn h ft) :
    ∃ h1 m, GetPathToUuidMap h ft = some (h1, m) ∧
      (∀ u p, pathIn h ft u = some p → p ∈ m) ∧
      (∀ p u, m.lookup p = some u → pathIn h ft u = some p) ∧
      ((∀ u v p, pathIn h ft u = some p → pathIn h ft v = some p → u = v) →
        (∀ u p, pathIn h ft u = some p → m.lookup p = some u) ∧
        m.entries.length = ft.nodes.entries.length) := by
  obtain ⟨h1, hg, _⟩ := GetPathToUuidMap_fold h ft.nodes.entries h ∅ (PathEq_refl h)
    (fun x hx => by
      have hl : ft.nodes.lookup x.1 = some x.2 :=
        Option.mem_def.mp (AList.mem_lookup_iff.mpr hx)
      simpa [pathOf] using hp x.1 x.2 hl)
  refine ⟨h1, pathMap h ft.nodes.entries ∅, hg, fun u p hu => ?_, fun p u hm => ?_,
    fun hinj => ?_⟩
  · obtain ⟨x, hx, _, rfl⟩ := entry_of_pathIn hu
    exact pathMap_key h _ _ x hx
  · rcases pathMap_lookup h _ _ p u hm with ⟨x, hx, rfl, rfl⟩ | he
    · exact pathIn_of_entry hp hx
    · simp at he
  · have hnd : (ft.nodes.entries.map (fun x => pathAt h x.2)).Nodup := by
      refine List.Nodup.map_on (fun x hx y hy e => ?_) ft.nodes.nodupKeys.nodup
      have hk : x.1 = y.1 :=
        hinj x.1 y.1 _ (pathIn_of_entry hp hx) (by rw [e]; exact pathIn_of_entry hp hy)
      have hlx : ft.nodes.lookup x.1 = some x.2 :=
        Option.mem_def.mp (AList.mem_lookup_iff.mpr hx)
      have hly : ft.nodes.lookup y.1 = some y.2 :=
        Option.mem_def.mp (AList.mem_lookup_iff.mpr hy)
      rw [hk, hly] at hlx
      cases x
      cases y
      simp only at hk hlx
      subst hk
      rw [Option.some.inj hlx]
    obtain ⟨i1, i2⟩ := pathMap_distinct h ft.nodes.entries ∅ hnd (fun x _ hm => by
      simp at hm)
    refine ⟨fun u p hu => ?_, ?_⟩
    · obtain ⟨x, hx, rfl, rfl⟩ := entry_of_pathIn hu
      exact i1 x hx
    · rw [i2]
      simp

/-- Witness of **C11**: the test tree. -/
theorem GetPathToUuidMap_maps_paths_witness :
    PathsReturn testTree.1 testTree.2 ∧
    (GetPathToUuidMap testTree.1 testTree.2).map (fun r => r.2.lookup "dir1/dir2") =
      some (some uDir2) ∧
    ∃ h1 m, GetPathToUuidMap testTree.1 testTree.2 = some (h1, m) ∧
      (∀ u p, pathIn testTree.1 testTree.2 u = some p → p ∈ m) ∧
      (∀ p u, m.lookup p = some u → pathIn testTree.1 testTree.2 u = some p) ∧
      ((∀ u v p, pathIn testTree.1 testTree.2 u = some p →
          pathIn testTree.1 testTree.2 v = some p → u = v) →
        (∀ u p, pathIn testTree.1 testTree.2 u = some p → m.lookup p = some u) ∧
        m.entries.length = testTree.2.nodes.entries.length) :=
  ⟨PathsReturn_of_entries (by decide), by decide,
   GetPathToUuidMap_maps_paths _ _ (PathsReturn_of_entries (by decide))⟩

/-! ## The executer and the live event handler -/

theorem lookup_map_keyed (g : String → FsEntry → FsEntry) (fs : MemFs) (q : String) :
    (fs.map (fun e => (e.1, g e.1 e.2))).lookup q = (fs.lookup q).map (g q) := by
  induction fs with
  | nil => rfl
  | cons e fs ih =>
    obtain ⟨k, x⟩ := e
    by_cases hqk : q = k
    · subst hqk
      simp [List.lookup]
    · have hqk2 : (q == k) = false := by simpa using hqk
      simp only [List.map_cons, List.lookup, hqk2]
      exact ih

/-- What `Chtimes` of the file system in memory leaves at each path. -/
theorem memChtimes_lookup (fs : MemFs) (p q : String) (t : Time) :
    (fs.map (fun e =>
        if e.1 = p then
          match e.2 with
          | .file c _ => (e.1, FsEntry.file c t)
          | .dir _ => (e.1, FsEntry.dir t)
        else e)).lookup q =
      if q = p then
        (fs.lookup q).map (fun x =>
          match x with
          | .file c _ => FsEntry.file c t
          | .dir _ => FsEntry.dir t)
      else fs.lookup q := by
  have e : (fun e : String × FsEntry =>
        if e.1 = p then
          match e.2 with
          | .file c _ => (e.1, FsEntry.file c t)
          | .dir _ => (e.1, FsEntry.dir t)
        else e) =
      (fun e => (e.1, (fun k x => if k = p then
          (match x with
          | .file c _ => FsEntry.file c t
          | .dir _ => FsEntry.dir t) else x) e.1 e.2)) := by
    funext e
    obtain ⟨k, x⟩ := e
    by_cases hk : k = p
    · cases x <;> simp [hk]
    · simp [hk]
  rw [e]
  refine Eq.trans (lookup_map_keyed (fun k x => if k = p then
          (match x with
          | .file c _ => FsEntry.file c t
          | .dir _ => FsEntry.dir t) else x) fs q) ?_
  by_cases hq : q = p
  · simp only [hq, if_true]
  · simp only [hq, if_false]
    cases List.lookup q fs <;> rfl

/-- A regular file with the expected hash and a different modtime in the file
system in memory: `EnsureFile` returns no error, does not invoke the reader
function, and leaves every entry as it was but for the modtime of the file. -/
theorem memOs_short_circuit (fs : MemFs) (path : String) (c : List Nat) (t modTime : Time)
    (downloadFunc : Except GoError Reader) (hl : fs.lookup path = some (.file c t))
    (hm : t ≠ modTime) :
    (EnsureFile memOs fs path modTime (memDigest c) downloadFunc).err = none ∧
    (EnsureFile memOs fs path modTime (memDigest c) downloadFunc).downloads = 0 ∧
    (EnsureFile memOs fs path modTime (memDigest c) downloadFunc).world.lookup path =
      some (.file c modTime) ∧
    ∀ q, q ≠ path →
      (EnsureFile memOs fs path modTime (memDigest c) downloadFunc).world.lookup q =
        fs.lookup q := by
  have hs : Stat memOs fs path = .ok { IsDir := false, ModTime := t } := by
    simp [Stat, memOs, hl]
  have hh : CalculateHash memOs fs path = .ok (memDigest c) := by
    simp [CalculateHash, memOs, hl]
  have hc : Chtimes memOs fs path modTime =
      (fs.map (fun e =>
        if e.1 = path then
          match e.2 with
          | .file c _ => (e.1, FsEntry.file c modTime)
          | .dir _ => (e.1, FsEntry.dir modTime)
        else e), none) := by
    simp only [Chtimes, memOs, hl]
  have he : EnsureFile memOs fs path modTime (memDigest c) downloadFunc =
      { world := (Chtimes memOs fs path modTime).1, err := (Chtimes memOs fs path modTime).2,
        downloads := 0 } := by
    simp [EnsureFile, hs, hm, hh]
  rw [he, hc]
  refine ⟨rfl, rfl, ?_, fun q hq => ?_⟩
  · show List.lookup path _ = _
    rw [memChtimes_lookup, if_pos rfl, hl]
    rfl
  · show List.lookup q _ = _
    rw [memChtimes_lookup, if_neg hq]

/-- **C20**, counterexample: in a file system whose `os.Chtimes` fails, `"p"` is
a regular file with modtime 1000 and the expected hash; `EnsureFile` with the
expected modtime 2000 does not invoke the reader function, returns the error of
`Chtimes`, and the modtime of the file is still 1000. -/
theorem EnsureFile_returns_Chtimes_error :
    Stat lockedOs [("p", .file [1, 2, 3] 1000)] "p" = .ok { IsDir := false, ModTime := 1000 } ∧
    CalculateHash lockedOs [("p", .file [1, 2, 3] 1000)] "p" = .ok (memDigest [1, 2, 3]) ∧
    (EnsureFile lockedOs [("p", .file [1, 2, 3] 1000)] "p" 2000 (memDigest [1, 2, 3])
        (.error (.other "called"))).err = some (.other "operation not permitted") ∧
    (EnsureFile lockedOs [("p", .file [1, 2, 3] 1000)] "p" 2000 (memDigest [1, 2, 3])
        (.error (.other "called"))).downloads = 0 ∧
    (EnsureFile lockedOs [("p", .file [1, 2, 3] 1000)] "p" 2000 (memDigest [1, 2, 3])
        (.error (.other "called"))).world = [("p", .file [1, 2, 3] 1000)] :=
  ⟨rfl, rfl, by decide, by decide, by decide⟩

/-- **C20**, amended.  Let `path` be a regular file (`Stat` reports an entry that
is not a directory).  When its modtime equals the expected one, `EnsureFile`
leaves the file system as it is, returns no error and does not invoke the reader
function.  When its modtime differs and `CalculateHash` returns the expected
hash, `EnsureFile` does not invoke the reader function, and all it does to the
file system is the call `Chtimes(path, modTime)`, whose error it returns: no
error when `Chtimes` succeeds.  In the file system in memory, for every state
with a regular file at `path` whose digest is the expected hash and whose modtime
differs: `EnsureFile` returns no error, does not invoke the reader function, the
file has its bytes and the expected modtime afterwards, and every other entry is
as it was. -/
theorem EnsureFile_hash_short_circuit {W : Type} (os : Os W) (w : W) (path : String)
    (modTime : Time) (hash : String) (downloadFunc : Except GoError Reader)
    (info : FileInfo) (hstat : Stat os w path = .ok info) (hreg : info.IsDir = false) :
    (info.ModTime = modTime →
      (EnsureFile os w path modTime hash downloadFunc).world = w ∧
      (EnsureFile os w path modTime hash downloadFunc).err = none ∧
      (EnsureFile os w path modTime hash downloadFunc).downloads = 0) ∧
    (info.ModTime ≠ modTime → CalculateHash os w path = .ok hash →
      (EnsureFile os w path modTime hash downloadFunc).world =
        (Chtimes os w path modTime).1 ∧
      (EnsureFile os w path modTime hash downloadFunc).err = (Chtimes os w path modTime).2 ∧
      (EnsureFile os w path modTime hash downloadFunc).downloads = 0 ∧
      ((Chtimes os w path modTime).2 = none →
        (EnsureFile os w path modTime hash downloadFunc).err = none)) ∧
    (∀ (fs : MemFs) (c : List Nat) (t : Time), fs.lookup path = some (.file c t) →
      t ≠ modTime →
      (EnsureFile memOs fs path modTime (memDigest c) downloadFunc).err = none ∧
      (EnsureFile memOs fs path modTime (memDigest c) downloadFunc).downloads = 0 ∧
      (EnsureFile memOs fs path modTime (memDigest c) downloadFunc).world.lookup path =
        some (.file c modTime) ∧
      ∀ q, q ≠ path →
        (EnsureFile memOs fs path modTime (memDigest c) downloadFunc).world.lookup q =
          fs.lookup q) := by
  refine ⟨fun hm => ?_, fun hm hh => ?_,
    fun fs c t hl hm => memOs_short_circuit fs path c t modTime downloadFunc hl hm⟩
  · simp [EnsureFile, hstat, hreg, hm]
  · have e : EnsureFile os w path modTime hash downloadFunc =
        { world := (Chtimes os w path modTime).1, err := (Chtimes os w path modTime).2,
          downloads := 0 } := by
      simp [EnsureFile, hstat, hreg, hm, hh]
    rw [e]
    exact ⟨rfl, rfl, rfl, fun hc => hc⟩

/-- Witness of **C20**: the file `"p"` with the bytes `1, 2, 3` and modtime 1000
in the file system in memory, expected with modtime 2000 and with its own
digest, and a reader function that fails when called: afterwards the file has
its bytes and modtime 2000, and no error is returned. -/
theorem EnsureFile_hash_short_circuit_witness :
    Stat memOs [("p", .file [1, 2, 3] 1000)] "p" = .ok { IsDir := false, ModTime := 1000 } ∧
    CalculateHash memOs [("p", .file [1, 2, 3] 1000)] "p" = .ok (memDigest [1, 2, 3]) ∧
    Chtimes memOs [("p", .file [1, 2, 3] 1000)] "p" 2000 =
      ([("p", .file [1, 2, 3] 2000)], none) ∧
    ((EnsureFile memOs [("p", .file [1, 2, 3] 1000)] "p" 2000 (memDigest [1, 2, 3])
        (.error (.other "called"))).world =
        (Chtimes memOs [("p", .file [1, 2, 3] 1000)] "p" 2000).1 ∧
     (EnsureFile memOs [("p", .file [1, 2, 3] 1000)] "p" 2000 (memDigest [1, 2, 3])
        (.error (.other "called"))).err =
        (Chtimes memOs [("p", .file [1, 2, 3] 1000)] "p" 2000).2 ∧
     (EnsureFile memOs [("p", .file [1, 2, 3] 1000)] "p" 2000 (memDigest [1, 2, 3])
        (.error (.other "called"))).downloads = 0 ∧
     ((Chtimes memOs [("p", .file [1, 2, 3] 1000)] "p" 2000).2 = none →
       (EnsureFile memOs [("p", .file [1, 2, 3] 1000)] "p" 2000 (memDigest [1, 2, 3])
         (.error (.other "called"))).err = none)) ∧
    (EnsureFile memOs [("p", .file [1, 2, 3] 1000)] "p" 2000 (memDigest [1, 2, 3])
        (.error (.other "called"))).err = none :=
  ⟨rfl, rfl, by decide,
   (EnsureFile_hash_short_circuit memOs [("p", .file [1, 2, 3] 1000)] "p" 2000
      (memDigest [1, 2, 3]) (.error (.other "called")) { IsDir := false, ModTime := 1000 }
      rfl rfl).2.1 (by decide) rfl,
   by decide⟩

/-- **C17.** With the test tree as `osDb`: a file-new event and a
folder-sub-created event for the new uuid `"new"` whose parent is the base
folder are handled without a change: afterwards `osDb` does not contain the
uuid and no task is scheduled. -/
theorem base_folder_event_is_dropped :
    UuidFromString (newFilePayload "base").parent = testMirror.baseDirUuid ∧
    (InterpretEvent "file-new" (newFilePayload "base")).map
      (fun evt => (handleEvent testMirror memOs testState evt).result.map
        (observe (UuidFromString "new"))) = some (some (none, none, [])) ∧
    ((handleEvent testMirror memOs testState
        (.EventSocketFolderSubCreated
          { Name := { Name := "d" }, UUID := "new", Parent := "base" })).result.map
      (observe (UuidFromString "new"))) = some (none, none, []) := by
  decide

/-- **C19.** With the test tree as `osDb`, where the folder `dir2` has the
parent `dir1`: the folder-rename event for `dir2` calls `Move(dir2, dir2, "n")`,
after which `dir2` is its own parent, and the `GetPath(dir2)` that follows in
`moveLocalFile` does not return. -/
theorem folder_rename_moves_into_itself :
    (GetNode testState.heap testState.osDb uDir2).map (fun n => (n.IsDir, n.Parent)) =
      some (true, uDir1) ∧
    UuidFromString "dir2" = uDir2 ∧
    (Move testState.heap testState.osDb uDir2 uDir2 "n").map
      (fun r => ((GetNode r.1 r.2 uDir2).map (fun n => (n.Name, n.Parent)),
                 (GetPath r.1 r.2 uDir2).isSome)) = some (some ("n", uDir2), false) ∧
    (handleEvent testMirror memOs testState
      (.EventSocketFolderRename { Name := { Name := "n" }, UUID := "dir2" })).overflows =
      true := by
  decide

/-! ## The file-rename event -/

theorem GetPath_frame {h : Heap} {ft : FileTree} {u : Uuid} {h1 : Heap}
    {r : Option String} (hg : GetPath h ft u = some (h1, r)) :
    SameNodes h h1 ∧ ∀ b, pathOf h1 b = pathOf h b := by
  unfold GetPath at hg
  cases hl : ft.nodes.lookup u with
  | none =>
    simp only [hl, Option.some.injEq, Prod.mk.injEq] at hg
    obtain ⟨rfl, _⟩ := hg
    exact ⟨SameNodes_refl _, fun _ => rfl⟩
  | some a =>
    simp only [hl] at hg
    cases hp : nodeGetPath h a with
    | none => simp [hp] at hg
    | some x =>
      obtain ⟨h2, p⟩ := x
      simp only [hp, Option.some.injEq, Prod.mk.injEq] at hg
      obtain ⟨rfl, _⟩ := hg
      exact nodeGetPath_frame hp

theorem GetNode_SameNodes {h h1 : Heap} (hs : SameNodes h h1) (ft : FileTree) (w : Uuid) :
    GetNode h1 ft w = GetNode h ft w := by
  unfold GetNode
  cases ft.nodes.lookup w with
  | none => rfl
  | some a =>
    simp only [SameNodes_name hs, SameNodes_hash hs, SameNodes_modtime hs, SameNodes_isDir hs,
      SameNodes_getParentUuid hs]

theorem pathIn_PathEq {h h1 : Heap} (hp : ∀ b, pathOf h1 b = pathOf h b) (ft : FileTree)
    (w : Uuid) : pathIn h1 ft w = pathIn h ft w := by
  apply Option.ext
  intro p
  simp only [Option.mem_def, pathIn_eq, hp]

theorem invalidateReturns_SameNodes {h h1 : Heap} (hs : SameNodes h h1) (ft : FileTree)
    (u : Uuid) : invalidateReturns h1 ft u = invalidateReturns h ft u := by
  unfold invalidateReturns
  cases ft.nodes.lookup u with
  | none => rfl
  | some a =>
    simp only
    rw [Bool.eq_iff_iff, invalidate_isSome, invalidate_isSome]
    unfold ChildrenEnd
    rw [hs.1, childDepth_congr (SameNodes_children hs)]

theorem GetPath_of_pathIn {h : Heap} {ft : FileTree} {u : Uuid} {p : String}
    (hp : pathIn h ft u = some p) : ∃ h1, GetPath h ft u = some (h1, some p) := by
  unfold pathIn at hp
  cases hg : GetPath h ft u with
  | none => simp [hg] at hp
  | some x =>
    obtain ⟨h1, r⟩ := x
    cases r with
    | none => simp [hg] at hp
    | some p2 =>
      simp only [hg, Option.some.injEq] at hp
      exact ⟨h1, by rw [hp]⟩

theorem up_of_OnChain {h : Heap} {a b : Addr} (hc : OnChain h a b) :
    ∃ k, up h k a = some b := by
  induction hc using Relation.ReflTransGen.head_induction_on with
  | refl => exact ⟨0, rfl⟩
  | @head x y hab _ ih =>
    obtain ⟨k, hk⟩ := ih
    have hab2 : (h.cells x).Parent = some y := hab
    refine ⟨k + 1, ?_⟩
    show (match (h.cells x).Parent with
      | none => none
      | some p => up h k p) = some b
    rw [hab2]
    exact hk

/-- A node whose `getPathParts` returns is not on the chain of its parent. -/
theorem not_OnChain_of_parts {h : Heap} {a q : Addr} (hp : (h.cells a).Parent = some q)
    {f : Nat} {parts : List String} (hparts : getPathPartsAux f h a = some parts) :
    ¬ OnChain h q a := by
  intro hc
  obtain ⟨k, hk⟩ := up_of_OnChain hc
  have hcyc : up h (k + 1) a = some a := by
    simp only [up, hp]
    exact hk
  obtain ⟨c, hc2⟩ := up_cycle_all hcyc f
  rw [up_none_of_parts f a hparts] at hc2
  cases hc2

theorem parts_congr_off {h h1 : Heap} {a : Addr}
    (hn : ∀ b, b ≠ a → (h1.cells b).Name = (h.cells b).Name)
    (hp : ∀ b, (h1.cells b).Parent = (h.cells b).Parent) (f : Nat) (x : Addr)
    (hx : ¬ OnChain h x a) : getPathPartsAux f h1 x = getPathPartsAux f h x := by
  induction f generalizing x with
  | zero => rfl
  | succ f ih =>
    have hxa : x ≠ a := fun e => hx (e ▸ Relation.ReflTransGen.refl)
    simp only [getPathPartsAux, hp x, hn x hxa]
    cases hpar : (h.cells x).Parent with
    | none => rfl
    | some p =>
      simp only
      rw [ih p (fun hc => hx (Relation.ReflTransGen.head hpar hc))]

theorem Move_rename_shape {h : Heap} {ft : FileTree} {u p : Uuid} {a : Addr}
    (hok : RenameOK h ft u a p) {nm : FileName} {h1 : Heap} {ft1 : FileTree}
    (he : Move h ft u p nm = some (h1, ft1)) :
    ∃ hx, SameNodes h hx ∧
      h1 = attachNode (detachNode hx a u) a (h.cells a).Parent nm ∧
      ft1 = { nodes := ft.nodes.insert u a } := by
  obtain ⟨hl, hpar⟩ := hok
  obtain ⟨hx, h3, ft3, parent, hinv, hep, rfl, rfl⟩ := Move_cases hl he
  obtain ⟨hcl, _⟩ := invalidate_spec hinv
  have hs := hcl.1
  have hd : ∀ b, coreOf ((detachNode hx a u).cells b) = coreOf (h.cells b) := fun b => by
    rw [detachNode_core, SameNodes_core hs]
  have key : h3 = detachNode hx a u ∧ ft3 = ft ∧ parent = (h.cells a).Parent := by
    rcases ensureParent_cases hep with ⟨hn, e1, e2, e3⟩ | ⟨hn, q, hq, _, e1, e2, e3⟩ |
      ⟨hn, _, _, hc⟩
    · rcases hpar with ⟨_, hp0⟩ | ⟨hn2, _⟩
      · exact ⟨e1, e2, by rw [e3, hp0]⟩
      · exact absurd hn hn2
    · rcases hpar with ⟨hn2, _⟩ | ⟨_, q2, hp2, hl2, _, _⟩
      · exact absurd hn2 hn
      · rw [hl2] at hq
        cases hq
        exact ⟨e1, e2, by rw [e3, hp2]⟩
    · exfalso
      rcases hpar with ⟨hn2, _⟩ | ⟨_, q2, hp2, hl2, hd2, _⟩
      · exact hn hn2
      · rcases hc with hc | ⟨q, hq, hdq⟩
        · rw [hl2] at hc
          cases hc
        · rw [hl2] at hq
          cases hq
          have e := congrArg (fun c => c.2.2.2.2.1) (hd q2)
          simp only [coreOf] at e
          rw [e, hd2] at hdq
          cases hdq
  obtain ⟨k1, k2, k3⟩ := key
  exact ⟨hx, hs, by rw [k1, k3], by rw [k2]⟩

/-- A rename keeps the uuid, the hash, the modtime and `IsDir` of every node. -/
theorem Move_rename_core {h : Heap} {ft : FileTree} {u p : Uuid} {a : Addr}
    (hok : RenameOK h ft u a p) {nm : FileName} {h1 : Heap} {ft1 : FileTree}
    (he : Move h ft u p nm = some (h1, ft1)) (b : Addr) :
    (h1.cells b).Uuid = (h.cells b).Uuid ∧ (h1.cells b).Hash = (h.cells b).Hash ∧
    (h1.cells b).Modtime = (h.cells b).Modtime ∧ (h1.cells b).IsDir = (h.cells b).IsDir := by
  obtain ⟨hx, hs, rfl, _⟩ := Move_rename_shape hok he
  have hd := detachNode_core hx a u b
  simp only [coreOf, Prod.mk.injEq] at hd
  obtain ⟨d1, _, d3, d4, d5, _⟩ := hd
  refine ⟨?_, ?_, ?_, ?_⟩
  · rw [attachNode_uuid, d1, SameNodes_uuid hs]
  · rw [attachNode_hash, d3, SameNodes_hash hs]
  · rw [attachNode_modtime, d4, SameNodes_modtime hs]
  · rw [attachNode_isDir, d5, SameNodes_isDir hs]

/-- A rename of a node `u` on which `GetPath` returns: `Move(u, p, nm)` with the
parent `p` that `u` has returns; the node keeps its fields but the name, and
its path is the old path with the last component replaced by `nm`. -/
theorem Move_rename_path {h : Heap} {ft : FileTree} (hi : Inv h ft) {u : Uuid}
    {n : FileTreeNode} (hn : GetNode h ft u = some n)
    (hp : n.Parent = NilUuid ∨ (GetNode h ft n.Parent).map (fun m => m.IsDir) = some true)
    (hu : invalidateReturns h ft u = true) {q : String} (hq : pathIn h ft u = some q)
    (nm : FileName) :
    ∃ h1 ft1 newPath, Move h ft u n.Parent nm = some (h1, ft1) ∧ Inv h1 ft1 ∧
      GetNode h1 ft1 u = some { n with Name := nm } ∧
      pathIn h1 ft1 u = some newPath ∧
      (n.Parent = NilUuid → q = n.Name ∧ newPath = nm) ∧
      (n.Parent ≠ NilUuid → ∃ pp, pathIn h ft n.Parent = some pp ∧
        q = pp ++ "/" ++ n.Name ∧ newPath = pp ++ "/" ++ nm) := by
  obtain ⟨a, hok, hname⟩ := RenameOK_of_GetNode hi hn hp hu
  obtain ⟨h1, ft1, he, hi1, r, hnm⟩ :=
    Move_rename_returns hok hu hi (Renamed_refl h ft a) nm
  have hl := hok.1
  have hl1 : ft1.nodes.lookup u = some a := by rw [r.lookup, hl]
  have hcore := Move_rename_core hok he
  have hpu : getParentUuid h1 a = getParentUuid h a := by
    unfold getParentUuid
    rw [r.parent]
    cases (h.cells a).Parent with
    | none => rfl
    | some x => exact (hcore x).1
  rw [GetNode_eq hl] at hn
  have hn' := (Option.some.inj hn).symm
  have hg : GetNode h1 ft1 u = some { n with Name := nm } := by
    rw [GetNode_eq hl1, hn', hnm, (hcore a).2.1, (hcore a).2.2.1, (hcore a).2.2.2, hpu]
  rcases hok.2 with ⟨hnil, hpar⟩ | ⟨hnn, qa, hpar, hlq, _, _⟩
  · have hpar1 : (h1.cells a).Parent = none := by rw [r.parent, hpar]
    refine ⟨h1, ft1, nm, he, hi1, hg, ?_, fun _ => ⟨?_, rfl⟩, fun hne => absurd hnil hne⟩
    · rw [pathIn_root hi1 hl1 hpar1, hnm]
    · have e := pathIn_root hi hl hpar
      rw [hq] at e
      rw [Option.some.inj e, hname]
  · have hpar1 : (h1.cells a).Parent = some qa := by rw [r.parent, hpar]
    have hlq1 : ft1.nodes.lookup n.Parent = some qa := by rw [r.lookup, hlq]
    have e0 := pathIn_child hi hl hpar hlq
    rw [hq] at e0
    cases hpp : pathIn h ft n.Parent with
    | none => rw [hpp] at e0; cases e0
    | some pp =>
      rw [hpp, Option.map_some', Option.some.injEq] at e0
      obtain ⟨f, parts, hparts, _⟩ := parts_of_pathIn hi hl hq
      have hoff := not_OnChain_of_parts hpar hparts
      have hsame : pathIn h1 ft1 n.Parent = pathIn h ft n.Parent :=
        pathIn_congr hi hi1 hlq hlq1 (fun f => parts_congr_off r.name r.parent f qa hoff)
      refine ⟨h1, ft1, pp ++ "/" ++ nm, he, hi1, hg, ?_, fun hnil => absurd hnil hnn,
        fun _ => ⟨pp, rfl, ?_, rfl⟩⟩
      · rw [pathIn_child hi1 hl1 hpar1 hlq1, hsame, hpp, hnm]
        rfl
      · rw [e0, hname]

/-- **C16**, counterexample.  In `fileParentState` the file `"X"` has the parent
`"P"` and the path `"p/b.txt"`; after the file-rename event to `"c.txt"` its path
is `"/c.txt"`.  In `baseParentState` the file `"X"` has the parent `"base"` and
the path `"b/b.txt"`; after the event its parent is `NilUuid` and its path is
`"c.txt"`. -/
theorem file_rename_loses_parent_path :
    observe (UuidFromString "X") fileParentState =
      (some { Uuid := UuidFromString "X", Name := "b.txt", Hash := zeroHash, Modtime := 0,
              IsDir := false, Parent := UuidFromString "P" }, some "p/b.txt", []) ∧
    (handleEvent testMirror memOs fileParentState renameX).result.map
        (observe (UuidFromString "X")) =
      some (some { Uuid := UuidFromString "X", Name := "c.txt", Hash := zeroHash,
                   Modtime := 0, IsDir := false, Parent := UuidFromString "P" },
            some "/c.txt", []) ∧
    observe (UuidFromString "X") baseParentState =
      (some { Uuid := UuidFromString "X", Name := "b.txt", Hash := zeroHash, Modtime := 0,
              IsDir := false, Parent := UuidFromString "base" }, some "b/b.txt", []) ∧
    (handleEvent testMirror memOs baseParentState renameX).result.map
        (observe (UuidFromString "X")) =
      some (some { Uuid := UuidFromString "X", Name := "c.txt", Hash := zeroHash,
                   Modtime := 0, IsDir := false, Parent := NilUuid },
            some "c.txt", []) :=
  ⟨by decide, by decide, by decide, by decide⟩

/-- **C16**, amended.  Let `osDb` be a tree reached by the operations of
`FileTree` that contains the node `X` with parent `P` and path `q`, where `P` is
not the base folder uuid and is `NilUuid` or a directory of `osDb`, and the cache
invalidation of `X` returns.  Handling a file-rename event `{uuid X, metadata
name n}` returns; afterwards `GetNode(X)` is the old node with the name `n`,
`GetPath(X)` is `q` with its last component replaced by `n` (`n` at the root,
`GetPath(P) + "/" + n` otherwise), no task is scheduled, and the file system is
what `MkdirAll` of the directory of the new local path leaves, followed, when
`MkdirAll` returns no error, by `Rename(syncDir/q, syncDir/<new path>)`. -/
theorem file_rename_event {W : Type} (m : FilenMirror) (os : Os W) (s : MirrorState W)
    (hr : Reachable s.heap s.osDb) (e : EventSocketFileRename) (name : String)
    (hname : e.Meta.lookup "name" = some (.string name)) (n : FileTreeNode)
    (hn : GetNode s.heap s.osDb (UuidFromString e.UUID) = some n)
    (hbase : n.Parent ≠ m.baseDirUuid)
    (hp : n.Parent = NilUuid ∨
      (GetNode s.heap s.osDb n.Parent).map (fun p => p.IsDir) = some true)
    (hu : invalidateReturns s.heap s.osDb (UuidFromString e.UUID) = true)
    (q : String) (hq : pathIn s.heap s.osDb (UuidFromString e.UUID) = some q) :
    ∃ s1 newPath, handleEvent m os s (.EventSocketFileRename e) = .done s1 ∧
      GetNode s1.heap s1.osDb (UuidFromString e.UUID) = some { n with Name := name } ∧
      pathIn s1.heap s1.osDb (UuidFromString e.UUID) = some newPath ∧
      (n.Parent = NilUuid → q = n.Name ∧ newPath = name) ∧
      (n.Parent ≠ NilUuid → ∃ pp, pathIn s.heap s.osDb n.Parent = some pp ∧
        q = pp ++ "/" ++ n.Name ∧ newPath = pp ++ "/" ++ name) ∧
      s1.tasks = s.tasks ∧
      s1.world =
        (if (MkdirAll os s.world (os.Dir (m.syncDir ++ "/" ++ newPath))).2 = none then
          (Rename os (MkdirAll os s.world (os.Dir (m.syncDir ++ "/" ++ newPath))).1
            (m.syncDir ++ "/" ++ q) (m.syncDir ++ "/" ++ newPath)).1
         else (MkdirAll os s.world (os.Dir (m.syncDir ++ "/" ++ newPath))).1) := by
  have hi := Reachable_inv hr
  obtain ⟨h1, hg1⟩ := GetPath_of_pathIn hq
  obtain ⟨hs1, hpe1⟩ := GetPath_frame hg1
  have hi1 := GetPath_inv hi hg1
  have hn1 : GetNode h1 s.osDb (UuidFromString e.UUID) = some n := by
    rw [GetNode_SameNodes hs1]; exact hn
  have hp1 : n.Parent = NilUuid ∨
      (GetNode h1 s.osDb n.Parent).map (fun p => p.IsDir) = some true := by
    rw [GetNode_SameNodes hs1]; exact hp
  have hu1 : invalidateReturns h1 s.osDb (UuidFromString e.UUID) = true := by
    rw [invalidateReturns_SameNodes hs1]; exact hu
  have hq1 : pathIn h1 s.osDb (UuidFromString e.UUID) = some q := by
    rw [pathIn_PathEq hpe1]; exact hq
  obtain ⟨h2, ft2, newPath, he, _, hg, hnp, c1, c2⟩ :=
    Move_rename_path hi1 hn1 hp1 hu1 hq1 name
  obtain ⟨h3, hg3⟩ := GetPath_of_pathIn hnp
  obtain ⟨hs3, hpe3⟩ := GetPath_frame hg3
  have hmove : moveLocalFile m os s (UuidFromString e.UUID) n.Parent name =
      some { heap := h3, osDb := ft2,
             world :=
               (if (MkdirAll os s.world (os.Dir (m.syncDir ++ "/" ++ newPath))).2 = none then
                 (Rename os (MkdirAll os s.world (os.Dir (m.syncDir ++ "/" ++ newPath))).1
                   (m.syncDir ++ "/" ++ q) (m.syncDir ++ "/" ++ newPath)).1
                else (MkdirAll os s.world (os.Dir (m.syncDir ++ "/" ++ newPath))).1),
             tasks := s.tasks } := by
    simp only [moveLocalFile, if_neg hbase, hg1, FileNameFromString, he, hg3]
    rcases hmk : MkdirAll os s.world (os.Dir (m.syncDir ++ "/" ++ newPath)) with ⟨w1, err⟩
    cases err with
    | none => simp
    | some x => simp
  obtain ⟨s1, hm1, k1, k2, k3, k4⟩ : ∃ s1 : MirrorState W,
      moveLocalFile m os s (UuidFromString e.UUID) n.Parent name = some s1 ∧
      s1.heap = h3 ∧ s1.osDb = ft2 ∧ s1.tasks = s.tasks ∧
      s1.world =
        (if (MkdirAll os s.world (os.Dir (m.syncDir ++ "/" ++ newPath))).2 = none then
          (Rename os (MkdirAll os s.world (os.Dir (m.syncDir ++ "/" ++ newPath))).1
            (m.syncDir ++ "/" ++ q) (m.syncDir ++ "/" ++ newPath)).1
         else (MkdirAll os s.world (os.Dir (m.syncDir ++ "/" ++ newPath))).1) :=
    ⟨_, hmove, rfl, rfl, rfl, rfl⟩
  refine ⟨s1, newPath, ?_, ?_, ?_, c1, ?_, k3, k4⟩
  · simp only [handleEvent, hn, hname, assertString, hm1, Handled.ofOption]
  · rw [k1, k2, GetNode_SameNodes hs3]
    exact hg
  · rw [k1, k2, pathIn_PathEq hpe3]
    exact hnp
  · intro hne
    obtain ⟨pp, e1, e2, e3⟩ := c2 hne
    exact ⟨pp, by rw [← pathIn_PathEq hpe1]; exact e1, e2, e3⟩

/-- Witness of **C16**: the file-rename event of `file1` to `"c.txt"` with the
test tree as `osDb` (Scenario F of the specification, one level deeper). -/
theorem file_rename_event_witness :
    (handleEvent testMirror memOs testState
        (.EventSocketFileRename { UUID := "file1", Meta := [("name", .string "c.txt")] })
      ).result.map (fun s => (observe uFile1 s, s.world)) =
      some ((some { Uuid := uFile1, Name := "c.txt",
                    Hash := HashFromString
                      "aaaaaaaaaaaaaaaaaaaaaaaaaaaaaaaaaaaaaaaaaaaaaaaaaaaaaaaaaaaaaaaa",
                    Modtime := 0, IsDir := false, Parent := uDir2 },
             some "dir1/dir2/c.txt", []),
            [("sync/dir1", .dir 0), ("sync/dir1/dir2", .dir 0),
             ("sync/dir1/dir2/c.txt", .file [1, 2, 3] 0)]) ∧
    ∃ s1 newPath, handleEvent testMirror memOs testState
        (.EventSocketFileRename { UUID := "file1", Meta := [("name", .string "c.txt")] }) =
        .done s1 ∧
      GetNode s1.heap s1.osDb (UuidFromString "file1") =
        some { Uuid := uFile1, Name := "c.txt",
               Hash := HashFromString
                 "aaaaaaaaaaaaaaaaaaaaaaaaaaaaaaaaaaaaaaaaaaaaaaaaaaaaaaaaaaaaaaaa",
               Modtime := 0, IsDir := false, Parent := uDir2 } ∧
      pathIn s1.heap s1.osDb (UuidFromString "file1") = some newPath ∧
      (uDir2 = NilUuid → "dir1/dir2/file1.txt" = "file1.txt" ∧ newPath = "c.txt") ∧
      (uDir2 ≠ NilUuid → ∃ pp, pathIn testState.heap testState.osDb uDir2 = some pp ∧
        "dir1/dir2/file1.txt" = pp ++ "/" ++ "file1.txt" ∧ newPath = pp ++ "/" ++ "c.txt") ∧
      s1.tasks = testState.tasks ∧
      s1.world =
        (if (MkdirAll memOs testState.world
              (memOs.Dir (testMirror.syncDir ++ "/" ++ newPath))).2 = none then
          (Rename memOs (MkdirAll memOs testState.world
              (memOs.Dir (testMirror.syncDir ++ "/" ++ newPath))).1
            (testMirror.syncDir ++ "/" ++ "dir1/dir2/file1.txt")
            (testMirror.syncDir ++ "/" ++ newPath)).1
         else (MkdirAll memOs testState.world
              (memOs.Dir (testMirror.syncDir ++ "/" ++ newPath))).1) :=
  ⟨by decide,
   file_rename_event testMirror memOs testState testTree_reachable
     { UUID := "file1", Meta := [("name", .string "c.txt")] } "c.txt" (by decide)
     { Uuid := uFile1, Name := "file1.txt",
       Hash := HashFromString
         "aaaaaaaaaaaaaaaaaaaaaaaaaaaaaaaaaaaaaaaaaaaaaaaaaaaaaaaaaaaaaaaa",
       Modtime := 0, IsDir := false, Parent := uDir2 }
     (by decide) (by decide) (Or.inr (by decide)) (by decide) "dir1/dir2/file1.txt"
     (by decide)⟩

/-! ## `Diff` after `Remove` and after `Move` on a copy built the same way -/

/-- **C14.** The trees `t` and `t2` are built by `CreateDir(uA, NilUuid, "d")`,
`CreateFile(uB, uA, "f")`, `CreateFile(uC, uB, "g")`: distinct uuids, every parent
created before its child.  In `t` the node `uB` has the parent `NilUuid` and `uC`
has the parent `uB`, so `uA` has no descendant; after `t2.Remove(uA)`,
`Diff(t, t2)` sends a `DiffRemoved` for `uA`, for `uB` and for `uC`. -/
theorem Remove_takes_stale_child :
    parentsFirstFrom [] fileParentCalls = true ∧
    (buildTwice fileParentCalls).map (fun w =>
      ((GetNode w.1 w.2.1 uA).map (fun n => n.Parent),
       (GetNode w.1 w.2.1 uB).map (fun n => n.Parent),
       (GetNode w.1 w.2.1 uC).map (fun n => n.Parent))) =
      some (some NilUuid, some NilUuid, some uB) ∧
    (buildTwice fileParentCalls).bind (fun w =>
      (Diff w.1 w.2.1 (Remove w.1 w.2.2 uA)).map Prod.snd) =
      some [.DiffRemoved uA "d", .DiffRemoved uB "", .DiffRemoved uC "/g"] :=
  ⟨by decide, by decide, by decide⟩

/-- **C15**, counterexample.  The trees `t` and `t2` are built by
`CreateDir(uA, uB, "q")`, `CreateDir(uB, uA, "p")`.  The node `uA` has the parent
`uB`, and `t2.Move(uA, NilUuid, "n")` does not return. -/
theorem Move_diverges_on_cyclic_build :
    (buildTwice cycleCalls).map (fun w =>
      ((GetNode w.1 w.2.2 uA).map (fun n => n.Parent),
       (Move w.1 w.2.2 uA NilUuid "n").isSome)) = some (some uB, false) := by
  decide

/-! ## Two trees built by the same calls -/

theorem fillNode_cells_ne (h : Heap) (a : Addr) (item : FileTreeNode) (parent : Option Addr)
    {b : Addr} (hb : b ≠ a) (hp : parent ≠ some b) :
    (fillNode h a item parent).cells b = h.cells b := by
  unfold fillNode
  cases parent with
  | none => simp [Heap.set, hb]
  | some p =>
    have hbp : b ≠ p := fun e => hp (by rw [e])
    simp [Heap.set, hb, hbp]

theorem BuildCall_item_uuid (c : BuildCall) : c.item.Uuid = c.uuid := by
  cases c <;> rfl

theorem BuildCall_item_parent (c : BuildCall) : c.item.Parent = c.parentUuid := by
  cases c <;> rfl

theorem BuildCall_item_isDir (c : BuildCall) : c.item.IsDir = c.isDir := by
  cases c <;> rfl

theorem BuildCall_run_eq (h : Heap) (ft : FileTree) (c : BuildCall) :
    c.run h ft = EnsureItems h ft [c.item] := by
  cases c <;> rfl

theorem EnsureItems_single (h : Heap) (ft : FileTree) (item : FileTreeNode) {h1 : Heap}
    {ft1 : FileTree} {parent : Option Addr}
    (hep : ensureParent h ft item.Parent = some (h1, ft1, parent)) :
    EnsureItems h ft [item] = ensureItem h1 ft1 item parent := by
  simp only [EnsureItems, List.foldlM_cons, List.foldlM_nil, hep]
  show (ensureItem h1 ft1 item parent).bind _ = _
  cases ensureItem h1 ft1 item parent <;> rfl

/-- A call with a new uuid whose parent is `NilUuid` or a directory of the tree
allocates one node and fills it. -/
theorem BuildCall_run_fresh {h : Heap} {ft : FileTree} (c : BuildCall)
    (hu : ft.nodes.lookup c.uuid = none) (parent : Option Addr)
    (hp : (c.parentUuid = NilUuid ∧ parent = none) ∨
      (c.parentUuid ≠ NilUuid ∧ ∃ p, parent = some p ∧
        ft.nodes.lookup c.parentUuid = some p ∧ (h.cells p).IsDir = true)) :
    c.run h ft = some (fillNode (newNode h c.uuid) h.next c.item parent,
      { nodes := ft.nodes.insert c.uuid h.next }) := by
  rw [BuildCall_run_eq]
  have hep : ensureParent h ft c.item.Parent = some (h, ft, parent) := by
    rw [BuildCall_item_parent]
    rcases hp with ⟨hn, rfl⟩ | ⟨hn, p, rfl, hl, hd⟩
    · simp only [ensureParent, hn, if_true]
    · simp only [ensureParent, hn, if_false, hl, hd, if_true]
  rw [EnsureItems_single h ft c.item hep]
  have hu2 : ft.nodes.lookup c.item.Uuid = none := by
    rw [BuildCall_item_uuid]; exact hu
  simp only [ensureItem, hu2, BuildCall_item_uuid]

theorem Inv_forget {h : Heap} {ft : FileTree} (hi : Inv h ft) : Inv h NewFileTree := by
  have hno : ∀ a, ¬ InMap NewFileTree a := by
    rintro a ⟨u, hu⟩
    simp [NewFileTree, AList.lookup_empty] at hu
  refine ⟨?_, ?_, hi.parentBound, hi.childBound, ?_, ?_, ?_, ?_, ?_⟩
  · intro u a hu; simp [NewFileTree, AList.lookup_empty] at hu
  · exact fun a ha => absurd ha (hno a)
  · exact fun a ha => absurd ha (hno a)
  · exact fun a ha => absurd ha (hno a)
  · exact fun a ha => absurd ha (hno a)
  · exact fun a ha => absurd ha (hno a)
  · exact fun a ha => absurd ha (hno a)

theorem GetNode_none_lookup {h : Heap} {ft : FileTree} {w : Uuid}
    (hg : GetNode h ft w = none) : ft.nodes.lookup w = none := by
  cases hl : ft.nodes.lookup w with
  | none => rfl
  | some a => simp [GetNode, hl] at hg

theorem Built_nil {hb : Heap} {ft0 : FileTree} (hi : Inv hb ft0) :
    Built hb (fun _ => none) hb NewFileTree := by
  have hno : ∀ a, ¬ InMap NewFileTree a := by
    rintro a ⟨u, hu⟩
    simp [NewFileTree, AList.lookup_empty] at hu
  refine ⟨Inv_forget hi, fun a ha => absurd ha (hno a), fun _ _ => ⟨rfl, Or.inr rfl⟩,
    le_refl _, ?_, fun a ha => absurd ha (hno a), fun a ha => absurd ha (hno a)⟩
  intro w
  simp [GetNode, NewFileTree, AList.lookup_empty]

theorem InMap_insert {ft : FileTree} {u : Uuid} {n a : Addr}
    (ha : InMap { nodes := ft.nodes.insert u n } a) : a = n ∨ InMap ft a := by
  obtain ⟨w, hw⟩ := ha
  simp only [lookup_insert_eq] at hw
  split_ifs at hw with e
  · exact Or.inl (Option.some.inj hw).symm
  · exact Or.inr ⟨w, hw⟩

theorem InMap_insert_old {ft : FileTree} {u : Uuid} {n a : Addr}
    (hu : ft.nodes.lookup u = none) (ha : InMap ft a) :
    InMap { nodes := ft.nodes.insert u n } a := by
  obtain ⟨w, hw⟩ := ha
  refine ⟨w, ?_⟩
  simp only [lookup_insert_eq]
  have hne : w ≠ u := fun e => by rw [e, hu] at hw; cases hw
  rw [if_neg hne]
  exact hw

theorem InMap_insert_same {ft : FileTree} {u : Uuid} {n a : Addr}
    (hu : ft.nodes.lookup u = some n) (ha : InMap ft a) :
    InMap { nodes := ft.nodes.insert u n } a := by
  obtain ⟨w, hw⟩ := ha
  refine ⟨w, ?_⟩
  simp only [lookup_insert_eq]
  by_cases e : w = u
  · rw [if_pos e, ← hu, ← e, hw]
  · rw [if_neg e]
    exact hw

/-- The nodes that were in the tree keep what `GetNode` reports when a new node
is allocated and filled. -/
theorem GetNode_fresh_old {h : Heap} {ft : FileTree} (hi : Inv h ft) (u : Uuid)
    (item : FileTreeNode) (parent : Option Addr) {w : Uuid} (hw : w ≠ u) :
    GetNode (fillNode (newNode h u) h.next item parent)
      { nodes := ft.nodes.insert u h.next } w = GetNode h ft w := by
  unfold GetNode
  simp only [lookup_insert_eq, if_neg hw]
  cases hl : ft.nodes.lookup w with
  | none => rfl
  | some b =>
    have hb : b ≠ h.next := Nat.ne_of_lt (hi.bound b ⟨w, hl⟩)
    have hpu : getParentUuid (fillNode (newNode h u) h.next item parent) b =
        getParentUuid h b := by
      unfold getParentUuid
      rw [fillNode_parent, if_neg hb, newNode_cells_ne h u hb]
      cases hp : (h.cells b).Parent with
      | none => rfl
      | some q =>
        have hq : q ≠ h.next := Nat.ne_of_lt (hi.parentBound b q hp)
        simp only [fillNode_uuid, newNode_cells_ne h u hq]
    simp only [fillNode_name, fillNode_hash, fillNode_modtime, fillNode_isDir, if_neg hb,
      newNode_cells_ne h u hb, hpu]

theorem GetNode_fresh_new {h : Heap} {ft : FileTree} (hi : Inv h ft) (c : BuildCall)
    (parent : Option Addr)
    (hp : (c.parentUuid = NilUuid ∧ parent = none) ∨
      (c.parentUuid ≠ NilUuid ∧ ∃ p, parent = some p ∧
        ft.nodes.lookup c.parentUuid = some p ∧ (h.cells p).IsDir = true)) :
    GetNode (fillNode (newNode h c.uuid) h.next c.item parent)
      { nodes := ft.nodes.insert c.uuid h.next } c.uuid = some c.item := by
  have hl : ({ nodes := ft.nodes.insert c.uuid h.next } : FileTree).nodes.lookup c.uuid =
      some h.next := AList.lookup_insert _
  rw [GetNode_eq hl]
  have hpu : getParentUuid (fillNode (newNode h c.uuid) h.next c.item parent) h.next =
      c.item.Parent := by
    unfold getParentUuid
    rw [fillNode_parent, if_pos rfl, BuildCall_item_parent]
    rcases hp with ⟨hn, rfl⟩ | ⟨_, p, rfl, hlp, _⟩
    · exact hn.symm
    · have hpn : p ≠ h.next := Nat.ne_of_lt (hi.bound p ⟨_, hlp⟩)
      simp only [fillNode_uuid, newNode_cells_ne h c.uuid hpn]
      exact hi.keyed _ p hlp
  rw [fillNode_name, fillNode_hash, fillNode_modtime, fillNode_isDir, if_pos rfl, if_pos rfl,
    if_pos rfl, if_pos rfl, hpu, ← BuildCall_item_uuid]

theorem Built_fresh {hb h : Heap} {ft : FileTree} {spec : Uuid → Option FileTreeNode}
    (b : Built hb spec h ft) (c : BuildCall) (hnew : spec c.uuid = none)
    (hpar : c.parentUuid = NilUuid ∨ ∃ n, spec c.parentUuid = some n ∧ n.IsDir = true) :
    ∃ h1 ft1, c.run h ft = some (h1, ft1) ∧
      Built hb (fun w => if w = c.uuid then some c.item else spec w) h1 ft1 := by
  have hi := b.inv
  have hu : ft.nodes.lookup c.uuid = none :=
    GetNode_none_lookup (by rw [b.nodes]; exact hnew)
  obtain ⟨parent, hp⟩ : ∃ parent : Option Addr,
      (c.parentUuid = NilUuid ∧ parent = none) ∨
      (c.parentUuid ≠ NilUuid ∧ ∃ p, parent = some p ∧
        ft.nodes.lookup c.parentUuid = some p ∧ (h.cells p).IsDir = true) := by
    by_cases hn : c.parentUuid = NilUuid
    · exact ⟨none, Or.inl ⟨hn, rfl⟩⟩
    · rcases hpar with hn2 | ⟨n, hs, hdir⟩
      · exact absurd hn2 hn
      · have hg : GetNode h ft c.parentUuid = some n := by rw [b.nodes]; exact hs
        obtain ⟨p, hlp⟩ := GetNode_lookup hg
        rw [GetNode_eq hlp] at hg
        have e := congrArg FileTreeNode.IsDir (Option.some.inj hg)
        simp only [hdir] at e
        exact ⟨some p, Or.inr ⟨hn, p, rfl, hlp, e⟩⟩
  have hrun := BuildCall_run_fresh c hu parent hp
  have hparent : ∀ p, parent = some p → InMap ft p := by
    intro p hpp
    rcases hp with ⟨_, rfl⟩ | ⟨_, p2, rfl, hlp, _⟩
    · cases hpp
    · cases hpp
      exact ⟨_, hlp⟩
  refine ⟨_, _, hrun, ?_, ?_, ?_, ?_, ?_, ?_, ?_⟩
  · rw [BuildCall_run_eq] at hrun
    exact EnsureItems_inv hi _ hrun
  · intro a ha
    rcases InMap_insert ha with rfl | ha
    · exact b.nextLe
    · exact b.fresh a ha
  · intro x hx
    have hx1 : x ≠ h.next := Nat.ne_of_lt (lt_of_lt_of_le hx b.nextLe)
    have hx2 : parent ≠ some x := fun e =>
      absurd (b.fresh x (hparent x e)) (Nat.not_le.mpr hx)
    rw [fillNode_cells_ne _ _ _ _ hx1 hx2, newNode_cells_ne h c.uuid hx1]
    exact b.frame x hx
  · rw [fillNode_next]
    exact Nat.le_succ_of_le b.nextLe
  · intro w
    show GetNode _ _ w = if w = c.uuid then some c.item else spec w
    by_cases hw : w = c.uuid
    · rw [if_pos hw, hw]
      exact GetNode_fresh_new hi c parent hp
    · rw [if_neg hw, GetNode_fresh_old hi c.uuid c.item parent hw]
      exact b.nodes w
  · intro a ha p hpa
    rw [fillNode_parent] at hpa
    rcases InMap_insert ha with rfl | ha
    · rw [if_pos rfl] at hpa
      exact hi.bound p (hparent p hpa)
    · have hne : a ≠ h.next := Nat.ne_of_lt (hi.bound a ha)
      rw [if_neg hne, newNode_cells_ne h c.uuid hne] at hpa
      exact b.parentLt a ha p hpa
  · intro a ha x hx
    rw [fillNode_children] at hx
    rcases InMap_insert ha with rfl | ha
    · have hpn : parent ≠ some h.next := fun e =>
        absurd (hi.bound _ (hparent _ e)) (lt_irrefl _)
      rw [if_neg hpn, newNode_cells_next] at hx
      simp [zeroNode] at hx
    · have hne : a ≠ h.next := Nat.ne_of_lt (hi.bound a ha)
      rw [newNode_cells_ne h c.uuid hne] at hx
      have hold : x ∈ (h.cells a).Children → a < x ∧
          InMap { nodes := ft.nodes.insert c.uuid h.next } x := fun hm =>
        ⟨(b.childGt a ha x hm).1, InMap_insert_old hu (b.childGt a ha x hm).2⟩
      split_ifs at hx with e
      · rcases List.mem_append.mp hx with hm | hm
        · exact hold hm
        · rw [List.mem_singleton.mp hm]
          exact ⟨hi.bound a ha, _, AList.lookup_insert _⟩
      · exact hold hx

/-! ## Trees whose parents have smaller addresses -/

theorem parts_of_parentLt {h : Heap} {ft : FileTree} (hi : Inv h ft)
    (hlt : ∀ a, InMap ft a → ∀ p, (h.cells a).Parent = some p → p < a) (n : Nat) :
    ∀ a : Nat, a ≤ n → InMap ft a → ∃ parts, getPathPartsAux (n + 1) h a = some parts := by
  induction n with
  | zero =>
    intro a ha hm
    cases hp : (h.cells a).Parent with
    | none => exact ⟨[(h.cells a).Name], by simp only [getPathPartsAux, hp]⟩
    | some p =>
      have h1 : p < a := hlt a hm p hp
      exact absurd (lt_of_lt_of_le h1 ha) (Nat.not_lt_zero _)
  | succ n ih =>
    intro a ha hm
    cases hp : (h.cells a).Parent with
    | none => exact ⟨[(h.cells a).Name], by simp only [getPathPartsAux, hp]⟩
    | some p =>
      have h1 : p < a := hlt a hm p hp
      have h2 : p ≤ n := Nat.le_of_lt_succ (lt_of_lt_of_le h1 ha)
      obtain ⟨l, hl⟩ := ih p h2 (hi.parentIn a hm p hp)
      refine ⟨l ++ [(h.cells a).Name], ?_⟩
      rw [getPathPartsAux]
      simp only [hp]
      rw [hl]
      rfl

theorem PathsReturn_of_parentLt {h : Heap} {ft : FileTree} (hi : Inv h ft)
    (hlt : ∀ a, InMap ft a → ∀ p, (h.cells a).Parent = some p → p < a) :
    PathsReturn h ft := by
  intro u a hl
  have hm : InMap ft a := ⟨u, hl⟩
  obtain ⟨parts, hparts⟩ := parts_of_parentLt hi hlt a a (le_refl _) hm
  have hg := getPathParts_of_some hi hm hparts
  unfold nodeGetPath
  split_ifs
  · simp [hg]
  · rfl

theorem childDepth_of_childGt {h : Heap} {ft : FileTree} (hi : Inv h ft)
    (hgt : ∀ a, InMap ft a → ∀ c ∈ (h.cells a).Children, a < c ∧ InMap ft c) (k : Nat) :
    ∀ a : Nat, InMap ft a → h.next ≤ a + k → childDepth (k + 1) h a = true := by
  induction k with
  | zero =>
    intro a hm hle
    exact absurd (hi.bound a hm) (Nat.not_lt.mpr hle)
  | succ k ih =>
    intro a hm hle
    rw [childDepth, List.all_eq_true]
    intro c hc
    obtain ⟨hac, hmc⟩ := hgt a hm c hc
    refine ih c hmc ?_
    have h1 : a + 1 ≤ c := hac
    calc h.next ≤ a + (k + 1) := hle
      _ = (a + 1) + k := by rw [Nat.add_assoc, Nat.add_comm 1 k]
      _ ≤ c + k := Nat.add_le_add_right h1 k

theorem invalidateReturns_of_childGt {h : Heap} {ft : FileTree} (hi : Inv h ft)
    (hgt : ∀ a, InMap ft a → ∀ c ∈ (h.cells a).Children, a < c ∧ InMap ft c) (u : Uuid) :
    invalidateReturns h ft u = true := by
  unfold invalidateReturns
  cases hl : ft.nodes.lookup u with
  | none => rfl
  | some a =>
    simp only
    rw [invalidate_isSome]
    exact childDepth_of_childGt hi hgt h.next a ⟨u, hl⟩ (Nat.le_add_left _ _)

/-- The invariant of a tree holds on in a heap in which the nodes of the tree
are as they were, but for memoised paths that were reset. -/
theorem Inv_frame {h h1 : Heap} {ft ft1 : FileTree} (hi : Inv h ft) (hi1 : Inv h1 ft1)
    (hnext : h.next ≤ h1.next)
    (hsame : ∀ b, InMap ft b → clearPath (h1.cells b) = clearPath (h.cells b) ∧
      ((h1.cells b).path = "" ∨ (h1.cells b).path = (h.cells b).path)) : Inv h1 ft := by
  have hname : ∀ b, InMap ft b → (h1.cells b).Name = (h.cells b).Name := fun b hb => by
    have e := congrArg fileTreeNodeInternal.Name (hsame b hb).1
    simpa [clearPath] using e
  have huuid : ∀ b, InMap ft b → (h1.cells b).Uuid = (h.cells b).Uuid := fun b hb => by
    have e := congrArg fileTreeNodeInternal.Uuid (hsame b hb).1
    simpa [clearPath] using e
  have hparent : ∀ b, InMap ft b → (h1.cells b).Parent = (h.cells b).Parent := fun b hb => by
    have e := congrArg fileTreeNodeInternal.Parent (hsame b hb).1
    simpa [clearPath] using e
  have hchildren : ∀ b, InMap ft b → (h1.cells b).Children = (h.cells b).Children :=
    fun b hb => by
      have e := congrArg fileTreeNodeInternal.Children (hsame b hb).1
      simpa [clearPath] using e
  refine ⟨?_, ?_, hi1.parentBound, hi1.childBound, ?_, ?_, ?_, ?_, ?_⟩
  · intro u a hu
    rw [huuid a ⟨u, hu⟩]
    exact hi.keyed u a hu
  · exact fun a ha => lt_of_lt_of_le (hi.bound a ha) hnext
  · intro a ha p hp
    rw [hparent a ha] at hp
    exact hi.parentIn a ha p hp
  · intro a ha _ p hp
    rw [hparent a ha] at hp
    rw [hchildren p (hi.parentIn a ha p hp)]
    exact hi.childListed a ha (by simp) p hp
  · intro a ha p hp
    rw [hparent a ha] at hp
    rw [huuid p (hi.parentIn a ha p hp)]
    exact hi.nilFree a ha p hp
  · refine cacheValid_of_frame hi (fun m hm hp => ⟨hm, ?_, fun x hx => ?_⟩)
    · rcases (hsame m hm).2 with e | e
      · exact absurd e hp
      · exact e
    · have hx2 := InMap_of_OnChain hi hm hx
      exact ⟨hname x hx2, hparent x hx2⟩
  · intro m _ n hn
    cases hn

theorem GetNode_frame {h h1 : Heap} {ft : FileTree} (hi : Inv h ft)
    (hsame : ∀ b, InMap ft b → clearPath (h1.cells b) = clearPath (h.cells b)) (w : Uuid) :
    GetNode h1 ft w = GetNode h ft w := by
  unfold GetNode
  cases hl : ft.nodes.lookup w with
  | none => rfl
  | some a =>
    have ha : InMap ft a := ⟨w, hl⟩
    have e := hsame a ha
    have e1 := congrArg fileTreeNodeInternal.Name e
    have e2 := congrArg fileTreeNodeInternal.Hash e
    have e3 := congrArg fileTreeNodeInternal.Modtime e
    have e4 := congrArg fileTreeNodeInternal.IsDir e
    have e5 := congrArg fileTreeNodeInternal.Parent e
    simp only [clearPath] at e1 e2 e3 e4 e5
    have hpu : getParentUuid h1 a = getParentUuid h a := by
      unfold getParentUuid
      rw [e5]
      cases hp : (h.cells a).Parent with
      | none => rfl
      | some p =>
        have e6 := congrArg fileTreeNodeInternal.Uuid (hsame p (hi.parentIn a ha p hp))
        simpa [clearPath] using e6
    simp only [e1, e2, e3, e4, hpu]

theorem pathIn_frame {h h1 : Heap} {ft : FileTree} (hi : Inv h ft) (hi1 : Inv h1 ft)
    (hsame : ∀ b, InMap ft b → clearPath (h1.cells b) = clearPath (h.cells b)) (w : Uuid) :
    pathIn h1 ft w = pathIn h ft w := by
  cases hl : ft.nodes.lookup w with
  | none =>
    have e : ∀ hh, pathIn hh ft w = none := fun hh => by
      simp [pathIn, GetPath, hl]
    rw [e, e]
  | some a =>
    refine pathIn_congr hi hi1 hl hl (fun f => getPathPartsAux_chain f a (fun x hx => ?_))
    have hx2 := InMap_of_OnChain hi ⟨w, hl⟩ hx
    have e := hsame x hx2
    have e1 := congrArg fileTreeNodeInternal.Name e
    have e5 := congrArg fileTreeNodeInternal.Parent e
    simp only [clearPath] at e1 e5
    exact ⟨e1, e5⟩

/-! ## `Move` to the root on the second of two trees built by the same calls -/

/-- The upsert `ensureParent` makes for a parent that is a file of the tree: the
node becomes the placeholder directory, at the root, and keeps its children. -/
theorem Built_convert {hb h : Heap} {ft : FileTree} {spec : Uuid → Option FileTreeNode}
    (b : Built hb spec h ft) (p : Uuid) (n : FileTreeNode) (hn : spec p = some n) :
    ∃ h1 ft1 ap, ensureItem h ft (placeholderItem p) none = some (h1, ft1) ∧
      ft.nodes.lookup p = some ap ∧ ft1.nodes.lookup p = some ap ∧
      Built hb (fun w => if w = p then some (placeholderItem p) else spec w) h1 ft1 := by
  have hi := b.inv
  have hg : GetNode h ft p = some n := by rw [b.nodes]; exact hn
  obtain ⟨ap, hl⟩ := GetNode_lookup hg
  have hap : InMap ft ap := ⟨p, hl⟩
  have hret := invalidateReturns_of_childGt hi b.childGt p
  obtain ⟨hx, hinv⟩ : ∃ hx, invalidatePathCache h ap = some hx := by
    unfold invalidateReturns at hret
    rw [hl] at hret
    exact Option.isSome_iff_exists.mp hret
  have he : ensureItem h ft (placeholderItem p) none =
      some (fillNode hx ap (placeholderItem p) none, { nodes := ft.nodes.insert p ap }) := by
    have hl2 : ft.nodes.lookup (placeholderItem p).Uuid = some ap := hl
    simp only [ensureItem, hl2, hinv]
    rfl
  obtain ⟨hcl, _⟩ := invalidate_spec hinv
  have hs := hcl.1
  obtain ⟨ecore, echildren, euuid, _, _⟩ := ensureItem_none_effect he
  have hother : ∀ a, InMap ft a → a ≠ ap →
      coreOf ((fillNode hx ap (placeholderItem p) none).cells a) = coreOf (h.cells a) := by
    intro a ha hne
    refine ecore a (hi.bound a ha) (fun e => hne ?_)
    have e2 : ft.nodes.lookup p = some a := e
    rw [hl] at e2
    exact (Option.some.inj e2).symm
  have hl1 : ({ nodes := ft.nodes.insert p ap } : FileTree).nodes.lookup p = some ap :=
    AList.lookup_insert _
  refine ⟨_, _, ap, he, hl, hl1, ?_, ?_, ?_, ?_, ?_, ?_, ?_⟩
  · exact ensureItem_inv hi _ none (fun q hq => by cases hq) he
  · intro a ha
    rcases InMap_insert ha with rfl | ha
    · exact b.fresh _ hap
    · exact b.fresh a ha
  · intro x hx1
    have hxa : x ≠ ap := fun e => absurd (b.fresh ap hap) (Nat.not_le.mpr (e ▸ hx1))
    rw [fillNode_cells_ne _ _ _ _ hxa (by simp)]
    obtain ⟨f1, f2⟩ := b.frame x hx1
    refine ⟨(hs.2 x).trans f1, ?_⟩
    rcases hcl.2 x with e | e
    · exact Or.inl e
    · rw [e]
      exact f2
  · rw [fillNode_next, hs.1]
    exact b.nextLe
  · intro w
    show GetNode _ _ w = if w = p then some (placeholderItem p) else spec w
    by_cases hw : w = p
    · rw [if_pos hw, hw, GetNode_eq hl1]
      have hpu : getParentUuid (fillNode hx ap (placeholderItem p) none) ap = NilUuid := by
        unfold getParentUuid
        rw [fillNode_parent, if_pos rfl]
      rw [fillNode_name, fillNode_hash, fillNode_modtime, fillNode_isDir, if_pos rfl,
        if_pos rfl, if_pos rfl, if_pos rfl, hpu]
      rfl
    · rw [if_neg hw, ← b.nodes w]
      unfold GetNode
      simp only [lookup_insert_eq, if_neg hw]
      cases hlw : ft.nodes.lookup w with
      | none => rfl
      | some a =>
        have ha : InMap ft a := ⟨w, hlw⟩
        have hne : a ≠ ap := by
          intro e
          rw [e] at hlw
          exact hw ((hi.keyed w ap hlw).symm.trans (hi.keyed p ap hl))
        have hc := hother a ha hne
        simp only [coreOf, Prod.mk.injEq] at hc
        obtain ⟨_, c2, c3, c4, c5, c6⟩ := hc
        have hpu : getParentUuid (fillNode hx ap (placeholderItem p) none) a =
            getParentUuid h a := by
          unfold getParentUuid
          rw [c6]
          cases hq : (h.cells a).Parent with
          | none => rfl
          | some q => simp only [euuid q (hi.parentBound a q hq)]
        simp only [c2, c3, c4, c5, hpu]
  · intro a ha q hq
    rcases InMap_insert ha with rfl | ha
    · rw [fillNode_parent, if_pos rfl] at hq
      cases hq
    · by_cases hne : a = ap
      · rw [hne, fillNode_parent, if_pos rfl] at hq
        cases hq
      · have hc := hother a ha hne
        simp only [coreOf, Prod.mk.injEq] at hc
        rw [hc.2.2.2.2.2] at hq
        exact b.parentLt a ha q hq
  · intro a ha x hx1
    have ha0 : InMap ft a := by
      rcases InMap_insert ha with rfl | ha
      · exact hap
      · exact ha
    rw [echildren a (hi.bound a ha0)] at hx1
    exact ⟨(b.childGt a ha0 x hx1).1, InMap_insert_same hl (b.childGt a ha0 x hx1).2⟩

theorem reportStep_plain (spec : Uuid → Option FileTreeNode) (c : BuildCall)
    (hpar : c.parentUuid = NilUuid ∨ ∃ n, spec c.parentUuid = some n ∧ n.IsDir = true) :
    reportStep spec c = fun w => if w = c.uuid then some c.item else spec w := by
  funext w
  unfold reportStep
  by_cases hw : w = c.uuid
  · rw [if_pos hw, if_pos hw]
  · rw [if_neg hw, if_neg hw, if_neg]
    rintro ⟨e1, e2, e3⟩
    rcases hpar with hn | ⟨n, hs, hd⟩
    · exact e2 (e1.trans hn)
    · rw [e1, hs] at e3
      simp [hd] at e3

theorem reportStep_file (spec : Uuid → Option FileTreeNode) (c : BuildCall)
    (hn : c.parentUuid ≠ NilUuid) (n : FileTreeNode) (hs : spec c.parentUuid = some n)
    (hd : n.IsDir = false) :
    reportStep spec c = fun w => if w = c.uuid then some c.item
      else (fun v => if v = c.parentUuid then some (placeholderItem c.parentUuid)
        else spec v) w := by
  funext w
  unfold reportStep
  by_cases hw : w = c.uuid
  · rw [if_pos hw, if_pos hw]
  · rw [if_neg hw, if_neg hw]
    by_cases hp : w = c.parentUuid
    · have hc : w = c.parentUuid ∧ w ≠ NilUuid ∧
          (spec w).map (fun n => n.IsDir) = some false := by
        refine ⟨hp, by rw [hp]; exact hn, ?_⟩
        rw [hp, hs]
        simp [hd]
      rw [if_pos hc]
      show _ = if w = c.parentUuid then _ else _
      rw [if_pos hp, hp]
    · have hc : ¬ (w = c.parentUuid ∧ w ≠ NilUuid ∧
          (spec w).map (fun n => n.IsDir) = some false) := fun e => hp e.1
      rw [if_neg hc]
      show _ = if w = c.parentUuid then _ else _
      rw [if_neg hp]

/-- A call with a new uuid whose parent is `NilUuid` or in the tree returns, and
the state of the build goes on. -/
theorem Built_step {hb h : Heap} {ft : FileTree} {spec : Uuid → Option FileTreeNode}
    (b : Built hb spec h ft) (c : BuildCall) (hnew : spec c.uuid = none)
    (hpar : c.parentUuid = NilUuid ∨ (spec c.parentUuid).isSome = true) :
    ∃ h1 ft1, c.run h ft = some (h1, ft1) ∧ Built hb (reportStep spec c) h1 ft1 := by
  by_cases hplain : c.parentUuid = NilUuid ∨ ∃ n, spec c.parentUuid = some n ∧ n.IsDir = true
  · rw [reportStep_plain spec c hplain]
    exact Built_fresh b c hnew hplain
  · have hn : c.parentUuid ≠ NilUuid := fun e => hplain (Or.inl e)
    obtain ⟨n, hs⟩ : ∃ n, spec c.parentUuid = some n := by
      rcases hpar with e | e
      · exact absurd e hn
      · exact Option.isSome_iff_exists.mp e
    have hd : n.IsDir = false := by
      cases hdir : n.IsDir with
      | false => rfl
      | true => exact absurd (Or.inr ⟨n, hs, hdir⟩) hplain
    obtain ⟨h1, ft1, ap, he, hl, hl1, b1⟩ := Built_convert b c.parentUuid n hs
    have hne : c.uuid ≠ c.parentUuid := fun e => by
      rw [e, hs] at hnew
      cases hnew
    have hnew1 : (fun w => if w = c.parentUuid then some (placeholderItem c.parentUuid)
        else spec w) c.uuid = none := by
      show (if c.uuid = c.parentUuid then _ else _) = none
      rw [if_neg hne]
      exact hnew
    have hdir1 : ∃ m, (fun w => if w = c.parentUuid then some (placeholderItem c.parentUuid)
        else spec w) c.parentUuid = some m ∧ m.IsDir = true :=
      ⟨placeholderItem c.parentUuid, if_pos rfl, rfl⟩
    obtain ⟨h2, ft2, hrun, b2⟩ := Built_fresh b1 c hnew1 (Or.inr hdir1)
    refine ⟨h2, ft2, ?_, ?_⟩
    · -- the call on the tree is the call on the tree with the parent upserted
      have hfile : (h.cells ap).IsDir = false := by
        have hg : GetNode h ft c.parentUuid = some n := by rw [b.nodes]; exact hs
        rw [GetNode_eq hl] at hg
        have e := congrArg FileTreeNode.IsDir (Option.some.inj hg)
        simp only [hd] at e
        exact e
      have hdir : (h1.cells ap).IsDir = true := by
        have hg := b1.nodes c.parentUuid
        rw [GetNode_eq hl1] at hg
        have hg2 : _ = some (placeholderItem c.parentUuid) := hg.trans (if_pos rfl)
        exact congrArg FileTreeNode.IsDir (Option.some.inj hg2)
      have hep : ensureParent h ft c.item.Parent = some (h1, ft1, some ap) := by
        rw [BuildCall_item_parent]
        simp only [ensureParent, hn, if_false, hl, hfile, he, hl1]
        rfl
      have hep1 : ensureParent h1 ft1 c.item.Parent = some (h1, ft1, some ap) := by
        rw [BuildCall_item_parent]
        simp only [ensureParent, hn, if_false, hl1, hdir, if_true]
      rw [BuildCall_run_eq] at hrun ⊢
      rw [EnsureItems_single h ft c.item hep]
      rw [EnsureItems_single h1 ft1 c.item hep1] at hrun
      exact hrun
    · rw [reportStep_file spec c hn n hs hd]
      exact b2

theorem reportStep_isSome (spec : Uuid → Option FileTreeNode) (c : BuildCall) (w : Uuid) :
    (reportStep spec c w).isSome = true ↔ w = c.uuid ∨ (spec w).isSome = true := by
  unfold reportStep
  by_cases hw : w = c.uuid
  · simp [hw]
  · rw [if_neg hw]
    split_ifs with hc
    · obtain ⟨_, _, e3⟩ := hc
      cases hs : spec w with
      | none => simp [hs] at e3
      | some n => simp [hw]
    · simp [hw]

theorem report_foldl_isSome (cs : List BuildCall) (spec : Uuid → Option FileTreeNode)
    (w : Uuid) :
    (cs.foldl reportStep spec w).isSome = true ↔
      (spec w).isSome = true ∨ ∃ d ∈ cs, d.uuid = w := by
  induction cs generalizing spec with
  | nil => simp
  | cons c cs ih =>
    rw [List.foldl_cons, ih, reportStep_isSome]
    constructor
    · rintro ((e | e) | ⟨d, hd, e⟩)
      · exact Or.inr ⟨c, List.mem_cons_self _ _, e.symm⟩
      · exact Or.inl e
      · exact Or.inr ⟨d, List.mem_cons_of_mem _ hd, e⟩
    · rintro (e | ⟨d, hd, e⟩)
      · exact Or.inl (Or.inr e)
      · rcases List.mem_cons.mp hd with rfl | hd
        · exact Or.inl (Or.inl e.symm)
        · exact Or.inr ⟨d, hd, e⟩

theorem reportOf_isSome (calls : List BuildCall) (w : Uuid) :
    (reportOf calls w).isSome = true ↔ ∃ d ∈ calls, d.uuid = w := by
  unfold reportOf
  rw [report_foldl_isSome]
  simp

theorem reportOf_append (pre : List BuildCall) (c : BuildCall) :
    reportOf (pre ++ [c]) = reportStep (reportOf pre) c := by
  unfold reportOf
  rw [List.foldl_append]
  rfl

theorem buildFrom {hb : Heap} (cs : List BuildCall) (pre : List BuildCall) (h : Heap)
    (ft : FileTree) (b : Built hb (reportOf pre) h ft)
    (hpf : parentsFirstFrom pre cs = true) :
    ∃ h1 ft1, cs.foldlM (fun (s : Heap × FileTree) c => c.run s.1 s.2) (h, ft) =
      some (h1, ft1) ∧ Built hb (reportOf (pre ++ cs)) h1 ft1 := by
  induction cs generalizing pre h ft with
  | nil => exact ⟨h, ft, rfl, by rw [List.append_nil]; exact b⟩
  | cons c cs ih =>
    simp only [parentsFirstFrom, Bool.and_eq_true, decide_eq_true_eq] at hpf
    obtain ⟨⟨hnew, hpar⟩, hrest⟩ := hpf
    have hnew1 : reportOf pre c.uuid = none := by
      cases hs : reportOf pre c.uuid with
      | none => rfl
      | some n =>
        obtain ⟨d, hd, e⟩ := (reportOf_isSome pre c.uuid).mp (by rw [hs]; rfl)
        exact absurd e (hnew d hd)
    have hpar1 : c.parentUuid = NilUuid ∨ (reportOf pre c.parentUuid).isSome = true :=
      hpar.imp id (fun e => (reportOf_isSome pre c.parentUuid).mpr e)
    obtain ⟨h1, ft1, hrun, b1⟩ := Built_step b c hnew1 hpar1
    rw [← reportOf_append] at b1
    obtain ⟨h2, ft2, hf, b2⟩ := ih (pre ++ [c]) h1 ft1 b1 hrest
    refine ⟨h2, ft2, ?_, ?_⟩
    · rw [List.foldlM_cons]
      show (c.run h ft).bind _ = _
      rw [hrun]
      exact hf
    · rw [List.append_assoc] at b2
      exact b2

/-- A build whose calls have distinct uuids and name parents that were created
before returns, in every heap left by the operations. -/
theorem buildTree_returns {hb : Heap} {ft0 : FileTree} (hi : Inv hb ft0)
    (calls : List BuildCall) (hpf : parentsFirstFrom [] calls = true) :
    ∃ h ft, buildTree hb calls = some (h, ft) ∧ Built hb (reportOf calls) h ft := by
  obtain ⟨h, ft, hf, b⟩ := buildFrom calls [] hb NewFileTree (Built_nil hi) hpf
  exact ⟨h, ft, hf, by simpa using b⟩

theorem Twins_of_calls (calls : List BuildCall) (hpf : parentsFirstFrom [] calls = true) :
    ∃ h1 t h2 t2, buildTree emptyHeap calls = some (h1, t) ∧
      buildTree h1 calls = some (h2, t2) ∧ Twins h1.next h2 t t2 := by
  obtain ⟨h1, t, hb1, b1⟩ := buildTree_returns Inv_empty calls hpf
  obtain ⟨h2, t2, hb2, b2⟩ := buildTree_returns b1.inv calls hpf
  have hsame : ∀ b, InMap t b → clearPath (h2.cells b) = clearPath (h1.cells b) ∧
      ((h2.cells b).path = "" ∨ (h2.cells b).path = (h1.cells b).path) :=
    fun b hb => b2.frame b (b1.inv.bound b hb)
  have hi : Inv h2 t := Inv_frame b1.inv b2.inv b2.nextLe hsame
  refine ⟨h1, t, h2, t2, hb1, hb2, hi, b2.inv, b1.inv.bound, b2.fresh, ?_, b2.parentLt,
    b2.childGt, fun w => ?_⟩
  · intro a ha p hp
    have e := congrArg fileTreeNodeInternal.Parent (hsame a ha).1
    simp only [clearPath] at e
    rw [e] at hp
    exact b1.parentLt a ha p hp
  · rw [GetNode_frame b1.inv (fun b hb => (hsame b hb).1) w, b1.nodes, b2.nodes]

theorem Move_root_shape {h : Heap} {ft : FileTree} {u : Uuid} {nm : FileName} {a : Addr}
    (hl : ft.nodes.lookup u = some a) {h1 : Heap} {ft1 : FileTree}
    (he : Move h ft u NilUuid nm = some (h1, ft1)) :
    ∃ hx, Cleared h hx ∧ h1 = attachNode (detachNode hx a u) a none nm ∧
      ft1 = { nodes := ft.nodes.insert u a } := by
  obtain ⟨hx, h3, ft3, parent, hinv, hep, rfl, rfl⟩ := Move_cases hl he
  obtain ⟨hcl, _⟩ := invalidate_spec hinv
  simp only [ensureParent, if_true, Option.some.injEq, Prod.mk.injEq] at hep
  obtain ⟨rfl, rfl, rfl⟩ := hep
  exact ⟨hx, hcl, rfl, rfl⟩

theorem move_root_cells_ne (hx : Heap) (a : Addr) (u : Uuid) (nm : FileName) {b : Addr}
    (hb : b ≠ a) (hp : (hx.cells a).Parent ≠ some b) :
    (attachNode (detachNode hx a u) a none nm).cells b = hx.cells b := by
  unfold attachNode detachNode
  cases hpar : (hx.cells a).Parent with
  | none => simp [Heap.set, hb]
  | some p =>
    have hbp : b ≠ p := fun e => hp (by rw [hpar, e])
    simp [Heap.set, hb, hbp]

theorem singleton_of_ascending (l : List DiffItem) (x : DiffItem)
    (hs : l.Pairwise (fun i j => UuidLt i.uuid j.uuid))
    (hm : ∀ item, item ∈ l ↔ item = x) : l = [x] := by
  cases l with
  | nil => exact absurd ((hm x).mpr rfl) (List.not_mem_nil _)
  | cons y ys =>
    have hy : y = x := (hm y).mp (List.mem_cons_self _ _)
    cases ys with
    | nil => rw [hy]
    | cons z zs =>
      exfalso
      have hz : z = x := (hm z).mp (List.mem_cons_of_mem _ (List.mem_cons_self _ _))
      have hlt := (List.pairwise_cons.mp hs).1 z (List.mem_cons_self _ _)
      rw [hy, hz] at hlt
      exact UuidLt_irrefl _ hlt

theorem GetNode_isSome_of_pathIn {h : Heap} {ft : FileTree} {w : Uuid} {p : String}
    (hp : pathIn h ft w = some p) : ∃ n, GetNode h ft w = some n := by
  obtain ⟨a, hl, _⟩ := (pathIn_eq _ _ _ _).mp hp
  exact ⟨_, GetNode_eq hl⟩

/-- On the second of two trees built by the same calls, `Move(u, NilUuid, nm)` of
a node that is not at the root returns, and `Diff` of the first tree and the
second then sends the one item `DiffModified{u, path of u in the first tree,
nm}`. -/
theorem Move_to_root_twin {n : Nat} {h : Heap} {t t2 : FileTree} (tw : Twins n h t t2)
    {u : Uuid} {node : FileTreeNode} (hn : GetNode h t2 u = some node)
    (hp : node.Parent ≠ NilUuid) (nm : FileName) :
    ∃ h3 t3 h4 old, Move h t2 u NilUuid nm = some (h3, t3) ∧ pathIn h t u = some old ∧
      pathIn h3 t u = some old ∧ Diff h3 t t3 = some (h4, [.DiffModified u old nm]) := by
  obtain ⟨a, hl⟩ := GetNode_lookup hn
  have ha : InMap t2 a := ⟨u, hl⟩
  have hu := invalidateReturns_of_childGt tw.inv2 tw.childGt2 u
  obtain ⟨h3, t3, he⟩ := Move_returns nm hl hu (fun hnn => absurd rfl hnn)
  have hi3 := Move_inv tw.inv2 u NilUuid nm he
  obtain ⟨hx, hcl, rfl, rfl⟩ := Move_root_shape hl he
  have hs := hcl.1
  -- the nodes of the first tree
  have hcell : ∀ b, InMap t b → (attachNode (detachNode hx a u) a none nm).cells b =
      hx.cells b := by
    intro b hb
    have hbn := tw.below b hb
    have hba : b ≠ a := fun e => absurd (tw.above a ha) (Nat.not_le.mpr (e ▸ hbn))
    refine move_root_cells_ne hx a u nm hba (fun e => ?_)
    rw [SameNodes_parent hs] at e
    exact absurd (tw.above b (tw.inv2.parentIn a ha b e)) (Nat.not_le.mpr hbn)
  have hsame : ∀ b, InMap t b →
      clearPath ((attachNode (detachNode hx a u) a none nm).cells b) = clearPath (h.cells b) ∧
      (((attachNode (detachNode hx a u) a none nm).cells b).path = "" ∨
        ((attachNode (detachNode hx a u) a none nm).cells b).path = (h.cells b).path) := by
    intro b hb
    rw [hcell b hb]
    exact ⟨hs.2 b, hcl.2 b⟩
  have hnext : h.next ≤ (attachNode (detachNode hx a u) a none nm).next := by
    rw [attachNode_next, detachNode_next, hs.1]
  have hi3t := Inv_frame tw.inv1 hi3 hnext hsame
  have hg1 : ∀ w, GetNode (attachNode (detachNode hx a u) a none nm) t w = GetNode h t w :=
    GetNode_frame tw.inv1 (fun b hb => (hsame b hb).1)
  have hp1 : ∀ w, pathIn (attachNode (detachNode hx a u) a none nm) t w = pathIn h t w :=
    pathIn_frame tw.inv1 hi3t (fun b hb => (hsame b hb).1)
  have hpr1 : PathsReturn (attachNode (detachNode hx a u) a none nm) t := by
    refine PathsReturn_of_parentLt hi3t (fun b hb p hpar => ?_)
    have e := congrArg fileTreeNodeInternal.Parent (hsame b hb).1
    simp only [clearPath] at e
    rw [e] at hpar
    exact tw.parentLt1 b hb p hpar
  -- the nodes of the second tree
  have hpar3 : ∀ b, ((attachNode (detachNode hx a u) a none nm).cells b).Parent =
      if b = a then none else (h.cells b).Parent := by
    intro b
    rw [attachNode_parent, detachNode_parent, SameNodes_parent hs]
  have hpr3 : PathsReturn (attachNode (detachNode hx a u) a none nm)
      { nodes := t2.nodes.insert u a } := by
    refine PathsReturn_of_parentLt hi3 (fun b hb p hpar => ?_)
    rw [hpar3] at hpar
    split_ifs at hpar with e
    rcases InMap_insert hb with rfl | hb
    · exact absurd rfl e
    · exact tw.parentLt2 b hb p hpar
  have hl3 : ({ nodes := t2.nodes.insert u a } : FileTree).nodes.lookup u = some a :=
    AList.lookup_insert _
  have hpu3 : getParentUuid (attachNode (detachNode hx a u) a none nm) a = NilUuid := by
    unfold getParentUuid
    rw [hpar3, if_pos rfl]
  have hnew : pathIn (attachNode (detachNode hx a u) a none nm)
      { nodes := t2.nodes.insert u a } u = some nm := by
    rw [pathIn_root hi3 hl3 (by rw [hpar3, if_pos rfl]), attachNode_name, if_pos rfl]
  have hothers : ∀ w, w ≠ u →
      GetNode (attachNode (detachNode hx a u) a none nm) { nodes := t2.nodes.insert u a } w =
        GetNode h t w := by
    intro w hw
    rw [tw.same w]
    unfold GetNode
    simp only [lookup_insert_eq, if_neg hw]
    cases hlw : t2.nodes.lookup w with
    | none => rfl
    | some b =>
      have hba : b ≠ a := by
        intro e
        rw [e] at hlw
        exact hw ((tw.inv2.keyed w a hlw).symm.trans (tw.inv2.keyed u a hl))
      have hc : coreOf ((attachNode (detachNode hx a u) a none nm).cells b) =
          coreOf (h.cells b) := by
        rw [attachNode_core _ _ _ _ hba, detachNode_core, SameNodes_core hs]
      simp only [coreOf, Prod.mk.injEq] at hc
      obtain ⟨_, c2, c3, c4, c5, c6⟩ := hc
      have hpu : getParentUuid (attachNode (detachNode hx a u) a none nm) b =
          getParentUuid h b := by
        unfold getParentUuid
        rw [c6]
        cases (h.cells b).Parent with
        | none => rfl
        | some q => simp only [attachNode_uuid, detachNode_uuid, SameNodes_uuid hs]
      simp only [c2, c3, c4, c5, hpu]
  -- the paths of `u`
  have hnt : GetNode h t u = some node := by rw [tw.same u]; exact hn
  obtain ⟨b0, hlb⟩ := GetNode_lookup hnt
  have hold : pathIn (attachNode (detachNode hx a u) a none nm) t u =
      some (pathAt (attachNode (detachNode hx a u) a none nm) b0) :=
    (pathIn_eq _ _ _ _).mpr ⟨b0, hlb, pathOf_of_returns hpr1 hlb⟩
  -- the items
  obtain ⟨h4, hd, _⟩ := Diff_eq_itemsWalk hpr1 hpr3
  have hsorted := itemsWalk_sorted (attachNode (detachNode hx a u) a none nm) _ _
    (sortedSlice hi3t.keyed) (sortedSlice hi3.keyed)
  refine ⟨_, _, h4, _, he, by rw [← hp1 u]; exact hold, hold, ?_⟩
  rw [hd]
  congr 2
  refine singleton_of_ascending _ _ hsorted (fun item => ?_)
  rw [itemsWalk_mem _ _ _ (sortedSlice hi3t.keyed) (sortedSlice hi3.keyed),
    Emits_iff_Sends hi3t.keyed hi3.keyed hpr1 hpr3]
  constructor
  · rintro (⟨w, p, hpw, hnone, rfl⟩ | ⟨w, p, hpw, hnone, rfl⟩ |
      ⟨w, p, q, n1, m1, hpw, hqw, hn1, hm1, hdiff, rfl⟩)
    · exfalso
      obtain ⟨n1, hn1⟩ := GetNode_isSome_of_pathIn hpw
      by_cases hw : w = u
      · rw [hw, GetNode_eq hl3] at hnone
        cases hnone
      · rw [hothers w hw, ← hg1 w, hn1] at hnone
        cases hnone
    · exfalso
      obtain ⟨n1, hn1⟩ := GetNode_isSome_of_pathIn hpw
      by_cases hw : w = u
      · rw [hw, hg1 u, hnt] at hnone
        cases hnone
      · rw [hothers w hw, ← hg1 w, hnone] at hn1
        cases hn1
    · by_cases hw : w = u
      · subst hw
        rw [hold] at hpw
        rw [hnew] at hqw
        rw [Option.some.inj hpw, Option.some.inj hqw]
      · exfalso
        rw [hothers w hw, ← hg1 w, hn1] at hm1
        have e := Option.some.inj hm1
        rw [e] at hdiff
        rcases hdiff with d | d | d | d <;> exact d rfl
  · rintro rfl
    refine Or.inr (Or.inr ⟨u, _, nm, node, _, hold, hnew, by rw [hg1 u]; exact hnt,
      GetNode_eq hl3, Or.inr (Or.inl ?_), rfl⟩)
    show node.Parent ≠ getParentUuid _ a
    rw [hpu3]
    exact hp

/-- **C15**, amended.  Let `t` and `t2` be built, one after the other, by the
same `CreateDir` / `CreateFile` calls, with distinct uuids and with every parent
that is not `NilUuid` being the uuid of an earlier call (a directory or a file).
Both builds return, and for every node `u` of `t2` whose parent is not `NilUuid`
and every name `n`: `t2.Move(u, NilUuid, n)` returns, and `Diff(t, t2)` then
returns and sends exactly one item, `DiffModified{Uuid: u, OldPath: path of u in
t, NewPath: n}`. -/
theorem Diff_after_Move_to_root (calls : List BuildCall)
    (hpf : parentsFirstFrom [] calls = true) :
    ∃ h1 t h2 t2, buildTree emptyHeap calls = some (h1, t) ∧
      buildTree h1 calls = some (h2, t2) ∧
      ∀ u node, GetNode h2 t2 u = some node → node.Parent ≠ NilUuid → ∀ n : FileName,
        ∃ h3 t3 h4 old, Move h2 t2 u NilUuid n = some (h3, t3) ∧
          pathIn h2 t u = some old ∧
          Diff h3 t t3 = some (h4, [.DiffModified u old n]) := by
  obtain ⟨h1, t, h2, t2, hb1, hb2, tw⟩ := Twins_of_calls calls hpf
  refine ⟨h1, t, h2, t2, hb1, hb2, fun u node hn hp n => ?_⟩
  obtain ⟨h3, t3, h4, old, he, ho, _, hd⟩ := Move_to_root_twin tw hn hp n
  exact ⟨h3, t3, h4, old, he, ho, hd⟩

/-- Witness of **C15**: the calls of `generateTestTree` and
`Move(dir2, NilUuid, "moved-dir")`, as in `TestDiffMoveDir`; and the calls
`CreateDir(uA, NilUuid, "d")`, `CreateFile(uB, uA, "f")`, `CreateFile(uC, uB, "g")`,
in which a file is named as parent, with `Move(uC, NilUuid, "n")`. -/
theorem Diff_after_Move_to_root_witness :
    parentsFirstFrom [] testCalls = true ∧
    (buildTwice testCalls).bind (fun w =>
      (Move w.1 w.2.2 uDir2 NilUuid "moved-dir").bind (fun r =>
        (Diff r.1 w.2.1 r.2).map Prod.snd)) =
      some [.DiffModified uDir2 "dir1/dir2" "moved-dir"] ∧
    parentsFirstFrom [] fileParentCalls = true ∧
    (buildTwice fileParentCalls).bind (fun w =>
      (Move w.1 w.2.2 uC NilUuid "n").bind (fun r =>
        (Diff r.1 w.2.1 r.2).map Prod.snd)) =
      some [.DiffModified uC "/g" "n"] ∧
    ∃ h1 t h2 t2, buildTree emptyHeap testCalls = some (h1, t) ∧
      buildTree h1 testCalls = some (h2, t2) ∧
      ∀ u node, GetNode h2 t2 u = some node → node.Parent ≠ NilUuid → ∀ n : FileName,
        ∃ h3 t3 h4 old, Move h2 t2 u NilUuid n = some (h3, t3) ∧
          pathIn h2 t u = some old ∧
          Diff h3 t t3 = some (h4, [.DiffModified u old n]) :=
  ⟨by decide, by decide, by decide, by decide,
   Diff_after_Move_to_root testCalls (by decide)⟩

/-! ## The file-new event -/

theorem EnsureItems_single_cases {h : Heap} {ft : FileTree} {item : FileTreeNode} {h1 : Heap}
    {ft1 : FileTree} (he : EnsureItems h ft [item] = some (h1, ft1)) :
    ∃ h3 ft3 parent, ensureParent h ft item.Parent = some (h3, ft3, parent) ∧
      ensureItem h3 ft3 item parent = some (h1, ft1) := by
  cases hep : ensureParent h ft item.Parent with
  | none =>
    simp only [EnsureItems, List.foldlM_cons, List.foldlM_nil, hep] at he
    cases he
  | some r =>
    obtain ⟨h3, ft3, parent⟩ := r
    rw [EnsureItems_single h ft item hep] at he
    exact ⟨h3, ft3, parent, rfl, he⟩

theorem compareWords_values (a b : List Nat) :
    compareWords a b = -1 ∨ compareWords a b = 0 ∨ compareWords a b = 1 := by
  induction a generalizing b with
  | nil => cases b <;> simp [compareWords]
  | cons x xs ih =>
    cases b with
    | nil => simp [compareWords]
    | cons y ys =>
      simp only [compareWords]
      split_ifs
      · exact Or.inl rfl
      · exact Or.inr (Or.inr rfl)
      · exact ih ys

theorem compareWords_lt_iff_lex (a b : List Nat) (hlen : a.length = b.length) :
    compareWords a b < 0 ↔ List.Lex (fun x y => x < y) a b := by
  induction a generalizing b with
  | nil =>
    cases b with
    | nil =>
      simp only [compareWords, lt_self_iff_false, false_iff]
      intro h
      cases h
    | cons y ys => simp at hlen
  | cons x xs ih =>
    cases b with
    | nil => simp at hlen
    | cons y ys =>
      have hl : xs.length = ys.length := by simpa using hlen
      simp only [compareWords]
      rcases Nat.lt_trichotomy x y with hlt | heq | hgt
      · simp only [hlt, if_true]
        exact ⟨fun _ => List.Lex.rel hlt, fun _ => by decide⟩
      · subst heq
        simp only [lt_self_iff_false, if_false, gt_iff_lt]
        rw [ih ys hl]
        constructor
        · exact fun h => List.Lex.cons h
        · intro h
          cases h with
          | cons h2 => exact h2
          | rel h2 => exact absurd h2 (lt_irrefl _)
      · have h1 : ¬ x < y := by omega
        simp only [h1, if_false, gt_iff_lt, hgt, if_true]
        constructor
        · intro h
          exact absurd h (by decide)
        · intro h
          cases h with
          | cons h2 => exact absurd hgt (lt_irrefl _)
          | rel h2 => exact absurd h2 h1

/-- **C23.** `CompareUuids` is a total order on `Uuid`, the lexicographic order of
the eight words: for all `a`, `b`, `c`, `CompareUuids(a, b) = 0` exactly when
`a = b`; `CompareUuids(a, b) = -CompareUuids(b, a)`; `CompareUuids(a, b) < 0` and
`CompareUuids(b, c) < 0` give `CompareUuids(a, c) < 0`; `CompareUuids(a, b) < 0`
exactly when the words of `a` come before the words of `b` in the lexicographic
order of `<`; and the value is `-1`, `0` or `1`. -/
theorem CompareUuids_total_order (a b c : Uuid) :
    (CompareUuids a b = 0 ↔ a = b) ∧
    CompareUuids a b = - CompareUuids b a ∧
    (CompareUuids a b < 0 → CompareUuids b c < 0 → CompareUuids a c < 0) ∧
    (CompareUuids a b < 0 ↔ List.Lex (fun x y => x < y) a.1 b.1) ∧
    (CompareUuids a b = -1 ∨ CompareUuids a b = 0 ∨ CompareUuids a b = 1) := by
  refine ⟨⟨fun h => ?_, fun h => ?_⟩, compareWords_neg b.1 a.1, ?_, ?_, ?_⟩
  · exact Subtype.ext (compareWords_eq_zero a.1 b.1 (by rw [a.2, b.2]) h)
  · rw [h]
    exact compareWords_self b.1
  · exact compareWords_lt_trans a.1 b.1 c.1 (by rw [a.2, b.2]) (by rw [b.2, c.2])
  · exact compareWords_lt_iff_lex a.1 b.1 (by rw [a.2, b.2])
  · exact compareWords_values a.1 b.1

/-- Witness of **C23**: the uuids of `dir1`, `dir2` and `file1`. -/
theorem CompareUuids_total_order_witness :
    CompareUuids uDir1 uDir2 < 0 ∧ CompareUuids uDir2 uFile1 < 0 ∧
    CompareUuids uDir1 uFile1 < 0 ∧
    (CompareUuids uDir1 uDir2 = 0 ↔ uDir1 = uDir2) ∧
    CompareUuids uDir1 uDir2 = - CompareUuids uDir2 uDir1 :=
  ⟨by decide, by decide,
   (CompareUuids_total_order uDir1 uDir2 uFile1).2.2.1 (by decide) (by decide),
   (CompareUuids_total_order uDir1 uDir2 uFile1).1,
   (CompareUuids_total_order uDir1 uDir2 uFile1).2.1⟩

/-! ## `UuidFromString` and `String` -/

theorem chunks_flatten (B : List Nat) (k n : Nat) :
    ((List.range n).map (fun i => (B.drop (i * k)).take k)).flatten = B.take (n * k) := by
  induction n with
  | zero => simp
  | succ n ih =>
    rw [List.range_succ, List.map_append, List.flatten_append, ih, Nat.succ_mul,
      List.take_add]
    simp

theorem putUint64_leUint64 (l : List Nat) (hlen : l.length = 8) (hb : ∀ b ∈ l, b < 256) :
    putUint64 (leUint64 l) = l := by
  match l, hlen with
  | [b0, b1, b2, b3, b4, b5, b6, b7], _ =>
    have h0 := hb b0 (by simp)
    have h1 := hb b1 (by simp)
    have h2 := hb b2 (by simp)
    have h3 := hb b3 (by simp)
    have h4 := hb b4 (by simp)
    have h5 := hb b5 (by simp)
    have h6 := hb b6 (by simp)
    have h7 := hb b7 (by simp)
    have hr : List.range 8 = [0, 1, 2, 3, 4, 5, 6, 7] := by decide
    simp only [putUint64, leUint64, hr, List.map_cons, List.map_nil, List.foldr_cons,
      List.foldr_nil]
    norm_num
    refine ⟨?_, ?_, ?_, ?_, ?_, ?_, ?_, ?_⟩ <;> omega

theorem UuidFromBytes_bytes (bs : List Nat) (hb : ∀ b ∈ bs, b < 256) :
    ((UuidFromBytes bs).1.map putUint64).flatten =
      (bs.take 64 ++ List.replicate 64 0).take 64 := by
  have e : (UuidFromBytes bs).1.map putUint64 =
      (List.range 8).map (fun i =>
        ((bs.take 64 ++ List.replicate 64 0).drop (i * 8)).take 8) := by
    simp only [UuidFromBytes, List.map_map]
    refine List.map_congr_left (fun i hi => ?_)
    have hi8 : i < 8 := List.mem_range.mp hi
    refine putUint64_leUint64 _ ?_ (fun b hbm => ?_)
    · simp only [List.length_take, List.length_drop, List.length_append,
        List.length_replicate]
      omega
    · have hm := List.mem_of_mem_drop (List.mem_of_mem_take hbm)
      rcases List.mem_append.mp hm with h1 | h1
      · exact hb b (List.mem_of_mem_take h1)
      · rw [(List.mem_replicate.mp h1).2]
        decide
  rw [e, chunks_flatten]

theorem firstZero_append (l r : List Nat) (i : Nat) (hz : ∀ b ∈ l, b ≠ 0) :
    firstZero (l ++ 0 :: r) i = i + l.length := by
  induction l generalizing i with
  | nil => simp [firstZero]
  | cons x xs ih =>
    have hx : x ≠ 0 := hz x (by simp)
    rw [List.cons_append, firstZero, if_neg hx, ih (i + 1) (fun b hb => hz b (by simp [hb]))]
    simp only [List.length_cons]
    omega

theorem firstZero_none (l : List Nat) (i : Nat) (hz : ∀ b ∈ l, b ≠ 0) : firstZero l i = 0 := by
  induction l generalizing i with
  | nil => rfl
  | cons x xs ih =>
    have hx : x ≠ 0 := hz x (by simp)
    rw [firstZero, if_neg hx, ih (i + 1) (fun b hb => hz b (by simp [hb]))]

/-- The round trip for fewer than 64 bytes, none of them zero. -/
theorem Uuid_String_of_short (bs : List Nat) (hlen : bs.length < 64)
    (hb : ∀ b ∈ bs, b ≠ 0 ∧ b < 256) : Uuid.String (UuidFromBytes bs) = bs := by
  have e : (bs.take 64 ++ List.replicate 64 0).take 64 =
      bs ++ 0 :: List.replicate (63 - bs.length) 0 := by
    rw [List.take_of_length_le (le_of_lt hlen), List.take_append_eq_append_take,
      List.take_of_length_le (le_of_lt hlen), List.take_replicate]
    have h1 : min (64 - bs.length) 64 = (63 - bs.length) + 1 := by omega
    rw [h1, List.replicate_succ]
  unfold Uuid.String
  simp only [UuidFromBytes_bytes bs (fun b h => (hb b h).2), e]
  rw [firstZero_append _ _ _ (fun b h => (hb b h).1), Nat.zero_add, List.take_left']
  rfl

/-- With 64 bytes or more, none of the first 64 zero, `String()` returns the
empty string. -/
theorem Uuid_String_of_full (bs : List Nat) (hlen : 64 ≤ bs.length)
    (hb : ∀ b ∈ bs, b ≠ 0 ∧ b < 256) : Uuid.String (UuidFromBytes bs) = [] := by
  have e : (bs.take 64 ++ List.replicate 64 0).take 64 = bs.take 64 := by
    rw [List.take_append_eq_append_take, List.take_take, List.length_take]
    have h1 : 64 - min 64 bs.length = 0 := by omega
    simp [h1]
  unfold Uuid.String
  simp only [UuidFromBytes_bytes bs (fun b h => (hb b h).2), e]
  rw [firstZero_none _ _ (fun b h => (hb b (List.mem_of_mem_take h)).1)]
  rfl

/-- `UuidFromString` is injective on the byte strings of at most 64 bytes
without a zero byte. -/
theorem UuidFromBytes_injective (bs bt : List Nat) (hs : bs.length ≤ 64) (ht : bt.length ≤ 64)
    (hbs : ∀ b ∈ bs, b ≠ 0 ∧ b < 256) (hbt : ∀ b ∈ bt, b ≠ 0 ∧ b < 256)
    (he : UuidFromBytes bs = UuidFromBytes bt) : bs = bt := by
  have key : ∀ l : List Nat, l.length ≤ 64 → (∀ b ∈ l, b ≠ 0 ∧ b < 256) →
      (((UuidFromBytes l).1.map putUint64).flatten).takeWhile (fun b => decide (b ≠ 0)) = l := by
    intro l hl hz
    rw [UuidFromBytes_bytes l (fun b h => (hz b h).2), List.take_of_length_le hl,
      List.take_append_eq_append_take, List.take_of_length_le hl, List.take_replicate]
    rw [List.takeWhile_append_of_pos (fun b h => by simpa using (hz b h).1)]
    cases hn : min (64 - l.length) 64 with
    | zero => simp
    | succ n => simp [List.replicate_succ]
  rw [← key bs hs hbs, ← key bt ht hbt, he]

theorem utf8Bytes_lt (c : Char) : ∀ b ∈ utf8Bytes c, b < 256 := by
  have hv : c.toNat < 0x110000 := by
    have h := c.valid
    rcases h with h | h
    · exact lt_trans h (by decide)
    · exact h.2
  intro b hb
  unfold utf8Bytes at hb
  simp only at hb
  split_ifs at hb <;> simp at hb <;> omega

theorem stringBytes_lt (s : String) : ∀ b ∈ stringBytes s, b < 256 := by
  intro b hb
  unfold stringBytes at hb
  obtain ⟨l, hl, hbl⟩ := List.mem_flatten.mp hb
  obtain ⟨c, _, rfl⟩ := List.mem_map.mp hl
  exact utf8Bytes_lt c b hbl

/-- The round trip on strings: for a string of fewer than 64 bytes, none of them
zero, `UuidFromString(s).String()` has the bytes of `s`. -/
theorem UuidFromString_String (s : String) (hlen : (stringBytes s).length < 64)
    (hz : ∀ b ∈ stringBytes s, b ≠ 0) :
    Uuid.String (UuidFromString s) = stringBytes s :=
  Uuid_String_of_short _ hlen (fun b hb => ⟨hz b hb, stringBytes_lt s b hb⟩)

/-- **C26.** The string of 64 bytes `'a'` has at most 64 bytes and no zero byte,
and `UuidFromString(s).String()` is the empty string: the loop of `String()`
finds no zero byte in the buffer and leaves `end` at `0`.  For `"dir1"` the
round trip gives the string back, and `UuidFromString("")` is `NilUuid`. -/
theorem Uuid_String_of_64_bytes_is_empty :
    (stringBytes (String.mk (List.replicate 64 'a'))).length = 64 ∧
    (∀ b ∈ stringBytes (String.mk (List.replicate 64 'a')), b ≠ 0) ∧
    Uuid.String (UuidFromString (String.mk (List.replicate 64 'a'))) = [] ∧
    Uuid.String (UuidFromString "dir1") = stringBytes "dir1" ∧
    UuidFromString "" = NilUuid :=
  ⟨by decide, by decide, by decide, by decide, by decide⟩

/-! ## `EnsureFile` on a directory, and events without a name -/

/-- On a directory whose modtime differs from the expected one, `EnsureFile`
removes the directory and then computes the hash of the path it has removed; the
error of that is what it returns, and it does not invoke the reader function. -/
theorem EnsureFile_dir_hash_error {W : Type} (os : Os W) (w : W) (path : String)
    (modTime : Time) (hash : String) (downloadFunc : Except GoError Reader)
    (info : FileInfo) (hstat : Stat os w path = .ok info) (hdir : info.IsDir = true)
    (w1 : W) (hrm : RemovePath os w path = (w1, none)) (hm : info.ModTime ≠ modTime)
    (e : GoError) (hh : CalculateHash os w1 path = .error e) :
    (EnsureFile os w path modTime hash downloadFunc).world = w1 ∧
    (EnsureFile os w path modTime hash downloadFunc).err = some e ∧
    (EnsureFile os w path modTime hash downloadFunc).downloads = 0 := by
  simp [EnsureFile, hstat, hdir, hrm, hm, hh]

/-- **C21.** In the file system in memory, `"d"` is a directory with modtime 1000
and the reader delivers the bytes `1, 2, 3`.  With the expected modtime 2000,
`EnsureFile` removes the directory, `CalculateHash` of the removed path fails,
and `EnsureFile` returns that error without invoking the reader: no file is at
`"d"` afterwards.  With the expected modtime 1000 it removes the directory,
invokes the reader once and leaves the file at `"d"`. -/
theorem EnsureFile_on_directory_returns_hash_error :
    Stat memOs [("d", .dir 1000)] "d" = .ok { IsDir := true, ModTime := 1000 } ∧
    RemovePath memOs [("d", .dir 1000)] "d" = ([], none) ∧
    CalculateHash memOs [] "d" = .error .notExist ∧
    (EnsureFile memOs [("d", .dir 1000)] "d" 2000 "x"
        (.ok { data := [1, 2, 3], err := none })).err = some .notExist ∧
    (EnsureFile memOs [("d", .dir 1000)] "d" 2000 "x"
        (.ok { data := [1, 2, 3], err := none })).downloads = 0 ∧
    (EnsureFile memOs [("d", .dir 1000)] "d" 2000 "x"
        (.ok { data := [1, 2, 3], err := none })).world = [] ∧
    (EnsureFile memOs [("d", .dir 1000)] "d" 1000 "x"
        (.ok { data := [1, 2, 3], err := none })).err = none ∧
    (EnsureFile memOs [("d", .dir 1000)] "d" 1000 "x"
        (.ok { data := [1, 2, 3], err := none })).downloads = 1 ∧
    (EnsureFile memOs [("d", .dir 1000)] "d" 1000 "x"
        (.ok { data := [1, 2, 3], err := none })).world.lookup "d" =
      some (.file [1, 2, 3] 1000) :=
  ⟨rfl, by decide, rfl, by decide, by decide, by decide, by decide, by decide, by decide⟩

theorem ofOption_ne_panics {α : Type} (o : Option α) : Handled.ofOption o ≠ .panics := by
  cases o <;> exact fun h => by cases h

theorem assertString_none (x : Option Any) :
    assertString x = none ↔ ∀ v, x ≠ some (.string v) := by
  cases x with
  | none => simp [assertString]
  | some a => cases a <;> simp [assertString]

/-- **C22.** The handling of a file-new or of a file-move event panics exactly
when the metadata have no string under `"name"` (the key is missing, or its value
is not a string); the handling of a file-rename event panics exactly when the
uuid is in `osDb` and the metadata have no string under `"name"`.  The loop of
the handler ends with that panic: the events that follow are not handled. -/
theorem event_without_name_panics {W : Type} (m : FilenMirror) (os : Os W)
    (s : MirrorState W) (e : FileEvent) (r : filedb.EventSocketFileRename)
    (rest : List EventData) :
    (handleEvent m os s (.EventSocketFileNew e) = .panics ↔
      ∀ v, e.Meta.lookup "name" ≠ some (.string v)) ∧
    (handleEvent m os s (.EventSocketFileMove e) = .panics ↔
      ∀ v, e.Meta.lookup "name" ≠ some (.string v)) ∧
    (handleEvent m os s (.EventSocketFileRename r) = .panics ↔
      (GetNode s.heap s.osDb (UuidFromString r.UUID)).isSome = true ∧
        ∀ v, r.Meta.lookup "name" ≠ some (.string v)) ∧
    runFilenEventHandler m os s
      (.EventSocketFileNew { Parent := e.Parent, UUID := e.UUID, Meta := [] } :: rest) =
      .panics ∧
    runFilenEventHandler m os s
      (.EventSocketFileMove
        { Parent := e.Parent, UUID := e.UUID, Meta := [("name", .float64 1)] } :: rest) =
      .panics ∧
    runFilenEventHandler testMirror memOs testState
      [.EventSocketFileRename { UUID := "file1", Meta := [("lastModified", .string "5")] },
       .EventSocketFileTrash { UUID := "file1" }] = .panics := by
  refine ⟨?_, ?_, ?_, rfl, rfl, rfl⟩
  · rw [← assertString_none]
    simp only [handleEvent]
    cases assertString (e.Meta.lookup "name") with
    | none => simp
    | some name => simp [ofOption_ne_panics]
  · rw [← assertString_none]
    simp only [handleEvent]
    cases assertString (e.Meta.lookup "name") with
    | none => simp
    | some name => simp [ofOption_ne_panics]
  · rw [← assertString_none]
    simp only [handleEvent]
    cases GetNode s.heap s.osDb (UuidFromString r.UUID) with
    | none => simp
    | some node =>
      cases assertString (r.Meta.lookup "name") with
      | none => simp
      | some name => simp [ofOption_ne_panics]

/-! ## `Remove` and the child list of a former parent -/

theorem run_reachable {cs : List BuildCall} {h : Heap} {ft : FileTree} (hr : Reachable h ft)
    {h1 : Heap} {ft1 : FileTree}
    (he : cs.foldlM (fun (s : Heap × FileTree) c => c.run s.1 s.2) (h, ft) = some (h1, ft1)) :
    Reachable h1 ft1 := by
  induction cs generalizing h ft with
  | nil =>
    simp only [List.foldlM_nil] at he
    cases he
    exact hr
  | cons c cs ih =>
    rw [List.foldlM_cons] at he
    cases hc : c.run h ft with
    | none =>
      rw [hc] at he
      cases he
    | some r =>
      obtain ⟨h2, ft2⟩ := r
      rw [hc] at he
      refine ih ?_ he
      cases c with
      | CreateDir u p name => exact Reachable.createDir u p name hr hc
      | CreateFile u p name mt hs => exact Reachable.createFile u p name mt hs hr hc

theorem buildTree_reachable {calls : List BuildCall} {h1 : Heap} {ft1 : FileTree}
    (he : buildTree emptyHeap calls = some (h1, ft1)) : Reachable h1 ft1 :=
  run_reachable Reachable.empty he

/-- **C25.** The tree is built by `CreateDir(uA, NilUuid, "d")`,
`CreateFile(uB, uA, "f")` and `CreateFile(uB, NilUuid, "f")`: the file `uB` is at
the root, it is not `uA` and does not have `uA` among its ancestors, and
`Remove(uA)` leaves it not found.  The same holds when `uB` is removed and
created again at the root before `Remove(uA)`. -/
theorem Remove_takes_former_child :
    buildTree emptyHeap reparentCalls = some reparentTree ∧
    Reachable reparentTree.1 reparentTree.2 ∧
    GetNode reparentTree.1 reparentTree.2 uB =
      some { Uuid := uB, Name := "f", Hash := zeroHash, Modtime := 0, IsDir := false,
             Parent := NilUuid } ∧
    ¬ HasAncestor reparentTree.1 reparentTree.2 uB uA ∧
    GetNode reparentTree.1 (Remove reparentTree.1 reparentTree.2 uA) uB = none ∧
    GetNode recreatedTree.1 recreatedTree.2 uB =
      some { Uuid := uB, Name := "f", Hash := zeroHash, Modtime := 0, IsDir := false,
             Parent := NilUuid } ∧
    GetNode recreatedTree.1 (Remove recreatedTree.1 recreatedTree.2 uA) uB = none := by
  have hb : buildTree emptyHeap reparentCalls = some reparentTree :=
    eq_some_getD _ (by decide)
  refine ⟨hb, buildTree_reachable hb, by decide, ?_, by decide, by decide, by decide⟩
  intro ha
  obtain ⟨p, ⟨n, hn, hp, hne⟩, _⟩ := Relation.TransGen.head'_iff.mp ha
  have hg : GetNode reparentTree.1 reparentTree.2 uB =
      some { Uuid := uB, Name := "f", Hash := zeroHash, Modtime := 0, IsDir := false,
             Parent := NilUuid } := by decide
  rw [hg] at hn
  rw [← Option.some.inj hn] at hp
  exact hne hp.symm

/-! ## Trees without a cycle -/

theorem ChildAcyclic_sub {h h1 : Heap}
    (hs : ∀ b c, c ∈ (h1.cells b).Children → c ∈ (h.cells b).Children)
    (hc : ChildAcyclic h) : ChildAcyclic h1 :=
  fun a ht => hc a (Relation.TransGen.mono (fun x y hxy => hs x y hxy) ht)

theorem Reach_sub {h h1 : Heap}
    (hs : ∀ b c, c ∈ (h1.cells b).Children → c ∈ (h.cells b).Children) {a b : Addr}
    (hr : Reach h1 a b) : Reach h a b :=
  Relation.ReflTransGen.mono (fun x y hxy => hs x y hxy) hr

/-- A child list gets one more entry, `a` in the list of `q`, and `q` is not
reached from `a`: no cycle arises. -/
theorem ChildAcyclic_add {h h1 : Heap} {q a : Addr}
    (hs : ∀ b c, c ∈ (h1.cells b).Children → c ∈ (h.cells b).Children ∨ (b = q ∧ c = a))
    (hc : ChildAcyclic h) (hn : ¬ Reach h a q) : ChildAcyclic h1 := by
  have key : ∀ x y, Relation.TransGen (ChildRel h1) x y →
      Relation.TransGen (ChildRel h) x y ∨ (Reach h x q ∧ Reach h a y) := by
    intro x y hxy
    induction hxy with
    | single hxy =>
      rcases hs _ _ hxy with e | ⟨rfl, rfl⟩
      · exact Or.inl (Relation.TransGen.single e)
      · exact Or.inr ⟨Relation.ReflTransGen.refl, Relation.ReflTransGen.refl⟩
    | tail _ hzy ih =>
      rcases hs _ _ hzy with e | ⟨rfl, rfl⟩
      · rcases ih with i | ⟨i1, i2⟩
        · exact Or.inl (Relation.TransGen.tail i e)
        · exact Or.inr ⟨i1, Relation.ReflTransGen.tail i2 e⟩
      · rcases ih with i | ⟨i1, _⟩
        · exact Or.inr ⟨Relation.TransGen.to_reflTransGen i, Relation.ReflTransGen.refl⟩
        · exact Or.inr ⟨i1, Relation.ReflTransGen.refl⟩
  intro x hx
  rcases key x x hx with e | ⟨e1, e2⟩
  · exact hc x e
  · exact hn (e2.trans e1)

theorem chain_reaches {R : Addr → Addr → Prop} {a : Addr} {l : List Addr}
    (hc : List.Chain R a l) : ∀ y ∈ l, Relation.TransGen R a y := by
  induction l generalizing a with
  | nil => intro y hy; cases hy
  | cons x xs ih =>
    obtain ⟨hax, hxs⟩ := List.chain_cons.mp hc
    intro y hy
    rcases List.mem_cons.mp hy with rfl | hy
    · exact Relation.TransGen.single hax
    · exact Relation.TransGen.head hax (ih hxs y hy)

theorem chain_cycle {R : Addr → Addr → Prop} {a : Addr} {l : List Addr}
    (hc : List.Chain R a l) (hd : ¬ l.Nodup) : ∃ x, Relation.TransGen R x x := by
  induction l generalizing a with
  | nil => exact absurd List.nodup_nil hd
  | cons x xs ih =>
    obtain ⟨_, hxs⟩ := List.chain_cons.mp hc
    by_cases hx : x ∈ xs
    · exact ⟨x, chain_reaches hxs x hx⟩
    · exact ih hxs (fun hn => hd (List.nodup_cons.mpr ⟨hx, hn⟩))

theorem childDepth_false_chain {h : Heap} (f : Nat) (a : Addr)
    (hd : childDepth f h a = false) :
    ∃ l : List Addr, l.length = f ∧ List.Chain (ChildRel h) a l := by
  induction f generalizing a with
  | zero => exact ⟨[], rfl, List.Chain.nil⟩
  | succ n ih =>
    have hne : ¬ ∀ c ∈ (h.cells a).Children, childDepth n h c = true := by
      intro hall
      have : childDepth (n + 1) h a = true := by
        simp only [childDepth, List.all_eq_true]
        exact hall
      rw [this] at hd
      cases hd
    push_neg at hne
    obtain ⟨c, hc, hcf⟩ := hne
    have hcf2 : childDepth n h c = false := by simpa using hcf
    obtain ⟨l, hl, hch⟩ := ih c hcf2
    exact ⟨c :: l, by simp [hl], List.Chain.cons hc hch⟩

theorem chain_bound {h : Heap} (hb : ∀ a c, c ∈ (h.cells a).Children → c < h.next)
    {a : Addr} {l : List Addr} (hc : List.Chain (ChildRel h) a l) : ∀ x ∈ l, x < h.next := by
  induction l generalizing a with
  | nil => intro x hx; cases hx
  | cons y ys ih =>
    obtain ⟨hay, hys⟩ := List.chain_cons.mp hc
    intro x hx
    rcases List.mem_cons.mp hx with rfl | hx
    · exact hb a _ hay
    · exact ih hys x hx

/-- Without a cycle in the child lists, `invalidatePathCache` stays within the
budget of the heap on every node. -/
theorem ChildrenEnd_of_acyclic {h : Heap}
    (hb : ∀ a c, c ∈ (h.cells a).Children → c < h.next) (hc : ChildAcyclic h) (a : Addr) :
    ChildrenEnd h a := by
  unfold ChildrenEnd
  cases hd : childDepth (h.next + 1) h a with
  | true => rfl
  | false =>
    exfalso
    obtain ⟨l, hl, hch⟩ := childDepth_false_chain _ a hd
    have hlt := chain_bound hb hch
    have hnd : ¬ l.Nodup := by
      intro hn
      have hsub : l.toFinset ⊆ Finset.range h.next := by
        intro x hx
        exact Finset.mem_range.mpr (hlt x (List.mem_toFinset.mp hx))
      have hcard := Finset.card_le_card hsub
      rw [List.toFinset_card_of_nodup hn, Finset.card_range, hl] at hcard
      omega
    obtain ⟨x, hx⟩ := chain_cycle hch hnd
    exact hc x hx

theorem newNode_children_sub (h : Heap) (u : Uuid) (b c : Addr)
    (hc : c ∈ ((newNode h u).cells b).Children) : c ∈ (h.cells b).Children := by
  by_cases hb : b = h.next
  · rw [hb, newNode_cells_next] at hc
    simp [zeroNode] at hc
  · rw [newNode_cells_ne h u hb] at hc
    exact hc

theorem ensureItem_none_children_sub {h : Heap} {ft : FileTree} {item : FileTreeNode}
    {h1 : Heap} {ft1 : FileTree} (he : ensureItem h ft item none = some (h1, ft1))
    (b c : Addr) (hc : c ∈ (h1.cells b).Children) : c ∈ (h.cells b).Children := by
  rcases ensureItem_cases he with ⟨_, rfl, rfl⟩ | ⟨a, hx, _, hinv, rfl, rfl⟩
  · rw [fillNode_children] at hc
    simp only [reduceCtorEq, if_false] at hc
    exact newNode_children_sub h _ b c hc
  · obtain ⟨hcl, _⟩ := invalidate_spec hinv
    rw [fillNode_children, SameNodes_children hcl.1] at hc
    simpa using hc

theorem ensureParent_children_sub {h : Heap} {ft : FileTree} {np : Uuid} {h3 : Heap}
    {ft3 : FileTree} {parent : Option Addr}
    (hep : ensureParent h ft np = some (h3, ft3, parent))
    (b c : Addr) (hc : c ∈ (h3.cells b).Children) : c ∈ (h.cells b).Children := by
  rcases ensureParent_cases hep with ⟨_, rfl, _, _⟩ | ⟨_, _, _, _, rfl, _, _⟩ | ⟨_, hei, _, _⟩
  · exact hc
  · exact hc
  · exact ensureItem_none_children_sub hei b c hc

/-- The address `ensureParent` returns: the one of the parent in the tree, or the
next free one. -/
theorem ensureParent_addr {h : Heap} {ft : FileTree} {np : Uuid} {h3 : Heap}
    {ft3 : FileTree} {q : Addr} (hep : ensureParent h ft np = some (h3, ft3, some q)) :
    np ≠ NilUuid ∧
      (ft.nodes.lookup np = some q ∨ (ft.nodes.lookup np = none ∧ q = h.next)) := by
  rcases ensureParent_cases hep with ⟨_, _, _, hp⟩ | ⟨hn, q2, hl, _, _, _, hp⟩ |
    ⟨hn, hei, hp, _⟩
  · cases hp
  · cases hp
    exact ⟨hn, Or.inl hl⟩
  · refine ⟨hn, ?_⟩
    rcases ensureItem_cases hei with ⟨hl, _, rfl⟩ | ⟨a, hx, hl, _, _, rfl⟩
    · have hl2 : ft.nodes.lookup np = none := hl
      have e : ({ nodes := ft.nodes.insert (placeholderItem np).Uuid h.next } :
          FileTree).nodes.lookup np = some h.next := AList.lookup_insert _
      rw [e] at hp
      exact Or.inr ⟨hl2, Option.some.inj hp⟩
    · have hl2 : ft.nodes.lookup np = some a := hl
      have e : ({ nodes := ft.nodes.insert (placeholderItem np).Uuid a } :
          FileTree).nodes.lookup np = some a := AList.lookup_insert _
      rw [e] at hp
      rw [Option.some.inj hp]
      exact Or.inl hl2

theorem Reach_bound {h : Heap} (hb : ∀ a c, c ∈ (h.cells a).Children → c < h.next)
    {a q : Addr} (hr : Reach h a q) : q = a ∨ q < h.next := by
  rcases Relation.ReflTransGen.cases_tail hr with e | ⟨z, _, hz⟩
  · exact Or.inl e
  · exact Or.inr (hb z q hz)

/-- The parent an allowed call attaches the node at `a` to is not reached from
`a`. -/
theorem allowed_not_reach {h : Heap} {ft : FileTree} (hi : Inv h ft) {u np : Uuid}
    (hg : ParentAllowed h ft u np) {a q : Addr} (hl : ft.nodes.lookup u = some a)
    (hn : np ≠ NilUuid)
    (hq : ft.nodes.lookup np = some q ∨ (ft.nodes.lookup np = none ∧ q = h.next)) :
    ¬ Reach h a q := by
  rcases hg with e | ⟨_, hall⟩
  · exact absurd e hn
  · rcases hq with hq | ⟨_, rfl⟩
    · exact hall a q hl hq
    · intro hr
      have ha := hi.bound a ⟨u, hl⟩
      rcases Reach_bound hi.childBound hr with e | e
      · rw [e] at ha
        exact lt_irrefl _ ha
      · exact lt_irrefl _ e

/-- An allowed upsert leaves the child lists without a cycle. -/
theorem upsert_acyclic {h : Heap} {ft : FileTree} (hi : Inv h ft) (hc : ChildAcyclic h)
    (item : FileTreeNode) (hg : ParentAllowed h ft item.Uuid item.Parent) {h1 : Heap}
    {ft1 : FileTree} (he : EnsureItems h ft [item] = some (h1, ft1)) : ChildAcyclic h1 := by
  obtain ⟨h3, ft3, parent, hep, hei⟩ := EnsureItems_single_cases he
  have hsub3 := ensureParent_children_sub hep
  have hc3 := ChildAcyclic_sub hsub3 hc
  obtain ⟨hi3, hpo⟩ := ensureParent_inv hi hep
  rcases ensureItem_cases hei with ⟨hl, rfl, rfl⟩ | ⟨a, hx, hl, hinv, rfl, rfl⟩
  · have hcn : ChildAcyclic (newNode h3 item.Uuid) :=
      ChildAcyclic_sub (newNode_children_sub h3 item.Uuid) hc3
    cases parent with
    | none =>
      refine ChildAcyclic_sub (fun b c hbc => ?_) hcn
      rw [fillNode_children] at hbc
      simpa using hbc
    | some q =>
      refine @ChildAcyclic_add _ _ q h3.next (fun b c hbc => ?_) hcn (fun hr => ?_)
      · rw [fillNode_children] at hbc
        split_ifs at hbc with e
        · rcases List.mem_append.mp hbc with hm | hm
          · exact Or.inl hm
          · exact Or.inr ⟨(Option.some.inj e).symm, List.mem_singleton.mp hm⟩
        · exact Or.inl hbc
      · have hq : q < h3.next := hi3.bound q (hpo q rfl).1
        rcases Relation.ReflTransGen.cases_head hr with e | ⟨z, hz, _⟩
        · rw [← e] at hq
          exact lt_irrefl _ hq
        · have hz2 : z ∈ ((newNode h3 item.Uuid).cells h3.next).Children := hz
          rw [newNode_cells_next] at hz2
          simp [zeroNode] at hz2
  · obtain ⟨hcl, _⟩ := invalidate_spec hinv
    have hcx : ChildAcyclic hx :=
      ChildAcyclic_sub (fun b c hbc => by rw [SameNodes_children hcl.1] at hbc; exact hbc) hc3
    cases parent with
    | none =>
      refine ChildAcyclic_sub (fun b c hbc => ?_) hcx
      rw [fillNode_children] at hbc
      simpa using hbc
    | some q =>
      refine @ChildAcyclic_add _ _ q a (fun b c hbc => ?_) hcx (fun hr => ?_)
      · rw [fillNode_children] at hbc
        split_ifs at hbc with e
        · rcases List.mem_append.mp hbc with hm | hm
          · exact Or.inl hm
          · exact Or.inr ⟨(Option.some.inj e).symm, List.mem_singleton.mp hm⟩
        · exact Or.inl hbc
      · obtain ⟨hn, hq⟩ := ensureParent_addr hep
        have hne : item.Uuid ≠ item.Parent := by
          rcases hg with e | ⟨e, _⟩
          · exact absurd e hn
          · exact fun e2 => e e2.symm
        have hl0 : ft.nodes.lookup item.Uuid = some a := by
          rw [← (ensureParent_effect hep).2.2 item.Uuid hne]
          exact hl
        have hr3 : Reach h3 a q :=
          Reach_sub (fun b c hbc => by rw [SameNodes_children hcl.1] at hbc; exact hbc) hr
        exact allowed_not_reach hi hg hl0 hn hq (Reach_sub hsub3 hr3)

/-- An allowed `Move` leaves the child lists without a cycle. -/
theorem Move_acyclic {h : Heap} {ft : FileTree} (hi : Inv h ft) (hc : ChildAcyclic h)
    (u np : Uuid) (name : FileName) (hg : ParentAllowed h ft u np) {h1 : Heap}
    {ft1 : FileTree} (he : Move h ft u np name = some (h1, ft1)) : ChildAcyclic h1 := by
  cases hl : ft.nodes.lookup u with
  | none =>
    simp only [Move, hl, Option.some.injEq, Prod.mk.injEq] at he
    rw [← he.1]
    exact hc
  | some a =>
    obtain ⟨hx, h3, ft3, parent, hinv, hep, rfl, rfl⟩ := Move_cases hl he
    obtain ⟨hcl, _⟩ := invalidate_spec hinv
    have hsubd : ∀ b c, c ∈ ((detachNode hx a u).cells b).Children →
        c ∈ (h.cells b).Children := by
      intro b c hbc
      rw [detachNode_children] at hbc
      rw [← SameNodes_children hcl.1]
      split_ifs at hbc
      · exact removeChild_subset _ _ _ _ hbc
      · exact hbc
    have hsub3 : ∀ b c, c ∈ (h3.cells b).Children → c ∈ (h.cells b).Children :=
      fun b c hbc => hsubd b c (ensureParent_children_sub hep b c hbc)
    have hc3 := ChildAcyclic_sub hsub3 hc
    cases parent with
    | none =>
      refine ChildAcyclic_sub (fun b c hbc => ?_) hc3
      rw [attachNode_children] at hbc
      simpa using hbc
    | some q =>
      refine @ChildAcyclic_add _ _ q a (fun b c hbc => ?_) hc3 (fun hr => ?_)
      · rw [attachNode_children] at hbc
        split_ifs at hbc with e
        · rcases List.mem_append.mp hbc with hm | hm
          · exact Or.inl hm
          · exact Or.inr ⟨(Option.some.inj e).symm, List.mem_singleton.mp hm⟩
        · exact Or.inl hbc
      · obtain ⟨hn, hq⟩ := ensureParent_addr hep
        rw [detachNode_next, hcl.1.1] at hq
        exact allowed_not_reach hi hg hl hn hq (Reach_sub hsub3 hr)

theorem EnsureItems_cons {h : Heap} {ft : FileTree} {item : FileTreeNode}
    {rest : List FileTreeNode} {h1 : Heap} {ft1 : FileTree}
    (he : EnsureItems h ft (item :: rest) = some (h1, ft1)) :
    ∃ h2 ft2, EnsureItems h ft [item] = some (h2, ft2) ∧
      EnsureItems h2 ft2 rest = some (h1, ft1) := by
  unfold EnsureItems at he ⊢
  simp only [List.foldlM_cons, Option.bind_eq_bind, Option.bind_eq_some] at he
  obtain ⟨⟨h2, ft2⟩, hstep, hrest⟩ := he
  refine ⟨h2, ft2, ?_, hrest⟩
  simp only [List.foldlM_cons, List.foldlM_nil, Option.bind_eq_bind, hstep]
  rfl

/-- A list of allowed upserts leaves the child lists without a cycle. -/
theorem EnsureItems_acyclic {h : Heap} {ft : FileTree} (hi : Inv h ft) (hc : ChildAcyclic h)
    (items : List FileTreeNode) (hg : ItemsAllowed h ft items) {h1 : Heap} {ft1 : FileTree}
    (he : EnsureItems h ft items = some (h1, ft1)) : ChildAcyclic h1 := by
  induction items generalizing h ft with
  | nil =>
    simp only [EnsureItems, List.foldlM_nil, Option.pure_def, Option.some.injEq,
      Prod.mk.injEq] at he
    rw [← he.1]
    exact hc
  | cons item rest ih =>
    obtain ⟨h2, ft2, h1e, h2e⟩ := EnsureItems_cons he
    exact ih (EnsureItems_inv hi [item] h1e) (upsert_acyclic hi hc item hg.1 h1e)
      (hg.2 h2 ft2 h1e) h2e

theorem ReachableAllowed_reachable {h : Heap} {ft : FileTree} (hr : ReachableAllowed h ft) :
    Reachable h ft := by
  induction hr with
  | empty => exact Reachable.empty
  | ensureItems items _ _ he ih => exact Reachable.ensureItems items ih he
  | createFile u p name mt hs _ _ he ih => exact Reachable.createFile u p name mt hs ih he
  | createDir u p name _ _ he ih => exact Reachable.createDir u p name ih he
  | move u p name _ _ he ih => exact Reachable.move u p name ih he
  | remove u _ ih => exact Reachable.remove u ih

theorem ReachableAllowed_acyclic {h : Heap} {ft : FileTree} (hr : ReachableAllowed h ft) :
    ChildAcyclic h := by
  induction hr with
  | empty =>
    intro a ht
    obtain ⟨b, hb, _⟩ := Relation.TransGen.head'_iff.mp ht
    have hb2 : b ∈ (emptyHeap.cells a).Children := hb
    simp [emptyHeap, zeroNode] at hb2
  | ensureItems items hr0 hg he ih =>
    exact EnsureItems_acyclic (Reachable_inv (ReachableAllowed_reachable hr0)) ih items hg he
  | createFile u p name mt hs hr0 hg he ih =>
    exact upsert_acyclic (Reachable_inv (ReachableAllowed_reachable hr0)) ih _ hg he
  | createDir u p name hr0 hg he ih =>
    exact upsert_acyclic (Reachable_inv (ReachableAllowed_reachable hr0)) ih _ hg he
  | move u p name hr0 hg he ih =>
    exact Move_acyclic (Reachable_inv (ReachableAllowed_reachable hr0)) ih u p name hg he
  | remove u _ ih => exact ih


/-- An ancestor lists the node below it, through child lists. -/
theorem child_chain_of_HasAncestor {h : Heap} {ft : FileTree} (hi : Inv h ft) {v w : Uuid}
    (ha : HasAncestor h ft v w) :
    ∃ b p, ft.nodes.lookup v = some b ∧ ft.nodes.lookup w = some p ∧
      Relation.TransGen (ChildRel h) p b := by
  induction ha with
  | single hp =>
    obtain ⟨b, p, hb, hpar, hp2⟩ := parent_of_ParentUuid hi hp
    exact ⟨b, p, hb, hp2,
      Relation.TransGen.single (hi.childListed b ⟨_, hb⟩ (by simp) p hpar)⟩
  | tail _ hp ih =>
    obtain ⟨b, p, hb, hp1, ht⟩ := ih
    obtain ⟨b2, p2, hb2, hpar, hp2⟩ := parent_of_ParentUuid hi hp
    rw [hp1] at hb2
    cases hb2
    exact ⟨b, p2, hb, hp2,
      Relation.TransGen.head (hi.childListed p ⟨_, hp1⟩ (by simp) p2 hpar) ht⟩

theorem no_own_ancestor_of_acyclic {h : Heap} {ft : FileTree} (hi : Inv h ft)
    (hc : ChildAcyclic h) (u : Uuid) : ¬ HasAncestor h ft u u := by
  intro ha
  obtain ⟨b, p, hb, hp, ht⟩ := child_chain_of_HasAncestor hi ha
  rw [hb] at hp
  cases hp
  exact hc b ht

theorem GetPath_returns_of_acyclic {h : Heap} {ft : FileTree} (hi : Inv h ft)
    (hac : ∀ u, ¬ HasAncestor h ft u u) {u : Uuid} {a : Addr}
    (hl : ft.nodes.lookup u = some a) :
    ∃ h1 p, GetPath h ft u = some (h1, some p) := by
  by_cases hc : (h.cells a).path = ""
  · obtain ⟨parts, hparts⟩ := getPathParts_returns hi hac ⟨u, hl⟩
    have e : GetPath h ft u =
        some (h.set a { h.cells a with path := "/".intercalate parts },
          some ("/".intercalate parts)) := by
      simp only [GetPath, hl, nodeGetPath, hc, if_true, hparts]
    exact ⟨_, _, e⟩
  · have e : GetPath h ft u = some (h, some (h.cells a).path) := by
      simp only [GetPath, hl, nodeGetPath, hc, if_false]
    exact ⟨_, _, e⟩

theorem invalidateReturns_of_acyclic {h : Heap} {ft : FileTree} (hi : Inv h ft)
    (hc : ChildAcyclic h) (u : Uuid) : invalidateReturns h ft u = true := by
  unfold invalidateReturns
  cases ft.nodes.lookup u with
  | none => rfl
  | some a => exact (invalidate_isSome h a).mpr (ChildrenEnd_of_acyclic hi.childBound hc a)

theorem Move_returns_of_acyclic {h : Heap} {ft : FileTree} (hi : Inv h ft)
    (hc : ChildAcyclic h) (u np : Uuid) (name : FileName) :
    ∃ h1 ft1, Move h ft u np name = some (h1, ft1) := by
  cases hl : ft.nodes.lookup u with
  | none => exact ⟨h, ft, by simp only [Move, hl]⟩
  | some a =>
    exact Move_returns name hl (invalidateReturns_of_acyclic hi hc u)
      (fun _ q _ _ => (invalidate_isSome h q).mpr (ChildrenEnd_of_acyclic hi.childBound hc q))

theorem upsert_returns_of_acyclic {h : Heap} {ft : FileTree} (hi : Inv h ft)
    (hc : ChildAcyclic h) (item : FileTreeNode) :
    ∃ h1 ft1, EnsureItems h ft [item] = some (h1, ft1) := by
  obtain ⟨⟨h3, ft3, parent⟩, hep⟩ := @ensureParent_returns h ft item.Parent
    (fun _ q _ _ => (invalidate_isSome h q).mpr (ChildrenEnd_of_acyclic hi.childBound hc q))
  have hc3 := ChildAcyclic_sub (ensureParent_children_sub hep) hc
  obtain ⟨hi3, _⟩ := ensureParent_inv hi hep
  obtain ⟨⟨h1, ft1⟩, hei⟩ := @ensureItem_returns h3 ft3 item parent
    (fun q _ => (invalidate_isSome h3 q).mpr (ChildrenEnd_of_acyclic hi3.childBound hc3 q))
  exact ⟨h1, ft1, by rw [EnsureItems_single h ft item hep, hei]⟩

theorem EnsureItems_cons_eq {h : Heap} {ft : FileTree} {item : FileTreeNode}
    (rest : List FileTreeNode) {h2 : Heap} {ft2 : FileTree}
    (he : EnsureItems h ft [item] = some (h2, ft2)) :
    EnsureItems h ft (item :: rest) = EnsureItems h2 ft2 rest := by
  unfold EnsureItems at he ⊢
  simp only [List.foldlM_cons, List.foldlM_nil, Option.bind_eq_bind, Option.bind_eq_some] at he
  obtain ⟨⟨h3, ft3⟩, hstep, hp⟩ := he
  cases hp
  simp only [List.foldlM_cons, Option.bind_eq_bind, hstep, Option.some_bind]

/-- A list of allowed upserts on a tree without a cycle returns. -/
theorem EnsureItems_returns_of_acyclic {h : Heap} {ft : FileTree} (hi : Inv h ft)
    (hc : ChildAcyclic h) (items : List FileTreeNode) (hg : ItemsAllowed h ft items) :
    ∃ h1 ft1, EnsureItems h ft items = some (h1, ft1) := by
  induction items generalizing h ft with
  | nil => exact ⟨h, ft, rfl⟩
  | cons item rest ih =>
    obtain ⟨h2, ft2, h1e⟩ := upsert_returns_of_acyclic hi hc item
    rw [EnsureItems_cons_eq rest h1e]
    exact ih (EnsureItems_inv hi [item] h1e) (upsert_acyclic hi hc item hg.1 h1e)
      (hg.2 h2 ft2 h1e)

/-- A call with a new uuid that names `NilUuid` or a node of the tree as parent is
allowed. -/
theorem ParentAllowed_new {h : Heap} {ft : FileTree} {u p : Uuid}
    (hu : ft.nodes.lookup u = none)
    (hp : p = NilUuid ∨ (ft.nodes.lookup p).isSome = true) : ParentAllowed h ft u p := by
  rcases hp with e | e
  · exact Or.inl e
  · refine Or.inr ⟨fun e2 => ?_, fun a q ha => ?_⟩
    · rw [e2, hu] at e
      cases e
    · rw [hu] at ha
      cases ha

theorem GetNode_isSome_lookup {h : Heap} {ft : FileTree} {w : Uuid}
    (hg : (GetNode h ft w).isSome = true) : (ft.nodes.lookup w).isSome = true := by
  cases hl : ft.nodes.lookup w with
  | none => simp [GetNode, hl] at hg
  | some a => rfl

/-- Calls in parents-first order are allowed calls. -/
theorem buildFrom_allowed {hb : Heap} (cs : List BuildCall) (pre : List BuildCall) (h : Heap)
    (ft : FileTree) (b : Built hb (reportOf pre) h ft) (hra : ReachableAllowed h ft)
    (hpf : parentsFirstFrom pre cs = true) {h1 : Heap} {ft1 : FileTree}
    (he : cs.foldlM (fun (s : Heap × FileTree) c => c.run s.1 s.2) (h, ft) = some (h1, ft1)) :
    ReachableAllowed h1 ft1 := by
  induction cs generalizing pre h ft with
  | nil =>
    simp only [List.foldlM_nil] at he
    cases he
    exact hra
  | cons c cs ih =>
    simp only [parentsFirstFrom, Bool.and_eq_true, decide_eq_true_eq] at hpf
    obtain ⟨⟨hnew, hpar⟩, hrest⟩ := hpf
    have hnew1 : reportOf pre c.uuid = none := by
      cases hs : reportOf pre c.uuid with
      | none => rfl
      | some n =>
        obtain ⟨d, hd, e⟩ := (reportOf_isSome pre c.uuid).mp (by rw [hs]; rfl)
        exact absurd e (hnew d hd)
    have hpar1 : c.parentUuid = NilUuid ∨ (reportOf pre c.parentUuid).isSome = true :=
      hpar.imp id (fun e => (reportOf_isSome pre c.parentUuid).mpr e)
    obtain ⟨h2, ft2, hrun, b1⟩ := Built_step b c hnew1 hpar1
    rw [← reportOf_append] at b1
    rw [List.foldlM_cons, hrun] at he
    have hal : ParentAllowed h ft c.uuid c.parentUuid :=
      ParentAllowed_new (GetNode_none_lookup (by rw [b.nodes]; exact hnew1))
        (hpar1.imp id (fun e => GetNode_isSome_lookup (by rw [b.nodes]; exact e)))
    refine ih (pre ++ [c]) h2 ft2 b1 ?_ hrest he
    cases c with
    | CreateDir u p name => exact ReachableAllowed.createDir u p name hra hal hrun
    | CreateFile u p name mt hs => exact ReachableAllowed.createFile u p name mt hs hra hal hrun

theorem buildTree_allowed {calls : List BuildCall} (hpf : parentsFirstFrom [] calls = true)
    {h1 : Heap} {ft1 : FileTree} (he : buildTree emptyHeap calls = some (h1, ft1)) :
    ReachableAllowed h1 ft1 :=
  buildFrom_allowed calls [] emptyHeap NewFileTree (Built_nil Inv_empty) ReachableAllowed.empty
    hpf he

theorem movedFileTree_allowed : ReachableAllowed movedFileTree.1 movedFileTree.2 := by
  have hb : buildTree emptyHeap testCalls = some builtTestTree := eq_some_getD _ (by decide)
  have hm : Move builtTestTree.1 builtTestTree.2 uFile1 uDir1 "x" = some movedFileTree :=
    eq_some_getD _ (by decide)
  have hra : ReachableAllowed builtTestTree.1 builtTestTree.2 :=
    buildTree_allowed (by decide) hb
  refine ReachableAllowed.move uFile1 uDir1 "x" hra (Or.inr ⟨by decide, ?_⟩) hm
  intro a q ha hq hr
  have ea : builtTestTree.2.nodes.lookup uFile1 = some 2 := by decide
  have eq : builtTestTree.2.nodes.lookup uDir1 = some 0 := by decide
  rw [ea] at ha
  rw [eq] at hq
  cases ha
  cases hq
  rcases Relation.ReflTransGen.cases_head hr with e | ⟨c, hc, _⟩
  · cases e
  · have hc2 : c ∈ (builtTestTree.1.cells 2).Children := hc
    have e0 : (builtTestTree.1.cells 2).Children = [] := by decide
    rw [e0] at hc2
    cases hc2

/-- **C24**, amended.  In every tree reached from the empty tree by `EnsureItems`,
`CreateFile`, `CreateDir`, `Move` and `Remove` calls that give no node a parent
that is the node itself or is reached from the node through child lists, no node
object is reached from itself through child lists and no node is its own
ancestor; `GetPath` returns a path and `invalidatePathCache` returns on every
node; and every `Move` and every list of such `EnsureItems` upserts returns. -/
theorem allowed_tree_is_acyclic (h : Heap) (ft : FileTree) (hr : ReachableAllowed h ft) :
    ChildAcyclic h ∧
    (∀ u, ¬ HasAncestor h ft u u) ∧
    (∀ u n, GetNode h ft u = some n →
      (∃ h1 p, GetPath h ft u = some (h1, some p)) ∧ invalidateReturns h ft u = true) ∧
    (∀ a, (invalidatePathCache h a).isSome = true) ∧
    (∀ u np name, ∃ h1 ft1, Move h ft u np name = some (h1, ft1)) ∧
    (∀ items, ItemsAllowed h ft items → ∃ h1 ft1, EnsureItems h ft items = some (h1, ft1)) := by
  have hi := Reachable_inv (ReachableAllowed_reachable hr)
  have hc := ReachableAllowed_acyclic hr
  have hac := no_own_ancestor_of_acyclic hi hc
  refine ⟨hc, hac, fun u n hn => ⟨?_, invalidateReturns_of_acyclic hi hc u⟩,
    fun a => (invalidate_isSome h a).mpr (ChildrenEnd_of_acyclic hi.childBound hc a),
    Move_returns_of_acyclic hi hc, EnsureItems_returns_of_acyclic hi hc⟩
  cases hl : ft.nodes.lookup u with
  | none => simp [GetNode, hl] at hn
  | some a => exact GetPath_returns_of_acyclic hi hac hl

theorem allowed_tree_is_acyclic_witness :
    ReachableAllowed movedFileTree.1 movedFileTree.2 ∧
    (GetNode movedFileTree.1 movedFileTree.2 uFile1).map (fun n => (n.Parent, n.Name)) =
      some (uDir1, "x") ∧
    (ChildAcyclic movedFileTree.1 ∧
    (∀ u, ¬ HasAncestor movedFileTree.1 movedFileTree.2 u u) ∧
    (∀ u n, GetNode movedFileTree.1 movedFileTree.2 u = some n →
      (∃ h1 p, GetPath movedFileTree.1 movedFileTree.2 u = some (h1, some p)) ∧
        invalidateReturns movedFileTree.1 movedFileTree.2 u = true) ∧
    (∀ a, (invalidatePathCache movedFileTree.1 a).isSome = true) ∧
    (∀ u np name, ∃ h1 ft1,
      Move movedFileTree.1 movedFileTree.2 u np name = some (h1, ft1)) ∧
    (∀ items, ItemsAllowed movedFileTree.1 movedFileTree.2 items →
      ∃ h1 ft1, EnsureItems movedFileTree.1 movedFileTree.2 items = some (h1, ft1))) :=
  ⟨movedFileTree_allowed, by decide,
    allowed_tree_is_acyclic _ _ movedFileTree_allowed⟩

/-- **C24**, counterexample.  On the test tree `Move(dir2, dir2, "n")` returns and
leaves `dir2` its own parent and ancestor: `GetPath(dir2)` and
`invalidatePathCache` on `dir2` do not return.  `Move(dir1, dir2, "n")`, into the
child `dir2`, returns and leaves `dir1` its own ancestor, and `GetPath` returns
for none of the three nodes.  On the tree in which `a` was upserted from inside
`b` to the root, `Move(b, a, "n")` returns: `a` has no parent and is the parent of
`b`, `GetPath(b)` returns, and `invalidatePathCache` on `b` does not return. -/
theorem Move_makes_cycle :
    Reachable testTree.1 testTree.2 ∧
    Move testTree.1 testTree.2 uDir2 uDir2 "n" = some selfMovedTree ∧
    HasAncestor selfMovedTree.1 selfMovedTree.2 uDir2 uDir2 ∧
    (GetPath selfMovedTree.1 selfMovedTree.2 uDir2).isSome = false ∧
    invalidateReturns selfMovedTree.1 selfMovedTree.2 uDir2 = false ∧
    Move testTree.1 testTree.2 uDir1 uDir2 "n" = some movedBelowTree ∧
    HasAncestor movedBelowTree.1 movedBelowTree.2 uDir1 uDir1 ∧
    (GetPath movedBelowTree.1 movedBelowTree.2 uDir1).isSome = false ∧
    (GetPath movedBelowTree.1 movedBelowTree.2 uDir2).isSome = false ∧
    (GetPath movedBelowTree.1 movedBelowTree.2 uFile1).isSome = false ∧
    invalidateReturns movedBelowTree.1 movedBelowTree.2 uDir1 = false ∧
    Reachable staleTree.1 staleTree.2 ∧
    (GetNode staleTree.1 staleTree.2 uA).map (fun n => n.Parent) = some NilUuid ∧
    (GetNode staleTree.1 staleTree.2 uB).map (fun n => n.Parent) = some NilUuid ∧
    Move staleTree.1 staleTree.2 uB uA "n" = some staleMovedTree ∧
    (GetNode staleMovedTree.1 staleMovedTree.2 uA).map (fun n => n.Parent) = some NilUuid ∧
    (GetNode staleMovedTree.1 staleMovedTree.2 uB).map (fun n => n.Parent) = some uA ∧
    (GetPath staleMovedTree.1 staleMovedTree.2 uB).map (fun r => r.2) = some (some "a/n") ∧
    invalidateReturns staleMovedTree.1 staleMovedTree.2 uB = false := by
  have g2 : GetNode selfMovedTree.1 selfMovedTree.2 uDir2 =
      some { Uuid := uDir2, Name := "n", Hash := zeroHash, Modtime := zeroTime,
             IsDir := true, Parent := uDir2 } := by decide
  have g1 : GetNode movedBelowTree.1 movedBelowTree.2 uDir1 =
      some { Uuid := uDir1, Name := "n", Hash := zeroHash, Modtime := zeroTime,
             IsDir := true, Parent := uDir2 } := by decide
  have g3 : GetNode movedBelowTree.1 movedBelowTree.2 uDir2 =
      some { Uuid := uDir2, Name := "dir2", Hash := zeroHash, Modtime := zeroTime,
             IsDir := true, Parent := uDir1 } := by decide
  exact ⟨testTree_reachable, eq_some_getD _ (by decide),
    Relation.TransGen.single ⟨_, g2, rfl, by decide⟩, by decide, by decide,
    eq_some_getD _ (by decide),
    Relation.TransGen.tail (Relation.TransGen.single ⟨_, g1, rfl, by decide⟩)
      ⟨_, g3, rfl, by decide⟩,
    by decide, by decide, by decide, by decide,
    staleTree_reachable, by decide, by decide, eq_some_getD _ (by decide),
    by decide, by decide, by decide, by decide⟩

/-! ## When `Diff` returns -/

theorem itemsStep_ask (h : Heap) (x : Addr) (rest : List Addr → List DiffItem)
    (asks : List Addr → List Ask) (hrest : ∀ ys, rest ys = (asks ys).map (Ask.item h))
    (ys : List Addr) :
    itemsStep h x rest ys = (askStep h x asks ys).map (Ask.item h) := by
  induction ys with
  | nil => simp [itemsStep, askStep, hrest, Ask.item]
  | cons y ys ih =>
    simp only [itemsStep, askStep]
    split_ifs <;> simp [hrest, Ask.item, ih]

theorem itemsWalk_ask (h : Heap) (xs ys : List Addr) :
    itemsWalk h xs ys = (askWalk h xs ys).map (Ask.item h) := by
  induction xs generalizing ys with
  | nil => simp [itemsWalk, askWalk, Ask.item]
  | cons x xs ih => exact itemsStep_ask h x _ _ (fun ys => ih ys) ys

theorem sentAdded_ask (h : Heap) (ys : List Addr) :
    sentAdded h ys =
      if (ys.map Ask.added).all (Ask.returns h) then
        some ((ys.map Ask.added).map (Ask.item h))
      else none := by
  induction ys with
  | nil => simp [sentAdded]
  | cons y ys ih =>
    simp only [sentAdded, ih, List.map_cons, List.all_cons, Ask.returns, Ask.item]
    cases hp : pathOf h y with
    | none => simp
    | some p =>
      simp only [Option.isSome_some, Bool.true_and, pathAt, hp, Option.getD_some]
      split_ifs <;> rfl

theorem sentStep_ask (h : Heap) (x : Addr) (rest : List Addr → Option (List DiffItem))
    (asks : List Addr → List Ask)
    (hrest : ∀ ys, rest ys =
      if (asks ys).all (Ask.returns h) then some ((asks ys).map (Ask.item h)) else none)
    (ys : List Addr) :
    sentStep h x rest ys =
      if (askStep h x asks ys).all (Ask.returns h) then
        some ((askStep h x asks ys).map (Ask.item h))
      else none := by
  induction ys with
  | nil =>
    simp only [sentStep, askStep, hrest, List.map_cons, List.all_cons, Ask.returns, Ask.item]
    cases hp : pathOf h x with
    | none => simp
    | some p =>
      simp only [Option.isSome_some, Bool.true_and, pathAt, hp, Option.getD_some]
      split_ifs <;> rfl
  | cons y ys ih =>
    simp only [sentStep, askStep]
    by_cases hu : (h.cells x).Uuid = (h.cells y).Uuid
    · simp only [if_pos hu]
      by_cases hne : unequal h x y = true
      · simp only [if_pos hne, hrest, List.map_cons, List.all_cons, Ask.returns, Ask.item]
        cases hp : pathOf h x with
        | none => simp
        | some p =>
          cases hq : pathOf h y with
          | none => simp
          | some q =>
            simp only [Option.isSome_some, Bool.true_and, pathAt, hp, hq, Option.getD_some]
            split_ifs <;> rfl
      · simp only [if_neg hne, hrest]
    · simp only [if_neg hu]
      by_cases hlt : CompareUuids (h.cells x).Uuid (h.cells y).Uuid < 0
      · simp only [if_pos hlt, hrest, List.map_cons, List.all_cons, Ask.returns, Ask.item]
        cases hp : pathOf h x with
        | none => simp
        | some p =>
          simp only [Option.isSome_some, Bool.true_and, pathAt, hp, Option.getD_some]
          split_ifs <;> rfl
      · simp only [if_neg hlt, ih, List.map_cons, List.all_cons, Ask.returns, Ask.item]
        cases hq : pathOf h y with
        | none => simp
        | some q =>
          simp only [Option.isSome_some, Bool.true_and, pathAt, hq, Option.getD_some]
          split_ifs <;> rfl

/-- The walk returns exactly when every `getPath` call of its steps returns, and
then it has sent the items of the steps. -/
theorem sentWalk_ask (h : Heap) (xs ys : List Addr) :
    sentWalk h xs ys =
      if (askWalk h xs ys).all (Ask.returns h) then
        some ((askWalk h xs ys).map (Ask.item h))
      else none := by
  induction xs generalizing ys with
  | nil => exact sentAdded_ask h ys
  | cons x xs ih => exact sentStep_ask h x _ _ (fun ys => ih ys) ys

theorem askStep_nodes (h : Heap) (x : Addr) (xs : List Addr) (asks : List Addr → List Ask)
    (hrest : ∀ ys, ∀ ask ∈ asks ys,
      match ask with
      | .removed a => a ∈ xs
      | .added b => b ∈ ys
      | .modified a b => a ∈ xs ∧ b ∈ ys ∧ (h.cells a).Uuid = (h.cells b).Uuid)
    (ys : List Addr) : ∀ ask ∈ askStep h x asks ys,
      match ask with
      | .removed a => a ∈ x :: xs
      | .added b => b ∈ ys
      | .modified a b => a ∈ x :: xs ∧ b ∈ ys ∧ (h.cells a).Uuid = (h.cells b).Uuid := by
  have lift : ∀ ws zs : List Addr, (∀ b, b ∈ zs → b ∈ ws) → ∀ ask ∈ asks zs,
      match ask with
      | .removed a => a ∈ x :: xs
      | .added b => b ∈ ws
      | .modified a b => a ∈ x :: xs ∧ b ∈ ws ∧ (h.cells a).Uuid = (h.cells b).Uuid := by
    intro ws zs hz ask hask
    have := hrest zs ask hask
    cases ask with
    | removed a => exact List.mem_cons_of_mem _ this
    | added b => exact hz b this
    | modified a b => exact ⟨List.mem_cons_of_mem _ this.1, hz b this.2.1, this.2.2⟩
  induction ys with
  | nil =>
    intro ask hask
    simp only [askStep, List.mem_cons] at hask
    rcases hask with rfl | hask
    · exact List.mem_cons_self _ _
    · exact lift [] [] (fun b hb => hb) ask hask
  | cons y ys ih =>
    intro ask hask
    simp only [askStep] at hask
    by_cases hu : (h.cells x).Uuid = (h.cells y).Uuid
    · simp only [if_pos hu] at hask
      by_cases hne : unequal h x y = true
      · simp only [if_pos hne, List.mem_cons] at hask
        rcases hask with rfl | hask
        · exact ⟨List.mem_cons_self _ _, List.mem_cons_self _ _, hu⟩
        · exact lift (y :: ys) ys (fun b hb => List.mem_cons_of_mem _ hb) ask hask
      · simp only [if_neg hne] at hask
        exact lift (y :: ys) ys (fun b hb => List.mem_cons_of_mem _ hb) ask hask
    · simp only [if_neg hu] at hask
      by_cases hlt : CompareUuids (h.cells x).Uuid (h.cells y).Uuid < 0
      · simp only [if_pos hlt, List.mem_cons] at hask
        rcases hask with rfl | hask
        · exact List.mem_cons_self _ _
        · exact lift (y :: ys) (y :: ys) (fun b hb => hb) ask hask
      · simp only [if_neg hlt, List.mem_cons] at hask
        rcases hask with rfl | hask
        · exact List.mem_cons_self _ _
        · have := ih ask hask
          cases ask with
          | removed a => exact this
          | added b => exact List.mem_cons_of_mem _ this
          | modified a b => exact ⟨this.1, List.mem_cons_of_mem _ this.2.1, this.2.2⟩

/-- The nodes of a step of the walk are nodes of the two lists, and the two nodes
of a modification have the same uuid. -/
theorem askWalk_nodes (h : Heap) (xs ys : List Addr) : ∀ ask ∈ askWalk h xs ys,
    match ask with
    | .removed a => a ∈ xs
    | .added b => b ∈ ys
    | .modified a b => a ∈ xs ∧ b ∈ ys ∧ (h.cells a).Uuid = (h.cells b).Uuid := by
  induction xs generalizing ys with
  | nil =>
    intro ask hask
    simp only [askWalk, List.mem_map] at hask
    obtain ⟨b, hb, rfl⟩ := hask
    exact hb
  | cons x xs ih => exact askStep_nodes h x xs _ (fun ys => ih ys) ys

theorem slice_unique {h : Heap} {ft : FileTree} (hk : Keyed h ft) {a b : Addr}
    (ha : a ∈ sortNodes h (toDiffSlice ft)) (hb : b ∈ sortNodes h (toDiffSlice ft))
    (e : (h.cells a).Uuid = (h.cells b).Uuid) : a = b := by
  have h1 := (mem_sortedSlice hk a).mp ha
  have h2 := (mem_sortedSlice hk b).mp hb
  rw [e, h2] at h1
  exact (Option.some.inj h1).symm

theorem ask_item_mem {h : Heap} {is should : FileTree} (hk1 : Keyed h is)
    (hk2 : Keyed h should) (ask : Ask) :
    (∃ a ∈ askWalk h (sortNodes h (toDiffSlice is)) (sortNodes h (toDiffSlice should)),
        Ask.item h a = Ask.item h ask) ↔
      Emits h (sortNodes h (toDiffSlice is)) (sortNodes h (toDiffSlice should))
        (Ask.item h ask) := by
  rw [← itemsWalk_mem h _ _ (sortedSlice hk1) (sortedSlice hk2), itemsWalk_ask, List.mem_map]

theorem removed_mem_askWalk {h : Heap} {is should : FileTree} (hk1 : Keyed h is)
    (hk2 : Keyed h should) (x : Addr) :
    Ask.removed x ∈ askWalk h (sortNodes h (toDiffSlice is))
        (sortNodes h (toDiffSlice should)) ↔
      x ∈ sortNodes h (toDiffSlice is) ∧
        ∀ y ∈ sortNodes h (toDiffSlice should), (h.cells y).Uuid ≠ (h.cells x).Uuid := by
  constructor
  · intro hm
    have hx : x ∈ sortNodes h (toDiffSlice is) := askWalk_nodes h _ _ _ hm
    refine ⟨hx, ?_⟩
    rcases (ask_item_mem hk1 hk2 (.removed x)).mp ⟨_, hm, rfl⟩ with
      ⟨x2, _, habs, heq⟩ | ⟨y2, _, _, heq⟩ | ⟨x2, _, y2, _, _, _, heq⟩
    · simp only [Ask.item, DiffItem.DiffRemoved.injEq] at heq
      rw [heq.1]
      exact habs
    · simp [Ask.item] at heq
    · simp [Ask.item] at heq
  · rintro ⟨hx, habs⟩
    obtain ⟨a, ha, heq⟩ := (ask_item_mem hk1 hk2 (.removed x)).mpr (Or.inl ⟨x, hx, habs, rfl⟩)
    cases a with
    | removed x2 =>
      simp only [Ask.item, DiffItem.DiffRemoved.injEq] at heq
      have := slice_unique hk1 (askWalk_nodes h _ _ _ ha) hx heq.1
      rw [← this]
      exact ha
    | added y2 => simp [Ask.item] at heq
    | modified x2 y2 => simp [Ask.item] at heq

theorem added_mem_askWalk {h : Heap} {is should : FileTree} (hk1 : Keyed h is)
    (hk2 : Keyed h should) (y : Addr) :
    Ask.added y ∈ askWalk h (sortNodes h (toDiffSlice is))
        (sortNodes h (toDiffSlice should)) ↔
      y ∈ sortNodes h (toDiffSlice should) ∧
        ∀ x ∈ sortNodes h (toDiffSlice is), (h.cells x).Uuid ≠ (h.cells y).Uuid := by
  constructor
  · intro hm
    have hy : y ∈ sortNodes h (toDiffSlice should) := askWalk_nodes h _ _ _ hm
    refine ⟨hy, ?_⟩
    rcases (ask_item_mem hk1 hk2 (.added y)).mp ⟨_, hm, rfl⟩ with
      ⟨x2, _, _, heq⟩ | ⟨y2, _, habs, heq⟩ | ⟨x2, _, y2, _, _, _, heq⟩
    · simp [Ask.item] at heq
    · simp only [Ask.item, DiffItem.DiffAdded.injEq] at heq
      rw [heq.1]
      exact habs
    · simp [Ask.item] at heq
  · rintro ⟨hy, habs⟩
    obtain ⟨a, ha, heq⟩ :=
      (ask_item_mem hk1 hk2 (.added y)).mpr (Or.inr (Or.inl ⟨y, hy, habs, rfl⟩))
    cases a with
    | removed x2 => simp [Ask.item] at heq
    | added y2 =>
      simp only [Ask.item, DiffItem.DiffAdded.injEq] at heq
      have := slice_unique hk2 (askWalk_nodes h _ _ _ ha) hy heq.1
      rw [← this]
      exact ha
    | modified x2 y2 => simp [Ask.item] at heq

theorem modified_mem_askWalk {h : Heap} {is should : FileTree} (hk1 : Keyed h is)
    (hk2 : Keyed h should) (x y : Addr) :
    Ask.modified x y ∈ askWalk h (sortNodes h (toDiffSlice is))
        (sortNodes h (toDiffSlice should)) ↔
      x ∈ sortNodes h (toDiffSlice is) ∧ y ∈ sortNodes h (toDiffSlice should) ∧
        (h.cells x).Uuid = (h.cells y).Uuid ∧ unequal h x y = true := by
  constructor
  · intro hm
    obtain ⟨hx, hy, hu⟩ := askWalk_nodes h _ _ _ hm
    refine ⟨hx, hy, hu, ?_⟩
    rcases (ask_item_mem hk1 hk2 (.modified x y)).mp ⟨_, hm, rfl⟩ with
      ⟨x2, _, _, heq⟩ | ⟨y2, _, _, heq⟩ | ⟨x2, hx2, y2, hy2, hu2, hne, heq⟩
    · simp [Ask.item] at heq
    · simp [Ask.item] at heq
    · simp only [Ask.item, DiffItem.DiffModified.injEq] at heq
      have e1 : x = x2 := slice_unique hk1 hx hx2 heq.1
      have e2 : y = y2 := slice_unique hk2 hy hy2 (by rw [← hu, heq.1, hu2])
      rw [e1, e2]
      exact hne
  · rintro ⟨hx, hy, hu, hne⟩
    obtain ⟨a, ha, heq⟩ := (ask_item_mem hk1 hk2 (.modified x y)).mpr
      (Or.inr (Or.inr ⟨x, hx, y, hy, hu, hne, rfl⟩))
    cases a with
    | removed x2 => simp [Ask.item] at heq
    | added y2 => simp [Ask.item] at heq
    | modified x2 y2 =>
      simp only [Ask.item, DiffItem.DiffModified.injEq] at heq
      obtain ⟨hx2, hy2, hu2⟩ := askWalk_nodes h _ _ _ ha
      have e1 : x2 = x := slice_unique hk1 hx2 hx heq.1
      have e2 : y2 = y := slice_unique hk2 hy2 hy (by rw [← hu2, heq.1, hu])
      rw [← e1, ← e2]
      exact ha

theorem Diff_sent (h : Heap) (is should : FileTree) :
    (Diff h is should).map Prod.snd =
      sentWalk h (sortNodes h (toDiffSlice is)) (sortNodes h (toDiffSlice should)) :=
  Tracks_items (diffWalk_tracks h _ _ h (PathEq_refl h))

/-- `Diff` returns exactly when every `getPath` call of the steps of its walk
returns. -/
theorem Diff_isSome_iff (h : Heap) (is should : FileTree) :
    (Diff h is should).isSome = true ↔
      (askWalk h (sortNodes h (toDiffSlice is)) (sortNodes h (toDiffSlice should))).all
        (Ask.returns h) = true := by
  have e := Diff_sent h is should
  rw [sentWalk_ask] at e
  constructor
  · intro hs
    by_contra hn
    rw [if_neg hn] at e
    cases hd : Diff h is should with
    | none => rw [hd] at hs; cases hs
    | some r => rw [hd] at e; cases e
  · intro ha
    rw [if_pos ha] at e
    cases hd : Diff h is should with
    | none => rw [hd] at e; cases e
    | some r => rfl

/-- When `Diff` returns, every `getPath` call of its steps returned and the items
are those of the steps, in their order. -/
theorem Diff_items {h : Heap} {is should : FileTree} {h1 : Heap} {items : List DiffItem}
    (hd : Diff h is should = some (h1, items)) :
    (askWalk h (sortNodes h (toDiffSlice is)) (sortNodes h (toDiffSlice should))).all
        (Ask.returns h) = true ∧
      items = itemsWalk h (sortNodes h (toDiffSlice is)) (sortNodes h (toDiffSlice should)) := by
  have ha := (Diff_isSome_iff h is should).mp (by rw [hd]; rfl)
  refine ⟨ha, ?_⟩
  have e := Diff_sent h is should
  rw [sentWalk_ask, if_pos ha, hd, ← itemsWalk_ask] at e
  exact Option.some.inj e

theorem GetPath_isSome_iff {h : Heap} {ft : FileTree} {u : Uuid} {a : Addr}
    (hl : ft.nodes.lookup u = some a) :
    (GetPath h ft u).isSome = true ↔ (pathOf h a).isSome = true := by
  unfold GetPath pathOf
  rw [hl]
  cases hg : nodeGetPath h a with
  | none => simp [hg]
  | some r =>
    obtain ⟨h1, p⟩ := r
    simp [hg]

theorem GetPath_isSome_none {h : Heap} {ft : FileTree} {u : Uuid}
    (hl : ft.nodes.lookup u = none) : (GetPath h ft u).isSome = true := by
  unfold GetPath
  rw [hl]
  rfl

/-- `Diff` returns exactly when `GetPath` returns, in both trees, for every uuid
that is due an item. -/
theorem Diff_returns_iff {h : Heap} {is should : FileTree} (hk1 : Keyed h is)
    (hk2 : Keyed h should) :
    (Diff h is should).isSome = true ↔
      ∀ u, Differs h is should u →
        (GetPath h is u).isSome = true ∧ (GetPath h should u).isSome = true := by
  rw [Diff_isSome_iff, List.all_eq_true]
  constructor
  · intro hall u hd
    obtain ⟨hin, hdiff⟩ := hd
    cases hl1 : is.nodes.lookup u with
    | none =>
      cases hl2 : should.nodes.lookup u with
      | none =>
        exfalso
        rcases hin with e | e
        · exact e (by simp [GetNode, hl1])
        · exact e (by simp [GetNode, hl2])
      | some y =>
        refine ⟨GetPath_isSome_none hl1, (GetPath_isSome_iff hl2).mpr ?_⟩
        have huy := hk2 u y hl2
        have hy : y ∈ sortNodes h (toDiffSlice should) :=
          (mem_sortedSlice hk2 y).mpr (by rw [huy]; exact hl2)
        have hm := (added_mem_askWalk hk1 hk2 y).mpr
          ⟨hy, by rw [huy]; exact (absent_iff hk1 u).mpr (by simp [GetNode, hl1])⟩
        simpa [Ask.returns] using hall _ hm
    | some x =>
      have hux := hk1 u x hl1
      have hx : x ∈ sortNodes h (toDiffSlice is) :=
        (mem_sortedSlice hk1 x).mpr (by rw [hux]; exact hl1)
      cases hl2 : should.nodes.lookup u with
      | none =>
        refine ⟨(GetPath_isSome_iff hl1).mpr ?_, GetPath_isSome_none hl2⟩
        have hm := (removed_mem_askWalk hk1 hk2 x).mpr
          ⟨hx, by rw [hux]; exact (absent_iff hk2 u).mpr (by simp [GetNode, hl2])⟩
        simpa [Ask.returns] using hall _ hm
      | some y =>
        have huy := hk2 u y hl2
        have hy : y ∈ sortNodes h (toDiffSlice should) :=
          (mem_sortedSlice hk2 y).mpr (by rw [huy]; exact hl2)
        have hne : unequal h x y = true :=
          (unequal_iff h x y).mpr (hdiff _ _ (GetNode_eq hl1) (GetNode_eq hl2))
        have hm := (modified_mem_askWalk hk1 hk2 x y).mpr ⟨hx, hy, by rw [hux, huy], hne⟩
        have hr := hall _ hm
        simp only [Ask.returns, Bool.and_eq_true] at hr
        exact ⟨(GetPath_isSome_iff hl1).mpr hr.1, (GetPath_isSome_iff hl2).mpr hr.2⟩
  · intro hall ask hask
    cases ask with
    | removed x =>
      obtain ⟨hx, habs⟩ := (removed_mem_askWalk hk1 hk2 x).mp hask
      have hl1 := (mem_sortedSlice hk1 x).mp hx
      have hn2 := (absent_iff hk2 _).mp habs
      have hd : Differs h is should (h.cells x).Uuid :=
        ⟨Or.inl (by rw [GetNode_eq hl1]; simp), fun n m _ hm => by rw [hn2] at hm; cases hm⟩
      exact (GetPath_isSome_iff hl1).mp (hall _ hd).1
    | added y =>
      obtain ⟨hy, habs⟩ := (added_mem_askWalk hk1 hk2 y).mp hask
      have hl2 := (mem_sortedSlice hk2 y).mp hy
      have hn1 := (absent_iff hk1 _).mp habs
      have hd : Differs h is should (h.cells y).Uuid :=
        ⟨Or.inr (by rw [GetNode_eq hl2]; simp), fun n m hn _ => by rw [hn1] at hn; cases hn⟩
      exact (GetPath_isSome_iff hl2).mp (hall _ hd).2
    | modified x y =>
      obtain ⟨hx, hy, hu, hne⟩ := (modified_mem_askWalk hk1 hk2 x y).mp hask
      have hl1 := (mem_sortedSlice hk1 x).mp hx
      have hl2 := (mem_sortedSlice hk2 y).mp hy
      rw [← hu] at hl2
      have hd : Differs h is should (h.cells x).Uuid := by
        refine ⟨Or.inl (by rw [GetNode_eq hl1]; simp), fun n m hn hm => ?_⟩
        rw [GetNode_eq hl1] at hn
        rw [GetNode_eq hl2] at hm
        rw [← Option.some.inj hn, ← Option.some.inj hm]
        exact (unequal_iff h x y).mp hne
      have := hall _ hd
      simp only [Ask.returns, Bool.and_eq_true]
      exact ⟨(GetPath_isSome_iff hl1).mp this.1, (GetPath_isSome_iff hl2).mp this.2⟩

theorem pathOf_of_isSome {h : Heap} {a : Addr} (hp : (pathOf h a).isSome = true) :
    pathOf h a = some (pathAt h a) := by
  unfold pathAt
  cases hq : pathOf h a with
  | none => rw [hq] at hp; cases hp
  | some p => rfl

/-- The items `Diff` has sent when it returns, told by uuid. -/
theorem Diff_items_iff_Sends {h : Heap} {is should : FileTree} (hk1 : Keyed h is)
    (hk2 : Keyed h should) {h1 : Heap} {items : List DiffItem}
    (hd : Diff h is should = some (h1, items)) (item : DiffItem) :
    item ∈ items ↔ Sends h is should item := by
  obtain ⟨hall, rfl⟩ := Diff_items hd
  rw [List.all_eq_true] at hall
  rw [itemsWalk_mem h _ _ (sortedSlice hk1) (sortedSlice hk2) item]
  unfold Emits Sends
  constructor
  · rintro (⟨x, hx, hn, rfl⟩ | ⟨y, hy, hn, rfl⟩ | ⟨x, hx, y, hy, hu, hne, rfl⟩)
    · have hl := (mem_sortedSlice hk1 x).mp hx
      have hr := hall _ ((removed_mem_askWalk hk1 hk2 x).mpr ⟨hx, hn⟩)
      exact Or.inl ⟨_, _, (pathIn_eq _ _ _ _).mpr ⟨x, hl, pathOf_of_isSome hr⟩,
        (absent_iff hk2 _).mp hn, rfl⟩
    · have hl := (mem_sortedSlice hk2 y).mp hy
      have hr := hall _ ((added_mem_askWalk hk1 hk2 y).mpr ⟨hy, hn⟩)
      exact Or.inr (Or.inl ⟨_, _, (pathIn_eq _ _ _ _).mpr ⟨y, hl, pathOf_of_isSome hr⟩,
        (absent_iff hk1 _).mp hn, rfl⟩)
    · have hl1 := (mem_sortedSlice hk1 x).mp hx
      have hl2 := (mem_sortedSlice hk2 y).mp hy
      have hr := hall _ ((modified_mem_askWalk hk1 hk2 x y).mpr ⟨hx, hy, hu, hne⟩)
      simp only [Ask.returns, Bool.and_eq_true] at hr
      rw [← hu] at hl2
      refine Or.inr (Or.inr ⟨_, _, _, _, _,
        (pathIn_eq _ _ _ _).mpr ⟨x, hl1, pathOf_of_isSome hr.1⟩,
        (pathIn_eq _ _ _ _).mpr ⟨y, hl2, pathOf_of_isSome hr.2⟩,
        by unfold GetNode; rw [hl1], by unfold GetNode; rw [hl2], ?_, rfl⟩)
      exact (unequal_iff h x y).mp hne
  · rintro (⟨u, p, hp, hn, rfl⟩ | ⟨u, p, hp, hn, rfl⟩ | ⟨u, p, q, n, m, hp, hq, hn, hm, hne, rfl⟩)
    · obtain ⟨x, hl, hpx⟩ := (pathIn_eq _ _ _ _).mp hp
      have hux := hk1 u x hl
      refine Or.inl ⟨x, (mem_sortedSlice hk1 x).mpr (by rw [hux]; exact hl), ?_, ?_⟩
      · rw [hux]; exact (absent_iff hk2 u).mpr hn
      · rw [hux, pathAt_of_pathOf hpx]
    · obtain ⟨y, hl, hpy⟩ := (pathIn_eq _ _ _ _).mp hp
      have huy := hk2 u y hl
      refine Or.inr (Or.inl ⟨y, (mem_sortedSlice hk2 y).mpr (by rw [huy]; exact hl), ?_, ?_⟩)
      · rw [huy]; exact (absent_iff hk1 u).mpr hn
      · rw [huy, pathAt_of_pathOf hpy]
    · obtain ⟨x, hl1, hpx⟩ := (pathIn_eq _ _ _ _).mp hp
      obtain ⟨y, hl2, hpy⟩ := (pathIn_eq _ _ _ _).mp hq
      have hux := hk1 u x hl1
      have huy := hk2 u y hl2
      refine Or.inr (Or.inr ⟨x, (mem_sortedSlice hk1 x).mpr (by rw [hux]; exact hl1),
        y, (mem_sortedSlice hk2 y).mpr (by rw [huy]; exact hl2), by rw [hux, huy], ?_, ?_⟩)
      · simp only [GetNode, hl1, hl2, Option.some.injEq] at hn hm
        subst hn; subst hm
        exact (unequal_iff h x y).mpr hne
      · rw [hux, pathAt_of_pathOf hpx, pathAt_of_pathOf hpy]

theorem GetPath_isSome_of_returns {h : Heap} {ft : FileTree} (hp : PathsReturn h ft)
    (u : Uuid) : (GetPath h ft u).isSome = true := by
  cases hl : ft.nodes.lookup u with
  | none => exact GetPath_isSome_none hl
  | some a =>
    rw [GetPath_isSome_iff hl]
    simpa [pathOf] using hp u a hl

theorem selfMovedTree_reachable : Reachable selfMovedTree.1 selfMovedTree.2 := by
  have hm : Move testTree.1 testTree.2 uDir2 uDir2 "n" = some selfMovedTree :=
    eq_some_getD _ (by decide)
  exact Reachable.move uDir2 uDir2 "n" testTree_reachable hm

/-- **C1**, counterexample.  The test tree after `Move(dir2, dir2, "n")` is a tree
reached by the operations of `FileTree`, with every map entry keyed by its
node's uuid; `dir2` is in it and not in the empty tree, `GetPath(dir2)` does not
return, and `Diff` of the tree and the empty tree does not return. -/
theorem Diff_stops_on_cycle :
    Reachable selfMovedTree.1 selfMovedTree.2 ∧
    Keyed selfMovedTree.1 selfMovedTree.2 ∧ Keyed selfMovedTree.1 NewFileTree ∧
    (GetNode selfMovedTree.1 selfMovedTree.2 uDir2).isSome = true ∧
    GetNode selfMovedTree.1 NewFileTree uDir2 = none ∧
    (GetPath selfMovedTree.1 selfMovedTree.2 uDir2).isSome = false ∧
    (Diff selfMovedTree.1 selfMovedTree.2 NewFileTree).isSome = false :=
  ⟨selfMovedTree_reachable, Keyed_of_entries (by decide), Keyed_of_entries (by decide),
   by decide, by decide, by decide, by decide⟩

/-- **C1**, amended.  For two trees `is` and `should` in which every map entry is
keyed by its node's uuid: `Diff(is, should)` returns exactly when `GetPath`
returns, in both trees, for every uuid that is due an item (a uuid in one tree
only, or in both with a different modtime, parent uuid, isDir or hash); so it
returns when `GetPath` returns on every node.  When it returns, an item is sent
exactly when it is `DiffRemoved{u, path of u in is}` for a uuid `u` that is in
`is` and not in `should`, or `DiffAdded{u, path of u in should}` for a uuid in
`should` and not in `is`, or `DiffModified{u, path in is, path in should}` for a
uuid in both whose modtime, parent uuid, isDir or hash differ; no other item is
sent. -/
theorem Diff_sends_exactly (h : Heap) (is should : FileTree)
    (hk1 : Keyed h is) (hk2 : Keyed h should) :
    ((Diff h is should).isSome = true ↔
      ∀ u, Differs h is should u →
        (GetPath h is u).isSome = true ∧ (GetPath h should u).isSome = true) ∧
    (PathsReturn h is → PathsReturn h should → (Diff h is should).isSome = true) ∧
    ∀ h1 items, Diff h is should = some (h1, items) → ∀ item, item ∈ items ↔
      ((∃ u p, pathIn h is u = some p ∧ GetNode h should u = none ∧
          item = .DiffRemoved u p) ∨
       (∃ u p, pathIn h should u = some p ∧ GetNode h is u = none ∧
          item = .DiffAdded u p) ∨
       (∃ u p q n m, pathIn h is u = some p ∧ pathIn h should u = some q ∧
          GetNode h is u = some n ∧ GetNode h should u = some m ∧
          (n.Modtime ≠ m.Modtime ∨ n.Parent ≠ m.Parent ∨ n.IsDir ≠ m.IsDir ∨
            n.Hash ≠ m.Hash) ∧
          item = .DiffModified u p q)) :=
  ⟨Diff_returns_iff hk1 hk2,
   fun hp1 hp2 => (Diff_returns_iff hk1 hk2).mpr (fun u _ =>
     ⟨GetPath_isSome_of_returns hp1 u, GetPath_isSome_of_returns hp2 u⟩),
   fun _ _ hd item => Diff_items_iff_Sends hk1 hk2 hd item⟩

/-- Witness of **C1**: the two trees of `TestDiffMoveDir`. -/
theorem Diff_sends_exactly_witness :
    Keyed moveDirWorld.1 moveDirWorld.2.1 ∧ Keyed moveDirWorld.1 moveDirWorld.2.2 ∧
    (Diff moveDirWorld.1 moveDirWorld.2.1 moveDirWorld.2.2).map Prod.snd =
      some [.DiffModified uDir2 "dir1/dir2" "moved-dir"] ∧
    (((Diff moveDirWorld.1 moveDirWorld.2.1 moveDirWorld.2.2).isSome = true ↔
      ∀ u, Differs moveDirWorld.1 moveDirWorld.2.1 moveDirWorld.2.2 u →
        (GetPath moveDirWorld.1 moveDirWorld.2.1 u).isSome = true ∧
        (GetPath moveDirWorld.1 moveDirWorld.2.2 u).isSome = true) ∧
    (PathsReturn moveDirWorld.1 moveDirWorld.2.1 → PathsReturn moveDirWorld.1 moveDirWorld.2.2 →
      (Diff moveDirWorld.1 moveDirWorld.2.1 moveDirWorld.2.2).isSome = true) ∧
    ∀ h1 items, Diff moveDirWorld.1 moveDirWorld.2.1 moveDirWorld.2.2 = some (h1, items) →
      ∀ item, item ∈ items ↔
      ((∃ u p, pathIn moveDirWorld.1 moveDirWorld.2.1 u = some p ∧
          GetNode moveDirWorld.1 moveDirWorld.2.2 u = none ∧ item = .DiffRemoved u p) ∨
       (∃ u p, pathIn moveDirWorld.1 moveDirWorld.2.2 u = some p ∧
          GetNode moveDirWorld.1 moveDirWorld.2.1 u = none ∧ item = .DiffAdded u p) ∨
       (∃ u p q n m, pathIn moveDirWorld.1 moveDirWorld.2.1 u = some p ∧
          pathIn moveDirWorld.1 moveDirWorld.2.2 u = some q ∧
          GetNode moveDirWorld.1 moveDirWorld.2.1 u = some n ∧
          GetNode moveDirWorld.1 moveDirWorld.2.2 u = some m ∧
          (n.Modtime ≠ m.Modtime ∨ n.Parent ≠ m.Parent ∨ n.IsDir ≠ m.IsDir ∨
            n.Hash ≠ m.Hash) ∧
          item = .DiffModified u p q))) :=
  ⟨Keyed_of_entries (by decide), Keyed_of_entries (by decide), by decide,
   Diff_sends_exactly _ _ _ (Keyed_of_entries (by decide)) (Keyed_of_entries (by decide))⟩

/-- **C3.** For two trees in which every map entry is keyed by its node's uuid,
the items `Diff` returns are in strictly ascending uuid order under
`CompareUuids`, so no two items are about the same uuid; and `Diff` returns
exactly when `GetPath` returns, in both trees, for every uuid that is due an
item. -/
theorem Diff_ascending (h : Heap) (is should : FileTree)
    (hk1 : Keyed h is) (hk2 : Keyed h should) :
    (∀ h1 items, Diff h is should = some (h1, items) →
      items.Pairwise (fun i j => CompareUuids i.uuid j.uuid < 0) ∧
      (items.map DiffItem.uuid).Nodup) ∧
    ((Diff h is should).isSome = true ↔
      ∀ u, Differs h is should u →
        (GetPath h is u).isSome = true ∧ (GetPath h should u).isSome = true) ∧
    (PathsReturn h is → PathsReturn h should → (Diff h is should).isSome = true) := by
  refine ⟨fun h1 items hd => ?_, Diff_returns_iff hk1 hk2,
    fun hp1 hp2 => (Diff_returns_iff hk1 hk2).mpr (fun u _ =>
      ⟨GetPath_isSome_of_returns hp1 u, GetPath_isSome_of_returns hp2 u⟩)⟩
  obtain ⟨_, rfl⟩ := Diff_items hd
  have hs := itemsWalk_sorted h _ _ (sortedSlice hk1) (sortedSlice hk2)
  refine ⟨hs, ?_⟩
  unfold List.Nodup
  rw [List.pairwise_map]
  exact hs.imp (fun hlt => UuidLt_ne hlt)

/-- Witness of **C3**: the two trees of `TestDiffRemovedDir`. -/
theorem Diff_ascending_witness :
    Keyed removedDirWorld.1 removedDirWorld.2.1 ∧
    Keyed removedDirWorld.1 removedDirWorld.2.2 ∧
    (Diff removedDirWorld.1 removedDirWorld.2.1 removedDirWorld.2.2).map Prod.snd =
      some [.DiffRemoved uDir2 "dir1/dir2", .DiffRemoved uFile1 "dir1/dir2/file1.txt"] ∧
    ((∀ h1 items, Diff removedDirWorld.1 removedDirWorld.2.1 removedDirWorld.2.2 =
        some (h1, items) →
      items.Pairwise (fun i j => CompareUuids i.uuid j.uuid < 0) ∧
      (items.map DiffItem.uuid).Nodup) ∧
    ((Diff removedDirWorld.1 removedDirWorld.2.1 removedDirWorld.2.2).isSome = true ↔
      ∀ u, Differs removedDirWorld.1 removedDirWorld.2.1 removedDirWorld.2.2 u →
        (GetPath removedDirWorld.1 removedDirWorld.2.1 u).isSome = true ∧
        (GetPath removedDirWorld.1 removedDirWorld.2.2 u).isSome = true) ∧
    (PathsReturn removedDirWorld.1 removedDirWorld.2.1 →
      PathsReturn removedDirWorld.1 removedDirWorld.2.2 →
      (Diff removedDirWorld.1 removedDirWorld.2.1 removedDirWorld.2.2).isSome = true)) :=
  ⟨Keyed_of_entries (by decide), Keyed_of_entries (by decide), by decide,
   Diff_ascending _ _ _ (Keyed_of_entries (by decide)) (Keyed_of_entries (by decide))⟩

/-! ## Parents that are directories -/

theorem DirParents_frame {h h1 : Heap} {ft ft1 : FileTree}
    (hm : ∀ b, InMap ft1 b → InMap ft b)
    (hp : ∀ b, (h1.cells b).Parent = (h.cells b).Parent)
    (hd : ∀ b, (h1.cells b).IsDir = (h.cells b).IsDir) (d : DirParents h ft) :
    DirParents h1 ft1 := by
  intro a ha p hpar
  rw [hp] at hpar
  rw [hd]
  exact d a (hm a ha) p hpar

theorem ensureItem_dirs {h : Heap} {ft : FileTree} {item : FileTreeNode}
    {parent : Option Addr} {h1 : Heap} {ft1 : FileTree}
    (hpb : ∀ a p, (h.cells a).Parent = some p → p < h.next)
    (d : DirParents h ft)
    (hpar : ∀ q, parent = some q → q < h.next ∧ (h.cells q).IsDir = true ∧
      (ft.nodes.lookup item.Uuid = some q → item.IsDir = true))
    (hkids : item.IsDir = true ∨
      ∀ a t, InMap ft a → ft.nodes.lookup item.Uuid = some t → (h.cells a).Parent ≠ some t)
    (he : ensureItem h ft item parent = some (h1, ft1)) : DirParents h1 ft1 := by
  rcases ensureItem_cases he with ⟨hl, rfl, rfl⟩ | ⟨t, hx, hl, hinv, rfl, rfl⟩
  · intro b hbm p hp
    rw [fillNode_parent] at hp
    rw [fillNode_isDir]
    by_cases hbt : b = h.next
    · rw [if_pos hbt] at hp
      obtain ⟨hq, hqd, _⟩ := hpar p hp
      have hpt : p ≠ h.next := Nat.ne_of_lt hq
      rw [if_neg hpt, newNode_cells_ne h _ hpt]
      exact hqd
    · rw [if_neg hbt, newNode_cells_ne h _ hbt] at hp
      have hbin : InMap ft b := by
        rcases InMap_insert hbm with e | e
        · exact absurd e hbt
        · exact e
      have hpt : p ≠ h.next := Nat.ne_of_lt (hpb b p hp)
      rw [if_neg hpt, newNode_cells_ne h _ hpt]
      exact d b hbin p hp
  · obtain ⟨hcl, _⟩ := invalidate_spec hinv
    have hs := hcl.1
    intro b hbm p hp
    rw [fillNode_parent] at hp
    rw [fillNode_isDir]
    by_cases hbt : b = t
    · rw [if_pos hbt] at hp
      obtain ⟨_, hqd, hself⟩ := hpar p hp
      by_cases hpt : p = t
      · rw [if_pos hpt]
        exact hself (by rw [hpt]; exact hl)
      · rw [if_neg hpt, SameNodes_isDir hs]
        exact hqd
    · rw [if_neg hbt, SameNodes_parent hs] at hp
      have hbin : InMap ft b := by
        rcases InMap_insert hbm with e | e
        · exact absurd e hbt
        · exact e
      by_cases hpt : p = t
      · rw [if_pos hpt]
        rcases hkids with e | e
        · exact e
        · exact absurd (hpt ▸ hp) (e b t hbin hl)
      · rw [if_neg hpt, SameNodes_isDir hs]
        exact d b hbin p hp

/-- What `ensureParent` keeps: every parent stays a directory, the node it
returns is a directory, and the `Parent` pointers of the tree afterwards are
those of the tree before. -/
theorem ensureParent_dirs {h : Heap} {ft : FileTree} {x : Option Addr} (hi : InvX h ft x)
    (d : DirParents h ft) {np : Uuid} {h3 : Heap} {ft3 : FileTree} {parent : Option Addr}
    (hep : ensureParent h ft np = some (h3, ft3, parent)) :
    DirParents h3 ft3 ∧ (∀ q, parent = some q → (h3.cells q).IsDir = true) ∧
      (∀ a p, InMap ft3 a → (h3.cells a).Parent = some p →
        InMap ft a ∧ (h.cells a).Parent = some p) := by
  rcases ensureParent_cases hep with ⟨_, rfl, rfl, rfl⟩ | ⟨_, q, _, hqd, rfl, rfl, rfl⟩ |
    ⟨_, hei, hp, _⟩
  · exact ⟨d, fun q hq => (by cases hq), fun a p ha hpar => ⟨ha, hpar⟩⟩
  · exact ⟨d, fun q2 hq => (by cases hq; exact hqd), fun a p ha hpar => ⟨ha, hpar⟩⟩
  · refine ⟨ensureItem_dirs hi.parentBound d (fun q hq => (by cases hq)) (Or.inl rfl) hei,
      ?_, ?_⟩
    · intro q hq
      rw [hp] at hq
      rcases ensureItem_cases hei with ⟨hl, rfl, rfl⟩ | ⟨t, hx, hl, hinv, rfl, rfl⟩
      · have e : ({ nodes := ft.nodes.insert (placeholderItem np).Uuid h.next } :
            FileTree).nodes.lookup np = some h.next := AList.lookup_insert _
        rw [e] at hq
        cases hq
        rw [fillNode_isDir, if_pos rfl]
        rfl
      · have e : ({ nodes := ft.nodes.insert (placeholderItem np).Uuid t } :
            FileTree).nodes.lookup np = some t := AList.lookup_insert _
        rw [e] at hq
        cases hq
        rw [fillNode_isDir, if_pos rfl]
        rfl
    · intro a p ha hpar
      rcases ensureItem_cases hei with ⟨hl, rfl, rfl⟩ | ⟨t, hx, hl, hinv, rfl, rfl⟩
      · rw [fillNode_parent] at hpar
        by_cases hat : a = h.next
        · rw [if_pos hat] at hpar
          cases hpar
        · rw [if_neg hat, newNode_cells_ne h _ hat] at hpar
          rcases InMap_insert ha with e | e
          · exact absurd e hat
          · exact ⟨e, hpar⟩
      · obtain ⟨hcl, _⟩ := invalidate_spec hinv
        rw [fillNode_parent] at hpar
        by_cases hat : a = t
        · rw [if_pos hat] at hpar
          cases hpar
        · rw [if_neg hat, SameNodes_parent hcl.1] at hpar
          rcases InMap_insert ha with e | e
          · exact absurd e hat
          · exact ⟨e, hpar⟩

/-- An upsert that makes no parent a file keeps every parent a directory. -/
theorem upsert_dirs {h : Heap} {ft : FileTree} (hi : Inv h ft) (d : DirParents h ft)
    (item : FileTreeNode) (hg : KeepsDirs h ft item) {h1 : Heap} {ft1 : FileTree}
    (he : EnsureItems h ft [item] = some (h1, ft1)) : DirParents h1 ft1 := by
  obtain ⟨h3, ft3, parent, hep, hei⟩ := EnsureItems_single_cases he
  obtain ⟨d3, hq3, hfrom⟩ := ensureParent_dirs hi d hep
  obtain ⟨hi3, hpo⟩ := ensureParent_inv hi hep
  refine ensureItem_dirs hi3.parentBound d3 (fun q hq => ?_) ?_ hei
  · refine ⟨hi3.bound q (hpo q hq).1, hq3 q hq, fun hlq => ?_⟩
    rcases hg with e | ⟨hself, _⟩
    · exact e
    · exfalso
      rw [hq] at hep
      obtain ⟨hn, _⟩ := ensureParent_addr hep
      obtain ⟨_, hlp⟩ := ensureParent_parent hep
      obtain ⟨q2, hq2, hlp2⟩ := hlp hn
      cases hq2
      have e1 := hi3.keyed _ _ hlq
      have e2 := hi3.keyed _ _ hlp2
      have e3 : item.Parent = item.Uuid := by rw [← e1, ← e2]
      exact hn (by rw [e3]; exact hself e3)
  · rcases hg with e | ⟨_, hkids⟩
    · exact Or.inl e
    · right
      intro a t ha hlt hpar
      obtain ⟨hain, hpar0⟩ := hfrom a t ha hpar
      have htin := hi.parentIn a hain t hpar0
      have hpu := ParentUuid_of_ParentRel hi hain hpar0
      have hl0 := ensureParent_lookup hep (InMap_lookup hi.keyed htin)
      have e1 := hi3.keyed _ _ hlt
      have e2 := hi3.keyed _ _ hl0
      rw [← e2, e1] at hpu
      exact hkids _ hpu

theorem EnsureItems_dirs {h : Heap} {ft : FileTree} (hi : Inv h ft) (d : DirParents h ft)
    (items : List FileTreeNode) (hg : ItemsKeepDirs h ft items) {h1 : Heap} {ft1 : FileTree}
    (he : EnsureItems h ft items = some (h1, ft1)) : DirParents h1 ft1 := by
  induction items generalizing h ft with
  | nil =>
    simp only [EnsureItems, List.foldlM_nil, Option.pure_def, Option.some.injEq,
      Prod.mk.injEq] at he
    rw [← he.1, ← he.2]
    exact d
  | cons item rest ih =>
    obtain ⟨h2, ft2, h1e, h2e⟩ := EnsureItems_cons he
    exact ih (EnsureItems_inv hi [item] h1e) (upsert_dirs hi d item hg.1 h1e)
      (hg.2 h2 ft2 h1e) h2e

theorem Move_dirs {h : Heap} {ft : FileTree} (hi : Inv h ft) (d : DirParents h ft)
    (u np : Uuid) (name : FileName) {h1 : Heap} {ft1 : FileTree}
    (he : Move h ft u np name = some (h1, ft1)) : DirParents h1 ft1 := by
  cases hl : ft.nodes.lookup u with
  | none =>
    simp only [Move, hl, Option.some.injEq, Prod.mk.injEq] at he
    rw [← he.1, ← he.2]
    exact d
  | some a =>
    obtain ⟨hx, h3, ft3, parent, hinv, hep, rfl, rfl⟩ := Move_cases hl he
    obtain ⟨hcl, _⟩ := invalidate_spec hinv
    have hdx : DirParents (detachNode hx a u) ft :=
      DirParents_frame (fun b hb => hb)
        (fun b => by rw [detachNode_parent, SameNodes_parent hcl.1])
        (fun b => by
          have e := detachNode_core hx a u b
          simp only [coreOf, Prod.mk.injEq] at e
          rw [e.2.2.2.2.1, SameNodes_isDir hcl.1]) d
    obtain ⟨d3, hq3, _⟩ := ensureParent_dirs (detach_inv hi hl hinv) hdx hep
    intro b hbm p hp
    rw [attachNode_parent] at hp
    rw [attachNode_isDir]
    by_cases hba : b = a
    · rw [if_pos hba] at hp
      exact hq3 p hp
    · rw [if_neg hba] at hp
      rcases InMap_insert hbm with e | e
      · exact absurd e hba
      · exact d3 b e p hp

theorem GetPathToUuidMap_same {h : Heap} {ft : FileTree} {h1 : Heap}
    {m : AList (fun _ : String => Uuid)} (hg : GetPathToUuidMap h ft = some (h1, m)) :
    SameNodes h h1 := by
  unfold GetPathToUuidMap at hg
  generalize ft.nodes.entries = es at hg
  generalize (∅ : AList (fun _ : String => Uuid)) = acc at hg
  induction es generalizing h acc with
  | nil =>
    simp only [List.foldlM_nil, Option.pure_def, Option.some.injEq, Prod.mk.injEq] at hg
    obtain ⟨rfl, _⟩ := hg
    exact SameNodes_refl h
  | cons e es ih =>
    simp only [List.foldlM_cons, Option.bind_eq_bind, Option.bind_eq_some] at hg
    obtain ⟨⟨h2, acc2⟩, hstep, hrest⟩ := hg
    cases hn : nodeGetPath h e.2 with
    | none => simp [hn] at hstep
    | some s =>
      obtain ⟨h3, p⟩ := s
      simp only [hn, Option.some.injEq, Prod.mk.injEq] at hstep
      obtain ⟨rfl, rfl⟩ := hstep
      exact SameNodes_trans (nodeGetPath_frame hn).1 (ih _ hrest)

theorem ReachableDirs_reachable {h : Heap} {ft : FileTree} (hr : ReachableDirs h ft) :
    Reachable h ft := by
  induction hr with
  | empty => exact Reachable.empty
  | ensureItems items _ _ he ih => exact Reachable.ensureItems items ih he
  | createFile u p name mt hs _ _ he ih => exact Reachable.createFile u p name mt hs ih he
  | createDir u p name _ he ih => exact Reachable.createDir u p name ih he
  | move u p name _ he ih => exact Reachable.move u p name ih he
  | remove u _ ih => exact Reachable.remove u ih
  | setModtime u t _ ih => exact Reachable.setModtime u t ih
  | getPath u _ he ih => exact Reachable.getPath u ih he
  | getPathToUuidMap _ he ih => exact Reachable.getPathToUuidMap ih he

theorem ReachableDirs_dirs {h : Heap} {ft : FileTree} (hr : ReachableDirs h ft) :
    DirParents h ft := by
  induction hr with
  | empty =>
    intro a ha
    obtain ⟨u, hu⟩ := ha
    simp [NewFileTree, AList.lookup_empty] at hu
  | ensureItems items hr0 hg he ih =>
    exact EnsureItems_dirs (Reachable_inv (ReachableDirs_reachable hr0)) ih items hg he
  | createFile u p name mt hs hr0 hg he ih =>
    exact upsert_dirs (Reachable_inv (ReachableDirs_reachable hr0)) ih _ (Or.inr hg) he
  | createDir u p name hr0 he ih =>
    exact upsert_dirs (Reachable_inv (ReachableDirs_reachable hr0)) ih _ (Or.inl rfl) he
  | move u p name hr0 he ih =>
    exact Move_dirs (Reachable_inv (ReachableDirs_reachable hr0)) ih u p name he
  | remove u _ ih =>
    exact DirParents_frame (fun b hb => by
      obtain ⟨w, hw⟩ := hb
      exact ⟨w, (Remove_spec _ _ u).1.1 w b hw⟩) (fun _ => rfl) (fun _ => rfl) ih
  | setModtime u t _ ih =>
    rename_i h0 ft0 _
    unfold SetModtime
    cases hl : ft0.nodes.lookup u with
    | none => exact ih
    | some n =>
      refine DirParents_frame (fun b hb => ?_) (fun b => ?_) (fun b => ?_) ih
      · rcases InMap_insert hb with e | e
        · exact ⟨u, e ▸ hl⟩
        · exact e
      · by_cases e : b = n
        · subst e; simp
        · rw [Heap_set_cells_ne _ _ e]
      · by_cases e : b = n
        · subst e; simp
        · rw [Heap_set_cells_ne _ _ e]
  | getPath u _ he ih =>
    have hs := (GetPath_frame he).1
    exact DirParents_frame (fun b hb => hb) (SameNodes_parent hs) (SameNodes_isDir hs) ih
  | getPathToUuidMap _ he ih =>
    have hs := GetPathToUuidMap_same he
    exact DirParents_frame (fun b hb => hb) (SameNodes_parent hs) (SameNodes_isDir hs) ih

theorem no_child_of_absent {h : Heap} {ft : FileTree} (hi : Inv h ft) {u : Uuid}
    (hu : ft.nodes.lookup u = none) (v : Uuid) : ¬ ParentUuid h ft v u := by
  intro hp
  obtain ⟨_, p, _, _, hl⟩ := parent_of_ParentUuid hi hp
  rw [hu] at hl
  cases hl

/-- Calls in parents-first order make no parent a file. -/
theorem buildFrom_dirs {hb : Heap} (cs : List BuildCall) (pre : List BuildCall) (h : Heap)
    (ft : FileTree) (b : Built hb (reportOf pre) h ft) (hra : ReachableDirs h ft)
    (hpf : parentsFirstFrom pre cs = true) {h1 : Heap} {ft1 : FileTree}
    (he : cs.foldlM (fun (s : Heap × FileTree) c => c.run s.1 s.2) (h, ft) = some (h1, ft1)) :
    ReachableDirs h1 ft1 := by
  induction cs generalizing pre h ft with
  | nil =>
    simp only [List.foldlM_nil] at he
    cases he
    exact hra
  | cons c cs ih =>
    simp only [parentsFirstFrom, Bool.and_eq_true, decide_eq_true_eq] at hpf
    obtain ⟨⟨hnew, hpar⟩, hrest⟩ := hpf
    have hnew1 : reportOf pre c.uuid = none := by
      cases hs : reportOf pre c.uuid with
      | none => rfl
      | some n =>
        obtain ⟨d, hd, e⟩ := (reportOf_isSome pre c.uuid).mp (by rw [hs]; rfl)
        exact absurd e (hnew d hd)
    have hpar1 : c.parentUuid = NilUuid ∨ (reportOf pre c.parentUuid).isSome = true :=
      hpar.imp id (fun e => (reportOf_isSome pre c.parentUuid).mpr e)
    obtain ⟨h2, ft2, hrun, b1⟩ := Built_step b c hnew1 hpar1
    rw [← reportOf_append] at b1
    rw [List.foldlM_cons, hrun] at he
    have hlu : ft.nodes.lookup c.uuid = none :=
      GetNode_none_lookup (by rw [b.nodes]; exact hnew1)
    have hself : c.parentUuid = c.uuid → c.uuid = NilUuid := by
      intro e
      rcases hpar1 with e2 | e2
      · rw [← e]; exact e2
      · rw [e, hnew1] at e2
        cases e2
    refine ih (pre ++ [c]) h2 ft2 b1 ?_ hrest he
    cases c with
    | CreateDir u p name => exact ReachableDirs.createDir u p name hra hrun
    | CreateFile u p name mt hs =>
      exact ReachableDirs.createFile u p name mt hs hra
        ⟨hself, no_child_of_absent b.inv hlu⟩ hrun

theorem buildTree_dirs {calls : List BuildCall} (hpf : parentsFirstFrom [] calls = true)
    {h1 : Heap} {ft1 : FileTree} (he : buildTree emptyHeap calls = some (h1, ft1)) :
    ReachableDirs h1 ft1 :=
  buildFrom_dirs calls [] emptyHeap NewFileTree (Built_nil Inv_empty) ReachableDirs.empty
    hpf he

theorem builtTestTree_dirs : ReachableDirs builtTestTree.1 builtTestTree.2 := by
  have hb : buildTree emptyHeap testCalls = some builtTestTree := eq_some_getD _ (by decide)
  exact buildTree_dirs (by decide) hb

/-! ## What `Move` does to the new parent -/

theorem parts_congr_avoid {h h1 : Heap} {a : Addr}
    (hn : ∀ b, b ≠ a → (h1.cells b).Name = (h.cells b).Name)
    (hp : ∀ b, b ≠ a → (h1.cells b).Parent = (h.cells b).Parent) (f : Nat) (x : Addr)
    (hx : ¬ OnChain h x a) : getPathPartsAux f h1 x = getPathPartsAux f h x := by
  induction f generalizing x with
  | zero => rfl
  | succ f ih =>
    have hxa : x ≠ a := fun e => hx (e ▸ Relation.ReflTransGen.refl)
    simp only [getPathPartsAux, hp x hxa, hn x hxa]
    cases hpar : (h.cells x).Parent with
    | none => rfl
    | some p =>
      simp only
      rw [ih p (fun hc => hx (Relation.ReflTransGen.head hpar hc))]

theorem GetNode_congr {h h2 : Heap} {ft ft2 : FileTree} {w : Uuid}
    (hl : ft2.nodes.lookup w = ft.nodes.lookup w)
    (hc : ∀ b, ft.nodes.lookup w = some b → coreOf (h2.cells b) = coreOf (h.cells b))
    (hu : ∀ b, (h2.cells b).Uuid = (h.cells b).Uuid) :
    GetNode h2 ft2 w = GetNode h ft w := by
  cases hb : ft.nodes.lookup w with
  | none => simp only [GetNode, hl, hb]
  | some b =>
    rw [hb] at hl
    rw [GetNode_eq hl, GetNode_eq hb]
    have e := hc b hb
    simp only [coreOf, Prod.mk.injEq] at e
    obtain ⟨_, c2, c3, c4, c5, c6⟩ := e
    have hpu : getParentUuid h2 b = getParentUuid h b := by
      unfold getParentUuid
      rw [c6]
      cases (h.cells b).Parent with
      | none => rfl
      | some p => exact hu p
    rw [c2, c3, c4, c5, hpu]

theorem placeholder_GetNode {h : Heap} {ft : FileTree} {np : Uuid} {h3 : Heap}
    {ft3 : FileTree} (he : ensureItem h ft (placeholderItem np) none = some (h3, ft3)) :
    GetNode h3 ft3 np = some (placeholderItem np) := by
  rcases ensureItem_cases he with ⟨hl, rfl, rfl⟩ | ⟨a, hx, hl, hinv, rfl, rfl⟩
  · have hl1 : ({ nodes := ft.nodes.insert (placeholderItem np).Uuid h.next } :
        FileTree).nodes.lookup np = some h.next := AList.lookup_insert _
    rw [GetNode_eq hl1, fillNode_name, fillNode_hash, fillNode_modtime, fillNode_isDir,
      if_pos rfl, if_pos rfl, if_pos rfl, if_pos rfl]
    unfold getParentUuid
    rw [fillNode_parent, if_pos rfl]
    rfl
  · have hl1 : ({ nodes := ft.nodes.insert (placeholderItem np).Uuid a } :
        FileTree).nodes.lookup np = some a := AList.lookup_insert _
    rw [GetNode_eq hl1, fillNode_name, fillNode_hash, fillNode_modtime, fillNode_isDir,
      if_pos rfl, if_pos rfl, if_pos rfl, if_pos rfl]
    unfold getParentUuid
    rw [fillNode_parent, if_pos rfl]
    rfl

/-- The path of a node of the tree that has no parent is its name. -/
theorem pathIn_of_root_node {h : Heap} {ft : FileTree} (hi : Inv h ft) {w : Uuid}
    {n : FileTreeNode} (hg : GetNode h ft w = some n) (hp : n.Parent = NilUuid) :
    pathIn h ft w = some n.Name := by
  obtain ⟨t, hl⟩ := GetNode_lookup hg
  rw [GetNode_eq hl] at hg
  have e := (Option.some.inj hg).symm
  have hpar : (h.cells t).Parent = none := by
    cases hq : (h.cells t).Parent with
    | none => rfl
    | some p =>
      exfalso
      have hne := hi.nilFree t ⟨w, hl⟩ p hq
      rw [e] at hp
      simp only [getParentUuid, hq] at hp
      exact hne hp
  rw [pathIn_root hi hl hpar, e]

/-- The shape of a `Move` whose new parent is `NilUuid` or a directory of the
tree: `ensureParent` changes nothing. -/
theorem Move_plain_shape {h : Heap} {ft : FileTree} {u np : Uuid} {name : FileName}
    {a : Addr} (hl : ft.nodes.lookup u = some a) {h1 : Heap} {ft1 : FileTree}
    (he : Move h ft u np name = some (h1, ft1))
    (hplain : np = NilUuid ∨ ∃ q, ft.nodes.lookup np = some q ∧ (h.cells q).IsDir = true) :
    ∃ hx parent, invalidatePathCache h a = some hx ∧
      h1 = attachNode (detachNode hx a u) a parent name ∧
      ft1 = { nodes := ft.nodes.insert u a } := by
  obtain ⟨hx, h3, ft3, parent, hinv, hep, rfl, rfl⟩ := Move_cases hl he
  obtain ⟨hcl, _⟩ := invalidate_spec hinv
  have hdir : ∀ b, ((detachNode hx a u).cells b).IsDir = (h.cells b).IsDir := fun b => by
    have e := detachNode_core hx a u b
    simp only [coreOf, Prod.mk.injEq] at e
    rw [e.2.2.2.2.1, SameNodes_isDir hcl.1]
  rcases ensureParent_cases hep with ⟨_, rfl, rfl, _⟩ | ⟨_, q, _, _, rfl, rfl, _⟩ |
    ⟨hn, _, _, hc⟩
  · exact ⟨hx, parent, hinv, rfl, rfl⟩
  · exact ⟨hx, parent, hinv, rfl, rfl⟩
  · exfalso
    rcases hplain with e | ⟨q, hq, hqd⟩
    · exact hn e
    · rcases hc with e | ⟨q2, hq2, hqd2⟩
      · rw [hq] at e
        cases e
      · rw [hq] at hq2
        cases hq2
        rw [hdir, hqd] at hqd2
        cases hqd2

theorem Move_plain_cells {h : Heap} {ft : FileTree} {u np : Uuid} {name : FileName}
    {a : Addr} (hl : ft.nodes.lookup u = some a) {h1 : Heap} {ft1 : FileTree}
    (he : Move h ft u np name = some (h1, ft1))
    (hplain : np = NilUuid ∨ ∃ q, ft.nodes.lookup np = some q ∧ (h.cells q).IsDir = true) :
    (∀ b, b ≠ a → coreOf (h1.cells b) = coreOf (h.cells b)) ∧
    (∀ b, (h1.cells b).Uuid = (h.cells b).Uuid) ∧
    (∀ w, w ≠ u → ft1.nodes.lookup w = ft.nodes.lookup w) := by
  obtain ⟨hx, parent, hinv, rfl, rfl⟩ := Move_plain_shape hl he hplain
  obtain ⟨hcl, _⟩ := invalidate_spec hinv
  refine ⟨fun b hb => ?_, fun b => ?_, fun w hw => ?_⟩
  · rw [attachNode_core _ _ _ _ hb, detachNode_core, SameNodes_core hcl.1]
  · rw [attachNode_uuid, detachNode_uuid, SameNodes_uuid hcl.1]
  · show (ft.nodes.insert u a).lookup w = _
    rw [lookup_insert_eq, if_neg hw]

/-- A `Move` whose new parent is `NilUuid` or a directory of the tree leaves
`GetNode` of every other uuid as it was, the new parent included. -/
theorem Move_GetNode_plain {h : Heap} {ft : FileTree} (hi : Inv h ft) {u np : Uuid}
    {name : FileName} {a : Addr} (hl : ft.nodes.lookup u = some a) {h1 : Heap}
    {ft1 : FileTree} (he : Move h ft u np name = some (h1, ft1))
    (hplain : np = NilUuid ∨ ∃ q, ft.nodes.lookup np = some q ∧ (h.cells q).IsDir = true)
    (w : Uuid) (hw : w ≠ u) : GetNode h1 ft1 w = GetNode h ft w := by
  obtain ⟨c1, c2, c3⟩ := Move_plain_cells hl he hplain
  refine GetNode_congr (c3 w hw) (fun b hb => c1 b (fun e => ?_)) c2
  rw [e] at hb
  exact hw ((hi.keyed w a hb).symm.trans (hi.keyed u a hl))

/-- A `Move` into a directory of the tree that does not lie below the moved node
leaves the path of that directory as it was. -/
theorem Move_parent_path {h : Heap} {ft : FileTree} (hi : Inv h ft) {u np : Uuid}
    {name : FileName} {a q : Addr} (hl : ft.nodes.lookup u = some a) {h1 : Heap}
    {ft1 : FileTree} (he : Move h ft u np name = some (h1, ft1))
    (hq : ft.nodes.lookup np = some q) (hqd : (h.cells q).IsDir = true) (hne : np ≠ u)
    (hanc : ¬ HasAncestor h ft np u) : pathIn h1 ft1 np = pathIn h ft np := by
  obtain ⟨c1, _, c3⟩ := Move_plain_cells hl he (Or.inr ⟨q, hq, hqd⟩)
  have hi1 := Move_inv hi u np name he
  have hq1 : ft1.nodes.lookup np = some q := by rw [c3 np hne]; exact hq
  have hoff : ¬ OnChain h q a := by
    intro hc
    rcases Relation.reflTransGen_iff_eq_or_transGen.mp hc with e | ht
    · rw [e] at hl
      exact hne ((hi.keyed np q hq).symm.trans (hi.keyed u q hl))
    · have := HasAncestor_of_TransGen hi ⟨np, hq⟩ ht
      rw [hi.keyed np q hq, hi.keyed u a hl] at this
      exact hanc this
  refine pathIn_congr hi hi1 hq hq1 (fun f => parts_congr_avoid (fun b hb => ?_)
    (fun b hb => ?_) f q hoff)
  · have e := c1 b hb
    simp only [coreOf, Prod.mk.injEq] at e
    exact e.2.1
  · have e := c1 b hb
    simp only [coreOf, Prod.mk.injEq] at e
    exact e.2.2.2.2.2

/-- A `Move` to a new parent that is missing or a file leaves the new parent a
placeholder directory at the root. -/
theorem Move_placeholder {h : Heap} {ft : FileTree} (hi : Inv h ft) {u np : Uuid}
    {name : FileName} {a : Addr} (hl : ft.nodes.lookup u = some a) {h1 : Heap}
    {ft1 : FileTree} (he : Move h ft u np name = some (h1, ft1)) (hn : np ≠ NilUuid)
    (hne : np ≠ u)
    (hmiss : ft.nodes.lookup np = none ∨
      ∃ q, ft.nodes.lookup np = some q ∧ (h.cells q).IsDir = false) :
    GetNode h1 ft1 np = some (placeholderItem np) := by
  obtain ⟨hx, h3, ft3, parent, hinv, hep, rfl, rfl⟩ := Move_cases hl he
  obtain ⟨hcl, _⟩ := invalidate_spec hinv
  have hdir : ∀ b, ((detachNode hx a u).cells b).IsDir = (h.cells b).IsDir := fun b => by
    have e := detachNode_core hx a u b
    simp only [coreOf, Prod.mk.injEq] at e
    rw [e.2.2.2.2.1, SameNodes_isDir hcl.1]
  obtain ⟨hi3, _⟩ := ensureParent_inv (detach_inv hi hl hinv) hep
  have hlu3 := ensureParent_lookup hep hl
  rcases ensureParent_cases hep with ⟨e, _, _, _⟩ | ⟨_, q, hq, hqd, _, _, _⟩ | ⟨_, hei, _, _⟩
  · exact absurd e hn
  · exfalso
    rcases hmiss with e | ⟨q2, hq2, hqd2⟩
    · rw [hq] at e
      cases e
    · rw [hq] at hq2
      cases hq2
      rw [hdir, hqd2] at hqd
      cases hqd
  · have hg := placeholder_GetNode hei
    rw [← hg]
    refine GetNode_congr ?_ (fun b hb => attachNode_core _ _ _ _ (fun e => ?_))
      (fun b => attachNode_uuid _ _ _ _ b)
    · show (ft3.nodes.insert u a).lookup np = _
      rw [lookup_insert_eq, if_neg hne]
    · rw [e] at hb
      exact hne ((hi3.keyed np a hb).symm.trans (hi3.keyed u a hlu3))

/-- The parent chain from a node to one of its ancestors, told by address. -/
theorem OnChain_of_HasAncestor {h : Heap} {ft : FileTree} (hi : Inv h ft) {v w : Uuid}
    (ha : HasAncestor h ft v w) :
    ∃ b p, ft.nodes.lookup v = some b ∧ ft.nodes.lookup w = some p ∧ OnChain h b p := by
  induction ha with
  | single hp =>
    obtain ⟨b, p, hb, hpar, hp2⟩ := parent_of_ParentUuid hi hp
    exact ⟨b, p, hb, hp2, Relation.ReflTransGen.single hpar⟩
  | tail _ hp ih =>
    obtain ⟨b, p, hb, hp1, ht⟩ := ih
    obtain ⟨b2, p2, hb2, hpar, hp2⟩ := parent_of_ParentUuid hi hp
    rw [hp1] at hb2
    cases hb2
    exact ⟨b, p2, hb, hp2, Relation.ReflTransGen.tail ht hpar⟩

/-- A parent chain that ends in `a` is a parent chain in every heap that has the
`Parent` pointers of the nodes other than `a`. -/
theorem up_of_OnChain_avoid {h h1 : Heap} {a : Addr}
    (hp : ∀ b, b ≠ a → (h1.cells b).Parent = (h.cells b).Parent) {x : Addr}
    (hc : OnChain h x a) : ∃ k, up h1 k x = some a := by
  induction hc using Relation.ReflTransGen.head_induction_on with
  | refl => exact ⟨0, rfl⟩
  | @head x p hxp _ ih =>
    obtain ⟨k, hk⟩ := ih
    by_cases hxa : x = a
    · exact ⟨0, by rw [hxa]; rfl⟩
    · refine ⟨k + 1, ?_⟩
      have e : (h1.cells x).Parent = some p := by rw [hp x hxa]; exact hxp
      simp only [up, e]
      exact hk

/-- A `Move` into a directory that lies below the moved node: `GetPath` of the
node does not return afterwards. -/
theorem Move_below_diverges {h : Heap} {ft : FileTree} (hi : Inv h ft) {u np : Uuid}
    {name : FileName} {a q : Addr} (hl : ft.nodes.lookup u = some a) {h1 : Heap}
    {ft1 : FileTree} (he : Move h ft u np name = some (h1, ft1))
    (hq : ft.nodes.lookup np = some q) (hqd : (h.cells q).IsDir = true) (hnn : np ≠ NilUuid)
    (hne : np ≠ u) (hanc : HasAncestor h ft np u) : (GetPath h1 ft1 u).isSome = false := by
  obtain ⟨c1, _, c3⟩ := Move_plain_cells hl he (Or.inr ⟨q, hq, hqd⟩)
  obtain ⟨m1, _, m3, _, _⟩ := Move_node hi hl he
  obtain ⟨q2, hpar, hq2⟩ := (Move_parent hl he).2 hnn hne
  rw [c3 np hne, hq] at hq2
  cases hq2
  obtain ⟨b, p, hb, hp, hch⟩ := OnChain_of_HasAncestor hi hanc
  rw [hq] at hb
  rw [hl] at hp
  cases hb
  cases hp
  obtain ⟨k, hk⟩ := @up_of_OnChain_avoid h h1 a (fun b hb => by
    have e := c1 b hb
    simp only [coreOf, Prod.mk.injEq] at e
    exact e.2.2.2.2.2) q hch
  have hcyc : up h1 (k + 1) a = some a := by
    simp only [up, hpar]
    exact hk
  have hnone : getPathParts h1 a = none := by
    unfold getPathParts
    cases hg : getPathPartsAux (h1.next + 1) h1 a with
    | none => rfl
    | some parts =>
      exfalso
      obtain ⟨c, hc⟩ := up_cycle_all hcyc (h1.next + 1)
      rw [up_none_of_parts _ a hg] at hc
      cases hc
  simp only [GetPath, m1, nodeGetPath, m3, if_true, hnone]
  rfl

theorem dir_of_GetNode {h : Heap} {ft : FileTree} {w : Uuid}
    (hd : (GetNode h ft w).map (fun m => m.IsDir) = some true) :
    ∃ q, ft.nodes.lookup w = some q ∧ (h.cells q).IsDir = true := by
  cases hl : ft.nodes.lookup w with
  | none => simp [GetNode, hl] at hd
  | some q =>
    rw [GetNode_eq hl] at hd
    exact ⟨q, rfl, by simpa using hd⟩

theorem not_dir_of_GetNode {h : Heap} {ft : FileTree} {w : Uuid}
    (hd : (GetNode h ft w).map (fun m => m.IsDir) ≠ some true) :
    ft.nodes.lookup w = none ∨ ∃ q, ft.nodes.lookup w = some q ∧ (h.cells q).IsDir = false := by
  cases hl : ft.nodes.lookup w with
  | none => exact Or.inl rfl
  | some q =>
    right
    rw [GetNode_eq hl] at hd
    refine ⟨q, rfl, ?_⟩
    cases hq : (h.cells q).IsDir with
    | false => rfl
    | true => simp [hq] at hd

/-- **C8**, counterexample.  `Move(uA, uA, "g")` on the tree whose only node is
the file `uA` returns and leaves the node a directory with the zero hash and
modtime that is its own parent, and `GetPath(uA)` does not return afterwards.
`Move(uA, uB, "n")` on that tree, with `uB` missing, creates the node `uB`.  On
the tree of the two files `uA` and `uB` named `"x"`, `Move(uB, uA, "n")` leaves
`uA` a directory with empty name, and `GetPath(uB)` is `"/n"`.  On the test tree
`GetPath(dir2)` is `"dir1/dir2"`, and after `Move(dir1, dir2, "n")` `GetPath(dir1)`
does not return. -/
theorem Move_onto_itself_changes_fields :
    GetNode oneFileTree.1 oneFileTree.2 uA =
      some { Uuid := uA, Name := "f", Hash := HashFromString "ab", Modtime := 5,
             IsDir := false, Parent := NilUuid } ∧
    (Move oneFileTree.1 oneFileTree.2 uA uA "g").map (fun r => GetNode r.1 r.2 uA) =
      some (some { Uuid := uA, Name := "g", Hash := zeroHash, Modtime := zeroTime,
                   IsDir := true, Parent := uA }) ∧
    (Move oneFileTree.1 oneFileTree.2 uA uA "g").map (fun r => (GetPath r.1 r.2 uA).isSome) =
      some false ∧
    GetNode oneFileTree.1 oneFileTree.2 uB = none ∧
    (Move oneFileTree.1 oneFileTree.2 uA uB "n").map (fun r => GetNode r.1 r.2 uB) =
      some (some { Uuid := uB, Name := "", Hash := zeroHash, Modtime := zeroTime,
                   IsDir := true, Parent := NilUuid }) ∧
    GetNode samePathTree.1 samePathTree.2 uA =
      some { Uuid := uA, Name := "x", Hash := HashFromString "", Modtime := 0,
             IsDir := false, Parent := NilUuid } ∧
    pathIn samePathTree.1 samePathTree.2 uA = some "x" ∧
    (Move samePathTree.1 samePathTree.2 uB uA "n").map (fun r => GetNode r.1 r.2 uA) =
      some (some { Uuid := uA, Name := "", Hash := zeroHash, Modtime := zeroTime,
                   IsDir := true, Parent := NilUuid }) ∧
    (Move samePathTree.1 samePathTree.2 uB uA "n").map (fun r => pathIn r.1 r.2 uB) =
      some (some "/n") ∧
    pathIn testTree.1 testTree.2 uDir2 = some "dir1/dir2" ∧
    (Move testTree.1 testTree.2 uDir1 uDir2 "n").map (fun r => (GetPath r.1 r.2 uDir1).isSome) =
      some false := by
  decide

/-- **C8**, amended.  In a tree reached from the empty tree by the operations of
`FileTree`: `Move(u, newParent, newName)` of a uuid that is not in the tree
returns and changes nothing.  For a node `u` of the tree and `newParent ≠ u`,
when the cache invalidation of `u` returns, and that of `newParent` in case it
is not `NilUuid` and is in the tree as a file, `Move` returns; afterwards
`GetNode(u)` is the old node with `Parent = newParent` and `Name = newName`, and
`GetNode` of every uuid other than `u` and `newParent` is what it was.  When
`newParent` is `NilUuid`, `GetNode(newParent)` is what it was and `GetPath(u)` is
`newName`.  When `newParent` is a directory of the tree, `GetNode(newParent)` is
what it was; if `u` is not among the ancestors of `newParent`, `GetPath(newParent)`
is what it was and `GetPath(u)` is that path `+ "/" + newName`; if `u` is among
them, `GetPath(u)` does not return.  When `newParent` is missing or a file, it is
afterwards a placeholder directory with empty name at the root and `GetPath(u)`
is `"/" + newName`.  In every case with `newParent` other than `NilUuid`,
`GetPath(u)` is `GetPath(newParent) + "/" + newName` for the path of `newParent`
after the move, returning exactly when that one does. -/
theorem Move_sets_parent_and_name (h : Heap) (ft : FileTree) (hr : Reachable h ft)
    (u np : Uuid) (name : FileName) :
    (GetNode h ft u = none → Move h ft u np name = some (h, ft)) ∧
    (∀ n, GetNode h ft u = some n → np ≠ u → invalidateReturns h ft u = true →
      (np ≠ NilUuid → (GetNode h ft np).map (fun m => m.IsDir) = some false →
        invalidateReturns h ft np = true) →
      ∃ h1 ft1, Move h ft u np name = some (h1, ft1) ∧
        GetNode h1 ft1 u = some { n with Parent := np, Name := name } ∧
        (∀ w, w ≠ u → w ≠ np → GetNode h1 ft1 w = GetNode h ft w) ∧
        (np = NilUuid → pathIn h1 ft1 u = some name) ∧
        (np ≠ NilUuid →
          pathIn h1 ft1 u = (pathIn h1 ft1 np).map (fun p => p ++ "/" ++ name)) ∧
        (np = NilUuid ∨ (GetNode h ft np).map (fun m => m.IsDir) = some true →
          GetNode h1 ft1 np = GetNode h ft np) ∧
        (np ≠ NilUuid → (GetNode h ft np).map (fun m => m.IsDir) ≠ some true →
          GetNode h1 ft1 np = some (placeholderItem np) ∧
          pathIn h1 ft1 u = some ("/" ++ name)) ∧
        (np ≠ NilUuid → (GetNode h ft np).map (fun m => m.IsDir) = some true →
          ¬ HasAncestor h ft np u →
          pathIn h1 ft1 np = pathIn h ft np ∧
          pathIn h1 ft1 u = (pathIn h ft np).map (fun p => p ++ "/" ++ name)) ∧
        (np ≠ NilUuid → (GetNode h ft np).map (fun m => m.IsDir) = some true →
          HasAncestor h ft np u → (GetPath h1 ft1 u).isSome = false)) := by
  have hi := Reachable_inv hr
  constructor
  · intro hn
    cases hl : ft.nodes.lookup u with
    | none => simp only [Move, hl]
    | some a => simp [GetNode, hl] at hn
  · intro n hn hne hu hp
    obtain ⟨a, hl⟩ := GetNode_lookup hn
    rw [GetNode_eq hl] at hn
    have hn' := (Option.some.inj hn).symm
    obtain ⟨h1, ft1, he⟩ := Move_returns name hl hu (fun hnn q hq hd => by
      have e : invalidateReturns h ft np = true :=
        hp hnn (by rw [GetNode_eq hq]; simp [hd])
      simpa only [invalidateReturns, hq] using e)
    have hi1 := Move_inv hi u np name he
    obtain ⟨m1, m2, _, m4, m5⟩ := Move_node hi hl he
    obtain ⟨m6, m7, m8⟩ := m5 hne
    obtain ⟨q1, q2⟩ := Move_parent hl he
    have hchild : np ≠ NilUuid →
        pathIn h1 ft1 u = (pathIn h1 ft1 np).map (fun p => p ++ "/" ++ name) := by
      intro hn0
      obtain ⟨q, hq, hlq⟩ := q2 hn0 hne
      rw [pathIn_child hi1 m1 hq hlq, m2]
    refine ⟨h1, ft1, he, ?_, ?_, fun hn0 => ?_, hchild, fun hpl => ?_, fun hn0 hnd => ?_,
      fun hn0 hd hanc => ?_, fun hn0 hd hanc => ?_⟩
    · rw [GetNode_eq m1, hn', m2, m4, m6, m7, m8]
    · exact fun w hwu hwn => Move_GetNode_others hi hl he w hwu hwn
    · rw [pathIn_root hi1 m1 (q1 hn0), m2]
    · exact Move_GetNode_plain hi hl he (hpl.imp id dir_of_GetNode) np hne
    · have hg := Move_placeholder hi hl he hn0 hne (not_dir_of_GetNode hnd)
      refine ⟨hg, ?_⟩
      rw [hchild hn0, pathIn_of_root_node hi1 hg rfl]
      simp [placeholderItem, FileNameFromString]
    · obtain ⟨q, hq, hqd⟩ := dir_of_GetNode hd
      have e := Move_parent_path hi hl he hq hqd hne hanc
      exact ⟨e, by rw [hchild hn0, e]⟩
    · obtain ⟨q, hq, hqd⟩ := dir_of_GetNode hd
      exact Move_below_diverges hi hl he hq hqd hn0 hne hanc

/-- Witness of **C8**: `Move(file1, dir1, "x")` on the test tree. -/
theorem Move_sets_parent_and_name_witness :
    Reachable testTree.1 testTree.2 ∧
    Move testTree.1 testTree.2 uA uDir1 "x" = some (testTree.1, testTree.2) ∧
    (Move testTree.1 testTree.2 uFile1 uDir1 "x").map (fun r => pathIn r.1 r.2 uFile1) =
      some (some "dir1/x") ∧
    ∃ h1 ft1, Move testTree.1 testTree.2 uFile1 uDir1 "x" = some (h1, ft1) ∧
      GetNode h1 ft1 uFile1 =
        some { Uuid := uFile1, Name := "x",
               Hash := HashFromString
                 "aaaaaaaaaaaaaaaaaaaaaaaaaaaaaaaaaaaaaaaaaaaaaaaaaaaaaaaaaaaaaaaa",
               Modtime := 0, IsDir := false, Parent := uDir1 } ∧
      (∀ w, w ≠ uFile1 → w ≠ uDir1 → GetNode h1 ft1 w = GetNode testTree.1 testTree.2 w) ∧
      (uDir1 = NilUuid → pathIn h1 ft1 uFile1 = some "x") ∧
      (uDir1 ≠ NilUuid →
        pathIn h1 ft1 uFile1 = (pathIn h1 ft1 uDir1).map (fun p => p ++ "/" ++ "x")) ∧
      (uDir1 = NilUuid ∨ (GetNode testTree.1 testTree.2 uDir1).map (fun m => m.IsDir) = some true →
        GetNode h1 ft1 uDir1 = GetNode testTree.1 testTree.2 uDir1) ∧
      (uDir1 ≠ NilUuid → (GetNode testTree.1 testTree.2 uDir1).map (fun m => m.IsDir) ≠ some true →
        GetNode h1 ft1 uDir1 = some (placeholderItem uDir1) ∧
        pathIn h1 ft1 uFile1 = some ("/" ++ "x")) ∧
      (uDir1 ≠ NilUuid → (GetNode testTree.1 testTree.2 uDir1).map (fun m => m.IsDir) = some true →
        ¬ HasAncestor testTree.1 testTree.2 uDir1 uFile1 →
        pathIn h1 ft1 uDir1 = pathIn testTree.1 testTree.2 uDir1 ∧
 
                pathIn h1 ft1 uFile1 = (pathIn testTree.1 testTree.2 uDir1).map (fun p => p ++ "/" ++ "x")) ∧
      (uDir1 ≠ NilUuid → (GetNode testTree.1 testTree.2 uDir1).map (fun m => m.IsDir) = some true →
        HasAncestor testTree.1 testTree.2 uDir1 uFile1 → (GetPath h1 ft1 uFile1).isSome = false) :=
  ⟨testTree_reachable,
   (Move_sets_parent_and_name testTree.1 testTree.2 testTree_reachable uA uDir1 "x").1
     (by decide),
   by decide,
   (Move_sets_parent_and_name testTree.1 testTree.2 testTree_reachable uFile1 uDir1 "x").2
     { Uuid := uFile1, Name := "file1.txt",
       Hash := HashFromString
         "aaaaaaaaaaaaaaaaaaaaaaaaaaaaaaaaaaaaaaaaaaaaaaaaaaaaaaaaaaaaaaaa",
       Modtime := 0, IsDir := false, Parent := uDir2 }
     (by decide) (by decide) (by decide) (by decide)⟩

theorem GetNode_congr2 {h h2 : Heap} {ft ft2 : FileTree} {w : Uuid}
    (hl : ft2.nodes.lookup w = ft.nodes.lookup w)
    (hc : ∀ b, ft.nodes.lookup w = some b → coreOf (h2.cells b) = coreOf (h.cells b))
    (hu : ∀ b p, ft.nodes.lookup w = some b → (h.cells b).Parent = some p →
      (h2.cells p).Uuid = (h.cells p).Uuid) :
    GetNode h2 ft2 w = GetNode h ft w := by
  cases hb : ft.nodes.lookup w with
  | none => simp only [GetNode, hl, hb]
  | some b =>
    rw [hb] at hl
    rw [GetNode_eq hl, GetNode_eq hb]
    have e := hc b hb
    simp only [coreOf, Prod.mk.injEq] at e
    obtain ⟨_, c2, c3, c4, c5, c6⟩ := e
    have hpu : getParentUuid h2 b = getParentUuid h b := by
      unfold getParentUuid
      rw [c6]
      cases hp : (h.cells b).Parent with
      | none => rfl
      | some p => exact hu b p hb hp
    rw [c2, c3, c4, c5, hpu]

/-- An upsert leaves `GetNode` of every other uuid of the tree as it was. -/
theorem ensureItem_GetNode_others {h : Heap} {ft : FileTree} {x : Option Addr}
    (hi : InvX h ft x) {item : FileTreeNode} {parent : Option Addr} {h1 : Heap}
    {ft1 : FileTree} (he : ensureItem h ft item parent = some (h1, ft1)) (w : Uuid)
    (hw : w ≠ item.Uuid) : GetNode h1 ft1 w = GetNode h ft w := by
  have hlw : ∀ t, ({ nodes := ft.nodes.insert item.Uuid t } : FileTree).nodes.lookup w =
      ft.nodes.lookup w := fun t => by
    show (ft.nodes.insert item.Uuid t).lookup w = _
    rw [lookup_insert_eq, if_neg hw]
  rcases ensureItem_cases he with ⟨hl, rfl, rfl⟩ | ⟨t, hx, hl, hinv, rfl, rfl⟩
  · refine GetNode_congr2 (hlw _) (fun b hb => ?_) (fun b p hb hp => ?_)
    · have hbn : b ≠ h.next := Nat.ne_of_lt (hi.bound b ⟨w, hb⟩)
      simp only [coreOf, fillNode_uuid, fillNode_name, fillNode_hash, fillNode_modtime,
        fillNode_isDir, fillNode_parent, if_neg hbn, newNode_cells_ne h _ hbn]
    · have hpn : p ≠ h.next := Nat.ne_of_lt (hi.parentBound b p hp)
      rw [fillNode_uuid, newNode_cells_ne h _ hpn]
  · obtain ⟨hcl, _⟩ := invalidate_spec hinv
    refine GetNode_congr2 (hlw _) (fun b hb => ?_) (fun b p hb hp => ?_)
    · have hbt : b ≠ t := by
        intro e
        rw [e] at hb
        exact hw ((hi.keyed w t hb).symm.trans (hi.keyed _ t hl))
      have e := SameNodes_core hcl.1 b
      simp only [coreOf, Prod.mk.injEq] at e
      obtain ⟨c1, c2, c3, c4, c5, c6⟩ := e
      simp only [coreOf, fillNode_uuid, fillNode_name, fillNode_hash, fillNode_modtime,
        fillNode_isDir, fillNode_parent, if_neg hbt, c1, c2, c3, c4, c5, c6]
    · rw [fillNode_uuid, SameNodes_uuid hcl.1]

/-- An upsert whose parent is missing or a file leaves the parent a placeholder
directory at the root. -/
theorem upsert_parent_placeholder {h : Heap} {ft : FileTree} (hi : Inv h ft)
    {item : FileTreeNode} {h1 : Heap} {ft1 : FileTree}
    (he : EnsureItems h ft [item] = some (h1, ft1)) (hn : item.Parent ≠ NilUuid)
    (hne : item.Parent ≠ item.Uuid)
    (hd : (GetNode h ft item.Parent).map (fun m => m.IsDir) ≠ some true) :
    GetNode h1 ft1 item.Parent = some (placeholderItem item.Parent) := by
  obtain ⟨h3, ft3, parent, hep, hei⟩ := EnsureItems_single_cases he
  obtain ⟨hi3, _⟩ := ensureParent_inv hi hep
  rw [ensureItem_GetNode_others hi3 hei _ hne]
  rcases ensureParent_cases hep with ⟨e, _, _, _⟩ | ⟨_, q, hq, hqd, _, _, _⟩ | ⟨_, hei2, _, _⟩
  · exact absurd e hn
  · exfalso
    rcases not_dir_of_GetNode hd with e | ⟨q2, hq2, hqd2⟩
    · rw [hq] at e
      cases e
    · rw [hq] at hq2
      cases hq2
      rw [hqd2] at hqd
      cases hqd
  · exact placeholder_GetNode hei2

/-- **C10**, counterexample.  In the reachable tree `fileParentTree` (built by
`CreateDir(uA, NilUuid, "p")`, `CreateFile(uB, uA, "n")`, `CreateFile(uA, NilUuid,
"p")`) the parent `GetNode` reports for `uB` is `uA`, and `uA` is in the tree with
`IsDir = false`.  After `CreateFile(uA, uA, "f")` on the empty tree the parent of
`uA` is `uA`, with `IsDir = false`. -/
theorem parent_is_a_file :
    Reachable fileParentTree.1 fileParentTree.2 ∧
    (GetNode fileParentTree.1 fileParentTree.2 uB).map (fun n => n.Parent) = some uA ∧
    (GetNode fileParentTree.1 fileParentTree.2 uA).map (fun n => n.IsDir) = some false ∧
    CreateFile emptyHeap NewFileTree uA uA "f" 0 "" = some selfParentTree ∧
    (GetNode selfParentTree.1 selfParentTree.2 uA).map (fun n => (n.Parent, n.IsDir)) =
      some (uA, false) :=
  ⟨fileParentTree_reachable, by decide, by decide, eq_some_getD _ (by decide), by decide⟩

/-- **C10**, amended.  In every tree reached from the empty tree by `EnsureItems`,
`CreateFile`, `CreateDir`, `Move`, `Remove` and `SetModtime` (and the read
operations), the parent `GetNode` reports for a node is `NilUuid` or the uuid of
a node that is in the tree; and that node has `IsDir = true` when the tree is
reached by calls of which no `CreateFile` and no `EnsureItems` item with
`IsDir = false` upserts a uuid that is the parent of a node at that time, or
names the upserted uuid itself as parent.  An upsert on any tree so reached
that names a parent other than `NilUuid` and the upserted uuid, where that
parent is missing or a file, leaves the parent a placeholder directory with
empty name and `NilUuid` parent. -/
theorem parent_in_tree (h : Heap) (ft : FileTree) (hr : Reachable h ft) (u : Uuid)
    (n : FileTreeNode) (hn : GetNode h ft u = some n) :
    (n.Parent = NilUuid ∨
      ∃ m, GetNode h ft n.Parent = some m ∧ (ReachableDirs h ft → m.IsDir = true)) ∧
    (∀ item h1 ft1, EnsureItems h ft [item] = some (h1, ft1) → item.Parent ≠ NilUuid →
      item.Parent ≠ item.Uuid →
      (GetNode h ft item.Parent).map (fun m => m.IsDir) ≠ some true →
      GetNode h1 ft1 item.Parent = some (placeholderItem item.Parent)) := by
  have hi := Reachable_inv hr
  refine ⟨?_, fun item h1 ft1 he hnn hne hd => upsert_parent_placeholder hi he hnn hne hd⟩
  unfold GetNode at hn
  cases hl : ft.nodes.lookup u with
  | none => simp [hl] at hn
  | some a =>
    simp only [hl, Option.some.injEq] at hn
    subst hn
    simp only [getParentUuid]
    cases hp : (h.cells a).Parent with
    | none => exact Or.inl rfl
    | some p =>
      right
      have hlp := InMap_lookup hi.keyed (hi.parentIn a ⟨u, hl⟩ p hp)
      refine ⟨_, GetNode_eq hlp, fun hd => ?_⟩
      exact ReachableDirs_dirs hd a ⟨u, hl⟩ p hp

/-- Witness of **C10**, amended: the node `file1` of the test tree. -/
theorem parent_in_tree_witness :
    Reachable builtTestTree.1 builtTestTree.2 ∧
    ReachableDirs builtTestTree.1 builtTestTree.2 ∧
    GetNode builtTestTree.1 builtTestTree.2 uFile1 =
      some { Uuid := uFile1, Name := "file1.txt",
             Hash := HashFromString
               "aaaaaaaaaaaaaaaaaaaaaaaaaaaaaaaaaaaaaaaaaaaaaaaaaaaaaaaaaaaaaaaa",
             Modtime := 0, IsDir := false, Parent := uDir2 } ∧
    ((uDir2 = NilUuid ∨
      ∃ m, GetNode builtTestTree.1 builtTestTree.2 uDir2 = some m ∧
        (ReachableDirs builtTestTree.1 builtTestTree.2 → m.IsDir = true)) ∧
    (∀ item h1 ft1, EnsureItems builtTestTree.1 builtTestTree.2 [item] = some (h1, ft1) →
      item.Parent ≠ NilUuid → item.Parent ≠ item.Uuid →
      (GetNode builtTestTree.1 builtTestTree.2 item.Parent).map (fun m => m.IsDir) ≠
        some true →
      GetNode h1 ft1 item.Parent = some (placeholderItem item.Parent))) :=
  ⟨ReachableDirs_reachable builtTestTree_dirs, builtTestTree_dirs, by decide,
   parent_in_tree _ _ (ReachableDirs_reachable builtTestTree_dirs) uFile1
     { Uuid := uFile1, Name := "file1.txt",
       Hash := HashFromString
         "aaaaaaaaaaaaaaaaaaaaaaaaaaaaaaaaaaaaaaaaaaaaaaaaaaaaaaaaaaaaaaaa",
       Modtime := 0, IsDir := false, Parent := uDir2 } (by decide)⟩

end filedb
